import Mathlib

/-!
# vmlua: lexer, parser, emitter and stack VM

A shallow embedding of `include/vmlua/{types,lexer,parser,emitter,vm,driver}.h`.

Conventions of the embedding

* A function that can leave by a C++ exception or by undefined behaviour returns
  `result α = Except fault α`.  `fault.thrown` is an exception that nobody catches
  (`main` has no handler, so the process terminates), `fault.undefined` is C++
  undefined behaviour (`operator[]` out of range, a call through a null pointer,
  `back()`/`pop_back()` of an empty vector), `fault.fuel` is the recursion budget
  of the embedding running out; it is never a behaviour of the program.
* `std::ifstream` is the record `ifstream`: the file contents, the unread suffix,
  `eofbit` and `failbit`.  `get`, `peek` and `seekg` follow [istream.unformatted]:
  a sentry fails unless the stream is `good()`, a failing sentry sets `failbit`,
  `get` at end of file sets `eofbit | failbit`, `peek` at end of file sets
  `eofbit`, `seekg` first clears `eofbit` and then does nothing when `failbit`
  is set.  Nothing in the sources ever calls `clear()`.
* Bytes are `Char`; the `<cctype>` predicates are those of the "C" locale.
* `int32_t` values are `Int`; `ADD`/`SUB` wrap to 32 bits (`wrap32`).  Sizes
  (`size_t`) are `Nat`, and a size stored in an `int32_t` is stored unchanged
  (vectors are assumed shorter than 2^31).
* `std::map` is an association list with unique keys in insertion order;
  `insert` keeps an existing entry, `operator[]` adds a value-initialised entry
  for a missing key.
* Only the text written by the built-in `print` is kept as output (`vm.cout`);
  the debug traces and the disassembly written to the same stream are left out.
  The interactive debugger (`debug == true`) is not modelled.
-/

namespace vmlua

/-! ## Outcomes -/

/-- How a component stops without returning. -/
inductive fault where
  | thrown (what : String)
  | undefined (what : String)
  | fuel
deriving DecidableEq, Repr

/-- A value, or the fault that stopped the computation. -/
abbrev result (α : Type) := Except fault α

deriving instance DecidableEq for Except

/-! ## `<cctype>` in the "C" locale, on the `int` returned by `get()` (`none` = EOF) -/

/-- `std::isspace`: space, `\t`, `\n`, `\v`, `\f`, `\r`. -/
def isspace (c : Char) : Bool :=
  c == ' ' || c == '\t' || c == '\n' || c == '\x0b' || c == '\x0c' || c == '\r'

/-- `std::isdigit`. -/
def isdigit (c : Char) : Bool := decide (48 ≤ c.toNat) && decide (c.toNat ≤ 57)

/-- `std::isalnum`. -/
def isalnum (c : Char) : Bool :=
  isdigit c || (decide (97 ≤ c.toNat) && decide (c.toNat ≤ 122))
    || (decide (65 ≤ c.toNat) && decide (c.toNat ≤ 90))

/-- A character predicate applied to the result of `get()`; EOF satisfies none. -/
def holds (p : Char → Bool) : Option Char → Bool
  | some c => p c
  | none => false

/-! ## types.h -/

inductive token_kind where
  | t_identifier | t_syntax | t_keyword | t_number | t_operator | t_eof | t_unk
deriving DecidableEq, Repr

structure location where
  line : Nat
  column : Nat
  offset : Nat
deriving DecidableEq, Repr

/-- `location::step`. -/
def location.step (l : location) (is_newline : Bool) : location :=
  if is_newline then ⟨l.line + 1, 1, l.offset + 1⟩
  else ⟨l.line, l.column + 1, l.offset + 1⟩

structure token_t where
  kind : token_kind
  literal : String
  loc : location
deriving DecidableEq, Repr

/-- `expr_t` and its subclasses; `null` is an empty `std::unique_ptr<expr_t>`. -/
inductive expr_t where
  | null
  | literal_id (token : token_t)
  | literal_number (token : token_t)
  | func_call (name : token_t) (arguments : List expr_t)
  | binary_op (op : token_t) (left : expr_t) (right : expr_t)
deriving Repr

/-- `stmt_t` and its subclasses. -/
inductive stmt_t where
  | func_decl (name : token_t) (params : List token_t) (body : List stmt_t)
  | if_stmt (condition : expr_t) (then_body : List stmt_t) (else_body : List stmt_t)
  | local_stmt (name : token_t) (expr : expr_t)
  | ret_stmt (expr : expr_t)
  | expr_stmt (expr : expr_t)
deriving Repr

/-- `typedef std::vector<std::unique_ptr<stmt_t>> ast`. -/
abbrev ast := List stmt_t

/-! ## std::ifstream -/

structure ifstream where
  data : List Char
  rest : List Char
  eofbit : Bool
  failbit : Bool
deriving DecidableEq, Repr

/-- `good()`: no state bit is set. -/
def ifstream.good (f : ifstream) : Bool := !f.eofbit && !f.failbit

/-- `get()`: the next byte, or EOF (`none`). -/
def ifstream.get (f : ifstream) : Option Char × ifstream :=
  if f.good then
    match f.rest with
    | c :: cs => (some c, { f with rest := cs })
    | [] => (none, { f with eofbit := true, failbit := true })
  else (none, { f with failbit := true })

/-- `peek()`: the next byte without consuming it, or EOF (`none`). -/
def ifstream.peek (f : ifstream) : Option Char × ifstream :=
  if f.good then
    match f.rest with
    | c :: _ => (some c, f)
    | [] => (none, { f with eofbit := true })
  else (none, { f with failbit := true })

/-- `seekg(off)`. -/
def ifstream.seekg (f : ifstream) (off : Nat) : ifstream :=
  if f.failbit then { f with eofbit := false }
  else { f with eofbit := false, rest := f.data.drop off }

/-! ## lexer.h -/

/-- `lexer::token_yield`. -/
abbrev token_yield := Option (token_t × location)

/-- The members of `lexer` that carry state. -/
structure lexer where
  _file : ifstream
  _loc : location
deriving DecidableEq, Repr

/-- Budget of a scanning loop entered with the stream `f`: every iteration but
the last one gets a byte from the stream, so there are at most
`f.rest.length + 1` iterations. -/
def ifstream.budget (f : ifstream) : Nat := f.rest.length + 2

/-- The `while (std::isspace(c))` loop of `eat_whitespace`. -/
def eat_whitespace_loop :
    Nat → ifstream → Option Char → location → Bool → result (ifstream × location × Bool)
  | 0, _, _, _, _ => .error .fuel
  | fuel + 1, file, c, next_loc, flag =>
    if holds isspace c then
      let next_loc := next_loc.step (c == some '\n')
      match file.peek with
      | (none, file) => .ok (file, next_loc, true)
      | (some _, file) =>
        match file.get with
        | (c, file) => eat_whitespace_loop fuel file c next_loc true
    else .ok (file, next_loc, flag)

/-- `lexer::eat_whitespace`. -/
def eat_whitespace (lx : lexer) : result (location × lexer) :=
  match lx._file.get with
  | (c, file) =>
    match eat_whitespace_loop file.budget file c lx._loc false with
    | .error e => .error e
    | .ok (file, next_loc, flag) =>
      -- if no space is eaten, return the original location
      let file := if !flag then file.seekg lx._loc.offset else file
      .ok (next_loc, { lx with _file := file })

/-- The `while (std::isdigit(c))` loop of `eat_number`. -/
def eat_number_loop :
    Nat → ifstream → Option Char → List Char → location → result (ifstream × List Char × location)
  | 0, _, _, _, _ => .error .fuel
  | fuel + 1, file, c, ident, next_loc =>
    match c with
    | some ch =>
      if isdigit ch then
        match file.get with
        | (c, file) => eat_number_loop fuel file c (ident ++ [ch]) (next_loc.step false)
      else .ok (file, ident, next_loc)
    | none => .ok (file, ident, next_loc)

/-- `lexer::eat_number`. -/
def eat_number (lx : lexer) : result (token_yield × lexer) :=
  let ident : List Char := []
  let next_loc := lx._loc
  match lx._file.get with
  | (c, file) =>
    let (c, file, ident, next_loc) :=
      if c == some '-' then
        match file.get with
        | (c2, file) => (c2, file, ident ++ ['-'], next_loc.step false)
      else (c, file, ident, next_loc)
    let (c, file, next_loc) :=
      if c == some '+' then
        match file.get with
        | (c2, file) => (c2, file, next_loc.step false)
      else (c, file, next_loc)
    match eat_number_loop file.budget file c ident next_loc with
    | .error e => .error e
    | .ok (file, ident, next_loc) =>
      if !ident.isEmpty then
        .ok (some (⟨token_kind.t_number, String.mk ident, lx._loc⟩, next_loc),
             { lx with _file := file })
      else
        .ok (none, { lx with _file := file.seekg lx._loc.offset })

/-- The `while (std::isalnum(c) || c == '_')` loop of `eat_identifier`. -/
def eat_identifier_loop :
    Nat → ifstream → Option Char → List Char → location → result (ifstream × List Char × location)
  | 0, _, _, _, _ => .error .fuel
  | fuel + 1, file, c, ident, next_loc =>
    match c with
    | some ch =>
      if isalnum ch || ch == '_' then
        match file.get with
        | (c, file) => eat_identifier_loop fuel file c (ident ++ [ch]) (next_loc.step false)
      else .ok (file, ident, next_loc)
    | none => .ok (file, ident, next_loc)

/-- `lexer::eat_identifier`. -/
def eat_identifier (lx : lexer) : result (token_yield × lexer) :=
  match lx._file.get with
  | (c, file) =>
    match eat_identifier_loop file.budget file c [] lx._loc with
    | .error e => .error e
    | .ok (file, ident, next_loc) =>
      match ident with
      | [] => .ok (none, { lx with _file := file.seekg lx._loc.offset })
      | c0 :: _ =>
        if isdigit c0 then
          .ok (none, { lx with _file := file.seekg lx._loc.offset })
        else
          .ok (some (⟨token_kind.t_identifier, String.mk ident, lx._loc⟩, next_loc),
               { lx with _file := file })

/-- The keyword list of `eat_keyword`, in source order. -/
def keywords : List String :=
  ["function", "end", "if", "elseif", "else", "while", "do", "in", "nil", "repeat",
   "util", "true", "false", "and", "or", "not", "break", "then", "local", "return"]

/-- The inner loop shared by `eat_keyword` and `eat_operator`:
`for (char_ : word) { if (c != char_) { miss = true; break; } next_loc = next_loc.step(false); c = _file.get(); }`.
Returns `(miss, next_loc, _file)`. -/
def match_word : List Char → ifstream → Option Char → location → Bool × location × ifstream
  | [], file, _, next_loc => (false, next_loc, file)
  | char_ :: more, file, c, next_loc =>
    if c != some char_ then (true, next_loc, file)
    else
      match file.get with
      | (c, file) => match_word more file c (next_loc.step false)

/-- The `for (keyword : keywords)` loop of `eat_keyword`. -/
def eat_keyword_loop (_loc : location) : List String → ifstream → token_yield × ifstream
  | [], file => (none, file)
  | keyword :: more, file =>
    let file := file.seekg _loc.offset
    match file.get with
    | (c, file) =>
      match match_word keyword.toList file c _loc with
      | (miss, next_loc, file) =>
        -- note partial match is not allowed
        if !miss && next_loc.offset - _loc.offset == keyword.length then
          (some (⟨token_kind.t_keyword, keyword, _loc⟩, next_loc), file)
        else eat_keyword_loop _loc more file

/-- `lexer::eat_keyword`. -/
def eat_keyword (lx : lexer) : token_yield × lexer :=
  match eat_keyword_loop lx._loc keywords lx._file with
  | (y, file) => (y, { lx with _file := file })

/-- The `for (char_ : syntax)` loop of `eat_syntax`. -/
def eat_syntax_loop (_loc : location) : List Char → ifstream → token_yield × ifstream
  | [], file => (none, file)
  | char_ :: more, file =>
    match file.get with
    | (c, file) =>
      let next_loc := _loc.step false
      if c == some char_ then
        if char_ == '=' then
          match file.get with
          | (c2, file) =>
            if c2 == some '=' then (none, file)
            else (some (⟨token_kind.t_syntax, String.singleton char_, _loc⟩, next_loc), file)
        else (some (⟨token_kind.t_syntax, String.singleton char_, _loc⟩, next_loc), file)
      else eat_syntax_loop _loc more (file.seekg _loc.offset)

/-- `lexer::eat_syntax`. -/
def eat_syntax (lx : lexer) : token_yield × lexer :=
  match eat_syntax_loop lx._loc [';', '=', '(', ')', ','] lx._file with
  | (y, file) => (y, { lx with _file := file })

/-- The operator list of `eat_operator`, in source order. -/
def operators : List String :=
  ["and ", "or ", "not ", "==", "!=", ">=", "<=", "+", "-", "*", "/", "^", "%", ">", "<"]

/-- The `for (op : operators)` loop of `eat_operator`. -/
def eat_operator_loop (_loc : location) : List String → ifstream → token_yield × ifstream
  | [], file => (none, file)
  | op :: more, file =>
    match file.get with
    | (c, file) =>
      match match_word op.toList file c _loc with
      | (miss, next_loc, file) =>
        if !miss && next_loc.offset - _loc.offset == op.length then
          (some (⟨token_kind.t_operator, op, _loc⟩, next_loc), file)
        else
          -- if miss or partial match
          eat_operator_loop _loc more (file.seekg _loc.offset)

/-- `lexer::eat_operator`. -/
def eat_operator (lx : lexer) : token_yield × lexer :=
  match eat_operator_loop lx._loc operators lx._file with
  | (y, file) => (y, { lx with _file := file })

/-- What `next` does with a sub-lexer's answer: on a match `_loc` becomes the
post-location and the stream is put there; otherwise the stream is rewound to `_loc`. -/
def after_sub_lexer (y : token_yield) (lx : lexer) : lexer :=
  match y with
  | some (_, post) => { _file := lx._file.seekg post.offset, _loc := post }
  | none => { lx with _file := lx._file.seekg lx._loc.offset }

/-- The `for (auto &sub_lexer : sub_lexers)` loop of `next` (keyword, identifier,
number, syntax, operator, in the order of `load_lexers`) and the statements
after it. -/
def try_sub_lexers (lx : lexer) : result (token_yield × lexer) :=
  match eat_keyword lx with
  | (some t, lx) => .ok (some t, after_sub_lexer (some t) lx)
  | (none, lx) =>
  let lx := after_sub_lexer none lx
  match eat_identifier lx with
  | .error e => .error e
  | .ok (some t, lx) => .ok (some t, after_sub_lexer (some t) lx)
  | .ok (none, lx) =>
  let lx := after_sub_lexer none lx
  match eat_number lx with
  | .error e => .error e
  | .ok (some t, lx) => .ok (some t, after_sub_lexer (some t) lx)
  | .ok (none, lx) =>
  let lx := after_sub_lexer none lx
  match eat_syntax lx with
  | (some t, lx) => .ok (some t, after_sub_lexer (some t) lx)
  | (none, lx) =>
  let lx := after_sub_lexer none lx
  match eat_operator lx with
  | (some t, lx) => .ok (some t, after_sub_lexer (some t) lx)
  | (none, lx) =>
  let lx := after_sub_lexer none lx
  match lx._file.peek with
  | (none, file) => .ok (none, { lx with _file := file })
  | (some _, file) =>
    match file.get with
    | (c, _) =>
      .error (.thrown ("unexpected character: "
        ++ (match c with | some ch => String.singleton ch | none => "")
        ++ " at " ++ toString lx._loc.line ++ ":" ++ toString lx._loc.column))

/-- `lexer::next`. -/
def next (lx : lexer) : result (token_yield × lexer) :=
  let lx : lexer := { lx with _file := lx._file.seekg lx._loc.offset }
  match lx._file.peek with
  | (none, file) => .ok (none, { lx with _file := file })
  | (some _, file) =>
    match eat_whitespace { lx with _file := file } with
    | .error e => .error e
    | .ok (next_loc, lx) =>
      let lx : lexer := { lx with _loc := next_loc }
      match lx._file.peek with
      | (none, file) => .ok (none, { lx with _file := file })
      | (some _, file) => try_sub_lexers { lx with _file := file }

/-- The range-for of `driver::run` over `lexer::iterator`, from the first
`operator!=` on: `cur` is the iterator's `_token_yield`, `_file_off` its offset
(never `EOF` here).  A yield with a value is pushed, then `operator++` runs. -/
def tokens_loop : Nat → lexer → Nat → token_yield → List token_t → result (List token_t)
  | 0, _, _, _, _ => .error .fuel
  | fuel + 1, lx, _file_off, cur, tokens =>
    let tokens := match cur with
      | some (t, _) => tokens ++ [t]
      | none => tokens
    match next { lx with _file := lx._file.seekg _file_off } with
    | .error e => .error e
    | .ok (some (t, post), lx) =>
      tokens_loop fuel { lx with _loc := post } post.offset (some (t, post)) tokens
    | .ok (none, _) => .ok tokens

/-- The token vector `driver::run` builds from a file with contents `data`:
`begin()` loads the first token (`load_token`), `end()` lexes nothing. -/
def tokenize (data : List Char) : result (List token_t) :=
  let lx : lexer := { _file := ⟨data, data, false, false⟩, _loc := ⟨1, 1, 0⟩ }
  match next { lx with _file := lx._file.seekg 0 } with
  | .error e => .error e
  | .ok (cur, lx) => tokens_loop (data.length + 2) lx 0 cur []

/-! ## parser.h -/

/-- `parser::ast_yield<T>`: the node and the index after it. -/
abbrev ast_yield (α : Type) := Option (α × Nat)

/-- `_tokens[it]`; `operator[]` past the end is undefined behaviour. -/
def token_at (_tokens : List token_t) (it : Nat) : result token_t :=
  match _tokens[it]? with
  | some t => .ok t
  | none => .error (.undefined "_tokens[it] with it >= _tokens.size()")

/-- `parser::expect_keyword`. -/
def expect_keyword (_tokens : List token_t) (it : Nat) (keyword : String) : result Bool :=
  match token_at _tokens it with
  | .error e => .error e
  | .ok t =>
    if t.kind != token_kind.t_keyword then .ok false
    else if t.literal != keyword then .ok false
    else .ok true

/-- `parser::expect_syntax`. -/
def expect_syntax (_tokens : List token_t) (it : Nat) (s : String) : result Bool :=
  match token_at _tokens it with
  | .error e => .error e
  | .ok t =>
    if t.kind != token_kind.t_syntax then .ok false
    else if t.literal != s then .ok false
    else .ok true

/-- `parser::expect_identifier`. -/
def expect_identifier (_tokens : List token_t) (it : Nat) : result Bool :=
  match token_at _tokens it with
  | .error e => .error e
  | .ok t => if t.kind != token_kind.t_identifier then .ok false else .ok true

/-- The operand built from one token by the two `switch`es of `parse_expression`;
any other kind leaves the pointer empty. -/
def operand_of (t : token_t) : expr_t :=
  match t.kind with
  | token_kind.t_number => .literal_number t
  | token_kind.t_identifier => .literal_id t
  | _ => .null

mutual
/-- `parser::parse_expression`. -/
def parse_expression (_tokens : List token_t) : Nat → Nat → result (ast_yield expr_t)
  | 0, _ => .error .fuel
  | fuel + 1, it =>
    if it ≥ _tokens.length then .ok none
    else do
      let left_tok ← token_at _tokens it
      let left := operand_of left_tok
      let next_it := it + 1
      -- func call
      if ← expect_syntax _tokens next_it "(" then
        match ← parse_call_arguments _tokens fuel (next_it + 1) [] with
        | none => pure none
        | some (args, next_it) => pure (some (.func_call left_tok args, next_it + 1))
      else if next_it ≥ _tokens.length then pure (some (left, next_it))
      else
        -- liter expr
        let op ← token_at _tokens next_it
        if op.kind != token_kind.t_operator then pure (some (left, next_it))
        else
          -- binary expr
          let next_it := next_it + 1
          if next_it ≥ _tokens.length then pure none
          else
            let right_tok ← token_at _tokens next_it
            match right_tok.kind with
            | token_kind.t_number =>
              pure (some (.binary_op op left (.literal_number right_tok), next_it + 1))
            | token_kind.t_identifier =>
              pure (some (.binary_op op left (.literal_id right_tok), next_it + 1))
            | _ => pure none
/-- The `while (!expect_syntax(next_it, ")"))` loop of `parse_expression`; on exit
`next_it` is the index of the `)`. -/
def parse_call_arguments (_tokens : List token_t) :
    Nat → Nat → List expr_t → result (ast_yield (List expr_t))
  | 0, _, _ => .error .fuel
  | fuel + 1, next_it, args => do
    if ← expect_syntax _tokens next_it ")" then pure (some (args, next_it))
    else
      match ← parse_expression _tokens fuel next_it with
      | none => pure none
      | some (arg, next_it) =>
        if ← expect_syntax _tokens next_it "," then
          parse_call_arguments _tokens fuel (next_it + 1) (args ++ [arg])
        else parse_call_arguments _tokens fuel next_it (args ++ [arg])
end

/-- `parser::parse_expression_statement`. -/
def parse_expression_statement (_tokens : List token_t) (fuel it : Nat) :
    result (ast_yield stmt_t) := do
  match ← parse_expression _tokens fuel it with
  | none => pure none
  | some (res_expr, next_it) =>
    if !(← expect_syntax _tokens next_it ";") then pure none
    else pure (some (.expr_stmt res_expr, next_it + 1))

/-- `parser::parse_return`. -/
def parse_return (_tokens : List token_t) (fuel it : Nat) : result (ast_yield stmt_t) := do
  if !(← expect_keyword _tokens it "return") then pure none
  else
    match ← parse_expression _tokens fuel (it + 1) with
    | none => pure none
    | some (expr, next_it) =>
      if !(← expect_syntax _tokens next_it ";") then pure none
      else pure (some (.ret_stmt expr, next_it + 1))

/-- `parser::parse_local`. -/
def parse_local (_tokens : List token_t) (fuel it : Nat) : result (ast_yield stmt_t) := do
  if !(← expect_keyword _tokens it "local") then pure none
  else
    let next_it := it + 1
    -- get id
    if !(← expect_identifier _tokens next_it) then pure none
    else
      let id ← token_at _tokens next_it
      let next_it := next_it + 1
      -- get assign
      if !(← expect_syntax _tokens next_it "=") then pure none
      else
        -- get expr
        match ← parse_expression _tokens fuel (next_it + 1) with
        | none => pure none
        | some (expr, next_it) =>
          if !(← expect_syntax _tokens next_it ";") then pure none
          else pure (some (.local_stmt id expr, next_it + 1))

/-- The parameter loop of `parse_function`, `while (!expect_syntax(next_it, ")"))`:
any token is taken as a parameter; on exit `next_it` is the index of the `)`. -/
def parse_params (_tokens : List token_t) :
    Nat → Nat → List token_t → result (ast_yield (List token_t))
  | 0, _, _ => .error .fuel
  | fuel + 1, next_it, params => do
    if ← expect_syntax _tokens next_it ")" then pure (some (params, next_it))
    else if !params.isEmpty then
      if !(← expect_syntax _tokens next_it ",") then pure none
      else
        let p ← token_at _tokens (next_it + 1)
        parse_params _tokens fuel (next_it + 2) (params ++ [p])
    else
      let p ← token_at _tokens next_it
      parse_params _tokens fuel (next_it + 1) (params ++ [p])

mutual
/-- `parser::parse_statement`: the statement parsers in the order of `load_parsers`. -/
def parse_statement (_tokens : List token_t) : Nat → Nat → result (ast_yield stmt_t)
  | 0, _ => .error .fuel
  | fuel + 1, it => do
    match ← parse_if _tokens fuel it with
    | some res => pure (some res)
    | none =>
    match ← parse_return _tokens fuel it with
    | some res => pure (some res)
    | none =>
    match ← parse_expression_statement _tokens fuel it with
    | some res => pure (some res)
    | none =>
    match ← parse_function _tokens fuel it with
    | some res => pure (some res)
    | none => parse_local _tokens fuel it
termination_by structural fuel => fuel
/-- `parser::parse_function`. -/
def parse_function (_tokens : List token_t) : Nat → Nat → result (ast_yield stmt_t)
  | 0, _ => .error .fuel
  | fuel + 1, it => do
    if !(← expect_keyword _tokens it "function") then pure none
    else
      let next_it := it + 1
      if !(← expect_identifier _tokens next_it) then pure none
      else
        let name ← token_at _tokens next_it
        let next_it := next_it + 1
        if !(← expect_syntax _tokens next_it "(") then pure none
        else
          match ← parse_params _tokens fuel (next_it + 1) [] with
          | none => pure none
          | some (params, next_it) =>
            match ← parse_block _tokens fuel false (next_it + 1) [] with
            | none => pure none
            | some (stmts, next_it) => pure (some (.func_decl name params stmts, next_it + 1))
/-- `parser::parse_if`. -/
def parse_if (_tokens : List token_t) : Nat → Nat → result (ast_yield stmt_t)
  | 0, _ => .error .fuel
  | fuel + 1, it => do
    if !(← expect_keyword _tokens it "if") then pure none
    else
      -- cond expr
      match ← parse_expression _tokens fuel (it + 1) with
      | none => pure none
      | some (cond, next_it) =>
        -- then
        if !(← expect_keyword _tokens next_it "then") then pure none
        else
          -- stmts
          match ← parse_block _tokens fuel true (next_it + 1) [] with
          | none => pure none
          | some (stmts, next_it) =>
            if ← expect_keyword _tokens next_it "else" then
              match ← parse_block _tokens fuel false (next_it + 1) [] with
              | none => pure none
              | some (else_stmts, next_it) =>
                -- skip end
                pure (some (.if_stmt cond stmts else_stmts, next_it + 1))
            else pure (some (.if_stmt cond stmts [], next_it + 1))
/-- The statement loops `while (!expect_keyword(next_it, "end") [&& !expect_keyword(next_it, "else")])`
of `parse_function` and `parse_if`; `stop_at_else` selects the second form.  On
exit `next_it` is the index of the terminating keyword. -/
def parse_block (_tokens : List token_t) :
    Nat → Bool → Nat → List stmt_t → result (ast_yield (List stmt_t))
  | 0, _, _, _ => .error .fuel
  | fuel + 1, stop_at_else, next_it, stmts => do
    if ← expect_keyword _tokens next_it "end" then pure (some (stmts, next_it))
    else if stop_at_else && (← expect_keyword _tokens next_it "else") then
      pure (some (stmts, next_it))
    else
      match ← parse_statement _tokens fuel next_it with
      | none => pure none
      | some (stmt, next_it) => parse_block _tokens fuel stop_at_else next_it (stmts ++ [stmt])
end

/-- The `while (it < _tokens.size())` loop of `parser::parse`. -/
def parse_loop (_tokens : List token_t) : Nat → Nat → ast → result ast
  | 0, _, _ => .error .fuel
  | fuel + 1, it, tree =>
    if it < _tokens.length then
      match parse_statement _tokens fuel it with
      | .error e => .error e
      | .ok none => .error (.thrown "parse error, end too early, check your source code")
      | .ok (some (stmt, next_it)) => parse_loop _tokens fuel next_it (tree ++ [stmt])
    else .ok tree

/-- `parser::parse`.  The budget covers every chain of nested calls: each call or
loop iteration that uses a unit has first moved past a token. -/
def parse (_tokens : List token_t) : result ast :=
  parse_loop _tokens (4 * _tokens.length + 8) 0 []

/-! ## vm.h: instructions and programs -/

inductive logical_op where
  | AND | OR | LT | GT | LE | GE | EQ | NE
deriving DecidableEq, Repr

/-- The subclasses of `instruction`.  `return_inst true` is `RETVAL`,
`return_inst false` is `RET`. -/
inductive instruction where
  | dup_plus_fp_inst (offset : Int)
  | move_minus_fp_inst (local_off : Nat) (fp_off : Int)
  | move_plus_fp_inst (value : Nat)
  | store_inst (n : Int)
  | return_inst (has_value : Bool)
  | jump_if_not_zero_inst (label : String)
  | jump_if_zero_inst (label : String)
  | jump_inst (label : String)
  | call_inst (label : String) (argc : Nat)
  | add_inst
  | subtract_inst
  | logic_cond_inst (op : logical_op)
deriving DecidableEq, Repr

structure symbol where
  loc : Int
  nargs : Nat
  nlocals : Nat
deriving DecidableEq, Repr

/-- `std::map<std::string, T>::find`. -/
def map_find {α : Type} : List (String × α) → String → Option α
  | [], _ => none
  | (k, v) :: m, key => if k = key then some v else map_find m key

/-- `std::map<std::string, T>::insert`: an existing entry is kept. -/
def map_insert {α : Type} (m : List (String × α)) (key : String) (v : α) : List (String × α) :=
  match map_find m key with
  | some _ => m
  | none => m ++ [(key, v)]

/-- `std::map<std::string, T>::operator[]`: the value under `key`, after adding
the value-initialised `dflt` when the key is missing. -/
def map_index {α : Type} (m : List (String × α)) (key : String) (dflt : α) :
    α × List (String × α) :=
  match map_find m key with
  | some v => (v, m)
  | none => (dflt, m ++ [(key, dflt)])

structure program where
  syms : List (String × symbol)
  insts : List instruction
deriving DecidableEq, Repr

/-- `prog.syms[label]`. -/
def program.sym (prog : program) (label : String) : symbol × program :=
  match map_index prog.syms label ⟨0, 0, 0⟩ with
  | (s, syms) => (s, { prog with syms := syms })

/-- `prog.insts.push_back(inst)`. -/
def program.push (prog : program) (inst : instruction) : program :=
  { prog with insts := prog.insts ++ [inst] }

/-! ## emitter.h -/

/-- `std::map<std::string, int32_t> locals`. -/
abbrev locals_t := List (String × Int)

/-- `std::stoi(str)`: leading white space, an optional sign, decimal digits;
`std::invalid_argument` without a digit, `std::out_of_range` outside `int`. -/
def stoi (str : String) : result Int :=
  let cs := str.toList.dropWhile isspace
  let (neg, cs) := match cs with
    | c :: r => if c = '-' then (true, r) else if c = '+' then (false, r) else (false, cs)
    | [] => (false, cs)
  let ds := cs.takeWhile isdigit
  if ds.isEmpty then .error (.thrown "stoi: invalid_argument")
  else
    let n : Int := ds.foldl (fun acc d => 10 * acc + ((d.toNat : Int) - 48)) 0
    let v : Int := if neg then -n else n
    if v < -2147483648 ∨ 2147483647 < v then .error (.thrown "stoi: out_of_range")
    else .ok v

mutual
/-- `expr_t::clone` called through a `unique_ptr`: a deep copy, undefined through
an empty pointer. -/
def clone : expr_t → result expr_t
  | .null => .error (.undefined "clone() through an empty unique_ptr<expr_t>")
  | .literal_id t => .ok (.literal_id t)
  | .literal_number t => .ok (.literal_number t)
  | .func_call name arguments =>
    match clone_all arguments with
    | .error e => .error e
    | .ok args => .ok (.func_call name args)
  | .binary_op op left right =>
    match clone left with
    | .error e => .error e
    | .ok newleft =>
      match clone right with
      | .error e => .error e
      | .ok newright => .ok (.binary_op op newleft newright)
/-- The copy loop of `func_call::clone`. -/
def clone_all : List expr_t → result (List expr_t)
  | [] => .ok []
  | arg :: more =>
    match clone arg with
    | .error e => .error e
    | .ok a =>
      match clone_all more with
      | .error e => .error e
      | .ok as => .ok (a :: as)
end

/-- `emitter::compile_literal`. -/
def compile_literal (prog : program) (locals : locals_t) : expr_t → result (program × locals_t)
  | .literal_number token =>
    match stoi token.literal with
    | .error e => .error e
    | .ok num => .ok (prog.push (.store_inst num), locals)
  | .literal_id token =>
    match map_index locals token.literal 0 with
    | (slot, locals) => .ok (prog.push (.dup_plus_fp_inst slot), locals)
  | _ => .error (.thrown "unknown literal")

/-- The opcode `compile_binary_op` appends for an operator literal. -/
def binary_opcode (oplit : String) : result instruction :=
  if oplit = "+" then .ok .add_inst
  else if oplit = "-" then .ok .subtract_inst
  else if oplit = "<" then .ok (.logic_cond_inst .LT)
  else if oplit = ">" then .ok (.logic_cond_inst .GT)
  else if oplit = "<=" then .ok (.logic_cond_inst .LE)
  else if oplit = ">=" then .ok (.logic_cond_inst .GE)
  else if oplit = "==" then .ok (.logic_cond_inst .EQ)
  else if oplit = "!=" then .ok (.logic_cond_inst .NE)
  else if oplit = "&&" ∨ oplit = "and " then .ok (.logic_cond_inst .AND)
  else if oplit = "||" ∨ oplit = "or " then .ok (.logic_cond_inst .OR)
  else .error (.thrown "unknown operator")

mutual
/-- `emitter::compile_expr` on the expression of an `expr_stmt`, with
`compile_function_call` and `compile_binary_op` in its branches.  The temporary
made by `clone()` equals its original, so after the clone the original is lowered. -/
def compile_expr (prog : program) (locals : locals_t) : expr_t → result (program × locals_t)
  | .null => .error (.thrown "unknown expression")
  | .literal_id token => compile_literal prog locals (.literal_id token)
  | .literal_number token => compile_literal prog locals (.literal_number token)
  | .func_call name arguments =>
    -- compile_function_call
    match compile_arguments prog locals arguments with
    | .error e => .error e
    | .ok (prog, locals) => .ok (prog.push (.call_inst name.literal arguments.length), locals)
  | .binary_op op left right =>
    -- compile_binary_op
    match clone left with
    | .error e => .error e
    | .ok _ =>
      match compile_expr prog locals left with
      | .error e => .error e
      | .ok (prog, locals) =>
        match clone right with
        | .error e => .error e
        | .ok _ =>
          match compile_expr prog locals right with
          | .error e => .error e
          | .ok (prog, locals) =>
            match binary_opcode op.literal with
            | .error e => .error e
            | .ok inst => .ok (prog.push inst, locals)
/-- The argument loop of `compile_function_call`. -/
def compile_arguments (prog : program) (locals : locals_t) :
    List expr_t → result (program × locals_t)
  | [] => .ok (prog, locals)
  | arg :: more =>
    match clone arg with
    | .error e => .error e
    | .ok _ =>
      match compile_expr prog locals arg with
      | .error e => .error e
      | .ok (prog, locals) => compile_arguments prog locals more
end

/-- The parameter loop of `compile_func_decl`: parameter `i` of `nargs` gets
`move_minus_fp_inst(i, nargs - (i + 1))` and the slot `i` (when its name is new). -/
def compile_params (nargs : Nat) :
    List token_t → Nat → program → locals_t → program × locals_t
  | [], _, prog, new_locals => (prog, new_locals)
  | param :: more, i, prog, new_locals =>
    compile_params nargs more (i + 1)
      (prog.push (.move_minus_fp_inst i ((nargs : Int) - ((i : Int) + 1))))
      (map_insert new_locals param.literal (i : Int))

/-- Whether `prog.insts.back()` is a `return_inst` (`RETVAL` or `RET`). -/
def back_is_return (prog : program) : Bool :=
  match prog.insts.getLast? with
  | some (.return_inst _) => true
  | _ => false

mutual
/-- `emitter::compile_statement`, with `compile_if`, `compile_local`,
`compile_ret` and `compile_func_decl` in its branches. -/
def compile_statement (prog : program) (locals : locals_t) :
    stmt_t → result (program × locals_t)
  | .if_stmt condition then_body else_body =>
    -- compile_if
    let label_else := "label_else_" ++ toString prog.insts.length
    let label_out := "label_out_" ++ toString prog.insts.length
    match clone condition with
    | .error e => .error e
    | .ok _ =>
      match compile_expr prog locals condition with
      | .error e => .error e
      | .ok (prog, locals) =>
        let prog := prog.push (.jump_if_zero_inst label_else)
        match compile_block prog locals then_body with
        | .error e => .error e
        | .ok (prog, locals) =>
          let prog := prog.push (.jump_inst label_out)
          let prog := { prog with
            syms := map_insert prog.syms label_else ⟨prog.insts.length, 0, 0⟩ }
          match compile_block prog locals else_body with
          | .error e => .error e
          | .ok (prog, locals) =>
            .ok ({ prog with
              syms := map_insert prog.syms label_out ⟨prog.insts.length, 0, 0⟩ }, locals)
  | .local_stmt name expr =>
    -- compile_local
    let index := locals.length
    let locals := map_insert locals name.literal (index : Int)
    match clone expr with
    | .error e => .error e
    | .ok _ =>
      match compile_expr prog locals expr with
      | .error e => .error e
      | .ok (prog, locals) => .ok (prog.push (.move_plus_fp_inst index), locals)
  | .ret_stmt expr =>
    -- compile_ret
    match clone expr with
    | .error e => .error e
    | .ok _ =>
      match compile_expr prog locals expr with
      | .error e => .error e
      | .ok (prog, locals) => .ok (prog.push (.return_inst true), locals)
  | .expr_stmt expr => compile_expr prog locals expr
  | .func_decl name params body =>
    -- compile_func_decl
    let done_label := "function_done_" ++ toString prog.insts.length
    let prog := prog.push (.jump_inst done_label)
    let func_index : Int := prog.insts.length
    let nargs := params.length
    match compile_params nargs params 0 prog [] with
    | (prog, new_locals) =>
      match compile_block prog new_locals body with
      | .error e => .error e
      | .ok (prog, new_locals) =>
        -- if user forget to return, we need to add a return inst
        let prog := if back_is_return prog then prog else prog.push (.return_inst false)
        let prog := { prog with
          syms := map_insert prog.syms name.literal ⟨func_index, nargs, new_locals.length⟩ }
        .ok ({ prog with
          syms := map_insert prog.syms done_label ⟨prog.insts.length, 0, 0⟩ }, locals)
/-- A `for (stmt : body) compile_statement(prog, locals, stmt)` loop. -/
def compile_block (prog : program) (locals : locals_t) :
    List stmt_t → result (program × locals_t)
  | [] => .ok (prog, locals)
  | stmt :: more =>
    match compile_statement prog locals stmt with
    | .error e => .error e
    | .ok (prog, locals) => compile_block prog locals more
end

/-- `emitter::compile`. -/
def compile (tree : ast) : result program :=
  match compile_block ⟨[], []⟩ [] tree with
  | .error e => .error e
  | .ok (prog, _) => .ok prog

/-! ## vm.h: the machine -/

/-- The registers of `vm`, its stack (top of stack last), and the text written
by the built-in `print`. -/
structure vm where
  pc : Int
  fp : Int
  stack : List Int
  cout : String
deriving DecidableEq, Repr

/-- Reduction of an `int` sum or difference to `int32_t`. -/
def wrap32 (v : Int) : Int := (v + 2147483648) % 4294967296 - 2147483648

/-- `vm::pop_stack`: `back()` and `pop_back()`, undefined on an empty stack. -/
def pop_stack (stack : List Int) : result (Int × List Int) :=
  match stack.getLast? with
  | some v => .ok (v, stack.dropLast)
  | none => .error (.undefined "pop_stack() on an empty stack")

/-- `stack.at(i)` for an index computed in `int` or `size_t`: a negative or too
large index throws `std::out_of_range`. -/
def stack_at (stack : List Int) (i : Int) : result Int :=
  if 0 ≤ i then
    match stack[i.toNat]? with
    | some v => .ok v
    | none => .error (.thrown "vector::at: out_of_range")
  else .error (.thrown "vector::at: out_of_range")

/-- `stack.at(i) = v`. -/
def stack_set (stack : List Int) (i : Int) (v : Int) : result (List Int) :=
  if 0 ≤ i ∧ i.toNat < stack.length then .ok (stack.set i.toNat v)
  else .error (.thrown "vector::at: out_of_range")

/-- `n` times `pop_stack()`, in order; the popped values, first popped first. -/
def pop_many : Nat → List Int → result (List Int × List Int)
  | 0, stack => .ok ([], stack)
  | n + 1, stack =>
    match pop_stack stack with
    | .error e => .error e
    | .ok (v, stack) =>
      match pop_many n stack with
      | .error e => .error e
      | .ok (vs, stack) => .ok (v :: vs, stack)

/-- The text `std::cout << v << " "` writes for each popped value. -/
def print_text (vs : List Int) : String :=
  vs.foldl (fun acc v => acc ++ toString v ++ " ") ""

/-- The value of `COND op` on `left`, `right`. -/
def logic_cond (op : logical_op) (left right : Int) : Int :=
  match op with
  | .AND => Int.land left right
  | .OR => Int.lor left right
  | .LT => if left < right then 1 else 0
  | .GT => if left > right then 1 else 0
  | .LE => if left ≤ right then 1 else 0
  | .GE => if left ≥ right then 1 else 0
  | .EQ => if left = right then 1 else 0
  | .NE => if left ≠ right then 1 else 0

/-- One iteration of the `while` loop of `vm::eval` on the fetched instruction. -/
def exec (prog : program) (m : vm) : instruction → result (program × vm)
  | .add_inst =>
    match pop_stack m.stack with
    | .error e => .error e
    | .ok (right, stack) =>
      match pop_stack stack with
      | .error e => .error e
      | .ok (left, stack) =>
        .ok (prog, { m with stack := stack ++ [wrap32 (left + right)], pc := m.pc + 1 })
  | .subtract_inst =>
    match pop_stack m.stack with
    | .error e => .error e
    | .ok (right, stack) =>
      match pop_stack stack with
      | .error e => .error e
      | .ok (left, stack) =>
        .ok (prog, { m with stack := stack ++ [wrap32 (left - right)], pc := m.pc + 1 })
  | .logic_cond_inst op =>
    match pop_stack m.stack with
    | .error e => .error e
    | .ok (right, stack) =>
      match pop_stack stack with
      | .error e => .error e
      | .ok (left, stack) =>
        .ok (prog, { m with stack := stack ++ [logic_cond op left right], pc := m.pc + 1 })
  | .dup_plus_fp_inst offset =>
    match stack_at m.stack (m.fp + offset) with
    | .error e => .error e
    | .ok v => .ok (prog, { m with stack := m.stack ++ [v], pc := m.pc + 1 })
  | .move_minus_fp_inst local_off fp_off =>
    match stack_at m.stack (m.fp - (fp_off + 4)) with
    | .error e => .error e
    | .ok v =>
      match stack_set m.stack (m.fp + local_off) v with
      | .error e => .error e
      | .ok stack => .ok (prog, { m with stack := stack, pc := m.pc + 1 })
  | .move_plus_fp_inst value =>
    match pop_stack m.stack with
    | .error e => .error e
    | .ok (val, stack) =>
      let index : Int := m.fp + value
      if index < 0 then
        -- the index converted to size_t is out of reach: the loop grows the stack
        -- until allocation fails
        .error (.thrown "std::bad_alloc")
      else
        let stack := stack ++ List.replicate (index.toNat + 1 - stack.length) 0
        .ok (prog, { m with stack := stack.set index.toNat val, pc := m.pc + 1 })
  | .store_inst n => .ok (prog, { m with stack := m.stack ++ [n], pc := m.pc + 1 })
  | .return_inst false =>
    match pop_stack m.stack with
    | .error e => .error e
    | .ok (_, stack) =>
      match pop_stack stack with
      | .error e => .error e
      | .ok (pc, stack) =>
        match pop_stack stack with
        | .error e => .error e
        | .ok (fp, stack) => .ok (prog, { m with stack := stack, pc := pc, fp := fp })
  | .return_inst true =>
    match pop_stack m.stack with
    | .error e => .error e
    | .ok (ret, stack) =>
      -- while (fp < stack.size()) pop_stack();  (fp converted to size_t)
      let stack := if 0 ≤ m.fp then stack.take m.fp.toNat else stack
      match pop_stack stack with
      | .error e => .error e
      | .ok (nargs, stack) =>
        match pop_stack stack with
        | .error e => .error e
        | .ok (pc, stack) =>
          match pop_stack stack with
          | .error e => .error e
          | .ok (fp, stack) =>
            if nargs < 0 then
              .error (.undefined "while (nargs--) pop_stack() with nargs < 0")
            else
              match pop_many nargs.toNat stack with
              | .error e => .error e
              | .ok (_, stack) =>
                .ok (prog, { m with stack := stack ++ [ret], pc := pc, fp := fp })
  | .jump_if_not_zero_inst label =>
    match pop_stack m.stack with
    | .error e => .error e
    | .ok (value, stack) =>
      if value ≠ 0 then
        match prog.sym label with
        | (s, prog) => .ok (prog, { m with stack := stack, pc := s.loc })
      else .ok (prog, { m with stack := stack, pc := m.pc + 1 })
  | .jump_if_zero_inst label =>
    match pop_stack m.stack with
    | .error e => .error e
    | .ok (value, stack) =>
      if value = 0 then
        match prog.sym label with
        | (s, prog) => .ok (prog, { m with stack := stack, pc := s.loc })
      else .ok (prog, { m with stack := stack, pc := m.pc + 1 })
  | .jump_inst label =>
    match prog.sym label with
    | (s, prog) => .ok (prog, { m with pc := s.loc })
  | .call_inst label argc =>
    if label = "print" then
      match pop_many argc m.stack with
      | .error e => .error e
      | .ok (vs, stack) =>
        .ok (prog, { m with stack := stack, cout := m.cout ++ print_text vs ++ "\n",
                            pc := m.pc + 1 })
    else
      match prog.sym label with
      | (s, prog) =>
        let stack := m.stack ++ [m.fp, m.pc + 1, (s.nargs : Int)]
        .ok (prog, { m with pc := s.loc, fp := stack.length,
                            stack := stack ++ List.replicate s.nlocals 0 })

/-- Whether the loop condition `pc < prog.insts.size()` holds (`pc` converted to
`size_t`: a negative `pc` ends the loop). -/
def running (prog : program) (m : vm) : Bool :=
  decide (0 ≤ m.pc) && decide (m.pc.toNat < prog.insts.length)

/-- One iteration of `vm::eval`: fetch `prog.insts[pc]` and execute it. -/
def step (prog : program) (m : vm) : result (program × vm) :=
  match prog.insts[m.pc.toNat]? with
  | some inst => exec prog m inst
  | none => .error (.undefined "prog.insts[pc] out of range")

/-- `vm::eval` with `debug == false`, for at most `fuel` iterations: the program
(its symbol table may have grown) and the machine when the loop ends. -/
def eval : Nat → program → vm → result (program × vm)
  | fuel, prog, m =>
    if running prog m then
      match fuel with
      | 0 => .error .fuel
      | fuel + 1 =>
        match step prog m with
        | .error e => .error e
        | .ok (prog, m) => eval fuel prog m
    else .ok (prog, m)

/-- The effect of `vm::show_asm` on the program: it evaluates `prog.syms[label]`
for every jump and every call other than `print`, in instruction order. -/
def show_asm : List instruction → program → program
  | [], prog => prog
  | inst :: more, prog =>
    match inst with
    | .jump_if_not_zero_inst label => show_asm more (prog.sym label).2
    | .jump_if_zero_inst label => show_asm more (prog.sym label).2
    | .jump_inst label => show_asm more (prog.sym label).2
    | .call_inst label _ =>
      if label = "print" then show_asm more prog else show_asm more (prog.sym label).2
    | _ => show_asm more prog

/-! ## driver.h -/

/-- The first half of `driver::run` on a file with contents `source`: lexing,
parsing and emission. -/
def front_end (source : String) : result program :=
  match tokenize source.toList with
  | .error e => .error e
  | .ok tokens =>
    match parse tokens with
    | .error e => .error e
    | .ok tree => compile tree

/-- `driver::run` on a file with contents `source`, the VM loop bounded by `fuel`
iterations: the text written by `print`. -/
def run (source : String) (fuel : Nat) : result String :=
  match front_end source with
  | .error e => .error e
  | .ok prog =>
    match eval fuel (show_asm prog.insts prog) ⟨0, 0, [], ""⟩ with
    | .error e => .error e
    | .ok (_, m) => .ok m.cout

/-- Exactly `n` iterations of the loop of `vm::eval`, whatever `pc` is before
each of them. -/
def run_steps : Nat → program → vm → result (program × vm)
  | 0, prog, m => .ok (prog, m)
  | n + 1, prog, m =>
    match step prog m with
    | .error e => .error e
    | .ok (prog, m) => run_steps n prog m

/-! ## Scanning as a function of the unread text

The functions of this section have no counterpart in the sources.  They compute,
from the unread text alone, what each sub-lexer finds, and answer `none` in the
cases they leave out (a scan that runs into the end of the file without making
a token, white space followed by fewer than two bytes).  `tokenize_scan` proves
that `tokenize` returns what `scan_tokens` computes whenever it computes a list. -/

/-- The location `n` bytes further on the same line. -/
def location.advance (l : location) (n : Nat) : location :=
  ⟨l.line, l.column + n, l.offset + n⟩

/-- The location after the bytes `cs`. -/
def location.steps (l : location) : List Char → location
  | [] => l
  | c :: cs => (l.step (c == '\n')).steps cs

/-- What `match_word` finds when the current byte and the unread bytes are the
text (`[]`: the current byte is EOF): `(miss, bytes matched, EOF was read)`. -/
def word_scan : List Char → List Char → Bool × Nat × Bool
  | [], [] => (false, 0, true)
  | [], _ :: _ => (false, 0, false)
  | _ :: _, [] => (true, 0, true)
  | char_ :: more, x :: rest =>
    if x != char_ then (true, 0, false)
    else
      match word_scan more rest with
      | (miss, n, eof) => (miss, n + 1, eof)

/-- The first word of the list that the text starts with, as `(word, length,
EOF was read)`; `some none`: every word misses before the end of the text;
`none`: a word misses by running into the end of the text. -/
def word_find (text : List Char) : List String → Option (Option (String × Nat × Bool))
  | [] => some none
  | word :: more =>
    match word_scan word.toList text with
    | (miss, n, eof) =>
      if !miss && n == word.length then some (some (word, n, eof))
      else if eof then none
      else word_find text more

/-- The bytes an identifier may be made of. -/
def identifier_char (c : Char) : Bool := isalnum c || c == '_'

/-- The identifier the text starts with, as `(literal, length, EOF was read)`;
`some none`: no identifier; `none`: the text is empty, or no identifier and EOF
was read. -/
def identifier_scan (text : List Char) : Option (Option (String × Nat × Bool)) :=
  match text with
  | [] => none
  | _ :: _ =>
    let ident := text.takeWhile identifier_char
    let eof := (text.dropWhile identifier_char).isEmpty
    match ident with
    | [] => some none
    | c0 :: _ =>
      if isdigit c0 then (if eof then none else some none)
      else some (some (String.mk ident, ident.length, eof))

/-- The number the text starts with, as `(literal, length, EOF was read)`;
`some none`: no number; `none`: no number and EOF was read. -/
def number_scan (text : List Char) : Option (Option (String × Nat × Bool)) :=
  match text with
  | [] => none
  | x :: rest =>
    match (if x == '-' then (['-'], 1, rest) else (([] : List Char), 0, x :: rest)) with
    | (sign, n, text1) =>
      match text1 with
      | [] => some (some (String.mk sign, n, true))
      | x1 :: rest1 =>
        match (if x1 == '+' then (n + 1, rest1) else (n, x1 :: rest1)) with
        | (n, text2) =>
          let digits := text2.takeWhile isdigit
          let eof := (text2.dropWhile isdigit).isEmpty
          if !(sign ++ digits).isEmpty then
            some (some (String.mk (sign ++ digits), n + digits.length, eof))
          else if eof then none
          else some none

/-- The punctuation byte the text starts with, as `(literal, length, EOF was
read)`; `some none`: none; `none`: the text is empty. -/
def syntax_scan (text : List Char) : List Char → Option (Option (String × Nat × Bool))
  | [] => some none
  | char_ :: more =>
    match text with
    | [] => none
    | x :: rest =>
      if x == char_ then
        if char_ == '=' then
          match rest with
          | [] => some (some (String.singleton char_, 1, true))
          | x2 :: _ =>
            if x2 == '=' then some none
            else some (some (String.singleton char_, 1, false))
        else some (some (String.singleton char_, 1, false))
      else syntax_scan text more

/-- The token the text starts with, by the sub-lexers in the order of
`load_lexers`, as `(kind, literal, length, EOF was read)`. -/
def token_scan (text : List Char) : Option (token_kind × String × Nat × Bool) :=
  match word_find text keywords with
  | none => none
  | some (some (w, n, eof)) => some (token_kind.t_keyword, w, n, eof)
  | some none =>
  match identifier_scan text with
  | none => none
  | some (some (w, n, eof)) => some (token_kind.t_identifier, w, n, eof)
  | some none =>
  match number_scan text with
  | none => none
  | some (some (w, n, eof)) => some (token_kind.t_number, w, n, eof)
  | some none =>
  match syntax_scan text [';', '=', '(', ')', ','] with
  | none => none
  | some (some (w, n, eof)) => some (token_kind.t_syntax, w, n, eof)
  | some none =>
  match word_find text operators with
  | some (some (w, n, eof)) => some (token_kind.t_operator, w, n, eof)
  | _ => none

/-- The white space the text starts with and the text after it; `none`: the
text is empty, or fewer than two bytes follow the white space. -/
def space_scan (text : List Char) : Option (List Char × List Char) :=
  match text with
  | [] => none
  | x :: _ =>
    if isspace x then
      match text.dropWhile isspace with
      | y :: z :: rest => some (text.takeWhile isspace, y :: z :: rest)
      | _ => none
    else some ([], text)

/-- One call of `next` on the text: `(white space, kind, literal, length, EOF
was read, text after the token)`. -/
def next_scan (text : List Char) :
    Option (List Char × token_kind × String × Nat × Bool × List Char) :=
  match space_scan text with
  | none => none
  | some (ws, text) =>
    match token_scan text with
    | none => none
    | some (kind, literal, n, eof) => some (ws, kind, literal, n, eof, text.drop n)

/-- The tokens of the text that starts at `loc`; `failed`: the stream's failbit. -/
def scan_tokens : Nat → List Char → location → Bool → Option (List token_t)
  | 0, _, _, _ => none
  | fuel + 1, text, loc, failed =>
    if failed then some []
    else
      match text with
      | [] => some []
      | _ :: _ =>
        match next_scan text with
        | none => none
        | some (ws, kind, literal, n, eof, text) =>
          match scan_tokens fuel text ((loc.steps ws).advance n) eof with
          | none => none
          | some tokens => some (⟨kind, literal, loc.steps ws⟩ :: tokens)

/-- The yield a sub-lexer at `loc` makes of a scan. -/
def scan_yield (kind : token_kind) (loc : location) : Option (String × Nat × Bool) → token_yield
  | some (w, n, _) => some (⟨kind, w, loc⟩, loc.advance n)
  | none => none

/-- Whether the scan read EOF. -/
def scan_failed : Option (String × Nat × Bool) → Bool
  | some (_, _, eof) => eof
  | none => false

/-- Whether the first byte of the word lies above the digits in the character set. -/
def starts_above_digits (w : String) : Bool :=
  match w.toList with
  | y :: _ => decide (57 < y.toNat)
  | [] => false

/-- The sign a number token keeps in its literal: `-` is kept, `+` is dropped. -/
def kept_sign (sign : List Char) : List Char := if sign = ['-'] then ['-'] else []

/-- Whether every sub-lexer declines the text without reading EOF. -/
def no_match (text : List Char) : Bool :=
  word_find text keywords == some none && identifier_scan text == some none
    && number_scan text == some none
    && syntax_scan text [';', '=', '(', ')', ','] == some none
    && word_find text operators == some none

/-- The text of the exception `next` throws for the byte `c` at `loc`. -/
def unexpected_message (c : Char) (loc : location) : String :=
  "unexpected character: " ++ String.singleton c ++ " at " ++ toString loc.line ++ ":"
    ++ toString loc.column

/-- What one call of `next` does, as a function of the unread text: a token
after the white space `ws` (with its length, whether EOF was read, and the text
after it), no token (with the white space passed and the failbit left), or the
exception for the byte `c`. -/
inductive next_result where
  | token (ws : List Char) (kind : token_kind) (literal : String) (n : Nat) (eof : Bool)
      (text : List Char)
  | finished (ws : List Char) (failed : Bool)
  | unexpected (ws : List Char) (c : Char)
deriving DecidableEq, Repr

/-- The outcome of `next` on a stream without failbit whose unread text is `text`. -/
def next_outcome (text : List Char) : next_result :=
  match text with
  | [] => .finished [] false
  | _ :: _ =>
    match space_scan text with
    | none => .finished (text.takeWhile isspace) (text.dropWhile isspace).isEmpty
    | some (ws, text) =>
      match token_scan text with
      | some (kind, literal, n, eof) => .token ws kind literal n eof (text.drop n)
      | none =>
        match text with
        | c :: _ => if no_match text then .unexpected ws c else .finished ws true
        | [] => .finished ws true

/-- The tokens `tokens_loop` collects from the text at `loc`; `failed`: the
stream's failbit. -/
def lex_from : Nat → List Char → location → Bool → result (List token_t)
  | 0, _, _, _ => .error .fuel
  | fuel + 1, text, loc, failed =>
    if failed then .ok []
    else
      match next_outcome text with
      | .token ws kind literal n eof text =>
        match lex_from fuel text ((loc.steps ws).advance n) eof with
        | .error e => .error e
        | .ok tokens => .ok (⟨kind, literal, loc.steps ws⟩ :: tokens)
      | .finished _ _ => .ok []
      | .unexpected ws c => .error (.thrown (unexpected_message c (loc.steps ws)))

/-- The token vector of a file with contents `data`: the first call of `next`
is made by `begin()`, where a call without a token does not end the loop. -/
def lex_all (data : List Char) : result (List token_t) :=
  match next_outcome data with
  | .token ws kind literal n eof text =>
    match lex_from (data.length + 2) text ((location.steps ⟨1, 1, 0⟩ ws).advance n) eof with
    | .error e => .error e
    | .ok tokens => .ok (⟨kind, literal, location.steps ⟨1, 1, 0⟩ ws⟩ :: tokens)
  | .finished ws failed =>
    lex_from (data.length + 2) (data.drop ws.length) (location.steps ⟨1, 1, 0⟩ ws) failed
  | .unexpected ws c => .error (.thrown (unexpected_message c (location.steps ⟨1, 1, 0⟩ ws)))

/-- The token vector after the loop body has looked at the yield `cur`. -/
def pushed (tokens : List token_t) : token_yield → List token_t
  | some (t, _) => tokens ++ [t]
  | none => tokens

/-- The constructor `lexer(std::ifstream &file)` on a freshly opened file with
contents `data`. -/
def lexer_on (data : List Char) : lexer := ⟨⟨data, data, false, false⟩, ⟨1, 1, 0⟩⟩

/-- Whether no word of the list is a proper prefix of a word that comes later
in the list. -/
def longer_first : List String → Bool
  | [] => true
  | w :: more =>
    more.all (fun v => !(w.toList.isPrefixOf v.toList) || decide (v.length ≤ w.length))
      && longer_first more

/-- The literals of the tokens, each followed by one blank. -/
def spaced_literals : List token_t → List Char
  | [] => []
  | t :: more => t.literal.toList ++ ' ' :: spaced_literals more

/-! ## The opcode table (specification side) -/

/-- The opcode table of the specification for the operator of a `binary_op`:
`+` is `ADD`, `-` is `SUB`, the six comparisons are `COND LT/GT/LE/GE/EQ/NE`,
`&&` and `and ` are `COND AND`, `||` and `or ` are `COND OR`; no other literal
has an opcode. -/
def spec_opcode (oplit : String) : Option instruction :=
  match oplit with
  | "+" => some .add_inst
  | "-" => some .subtract_inst
  | "<" => some (.logic_cond_inst .LT)
  | ">" => some (.logic_cond_inst .GT)
  | "<=" => some (.logic_cond_inst .LE)
  | ">=" => some (.logic_cond_inst .GE)
  | "==" => some (.logic_cond_inst .EQ)
  | "!=" => some (.logic_cond_inst .NE)
  | "&&" => some (.logic_cond_inst .AND)
  | "and " => some (.logic_cond_inst .AND)
  | "||" => some (.logic_cond_inst .OR)
  | "or " => some (.logic_cond_inst .OR)
  | _ => none

/-! ## The grammar (specification side) -/

/-- Whether `t` is the punctuation token `s`. -/
def is_punct (t : token_t) (s : String) : Bool :=
  t.kind == token_kind.t_syntax && t.literal == s

/-- Whether `t` is the keyword token `w`. -/
def is_word (t : token_t) (w : String) : Bool :=
  t.kind == token_kind.t_keyword && t.literal == w

/-- Whether `t` is a number token or an identifier token (`PRIMARY`). -/
def is_primary (t : token_t) : Bool :=
  t.kind == token_kind.t_number || t.kind == token_kind.t_identifier

mutual
/-- The token sequences the expression grammar of the specification derives
for an expression tree: `EXPR := PRIMARY | IDENT ( ARGLIST ) | PRIMARY OP PRIMARY`. -/
def expr_tokens : expr_t → List token_t → Prop
  | .null, _ => False
  | .literal_number t, ts => t.kind = token_kind.t_number ∧ ts = [t]
  | .literal_id t, ts => t.kind = token_kind.t_identifier ∧ ts = [t]
  | .func_call name args, ts =>
    name.kind = token_kind.t_identifier
      ∧ ∃ lp mid rp, is_punct lp "(" = true ∧ is_punct rp ")" = true
        ∧ arglist_tokens args mid ∧ ts = name :: lp :: mid ++ [rp]
  | .binary_op op left right, ts =>
    op.kind = token_kind.t_operator
      ∧ ∃ lt rt, is_primary lt = true ∧ is_primary rt = true
        ∧ left = operand_of lt ∧ right = operand_of rt ∧ ts = [lt, op, rt]
/-- The token sequences derived for an argument list:
`ARGLIST := ε | EXPR (',' EXPR)*`. -/
def arglist_tokens : List expr_t → List token_t → Prop
  | [], ts => ts = []
  | e :: more, ts =>
    ∃ ts1, expr_tokens e ts1
      ∧ ((more = [] ∧ ts = ts1)
        ∨ (more ≠ [] ∧ ∃ c ts2, is_punct c "," = true ∧ arglist_tokens more ts2
            ∧ ts = ts1 ++ c :: ts2))
end

/-- Whether the tokens after an expression start with a token that
`parse_expression` does not take for a part of the expression: neither `(` nor
an operator. -/
def ends_expression (post : List token_t) : Prop :=
  ∃ q rest, post = q :: rest ∧ is_punct q "(" = false ∧ q.kind ≠ token_kind.t_operator

/-- The token sequences derived for a parameter list: `IDENT (, IDENT)*`. -/
def params_tokens : List token_t → List token_t → Prop
  | [], _ => False
  | [p], ts => p.kind = token_kind.t_identifier ∧ ts = [p]
  | p :: q :: more, ts =>
    p.kind = token_kind.t_identifier
      ∧ ∃ c ts2, is_punct c "," = true ∧ params_tokens (q :: more) ts2 ∧ ts = p :: c :: ts2

mutual
/-- The token sequences the grammar of the specification derives for a
statement tree:
`if EXPR then STMT* (else STMT*)? end`, `return EXPR ;`, `EXPR ;`,
`function IDENT ( IDENT (, IDENT)* ) STMT* end`, `local IDENT = EXPR ;`. -/
def stmt_tokens : stmt_t → List token_t → Prop
  | .if_stmt condition then_body else_body, ts =>
    ∃ kif cts kthen tts kend, is_word kif "if" = true ∧ expr_tokens condition cts
      ∧ is_word kthen "then" = true ∧ block_tokens then_body tts ∧ is_word kend "end" = true
      ∧ ((else_body = [] ∧ ts = kif :: (cts ++ kthen :: (tts ++ [kend])))
        ∨ (∃ kelse ets, is_word kelse "else" = true ∧ block_tokens else_body ets
            ∧ ts = kif :: (cts ++ kthen :: (tts ++ kelse :: (ets ++ [kend])))))
  | .ret_stmt expr, ts =>
    ∃ kret ets semi, is_word kret "return" = true ∧ expr_tokens expr ets
      ∧ is_punct semi ";" = true ∧ ts = kret :: (ets ++ [semi])
  | .expr_stmt expr, ts =>
    ∃ ets semi, expr_tokens expr ets ∧ is_punct semi ";" = true ∧ ts = ets ++ [semi]
  | .func_decl name params body, ts =>
    ∃ kfun lp pts rp bts kend, is_word kfun "function" = true
      ∧ name.kind = token_kind.t_identifier ∧ is_punct lp "(" = true
      ∧ params_tokens params pts ∧ is_punct rp ")" = true ∧ block_tokens body bts
      ∧ is_word kend "end" = true
      ∧ ts = kfun :: name :: lp :: (pts ++ rp :: (bts ++ [kend]))
  | .local_stmt name expr, ts =>
    ∃ klocal eq ets semi, is_word klocal "local" = true
      ∧ name.kind = token_kind.t_identifier ∧ is_punct eq "=" = true
      ∧ expr_tokens expr ets ∧ is_punct semi ";" = true
      ∧ ts = klocal :: name :: eq :: (ets ++ [semi])
/-- The token sequences derived for a sequence of statements, `STMT*`. -/
def block_tokens : List stmt_t → List token_t → Prop
  | [], ts => ts = []
  | s :: more, ts => ∃ ts1 ts2, stmt_tokens s ts1 ∧ block_tokens more ts2 ∧ ts = ts1 ++ ts2
end

/-- The arguments of a call with their tokens written in two ways: `w` has a
`,` between consecutive arguments, `wo` is `w` with those commas removed. -/
def call_arguments : List expr_t → List token_t → List token_t → Prop
  | [], w, wo => w = [] ∧ wo = []
  | e :: more, w, wo =>
    ∃ ts1, expr_tokens e ts1
      ∧ ((more = [] ∧ w = ts1 ∧ wo = ts1)
        ∨ (more ≠ [] ∧ ∃ c w2 wo2, is_punct c "," = true ∧ call_arguments more w2 wo2
            ∧ w = ts1 ++ c :: w2 ∧ wo = ts1 ++ wo2))

/-! ## A program of the grammar -/

/-- The tokens of `local a = 1;` and `if a < 2 then print(a, 2); end`. -/
def grammar_tokens : List token_t :=
  [⟨token_kind.t_keyword, "local", ⟨1, 1, 0⟩⟩, ⟨token_kind.t_identifier, "a", ⟨1, 7, 6⟩⟩,
   ⟨token_kind.t_syntax, "=", ⟨1, 9, 8⟩⟩, ⟨token_kind.t_number, "1", ⟨1, 11, 10⟩⟩,
   ⟨token_kind.t_syntax, ";", ⟨1, 12, 11⟩⟩, ⟨token_kind.t_keyword, "if", ⟨2, 1, 13⟩⟩,
   ⟨token_kind.t_identifier, "a", ⟨2, 4, 16⟩⟩, ⟨token_kind.t_operator, "<", ⟨2, 6, 18⟩⟩,
   ⟨token_kind.t_number, "2", ⟨2, 8, 20⟩⟩, ⟨token_kind.t_keyword, "then", ⟨2, 10, 22⟩⟩,
   ⟨token_kind.t_identifier, "print", ⟨2, 15, 27⟩⟩, ⟨token_kind.t_syntax, "(", ⟨2, 20, 32⟩⟩,
   ⟨token_kind.t_identifier, "a", ⟨2, 21, 33⟩⟩, ⟨token_kind.t_syntax, ",", ⟨2, 22, 34⟩⟩,
   ⟨token_kind.t_number, "2", ⟨2, 24, 36⟩⟩, ⟨token_kind.t_syntax, ")", ⟨2, 25, 37⟩⟩,
   ⟨token_kind.t_syntax, ";", ⟨2, 26, 38⟩⟩, ⟨token_kind.t_keyword, "end", ⟨2, 28, 40⟩⟩]

/-- The tree of `local a = 1;` and `if a < 2 then print(a, 2); end`. -/
def grammar_tree : ast :=
  [.local_stmt ⟨token_kind.t_identifier, "a", ⟨1, 7, 6⟩⟩
      (.literal_number ⟨token_kind.t_number, "1", ⟨1, 11, 10⟩⟩),
   .if_stmt
      (.binary_op ⟨token_kind.t_operator, "<", ⟨2, 6, 18⟩⟩
        (.literal_id ⟨token_kind.t_identifier, "a", ⟨2, 4, 16⟩⟩)
        (.literal_number ⟨token_kind.t_number, "2", ⟨2, 8, 20⟩⟩))
      [.expr_stmt (.func_call ⟨token_kind.t_identifier, "print", ⟨2, 15, 27⟩⟩
        [.literal_id ⟨token_kind.t_identifier, "a", ⟨2, 21, 33⟩⟩,
         .literal_number ⟨token_kind.t_number, "2", ⟨2, 24, 36⟩⟩])]
      []]

/-! ## Lexing and parsing a text -/

/-- The first two stages of `driver::run` on a file with contents `source`:
lexing and parsing. -/
def parse_text (source : String) : result ast :=
  match tokenize source.toList with
  | .error e => .error e
  | .ok tokens => parse tokens

/-! ## A function named like a generated label -/

/-- A function named `label_else_3`, followed by an `if` lowered at instruction
count 3. -/
def clash_source : String :=
  "function label_else_3(a) end if 0 then print(1); else print(2); end"

/-- The program emitted for `clash_source`. -/
def clash_program : program :=
  { syms := [("label_else_3", ⟨1, 1, 1⟩), ("function_done_0", ⟨3, 0, 0⟩),
             ("label_out_3", ⟨10, 0, 0⟩)],
    insts := [.jump_inst "function_done_0", .move_minus_fp_inst 0 0, .return_inst false,
              .store_inst 0, .jump_if_zero_inst "label_else_3", .store_inst 1,
              .call_inst "print" 1, .jump_inst "label_out_3", .store_inst 2,
              .call_inst "print" 1] }

/-! ## The prologue of a function (specification side) -/

/-- The prologue of a function of `N` parameters: `ST_FP -(N-k-1) -> +k` for
`k = 0 .. N-1`. -/
def prologue (N : Nat) : List instruction :=
  (List.range N).map fun k => .move_minus_fp_inst k ((N : Int) - ((k : Int) + 1))

/-- A function declared with the parameter `a` twice and an empty body. -/
def twice_source : String := "function f(a, a) end"

/-- The program emitted for `twice_source`. -/
def twice_program : program :=
  { syms := [("f", ⟨1, 2, 1⟩), ("function_done_0", ⟨4, 0, 0⟩)],
    insts := [.jump_inst "function_done_0", .move_minus_fp_inst 0 1, .move_minus_fp_inst 1 0,
              .return_inst false] }

/-- The slot of the first parameter named `key`, for parameters numbered from `i`. -/
def param_slot : List token_t → Nat → String → Option Int
  | [], _, _ => none
  | x :: xs, i, key => if x.literal = key then some (i : Int) else param_slot xs (i + 1) key

/-! ## A function whose body ends with a nested declaration -/

/-- A function `f` whose body is the declaration of a function `g`, a call of `f`
and a `print`. -/
def nested_source : String := "function f() function g() end end f(); print(1);"

/-- The program emitted for `nested_source`. -/
def nested_program : program :=
  { syms := [("g", ⟨2, 0, 0⟩), ("function_done_1", ⟨3, 0, 0⟩), ("f", ⟨1, 0, 0⟩),
             ("function_done_0", ⟨3, 0, 0⟩)],
    insts := [.jump_inst "function_done_0", .jump_inst "function_done_1", .return_inst false,
              .call_inst "f" 0, .store_inst 1, .call_inst "print" 1] }

/-! ## Two declarations of one name -/

/-- A function `f` whose body starts with a declaration of another `f`. -/
def shadow_source : String :=
  "function f() function f(a) return 2; end return 1; end print(f(7));"

/-- The program emitted for `shadow_source`. -/
def shadow_program : program :=
  { syms := [("f", ⟨2, 1, 1⟩), ("function_done_1", ⟨5, 0, 0⟩), ("function_done_0", ⟨7, 0, 0⟩)],
    insts := [.jump_inst "function_done_0", .jump_inst "function_done_1",
              .move_minus_fp_inst 0 0, .store_inst 2, .return_inst true, .store_inst 1,
              .return_inst true, .store_inst 7, .call_inst "f" 1, .call_inst "print" 1] }

/-- The name of the first `f` of `function f() return 1; end function f(a) return 2; end`. -/
def again_name : token_t := ⟨token_kind.t_identifier, "f", ⟨1, 10, 9⟩⟩

/-- The body of the first `f`. -/
def again_body : List stmt_t :=
  [.ret_stmt (.literal_number ⟨token_kind.t_number, "1", ⟨1, 21, 20⟩⟩)]

/-- The second declaration of `f`. -/
def again_second : stmt_t :=
  .func_decl ⟨token_kind.t_identifier, "f", ⟨1, 37, 36⟩⟩
    [⟨token_kind.t_identifier, "a", ⟨1, 39, 38⟩⟩]
    [.ret_stmt (.literal_number ⟨token_kind.t_number, "2", ⟨1, 49, 48⟩⟩)]

/-- The program emitted for the two declarations. -/
def again_program : program :=
  { syms := [("f", ⟨1, 0, 0⟩), ("function_done_0", ⟨3, 0, 0⟩), ("function_done_3", ⟨7, 0, 0⟩)],
    insts := [.jump_inst "function_done_0", .store_inst 1, .return_inst true,
              .jump_inst "function_done_3", .move_minus_fp_inst 0 0, .store_inst 2,
              .return_inst true] }

/-! ## The operator tokens of a tree -/

mutual
/-- The operator tokens of the `binary_op` nodes of an expression. -/
def expr_operators : expr_t → List token_t
  | .null => []
  | .literal_id _ => []
  | .literal_number _ => []
  | .func_call _ arguments => arguments_operators arguments
  | .binary_op op left right => op :: (expr_operators left ++ expr_operators right)
/-- The operator tokens of the `binary_op` nodes of a list of expressions. -/
def arguments_operators : List expr_t → List token_t
  | [] => []
  | e :: more => expr_operators e ++ arguments_operators more
end

mutual
/-- The operator tokens of the `binary_op` nodes of a statement. -/
def stmt_operators : stmt_t → List token_t
  | .func_decl _ _ body => block_operators body
  | .if_stmt condition then_body else_body =>
    expr_operators condition ++ (block_operators then_body ++ block_operators else_body)
  | .local_stmt _ expr => expr_operators expr
  | .ret_stmt expr => expr_operators expr
  | .expr_stmt expr => expr_operators expr
/-- The operator tokens of the `binary_op` nodes of a list of statements. -/
def block_operators : List stmt_t → List token_t
  | [] => []
  | s :: more => stmt_operators s ++ block_operators more
end

/-- The instructions `compile_binary_op` emits for `-`, `&&`, `and `, `||`, `or `. -/
def sub_and_or (inst : instruction) : Bool :=
  inst == .subtract_inst || inst == .logic_cond_inst .AND || inst == .logic_cond_inst .OR

/-- The literals an operator token of the lexer can have. -/
def lexed_operators : List String :=
  ["==", "!=", ">=", "<=", "+", "*", "/", "^", "%", ">", "<"]

/-! ## Slots of a frame (specification side) -/

/-- Whether the slot operand of a `PUSH_FP` or the destination of an `ST_FP`
lies in `0 .. n-1`, and the operand of a `POP_FP` in `0 .. n`. -/
def slot_within (n : Nat) : instruction → Bool
  | .dup_plus_fp_inst k => decide (0 ≤ k) && decide (k < (n : Int))
  | .move_minus_fp_inst k _ => decide (k < n)
  | .move_plus_fp_inst k => decide (k ≤ n)
  | _ => true

/-- Every slot of the locals map lies in `0 .. |map|-1`. -/
def map_bounded (l : locals_t) : Prop :=
  ∀ key v, map_find l key = some v → 0 ≤ v ∧ v < (l.length : Int)

mutual
/-- Whether a statement holds no function declaration. -/
def flat_stmt : stmt_t → Bool
  | .func_decl _ _ _ => false
  | .if_stmt _ then_body else_body => flat_block then_body && flat_block else_body
  | .local_stmt _ _ => true
  | .ret_stmt _ => true
  | .expr_stmt _ => true
/-- Whether a list of statements holds no function declaration. -/
def flat_block : List stmt_t → Bool
  | [] => true
  | s :: more => flat_stmt s && flat_block more
end

/-- What lowering into one frame does: the map grows and stays bounded, and
the instructions appended use slots within the size of the resulting map. -/
def frame_effect (p : program) (l : locals_t) (q : program) (l' : locals_t) : Prop :=
  l.length ≤ l'.length ∧ map_bounded l'
    ∧ ∃ added, q.insts = p.insts ++ added ∧ ∀ i ∈ added, slot_within l'.length i = true

/-- A function that declares the local `x` twice, called once. -/
def redeclared_source : String := "function f() local x = 1; local x = 2; end f(); print(3);"

/-- The program emitted for `redeclared_source`. -/
def redeclared_program : program :=
  { syms := [("f", ⟨1, 0, 1⟩), ("function_done_0", ⟨6, 0, 0⟩)],
    insts := [.jump_inst "function_done_0", .store_inst 1, .move_plus_fp_inst 0, .store_inst 2,
              .move_plus_fp_inst 1, .return_inst false, .call_inst "f" 0, .store_inst 3,
              .call_inst "print" 1] }

/-- A function declared with the parameter `a` twice, called with two arguments. -/
def twice_call_source : String := "function f(a, a) end f(1, 2);"

/-- The program emitted for `twice_call_source`. -/
def twice_call_program : program :=
  { syms := [("f", ⟨1, 2, 1⟩), ("function_done_0", ⟨4, 0, 0⟩)],
    insts := [.jump_inst "function_done_0", .move_minus_fp_inst 0 1, .move_minus_fp_inst 1 0,
              .return_inst false, .store_inst 1, .store_inst 2, .call_inst "f" 2] }

/-- The program after the body of `succ` has been lowered. -/
def succ_body_program : program :=
  { syms := [],
    insts := [.jump_inst "function_done_0", .move_minus_fp_inst 0 0, .dup_plus_fp_inst 0,
              .store_inst 1, .add_inst, .return_inst true] }

/-! ## Decimal literals (specification side) -/

/-- The number denoted by a string of decimal digits. -/
def decimal_value (ds : List Char) : Int :=
  ds.foldl (fun acc d => 10 * acc + ((d.toNat : Int) - 48)) 0

/-- The number denoted by a sign (`-`, `+` or none) followed by digits. -/
def literal_value (sign ds : List Char) : Int :=
  if sign = ['-'] then -decimal_value ds else decimal_value ds

/-! ## Properties of emitted programs -/

/-- The label of a `JMP`, `JZ` or `JNZ` instruction. -/
def jump_label : instruction → Option String
  | .jump_inst label => some label
  | .jump_if_zero_inst label => some label
  | .jump_if_not_zero_inst label => some label
  | _ => none

/-- The label of a `CALL` instruction. -/
def call_label : instruction → Option String
  | .call_inst label _ => some label
  | _ => none

/-- Every jump label of `insts` has an entry in `syms`. -/
def closed (syms : List (String × symbol)) (insts : List instruction) : Prop :=
  ∀ inst ∈ insts, ∀ label, jump_label inst = some label → (map_find syms label).isSome

/-- The program `q` is `p` after emitting `added`: the instructions are appended,
every symbol of `p` is kept, and a symbol that is new in `q` points past the
instructions of `p` and not past those of `q`. -/
structure emits (p q : program) (added : List instruction) : Prop where
  insts : q.insts = p.insts ++ added
  kept : ∀ key s, map_find p.syms key = some s → map_find q.syms key = some s
  fresh : ∀ key s, map_find p.syms key = none → map_find q.syms key = some s →
    (p.insts.length : Int) < s.loc ∧ s.loc ≤ (q.insts.length : Int)

/-- What lowering an expression can change: instructions without jump labels are
appended, the symbol table is untouched, the locals map does not shrink. -/
def expr_effect (p : program) (l : locals_t) (q : program) (l' : locals_t) : Prop :=
  q.syms = p.syms ∧ l.length ≤ l'.length
    ∧ ∃ added, q.insts = p.insts ++ added ∧ ∀ inst ∈ added, jump_label inst = none

/-- What lowering statements can change: the program grows by instructions
whose jump labels all have entries in the resulting symbol table, and the
locals map does not shrink. -/
def stmt_effect (p : program) (l : locals_t) (q : program) (l' : locals_t) : Prop :=
  l.length ≤ l'.length ∧ ∃ added, emits p q added ∧ closed q.syms added

/-- The state after `j` prologue instructions of a function entered at `entry`
with arguments `args` above `base`, frame triple `t` and `nl` local slots. -/
def prologue_state (entry : Nat) (base args t : List Int) (nl : Nat) (cout : String)
    (j : Nat) : vm :=
  ⟨(entry : Int) + j, (base.length : Int) + args.length + 3,
   base ++ args ++ t ++ (args.take j ++ List.replicate (nl - j) 0), cout⟩

/-! ## Generated labels (specification side) -/

/-- The label is one of `label_else_<i>`, `label_out_<i>`, `function_done_<i>`
for a count `i` with `lo <= i < hi`. -/
def generated (label : String) (lo hi : Nat) : Prop :=
  ∃ i, lo ≤ i ∧ i < hi
    ∧ (label = "label_else_" ++ toString i ∨ label = "label_out_" ++ toString i
      ∨ label = "function_done_" ++ toString i)

mutual
/-- The names of the functions a statement declares, those of nested
declarations included. -/
def declared_stmt : stmt_t → List String
  | .func_decl name _ body => name.literal :: declared_block body
  | .if_stmt _ then_body else_body => declared_block then_body ++ declared_block else_body
  | .local_stmt _ _ => []
  | .ret_stmt _ => []
  | .expr_stmt _ => []
/-- The names of the functions a list of statements declares. -/
def declared_block : List stmt_t → List String
  | [] => []
  | s :: more => declared_stmt s ++ declared_block more
end

/-- The jump labels of the instructions `q` has after those of `p`. -/
def new_labels (p q : program) : List String :=
  (q.insts.drop p.insts.length).filterMap jump_label

/-- What lowering statements that declare the functions `names` does to the
labels: the jump labels emitted are pairwise distinct generated labels with
counts between the two program sizes; a symbol that is new is a declared name
or one of these labels; and each of these labels that had no symbol and is no
declared name gets a symbol `(loc, 0, 0)`. -/
def label_effect (p q : program) (names : List String) : Prop :=
  (new_labels p q).Nodup
    ∧ (∀ L ∈ new_labels p q, generated L p.insts.length q.insts.length)
    ∧ (∀ key s, map_find p.syms key = none → map_find q.syms key = some s →
        key ∈ names ∨ key ∈ new_labels p q)
    ∧ (∀ L ∈ new_labels p q, map_find p.syms L = none → L ∉ names →
        ∃ loc, map_find q.syms L = some ⟨loc, 0, 0⟩)

/-- Two nested `if` statements and a function with an `if` statement. -/
def labels_source : String :=
  "if 1 then if 2 then end else end function f() if 3 then end end"

/-- The program emitted for `labels_source`. -/
def labels_program : program :=
  { syms := [("label_else_2", ⟨5, 0, 0⟩), ("label_out_2", ⟨5, 0, 0⟩), ("label_else_0", ⟨6, 0, 0⟩),
             ("label_out_0", ⟨6, 0, 0⟩), ("label_else_7", ⟨10, 0, 0⟩), ("label_out_7", ⟨10, 0, 0⟩),
             ("f", ⟨7, 0, 0⟩), ("function_done_6", ⟨11, 0, 0⟩)],
    insts := [.store_inst 1, .jump_if_zero_inst "label_else_0", .store_inst 2,
              .jump_if_zero_inst "label_else_2", .jump_inst "label_out_2",
              .jump_inst "label_out_0", .jump_inst "function_done_6", .store_inst 3,
              .jump_if_zero_inst "label_else_7", .jump_inst "label_out_7",
              .return_inst false] }

/-! ## The programs of the scenarios -/

/-- Scenario 3 of the specification. -/
def inc_source : String := "function inc(x)\n  return x + 1;\nend\nprint(inc(41));"

/-- Scenario 3 with the function named `succ`. -/
def succ_source : String := "function succ(x)\n  return x + 1;\nend\nprint(succ(41));"

/-- Scenario 5 of the specification. -/
def fib_source : String :=
  "function fib(n)\n  if n < 2 then\n    return n;\n  end\n  local a = n - 1;\n  local b = n - 2;\n  local x = fib(a);\n  local y = fib(b);\n  return x + y;\nend\nprint(fib(5));"

/-- Scenario 5 with `n - 1`, `n - 2` written `n + -1`, `n + -2`. -/
def fib_plus_source : String :=
  "function fib(n)\n  if n < 2 then\n    return n;\n  end\n  local a = n + -1;\n  local b = n + -2;\n  local x = fib(a);\n  local y = fib(b);\n  return x + y;\nend\nprint(fib(5));"

/-- A function that returns through `RET`: one parameter, no `return`. -/
def void_source : String := "function f(x)\n  print(x);\nend\nf(7);"

/-- A call with two arguments of a function declared with one parameter. -/
def two_args_source : String := "function f(x)\n  return x;\nend\nprint(f(1, 2));"

/-- The program emitted for `two_args_source`. -/
def two_args_program : program :=
  { syms := [("f", ⟨1, 1, 1⟩), ("function_done_0", ⟨4, 0, 0⟩)],
    insts := [.jump_inst "function_done_0", .move_minus_fp_inst 0 0, .dup_plus_fp_inst 0,
              .return_inst true, .store_inst 1, .store_inst 2, .call_inst "f" 2,
              .call_inst "print" 1] }

/-- The program emitted for `void_source`. -/
def void_program : program :=
  { syms := [("f", ⟨1, 1, 1⟩), ("function_done_0", ⟨5, 0, 0⟩)],
    insts := [.jump_inst "function_done_0", .move_minus_fp_inst 0 0, .dup_plus_fp_inst 0,
              .call_inst "print" 1, .return_inst false, .store_inst 7, .call_inst "f" 1] }

/-- A function declared with the same parameter name twice. -/
def dup_source : String := "function f(x, x)\n  return x;\nend\nprint(f(1, 2));"

/-- The program emitted for `dup_source`. -/
def dup_program : program :=
  { syms := [("f", ⟨1, 2, 1⟩), ("function_done_0", ⟨5, 0, 0⟩)],
    insts := [.jump_inst "function_done_0", .move_minus_fp_inst 0 1, .move_minus_fp_inst 1 0,
              .dup_plus_fp_inst 0, .return_inst true, .store_inst 1, .store_inst 2,
              .call_inst "f" 2, .call_inst "print" 1] }

/-- The declaration `function succ(x) return x + 1; end` as parsed from
`succ_source`: its name, parameters and body. -/
def succ_name : token_t := ⟨token_kind.t_identifier, "succ", ⟨1, 10, 9⟩⟩

/-- The parameter list of `succ`. -/
def succ_params : List token_t := [⟨token_kind.t_identifier, "x", ⟨1, 15, 14⟩⟩]

/-- The body of `succ`. -/
def succ_body : List stmt_t :=
  [.ret_stmt (.binary_op ⟨token_kind.t_operator, "+", ⟨2, 12, 28⟩⟩
      (.literal_id ⟨token_kind.t_identifier, "x", ⟨2, 10, 26⟩⟩)
      (.literal_number ⟨token_kind.t_number, "1", ⟨2, 14, 30⟩⟩))]

/-- The program after lowering the declaration of `succ` into the empty program. -/
def succ_decl_program : program :=
  { syms := [("succ", ⟨1, 1, 1⟩), ("function_done_0", ⟨6, 0, 0⟩)],
    insts := [.jump_inst "function_done_0", .move_minus_fp_inst 0 0, .dup_plus_fp_inst 0,
              .store_inst 1, .add_inst, .return_inst true] }

/-- The program emitted for `succ_source`. -/
def succ_program : program :=
  { succ_decl_program with
    insts := succ_decl_program.insts
      ++ [.store_inst 41, .call_inst "succ" 1, .call_inst "print" 1] }

/-- The tree of `print(42);`. -/
def print42_tree : ast :=
  [.expr_stmt (.func_call ⟨token_kind.t_identifier, "print", ⟨1, 1, 0⟩⟩
      [.literal_number ⟨token_kind.t_number, "42", ⟨1, 7, 6⟩⟩])]

/-- A tree with one `if` statement: condition `1`, empty bodies. -/
def if_tree : ast := [.if_stmt (.literal_number ⟨token_kind.t_number, "1", ⟨1, 4, 3⟩⟩) [] []]

/-- The program emitted for `if_tree`. -/
def if_program : program :=
  { syms := [("label_else_0", ⟨3, 0, 0⟩), ("label_out_0", ⟨3, 0, 0⟩)],
    insts := [.store_inst 1, .jump_if_zero_inst "label_else_0", .jump_inst "label_out_0"] }

/-- The program of the second scenario, with the literals `A` and `B`. -/
def sum_source (A B : String) : String :=
  "local a = " ++ A ++ ";\nlocal b = " ++ B ++ ";\nprint(a + b);"

/-- The program of the fourth scenario, with the literals `N` and `M`. -/
def branch_source (N M : String) : String :=
  "local n = " ++ N ++ ";\nif n < " ++ M ++ " then\n  print(1);\nelse\n  print(0);\nend"

/-- The instructions emitted for `branch_source` when the literals denote `n` and `m`. -/
def branch_insts (n m : Int) : List instruction :=
  [.store_inst n, .move_plus_fp_inst 0, .dup_plus_fp_inst 0, .store_inst m,
   .logic_cond_inst .LT, .jump_if_zero_inst "label_else_2", .store_inst 1,
   .call_inst "print" 1, .jump_inst "label_out_2", .store_inst 0, .call_inst "print" 1]

/-- The program emitted for `branch_source`. -/
def branch_program (n m : Int) : program :=
  ⟨[("label_else_2", ⟨9, 0, 0⟩), ("label_out_2", ⟨11, 0, 0⟩)], branch_insts n m⟩

/-! # Theorems -/

/-! ## Bounded evaluation -/

/-- A run of the VM loop that ends within `n` iterations ends the same way within
any larger bound. -/
theorem eval_add (k : Nat) : ∀ (n : Nat) (prog : program) (m : vm) (r : program × vm),
    eval n prog m = .ok r → eval (n + k) prog m = .ok r := by
  intro n
  induction n with
  | zero =>
    intro prog m r h
    unfold eval at h
    unfold eval
    by_cases hr : running prog m = true
    · simp [hr] at h
    · simp [hr] at h ⊢
      exact h
  | succ n ih =>
    intro prog m r h
    rw [Nat.add_right_comm]
    unfold eval at h
    unfold eval
    by_cases hr : running prog m = true
    · simp only [hr, if_true] at h ⊢
      cases hs : step prog m with
      | error e => simp [hs] at h
      | ok pm =>
        obtain ⟨prog1, m1⟩ := pm
        simp only [hs] at h ⊢
        exact ih prog1 m1 r h
    · simp [hr] at h ⊢
      exact h

/-- A pipeline run that succeeds within `n` VM iterations succeeds with the same
output within any larger bound. -/
theorem run_add (source out : String) (n k : Nat) (h : run source n = .ok out) :
    run source (n + k) = .ok out := by
  unfold run at h ⊢
  cases hf : front_end source with
  | error e => simp [hf] at h
  | ok prog =>
    simp only [hf] at h ⊢
    cases he : eval n (show_asm prog.insts prog) ⟨0, 0, [], ""⟩ with
    | error e => simp [he] at h
    | ok r =>
      rw [eval_add k n _ _ r he]
      simp only [he] at h
      exact h

/-- A fault of the front end is the outcome of the run, whatever the VM bound. -/
theorem run_front_end_error (source : String) (e : fault) (fuel : Nat)
    (h : front_end source = .error e) : run source fuel = .error e := by
  unfold run
  rw [h]

/-! ## C1: the `inc` scenario -/

/-- The front end rejects the `inc` program: `inc` is lexed as keyword `in` and
identifier `c`, and no statement parser accepts `function in`. -/
theorem inc_front_end :
    front_end inc_source
      = .error (.thrown "parse error, end too early, check your source code") := by
  decide!

/-- C1 as stated fails: for no bound on the VM loop does the pipeline, run on
`function inc(x) return x + 1; end print(inc(41));`, succeed with output `42 \n`. -/
theorem C1_inc_never_prints_42 : ¬ ∃ fuel, run inc_source fuel = .ok "42 \n" := by
  rintro ⟨fuel, h⟩
  rw [run_front_end_error _ _ fuel inc_front_end] at h
  exact absurd h (by decide)

/-- C1 amended: on the `inc` source the pipeline stops in the parser with the
fatal parse error and prints nothing, because the lexer yields keyword
`function`, keyword `in`, identifier `c` for `function inc`; the same program
with the function named `succ` succeeds (from 9 VM iterations on) and `print`
writes exactly `42 ` and a newline. -/
theorem C1_inc_parse_error_succ_prints_42 :
    (∀ fuel, run inc_source fuel
        = .error (.thrown "parse error, end too early, check your source code"))
    ∧ (tokenize inc_source.toList).map
          (fun ts => (ts.take 3).map fun t => (t.kind, t.literal))
        = .ok [(token_kind.t_keyword, "function"), (token_kind.t_keyword, "in"),
               (token_kind.t_identifier, "c")]
    ∧ (∀ k, run succ_source (9 + k) = .ok "42 \n") := by
  refine ⟨fun fuel => run_front_end_error _ _ fuel inc_front_end, by decide!, fun k => ?_⟩
  exact run_add _ _ 9 k (by decide!)

/-! ## C2: the recursive `fib` scenario -/

/-- The front end rejects the `fib` program of the specification. -/
theorem fib_front_end :
    front_end fib_source
      = .error (.thrown "parse error, end too early, check your source code") := by
  decide!

/-- C2 at the failing input: on the `fib` program of the specification the lexer
returns the `-` of `n - 1` as a number token with literal `-` (operator `-` is
never produced), `local a = n - 1;` does not parse, and the run ends with the
fatal parse error whatever the VM bound; nothing is printed.  With the two
subtractions written `n + -1` and `n + -2` the same program prints `5 ` and a
newline. -/
theorem C2_fib_parse_error :
    (∀ fuel, run fib_source fuel
        = .error (.thrown "parse error, end too early, check your source code"))
    ∧ (tokenize "n - 1;".toList).map (fun ts => ts.map fun t => (t.kind, t.literal))
        = .ok [(token_kind.t_identifier, "n"), (token_kind.t_number, "-"),
               (token_kind.t_number, "1"), (token_kind.t_syntax, ";")]
    ∧ (∀ k, run fib_plus_source (221 + k) = .ok "5 \n") := by
  refine ⟨fun fuel => run_front_end_error _ _ fuel fib_front_end, by decide!, fun k => ?_⟩
  exact run_add _ _ 221 k (by decide!)

/-! ## The stack -/

/-- Popping from a stack that ends in `v`. -/
theorem pop_stack_concat (stack : List Int) (v : Int) :
    pop_stack (stack ++ [v]) = .ok (v, stack) := by
  simp [pop_stack]

/-- Popping as many values as `top` holds from `rest ++ top` yields them top
first and leaves `rest`. -/
theorem pop_many_append (rest : List Int) : ∀ top : List Int,
    pop_many top.length (rest ++ top) = .ok (top.reverse, rest) := by
  intro top
  induction top using List.reverseRecOn with
  | nil => simp [pop_many]
  | append_singleton top v ih =>
    rw [List.length_append, List.length_singleton, ← List.append_assoc]
    simp only [pop_many, pop_stack_concat, ih, List.reverse_append, List.reverse_singleton,
      List.singleton_append]

/-- Popping `n` values from a stack that holds at least `n`. -/
theorem pop_many_le (n : Nat) (stack : List Int) (h : n ≤ stack.length) :
    pop_many n stack
      = .ok ((stack.drop (stack.length - n)).reverse, stack.take (stack.length - n)) := by
  have h1 := pop_many_append (stack.take (stack.length - n)) (stack.drop (stack.length - n))
  rw [List.take_append_drop, List.length_drop] at h1
  have h2 : stack.length - (stack.length - n) = n := by omega
  rw [h2] at h1
  exact h1

/-- Appending a list of strings to `a ++ b` from the left. -/
theorem foldl_append_init : ∀ (l : List String) (a b : String),
    l.foldl (fun r s => r ++ s) (a ++ b) = a ++ l.foldl (fun r s => r ++ s) b := by
  intro l
  induction l with
  | nil => intro a b; rfl
  | cons x l ih => intro a b; rw [List.foldl_cons, List.foldl_cons, String.append_assoc, ih]

/-- Unfolding of `String.join` at a cons. -/
theorem join_cons (x : String) (l : List String) :
    String.join (x :: l) = x ++ String.join l := by
  unfold String.join
  rw [List.foldl_cons]
  have h := foldl_append_init l x ""
  simpa using h

/-- The text of `print` is the concatenation of the values' decimal forms, each
followed by one space. -/
theorem print_text_eq (vs : List Int) :
    print_text vs = String.join (vs.map fun v => toString v ++ " ") := by
  unfold print_text
  suffices h : ∀ init : String, vs.foldl (fun acc v => acc ++ toString v ++ " ") init
      = init ++ String.join (vs.map fun v => toString v ++ " ") by
    simpa using h ""
  induction vs with
  | nil => intro init; simp [String.join]
  | cons v vs ih =>
    intro init
    rw [List.foldl_cons, ih, List.map_cons, join_cons]
    simp only [String.append_assoc]

/-! ## C3: the built-in `print` -/

/-- C3: for every `argc` and every state whose stack is `rest ++ top` with
`top` holding `argc` values, executing `CALL print, argc` appends to the output
the values of `top` from the top of the stack downwards, in decimal and each
followed by one space, then a newline; the stack becomes `rest`, `fp` and the
program are unchanged and `pc` becomes `pc + 1`.  The pipeline on `print(42);`
prints `42 \n` and on `print(1, 2, 3);` prints `3 2 1 \n`. -/
theorem C3_print_call :
    (∀ (prog : program) (pc fp : Int) (rest top : List Int) (cout : String),
      exec prog ⟨pc, fp, rest ++ top, cout⟩ (.call_inst "print" top.length)
        = .ok (prog, ⟨pc + 1, fp, rest,
            cout ++ String.join (top.reverse.map fun v => toString v ++ " ") ++ "\n"⟩))
    ∧ (∀ k, run "print(42);" (2 + k) = .ok "42 \n")
    ∧ (∀ k, run "print(1, 2, 3);" (4 + k) = .ok "3 2 1 \n") := by
  refine ⟨?_, fun k => run_add _ _ 2 k (by decide!), fun k => run_add _ _ 4 k (by decide!)⟩
  intro prog pc fp rest top cout
  simp [exec, pop_many_append, print_text_eq]

/-! ## C7, C6: call and return with a value -/

/-- What `CALL f, argc` does for a user function `f` with a symbol. -/
theorem exec_call (prog : program) (m : vm) (f : String) (argc : Nat) (s : symbol)
    (hf : f ≠ "print") (hs : map_find prog.syms f = some s) :
    exec prog m (.call_inst f argc) = .ok (prog,
      { pc := s.loc, fp := (m.stack.length : Int) + 3,
        stack := m.stack ++ [m.fp, m.pc + 1, (s.nargs : Int)] ++ List.replicate s.nlocals 0,
        cout := m.cout }) := by
  simp [exec, hf, program.sym, map_index, hs]

/-- C7: for every state and every `CALL f, argc` with `f` other than `print` and
present in the symbol table, one step yields the old stack followed by the old
`fp`, the old `pc + 1`, `sym[f].nargs` and `sym[f].nlocals` zeros; `fp` is the
old stack length plus 3 and `pc` is `sym[f].loc`; the program and the output are
unchanged. -/
theorem C7_call_pushes_frame (prog : program) (m : vm) (f : String) (argc : Nat) (s : symbol)
    (hf : f ≠ "print") (hs : map_find prog.syms f = some s) :
    exec prog m (.call_inst f argc) = .ok (prog,
      { pc := s.loc, fp := (m.stack.length : Int) + 3,
        stack := m.stack ++ [m.fp, m.pc + 1, (s.nargs : Int)] ++ List.replicate s.nlocals 0,
        cout := m.cout }) :=
  exec_call prog m f argc s hf hs

/-- C7 at a concrete call: `f` has one parameter and two locals, the stack
holds the argument 5. -/
theorem C7_call_pushes_frame_witness :
    ("f" ≠ "print" ∧ map_find [("f", (⟨1, 1, 2⟩ : symbol))] "f" = some ⟨1, 1, 2⟩)
    ∧ exec ⟨[("f", ⟨1, 1, 2⟩)], [.call_inst "f" 1]⟩ ⟨0, 0, [5], ""⟩ (.call_inst "f" 1)
      = .ok (⟨[("f", ⟨1, 1, 2⟩)], [.call_inst "f" 1]⟩,
          { pc := 1, fp := ((([5] : List Int).length : Nat) : Int) + 3,
            stack := [5] ++ [0, 0 + 1, ((1 : Nat) : Int)] ++ List.replicate 2 0, cout := "" }) :=
  ⟨⟨by decide, by decide⟩,
   C7_call_pushes_frame ⟨[("f", ⟨1, 1, 2⟩)], [.call_inst "f" 1]⟩ ⟨0, 0, [5], ""⟩ "f" 1 ⟨1, 1, 2⟩
    (by decide) (by decide)⟩

/-- C6 as stated fails: in the program emitted for
`function f(x) return x; end print(f(1, 2));` the `CALL f, 2` at `pc = 6` is
executed with stack `[1, 2]`; the callee returns through its `RETVAL` at
`pc = 3`, after which `pc = 7` and `fp = 0` are restored but the stack is
`[1, 2]`: its length is 2, not 2 - 2 + 1. -/
theorem C6_two_arguments_one_parameter :
    front_end two_args_source = .ok two_args_program
    ∧ run_steps 3 two_args_program ⟨0, 0, [], ""⟩
        = .ok (two_args_program, ⟨6, 0, [1, 2], ""⟩)
    ∧ two_args_program.insts[6]? = some (.call_inst "f" 2)
    ∧ run_steps 3 two_args_program ⟨6, 0, [1, 2], ""⟩
        = .ok (two_args_program, ⟨3, 5, [1, 2, 0, 7, 1, 2, 2], ""⟩)
    ∧ two_args_program.insts[3]? = some (.return_inst true)
    ∧ step two_args_program ⟨3, 5, [1, 2, 0, 7, 1, 2, 2], ""⟩
        = .ok (two_args_program, ⟨7, 0, [1, 2], ""⟩)
    ∧ ([1, 2] : List Int).length ≠ ([1, 2] : List Int).length - 2 + 1 := by
  refine ⟨by decide!, by decide!, by decide!, by decide!, by decide!, by decide!, by decide⟩

/-- C6 amended: let `CALL f, argc` be executed on a user function `f` with
symbol `s`, in a state whose stack holds at least `s.nargs` values.  If the
callee reaches a `RETVAL` with the frame of that call intact (the same `fp`,
the pre-call stack and the triple below it, any frame contents and the return
value `ret` above), then after the `RETVAL` the stack is the pre-call stack with
its top `s.nargs` slots replaced by `ret`, so its length is the pre-call length
minus `s.nargs` plus 1, `pc` is the `CALL`'s `pc + 1` (no post-increment) and
`fp` is the caller's `fp`.  The count released is the declared `s.nargs` pushed
by `CALL`, which is the claim's `argc` exactly when the call passes as many
arguments as the function declares. -/
theorem C6_frame_balance (prog prog' : program) (m : vm) (f : String) (argc : Nat) (s : symbol)
    (frame : List Int) (ret pc' : Int) (cout' : String)
    (hf : f ≠ "print") (hs : map_find prog.syms f = some s) (hn : s.nargs ≤ m.stack.length) :
    ∃ m1, exec prog m (.call_inst f argc) = .ok (prog, m1)
      ∧ exec prog'
            ⟨pc', m1.fp, m.stack ++ [m.fp, m.pc + 1, (s.nargs : Int)] ++ frame ++ [ret], cout'⟩
            (.return_inst true)
          = .ok (prog',
              ⟨m.pc + 1, m.fp, m.stack.take (m.stack.length - s.nargs) ++ [ret], cout'⟩)
      ∧ (m.stack.take (m.stack.length - s.nargs) ++ [ret]).length
          = m.stack.length - s.nargs + 1
      ∧ (argc = s.nargs →
          (m.stack.take (m.stack.length - s.nargs) ++ [ret]).length
            = m.stack.length - argc + 1) := by
  refine ⟨_, exec_call prog m f argc s hf hs, ?_, ?_, ?_⟩
  · have hfp : (0 : Int) ≤ (m.stack.length : Int) + 3 := by omega
    have htake : List.take ((m.stack.length : Int) + 3).toNat
        (m.stack ++ [m.fp, m.pc + 1, (s.nargs : Int)] ++ frame)
          = m.stack ++ [m.fp, m.pc + 1, (s.nargs : Int)] := by
      have : ((m.stack.length : Int) + 3).toNat
          = (m.stack ++ [m.fp, m.pc + 1, (s.nargs : Int)]).length := by
        simp; omega
      rw [this, List.take_left']
      rfl
    have e1 : m.stack ++ [m.fp, m.pc + 1, (s.nargs : Int)]
        = (m.stack ++ [m.fp, m.pc + 1]) ++ [(s.nargs : Int)] := by simp
    have e2 : m.stack ++ [m.fp, m.pc + 1] = (m.stack ++ [m.fp]) ++ [m.pc + 1] := by simp
    simp only [exec, pop_stack_concat, hfp, if_true, htake]
    rw [e1, pop_stack_concat]
    simp only []
    rw [e2, pop_stack_concat]
    simp only [pop_stack_concat]
    have hneg : ¬ ((s.nargs : Int) < 0) := by omega
    simp only [hneg, if_false, Int.toNat_ofNat, pop_many_le _ _ hn]
  · simp [List.length_take]
  · intro h
    simp [List.length_take, h]

/-- C6 amended, at the call of `two_args_program`: `f` declares one parameter,
the call passes two arguments on the stack `[1, 2]`, the callee's frame holds
its local 2 and the return value is 2. -/
theorem C6_frame_balance_witness :
    ("f" ≠ "print" ∧ map_find two_args_program.syms "f" = some ⟨1, 1, 1⟩
      ∧ (1 : Nat) ≤ ([1, 2] : List Int).length)
    ∧ ∃ m1, exec two_args_program ⟨6, 0, [1, 2], ""⟩ (.call_inst "f" 2)
          = .ok (two_args_program, m1)
      ∧ exec two_args_program
            ⟨3, m1.fp, [1, 2] ++ [0, 6 + 1, ((1 : Nat) : Int)] ++ [2] ++ [2], ""⟩
            (.return_inst true)
          = .ok (two_args_program,
              ⟨6 + 1, 0, ([1, 2] : List Int).take (([1, 2] : List Int).length - 1) ++ [2], ""⟩)
      ∧ (([1, 2] : List Int).take (([1, 2] : List Int).length - 1) ++ [2]).length
          = ([1, 2] : List Int).length - 1 + 1
      ∧ (2 = 1 →
          (([1, 2] : List Int).take (([1, 2] : List Int).length - 1) ++ [2]).length
            = ([1, 2] : List Int).length - 2 + 1) :=
  ⟨⟨by decide, by decide, by decide⟩,
   C6_frame_balance two_args_program two_args_program ⟨6, 0, [1, 2], ""⟩ "f" 2 ⟨1, 1, 1⟩
    [2] 2 3 "" (by decide) (by decide) (by decide)⟩

/-! ## C9: return without a value -/

/-- C9 at the failing input: in the program emitted for
`function f(x) print(x); end f(7);` the `CALL f, 1` at `pc = 6` (caller `fp = 0`)
pushes the triple `0, 7, 1` and one local slot above it.  The callee reaches its
`RET` at `pc = 4` with stack `[7, 0, 7, 1, 7]`; `RET` pops the local slot and two
entries of the triple, so afterwards `pc = 1` and `fp = 7` instead of `pc = 7`
and `fp = 0`, and the run ends in `std::out_of_range`. -/
theorem C9_ret_pops_the_local_slot :
    front_end void_source = .ok void_program
    ∧ run_steps 2 void_program ⟨0, 0, [], ""⟩ = .ok (void_program, ⟨6, 0, [7], ""⟩)
    ∧ void_program.insts[6]? = some (.call_inst "f" 1)
    ∧ step void_program ⟨6, 0, [7], ""⟩ = .ok (void_program, ⟨1, 4, [7, 0, 7, 1, 0], ""⟩)
    ∧ run_steps 3 void_program ⟨1, 4, [7, 0, 7, 1, 0], ""⟩
        = .ok (void_program, ⟨4, 4, [7, 0, 7, 1, 7], "7 \n"⟩)
    ∧ void_program.insts[4]? = some (.return_inst false)
    ∧ step void_program ⟨4, 4, [7, 0, 7, 1, 7], "7 \n"⟩
        = .ok (void_program, ⟨1, 7, [7, 0], "7 \n"⟩)
    ∧ run void_source 8 = .error (.thrown "vector::at: out_of_range") := by
  refine ⟨by decide!, by decide!, by decide!, by decide!, by decide!, by decide!, by decide!,
    by decide!⟩

/-! ## Maps -/

/-- Lookup in a map after appending an entry. -/
theorem map_find_append {α : Type} (m : List (String × α)) (k : String) (v : α) (key : String) :
    map_find (m ++ [(k, v)]) key
      = match map_find m key with
        | some x => some x
        | none => if k = key then some v else none := by
  induction m with
  | nil => simp [map_find]
  | cons kv m ih =>
    obtain ⟨k', v'⟩ := kv
    simp only [List.cons_append, map_find]
    by_cases h : k' = key
    · simp [h]
    · simp [h, ih]

/-- `insert` keeps every existing entry. -/
theorem map_insert_kept {α : Type} (m : List (String × α)) (k : String) (v x : α) (key : String)
    (h : map_find m key = some x) : map_find (map_insert m k v) key = some x := by
  unfold map_insert
  cases hk : map_find m k with
  | some y => simpa using h
  | none => simp [map_find_append, h]

/-- After `insert` the key has an entry. -/
theorem map_insert_isSome {α : Type} (m : List (String × α)) (k : String) (v : α) :
    (map_find (map_insert m k v) k).isSome = true := by
  unfold map_insert
  cases hk : map_find m k with
  | some y => simp [hk]
  | none => simp [map_find_append, hk]

/-- An entry that appears with `insert` is the inserted one. -/
theorem map_insert_fresh {α : Type} (m : List (String × α)) (k : String) (v x : α) (key : String)
    (h0 : map_find m key = none) (h : map_find (map_insert m k v) key = some x) :
    k = key ∧ x = v := by
  unfold map_insert at h
  cases hk : map_find m k with
  | some y => simp [hk, h0] at h
  | none =>
    simp only [hk, map_find_append, h0] at h
    by_cases e : k = key
    · simp [e] at h
      exact ⟨e, h.symm⟩
    · simp [e] at h

/-- `insert` does not shrink the map. -/
theorem map_insert_length {α : Type} (m : List (String × α)) (k : String) (v : α) :
    m.length ≤ (map_insert m k v).length := by
  unfold map_insert
  cases hk : map_find m k with
  | some y => simp
  | none => simp

/-- `operator[]` does not shrink the map. -/
theorem map_index_length {α : Type} (m : List (String × α)) (k : String) (v : α) :
    m.length ≤ (map_index m k v).2.length := by
  unfold map_index
  cases hk : map_find m k with
  | some y => simp
  | none => simp

/-- Closedness survives a growth of the symbol table. -/
theorem closed_mono (syms syms' : List (String × symbol)) (insts : List instruction)
    (hk : ∀ key s, map_find syms key = some s → map_find syms' key = some s)
    (h : closed syms insts) : closed syms' insts := by
  intro inst hi label hl
  have := h inst hi label hl
  cases hf : map_find syms label with
  | none => simp [hf] at this
  | some s => simp [hk label s hf]

/-- Closedness of a concatenation. -/
theorem closed_append (syms : List (String × symbol)) (a b : List instruction)
    (ha : closed syms a) (hb : closed syms b) : closed syms (a ++ b) := by
  intro inst hi label hl
  rcases List.mem_append.mp hi with h | h
  · exact ha inst h label hl
  · exact hb inst h label hl

/-- Emitting nothing. -/
theorem emits_refl (p : program) : emits p p [] :=
  ⟨by simp, fun _ _ h => h, fun k s h0 h => by simp [h0] at h⟩

/-- Emissions compose. -/
theorem emits_trans (p q r : program) (a b : List instruction)
    (h1 : emits p q a) (h2 : emits q r b) : emits p r (a ++ b) := by
  refine ⟨by rw [h2.insts, h1.insts, List.append_assoc], ?_, ?_⟩
  · intro key s h
    exact h2.kept key s (h1.kept key s h)
  · intro key s h0 h
    have hq : (q.insts.length : Int) = p.insts.length + a.length := by
      rw [h1.insts]; simp
    have hr : (r.insts.length : Int) = q.insts.length + b.length := by
      rw [h2.insts]; simp
    cases hq' : map_find q.syms key with
    | some s' =>
      have := h2.kept key s' hq'
      rw [this] at h
      have hs : s' = s := by simpa using h
      subst hs
      have := h1.fresh key s' h0 hq'
      omega
    | none =>
      have := h2.fresh key s hq' h
      omega

/-- `push_back` of one instruction. -/
theorem emits_push (p : program) (inst : instruction) : emits p (p.push inst) [inst] :=
  ⟨rfl, fun _ _ h => h, fun k s h0 h => by simp [program.push, h0] at h⟩

/-- Inserting a symbol that points into the emitted part. -/
theorem emits_insert (p : program) (label : String) (loc : Int) (nargs nlocals : Nat)
    (hloc : loc ≤ (p.insts.length : Int)) :
    ∀ p0 a, emits p0 p a → (p0.insts.length : Int) < loc →
      emits p0 { p with syms := map_insert p.syms label ⟨loc, nargs, nlocals⟩ } a := by
  intro p0 a h hlt
  refine ⟨h.insts, ?_, ?_⟩
  · intro key s hs
    exact map_insert_kept _ _ _ _ _ (h.kept key s hs)
  · intro key s h0 hs
    cases hp : map_find p.syms key with
    | some s' =>
      have := map_insert_kept p.syms label ⟨loc, nargs, nlocals⟩ s' key hp
      simp only [this, Option.some.injEq] at hs
      subst hs
      exact h.fresh key s' h0 hp
    | none =>
      obtain ⟨_, hx⟩ := map_insert_fresh p.syms label ⟨loc, nargs, nlocals⟩ s key hp hs
      subst hx
      exact ⟨hlt, hloc⟩

/-! ## The emitter -/

/-- Appending a non-jump instruction after an expression. -/
theorem expr_effect_push (p : program) (l : locals_t) (q : program) (l' : locals_t)
    (inst : instruction) (hj : jump_label inst = none) (h : expr_effect p l q l') :
    expr_effect p l (q.push inst) l' := by
  obtain ⟨h1, h2, added, h3, h4⟩ := h
  refine ⟨h1, h2, added ++ [inst], by simp [program.push, h3], ?_⟩
  intro i hi
  rcases List.mem_append.mp hi with h | h
  · exact h4 i h
  · simp at h; subst h; exact hj

/-- Expression effects compose. -/
theorem expr_effect_trans (p : program) (l : locals_t) (q : program) (l' : locals_t)
    (r : program) (l'' : locals_t)
    (h1 : expr_effect p l q l') (h2 : expr_effect q l' r l'') : expr_effect p l r l'' := by
  obtain ⟨a1, a2, added, a3, a4⟩ := h1
  obtain ⟨b1, b2, added', b3, b4⟩ := h2
  refine ⟨by rw [b1, a1], by omega, added ++ added', by rw [b3, a3, List.append_assoc], ?_⟩
  intro i hi
  rcases List.mem_append.mp hi with h | h
  · exact a4 i h
  · exact b4 i h

/-- The effect of `compile_literal`. -/
theorem compile_literal_effect (e : expr_t) (p : program) (l : locals_t) (q : program)
    (l' : locals_t) (h : compile_literal p l e = .ok (q, l')) : expr_effect p l q l' := by
  cases e with
  | literal_number t =>
    simp only [compile_literal] at h
    cases hs : stoi t.literal with
    | error e => simp [hs] at h
    | ok num =>
      simp only [hs, Except.ok.injEq, Prod.mk.injEq] at h
      obtain ⟨rfl, rfl⟩ := h
      exact ⟨rfl, le_refl _, [_], rfl, by simp [jump_label]⟩
  | literal_id t =>
    simp only [compile_literal, Except.ok.injEq, Prod.mk.injEq] at h
    obtain ⟨rfl, rfl⟩ := h
    exact ⟨rfl, map_index_length _ _ _, [_], rfl, by simp [jump_label]⟩
  | null => simp [compile_literal] at h
  | func_call n a => simp [compile_literal] at h
  | binary_op o a b => simp [compile_literal] at h

/-- No operator is lowered to a jump. -/
theorem binary_opcode_no_jump (oplit : String) (inst : instruction)
    (h : binary_opcode oplit = .ok inst) : jump_label inst = none := by
  unfold binary_opcode at h
  repeat' split at h
  all_goals first
    | (injection h with h; subst h; rfl)
    | (injection h)

mutual
/-- The effect of `compile_expr`. -/
theorem compile_expr_effect : ∀ (e : expr_t) (p : program) (l : locals_t) (q : program)
    (l' : locals_t), compile_expr p l e = .ok (q, l') → expr_effect p l q l'
  | .null, p, l, q, l', h => by simp [compile_expr] at h
  | .literal_id t, p, l, q, l', h => by
    rw [compile_expr] at h
    exact compile_literal_effect _ p l q l' h
  | .literal_number t, p, l, q, l', h => by
    rw [compile_expr] at h
    exact compile_literal_effect _ p l q l' h
  | .func_call name args, p, l, q, l', h => by
    rw [compile_expr] at h
    cases ha : compile_arguments p l args with
    | error e => simp [ha] at h
    | ok r =>
      obtain ⟨q1, l1⟩ := r
      simp only [ha, Except.ok.injEq, Prod.mk.injEq] at h
      obtain ⟨rfl, rfl⟩ := h
      exact expr_effect_push _ _ _ _ _ rfl (compile_arguments_effect args p l q1 l1 ha)
  | .binary_op op left right, p, l, q, l', h => by
    rw [compile_expr] at h
    cases hc1 : clone left with
    | error e => simp [hc1] at h
    | ok c1 =>
      simp only [hc1] at h
      cases h1 : compile_expr p l left with
      | error e => simp [h1] at h
      | ok r1 =>
        obtain ⟨q1, l1⟩ := r1
        simp only [h1] at h
        cases hc2 : clone right with
        | error e => simp [hc2] at h
        | ok c2 =>
          simp only [hc2] at h
          cases h2 : compile_expr q1 l1 right with
          | error e => simp [h2] at h
          | ok r2 =>
            obtain ⟨q2, l2⟩ := r2
            simp only [h2] at h
            cases ho : binary_opcode op.literal with
            | error e => simp [ho] at h
            | ok inst =>
              simp only [ho, Except.ok.injEq, Prod.mk.injEq] at h
              obtain ⟨rfl, rfl⟩ := h
              exact expr_effect_push _ _ _ _ _ (binary_opcode_no_jump _ _ ho)
                (expr_effect_trans _ _ _ _ _ _ (compile_expr_effect left p l q1 l1 h1)
                  (compile_expr_effect right q1 l1 q2 l2 h2))
/-- The effect of the argument loop of `compile_function_call`. -/
theorem compile_arguments_effect : ∀ (es : List expr_t) (p : program) (l : locals_t)
    (q : program) (l' : locals_t), compile_arguments p l es = .ok (q, l') → expr_effect p l q l'
  | [], p, l, q, l', h => by
    simp only [compile_arguments, Except.ok.injEq, Prod.mk.injEq] at h
    obtain ⟨rfl, rfl⟩ := h
    exact ⟨rfl, le_refl _, [], by simp, by simp⟩
  | e :: es, p, l, q, l', h => by
    rw [compile_arguments] at h
    cases hc : clone e with
    | error x => simp [hc] at h
    | ok c =>
      simp only [hc] at h
      cases h1 : compile_expr p l e with
      | error x => simp [h1] at h
      | ok r1 =>
        obtain ⟨q1, l1⟩ := r1
        simp only [h1] at h
        exact expr_effect_trans _ _ _ _ _ _ (compile_expr_effect e p l q1 l1 h1)
          (compile_arguments_effect es q1 l1 q l' h)
end

/-- An expression effect is a statement effect. -/
theorem stmt_effect_of_expr (p : program) (l : locals_t) (q : program) (l' : locals_t)
    (h : expr_effect p l q l') : stmt_effect p l q l' := by
  obtain ⟨h1, h2, added, h3, h4⟩ := h
  refine ⟨h2, added, ⟨h3, ?_, ?_⟩, ?_⟩
  · intro key s hs; rw [h1]; exact hs
  · intro key s h0 hs; rw [h1, h0] at hs; simp at hs
  · intro inst hi label hl; rw [h4 inst hi] at hl; simp at hl

/-- Statement effects compose. -/
theorem stmt_effect_trans (p : program) (l : locals_t) (q : program) (l' : locals_t)
    (r : program) (l'' : locals_t)
    (h1 : stmt_effect p l q l') (h2 : stmt_effect q l' r l'') : stmt_effect p l r l'' := by
  obtain ⟨a1, added, a2, a3⟩ := h1
  obtain ⟨b1, added', b2, b3⟩ := h2
  exact ⟨by omega, added ++ added', emits_trans _ _ _ _ _ a2 b2,
    closed_append _ _ _ (closed_mono _ _ _ b2.kept a3) b3⟩

/-- Appending a non-jump instruction after statements. -/
theorem stmt_effect_push (p : program) (l : locals_t) (q : program) (l' : locals_t)
    (inst : instruction) (hj : jump_label inst = none) (h : stmt_effect p l q l') :
    stmt_effect p l (q.push inst) l' := by
  refine stmt_effect_trans _ _ _ _ _ _ h ⟨le_refl _, [inst], emits_push q inst, ?_⟩
  intro i hi label hl
  simp at hi; subst hi; rw [hj] at hl; simp at hl

/-- The effect of the parameter loop of `compile_func_decl`. -/
theorem compile_params_effect (nargs : Nat) : ∀ (params : List token_t) (i : Nat)
    (p : program) (nl : locals_t),
    ∃ added, (compile_params nargs params i p nl).1.insts = p.insts ++ added
      ∧ added.length = params.length
      ∧ (∀ inst ∈ added, jump_label inst = none)
      ∧ (compile_params nargs params i p nl).1.syms = p.syms
      ∧ nl.length ≤ (compile_params nargs params i p nl).2.length := by
  intro params
  induction params with
  | nil => intro i p nl; exact ⟨[], by simp [compile_params]⟩
  | cons x xs ih =>
    intro i p nl
    obtain ⟨added, h1, h2, h3, h4, h5⟩ := ih (i + 1)
      (p.push (.move_minus_fp_inst i ((nargs : Int) - ((i : Int) + 1))))
      (map_insert nl x.literal (i : Int))
    refine ⟨.move_minus_fp_inst i ((nargs : Int) - ((i : Int) + 1)) :: added, ?_, ?_, ?_, ?_, ?_⟩
    · simp only [compile_params]; rw [h1]; simp [program.push]
    · simp [h2]
    · intro inst hi
      simp only [List.mem_cons] at hi
      rcases hi with rfl | hi
      · rfl
      · exact h3 inst hi
    · simp only [compile_params]; rw [h4]; rfl
    · simp only [compile_params]
      exact le_trans (map_insert_length _ _ _) h5

/-- An entry survives a growth of the symbol table. -/
theorem isSome_kept (a b : List (String × symbol)) (label : String)
    (hk : ∀ key s, map_find a key = some s → map_find b key = some s)
    (h : (map_find a label).isSome = true) : (map_find b label).isSome = true := by
  cases hf : map_find a label with
  | none => simp [hf] at h
  | some s => simp [hk label s hf]

/-- The instruction count after an emission. -/
theorem emits_length (p q : program) (a : List instruction) (h : emits p q a) :
    (q.insts.length : Int) = p.insts.length + a.length := by
  rw [h.insts]; simp

mutual
/-- The effect of `compile_statement`. -/
theorem compile_statement_effect : ∀ (st : stmt_t) (p : program) (l : locals_t) (q : program)
    (l' : locals_t), compile_statement p l st = .ok (q, l') → stmt_effect p l q l'
  | .expr_stmt e, p, l, q, l', h => by
    rw [compile_statement] at h
    exact stmt_effect_of_expr _ _ _ _ (compile_expr_effect e p l q l' h)
  | .ret_stmt e, p, l, q, l', h => by
    rw [compile_statement] at h
    cases hc : clone e with
    | error x => simp [hc] at h
    | ok c =>
      simp only [hc] at h
      cases h1 : compile_expr p l e with
      | error x => simp [h1] at h
      | ok r1 =>
        obtain ⟨q1, l1⟩ := r1
        simp only [h1, Except.ok.injEq, Prod.mk.injEq] at h
        obtain ⟨rfl, rfl⟩ := h
        exact stmt_effect_push _ _ _ _ _ rfl
          (stmt_effect_of_expr _ _ _ _ (compile_expr_effect e p l q1 l1 h1))
  | .local_stmt name e, p, l, q, l', h => by
    rw [compile_statement] at h
    cases hc : clone e with
    | error x => simp [hc] at h
    | ok c =>
      simp only [hc] at h
      cases h1 : compile_expr p (map_insert l name.literal (l.length : Int)) e with
      | error x => simp [h1] at h
      | ok r1 =>
        obtain ⟨q1, l1⟩ := r1
        simp only [h1, Except.ok.injEq, Prod.mk.injEq] at h
        obtain ⟨rfl, rfl⟩ := h
        have e1 := stmt_effect_push _ _ _ _ (.move_plus_fp_inst l.length) rfl
          (stmt_effect_of_expr _ _ _ _ (compile_expr_effect e p _ q1 l1 h1))
        exact ⟨le_trans (map_insert_length _ _ _) e1.1, e1.2⟩
  | .if_stmt cond then_body else_body, p, l, q, l', h => by
    rw [compile_statement] at h
    cases hc : clone cond with
    | error x => simp [hc] at h
    | ok c =>
      simp only [hc] at h
      cases h1 : compile_expr p l cond with
      | error x => simp [h1] at h
      | ok r1 =>
        obtain ⟨q1, l1⟩ := r1
        simp only [h1] at h
        cases h2 : compile_block
            (q1.push (.jump_if_zero_inst ("label_else_" ++ toString p.insts.length))) l1
            then_body with
        | error x => simp [h2] at h
        | ok r2 =>
          obtain ⟨q2, l2⟩ := r2
          simp only [h2] at h
          cases h3 : compile_block
              { (q2.push (.jump_inst ("label_out_" ++ toString p.insts.length))) with
                syms := map_insert
                  (q2.push (.jump_inst ("label_out_" ++ toString p.insts.length))).syms
                  ("label_else_" ++ toString p.insts.length)
                  ⟨(q2.push (.jump_inst ("label_out_" ++ toString p.insts.length))).insts.length,
                    0, 0⟩ }
              l2 else_body with
          | error x => simp [h3] at h
          | ok r3 =>
            obtain ⟨q3, l3⟩ := r3
            simp only [h3, Except.ok.injEq, Prod.mk.injEq] at h
            obtain ⟨rfl, rfl⟩ := h
            obtain ⟨n1, a1, E1, C1⟩ :=
              stmt_effect_of_expr _ _ _ _ (compile_expr_effect cond p l q1 l1 h1)
            obtain ⟨n2, a2, E2, C2⟩ := compile_block_effect then_body _ l1 q2 l2 h2
            obtain ⟨n3, a3, E3, C3⟩ := compile_block_effect else_body _ l2 q3 l3 h3
            have EA := emits_trans _ _ _ _ _
              (emits_trans _ _ _ _ _ (emits_trans _ _ _ _ _ E1 (emits_push q1 _)) E2)
              (emits_push q2 (.jump_inst ("label_out_" ++ toString p.insts.length)))
            have LA := emits_length _ _ _ EA
            have EB := emits_insert _ ("label_else_" ++ toString p.insts.length)
              ((q2.push (.jump_inst ("label_out_" ++ toString p.insts.length))).insts.length)
              0 0 (le_refl _) p _ EA (by rw [LA]; simp; omega)
            have EC := emits_trans _ _ _ _ _ EB E3
            have LC := emits_length _ _ _ EC
            have ED := emits_insert q3 ("label_out_" ++ toString p.insts.length)
              (q3.insts.length) 0 0 (le_refl _) p _ EC (by rw [LC]; simp; omega)
            refine ⟨by omega, _, ED, ?_⟩
            have K3 : ∀ key s, map_find q3.syms key = some s →
                map_find (map_insert q3.syms ("label_out_" ++ toString p.insts.length)
                  ⟨q3.insts.length, 0, 0⟩) key = some s :=
              fun key s hs => map_insert_kept _ _ _ _ _ hs
            have Kelse : ∀ key s, map_find q2.syms key = some s →
                map_find q3.syms key = some s := by
              intro key s hs
              exact E3.kept key s (map_insert_kept _ _ _ _ _ hs)
            intro inst hi label hl
            simp only [List.mem_append, List.mem_singleton] at hi
            rcases hi with (((hi | hi) | hi) | hi) | hi
            · exact isSome_kept _ _ _ K3 (isSome_kept _ _ _ Kelse
                (isSome_kept _ _ _ E2.kept (C1 inst hi label hl)))
            · subst hi
              simp only [jump_label, Option.some.injEq] at hl
              subst hl
              exact isSome_kept _ _ _ K3 (isSome_kept _ _ _ E3.kept (map_insert_isSome _ _ _))
            · exact isSome_kept _ _ _ K3 (isSome_kept _ _ _ Kelse (C2 inst hi label hl))
            · subst hi
              simp only [jump_label, Option.some.injEq] at hl
              subst hl
              exact map_insert_isSome _ _ _
            · exact isSome_kept _ _ _ K3 (C3 inst hi label hl)
  | .func_decl name params body, p, l, q, l', h => by
    rw [compile_statement] at h
    obtain ⟨aP, P1, P2, P3, P4, P5⟩ := compile_params_effect params.length params 0
      (p.push (.jump_inst ("function_done_" ++ toString p.insts.length))) []
    cases hP : compile_params params.length params 0
        (p.push (.jump_inst ("function_done_" ++ toString p.insts.length))) [] with
    | mk pP nl =>
      rw [hP] at P1 P4 P5
      simp only [hP] at h
      cases hB : compile_block pP nl body with
      | error x => simp [hB] at h
      | ok rB =>
        obtain ⟨pB, nl'⟩ := rB
        simp only [hB, Except.ok.injEq, Prod.mk.injEq] at h
        obtain ⟨rfl, rfl⟩ := h
        obtain ⟨n2, aB, EB, CB⟩ := compile_block_effect body pP nl pB nl' hB
        have E0 := emits_push p (.jump_inst ("function_done_" ++ toString p.insts.length))
        have EP : emits (p.push (.jump_inst ("function_done_" ++ toString p.insts.length)))
            pP aP :=
          ⟨P1, fun key s hs => by rw [P4]; exact hs,
            fun key s h0 hs => by rw [P4, h0] at hs; simp at hs⟩
        have ER : ∃ aR, emits pB (if back_is_return pB = true then pB
            else pB.push (.return_inst false)) aR ∧ ∀ inst ∈ aR, jump_label inst = none := by
          by_cases hb : back_is_return pB = true
          · simp only [hb, if_true]
            exact ⟨[], emits_refl _, by simp⟩
          · simp only [hb, if_false]
            exact ⟨[_], emits_push _ _, by simp [jump_label]⟩
        obtain ⟨aR, ER, CR⟩ := ER
        have EA := emits_trans _ _ _ _ _ (emits_trans _ _ _ _ _ (emits_trans _ _ _ _ _ E0 EP) EB) ER
        have LA := emits_length _ _ _ EA
        have EF := emits_insert _ name.literal
          ((p.push (.jump_inst ("function_done_" ++ toString p.insts.length))).insts.length)
          params.length nl'.length
          (by rw [LA]; simp [program.push]; omega) p _ EA (by simp [program.push])
        refine ⟨le_refl _, _, emits_insert _ _ _ 0 0 (le_refl _) p _ EF ?_, ?_⟩
        · show (p.insts.length : Int) < ((if back_is_return pB = true then pB
            else pB.push (.return_inst false)).insts.length : Int)
          rw [LA]; simp; omega
        intro inst hi label hl
        simp only [List.mem_append, List.mem_singleton] at hi
        rcases hi with ((hi | hi) | hi) | hi
        · subst hi
          simp only [jump_label, Option.some.injEq] at hl
          subst hl
          exact map_insert_isSome _ _ _
        · rw [P3 inst hi] at hl; simp at hl
        · refine isSome_kept _ _ _ (fun key s hs => map_insert_kept _ _ _ _ _ hs)
            (isSome_kept _ _ _ (fun key s hs => map_insert_kept _ _ _ _ _ hs)
              (isSome_kept _ _ _ ER.kept (CB inst hi label hl)))
        · rw [CR inst hi] at hl; simp at hl
/-- The effect of a statement loop. -/
theorem compile_block_effect : ∀ (sts : List stmt_t) (p : program) (l : locals_t)
    (q : program) (l' : locals_t), compile_block p l sts = .ok (q, l') → stmt_effect p l q l'
  | [], p, l, q, l', h => by
    simp only [compile_block, Except.ok.injEq, Prod.mk.injEq] at h
    obtain ⟨rfl, rfl⟩ := h
    exact ⟨le_refl _, [], emits_refl _, by intro i hi; simp at hi⟩
  | st :: sts, p, l, q, l', h => by
    rw [compile_block] at h
    cases h1 : compile_statement p l st with
    | error x => simp [h1] at h
    | ok r1 =>
      obtain ⟨q1, l1⟩ := r1
      simp only [h1] at h
      exact stmt_effect_trans _ _ _ _ _ _ (compile_statement_effect st p l q1 l1 h1)
        (compile_block_effect sts q1 l1 q l' h)
end

/-! ## The prologue on the machine -/

/-- `stack.at(i)` at an index in range. -/
theorem stack_at_nat (stack : List Int) (i : Nat) (v : Int) (h : stack[i]? = some v) :
    stack_at stack (i : Int) = .ok v := by
  simp [stack_at, h]

/-- `stack.at(i) = v` at an index in range. -/
theorem stack_set_nat (stack : List Int) (i : Nat) (v : Int) (h : i < stack.length) :
    stack_set stack (i : Int) v = .ok (stack.set i v) := by
  simp [stack_set, h]

/-- Filling slot `j` of a partly filled frame. -/
theorem take_set_replicate (args : List Int) (j nl : Nat) (hj : j < args.length) (hnl : j < nl) :
    (args.take j ++ List.replicate (nl - j) 0).set j (args[j])
      = args.take (j + 1) ++ List.replicate (nl - (j + 1)) 0 := by
  have h1 : nl - j = (nl - (j + 1)) + 1 := by omega
  rw [h1, List.replicate_succ]
  have hl : (args.take j).length = j := by simp; omega
  rw [List.set_append_right _ _ (by omega), hl]
  rw [Nat.sub_self, List.set_cons_zero, ← List.take_concat_get args j hj,
    List.concat_eq_append, List.append_assoc, List.singleton_append]

/-- One prologue instruction copies one argument into its slot. -/
theorem prologue_step (prog : program) (entry : Nat) (base args t : List Int) (nl : Nat)
    (cout : String) (ht : t.length = 3) (hnl : args.length ≤ nl)
    (hins : ∀ i, i < args.length → prog.insts[entry + i]?
      = some (.move_minus_fp_inst i ((args.length : Int) - ((i : Int) + 1))))
    (j : Nat) (hj : j < args.length) :
    step prog (prologue_state entry base args t nl cout j)
      = .ok (prog, prologue_state entry base args t nl cout (j + 1)) := by
  have hfetch : ((entry : Int) + j).toNat = entry + j := by omega
  have hsrc : (base.length : Int) + args.length + 3 - ((args.length : Int) - ((j : Int) + 1) + 4)
      = ((base.length + j : Nat) : Int) := by push_cast; omega
  have hdst : (base.length : Int) + args.length + 3 + (j : Int)
      = (((base ++ args ++ t).length + j : Nat) : Int) := by
    simp [ht]; omega
  have hget : (base ++ args ++ t ++ (args.take j ++ List.replicate (nl - j) 0))[base.length + j]?
      = some (args[j]) := by
    rw [List.append_assoc, List.append_assoc, List.getElem?_append_right (by omega)]
    simp only [Nat.add_sub_cancel_left]
    rw [List.getElem?_append_left (by omega)]
    exact List.getElem?_eq_getElem hj
  have hlen : (base ++ args ++ t).length + j
      < (base ++ args ++ t ++ (args.take j ++ List.replicate (nl - j) 0)).length := by
    simp; omega
  simp only [step, prologue_state, hfetch, hins j hj, exec, hsrc, hdst]
  rw [stack_at_nat _ _ _ hget]
  simp only []
  rw [stack_set_nat _ _ _ hlen]
  simp only []
  rw [List.set_append_right _ _ (by omega)]
  simp only [Nat.add_sub_cancel_left]
  rw [take_set_replicate args j nl hj (by omega)]
  have hpc : (entry : Int) + (j : Int) + 1 = (entry : Int) + ((j + 1 : Nat) : Int) := by
    push_cast; omega
  rw [hpc]

/-- The prologue instructions copy the arguments slot by slot. -/
theorem prologue_run (prog : program) (entry : Nat) (base args t : List Int) (nl : Nat)
    (cout : String) (ht : t.length = 3) (hnl : args.length ≤ nl)
    (hins : ∀ i, i < args.length → prog.insts[entry + i]?
      = some (.move_minus_fp_inst i ((args.length : Int) - ((i : Int) + 1)))) :
    ∀ (k j : Nat), j + k ≤ args.length →
      run_steps k prog (prologue_state entry base args t nl cout j)
        = .ok (prog, prologue_state entry base args t nl cout (j + k)) := by
  intro k
  induction k with
  | zero => intro j _; rfl
  | succ k ih =>
    intro j hjk
    rw [run_steps, prologue_step prog entry base args t nl cout ht hnl hins j (by omega)]
    simp only []
    rw [ih (j + 1) (by omega)]
    congr 3
    omega

/-! ## Function declarations -/

/-- The instruction the parameter loop emits for parameter `k`. -/
theorem compile_params_insts (nargs : Nat) : ∀ (params : List token_t) (i : Nat)
    (p : program) (nl : locals_t) (k : Nat), k < params.length →
    (compile_params nargs params i p nl).1.insts[p.insts.length + k]?
      = some (.move_minus_fp_inst (i + k) ((nargs : Int) - (((i + k : Nat) : Int) + 1))) := by
  intro params
  induction params with
  | nil => intro i p nl k hk; simp at hk
  | cons x xs ih =>
    intro i p nl k hk
    simp only [compile_params]
    cases k with
    | zero =>
      obtain ⟨added, h1, _⟩ := compile_params_effect nargs xs (i + 1)
        (p.push (.move_minus_fp_inst i ((nargs : Int) - ((i : Int) + 1))))
        (map_insert nl x.literal (i : Int))
      rw [h1]
      simp only [program.push, Nat.add_zero]
      rw [List.append_assoc, List.getElem?_append_right (le_refl _)]
      simp
    | succ k =>
      have := ih (i + 1) (p.push (.move_minus_fp_inst i ((nargs : Int) - ((i : Int) + 1))))
        (map_insert nl x.literal (i : Int)) k (by simpa using hk)
      have e : (p.push (.move_minus_fp_inst i ((nargs : Int) - ((i : Int) + 1)))).insts.length
          = p.insts.length + 1 := by simp [program.push]
      rw [e] at this
      rw [show p.insts.length + (k + 1) = p.insts.length + 1 + k by omega, this]
      congr 2
      · omega
      · push_cast; omega

/-- Pairwise distinct new parameter names each get a slot. -/
theorem compile_params_locals (nargs : Nat) : ∀ (params : List token_t) (i : Nat)
    (p : program) (nl : locals_t),
    (params.map fun t => t.literal).Nodup →
    (∀ x ∈ params, map_find nl x.literal = none) →
    (compile_params nargs params i p nl).2.length = nl.length + params.length := by
  intro params
  induction params with
  | nil => intro i p nl _ _; simp [compile_params]
  | cons x xs ih =>
    intro i p nl hnd hnone
    simp only [compile_params]
    have hx : map_find nl x.literal = none := hnone x (by simp)
    have hins : map_insert nl x.literal (i : Int) = nl ++ [(x.literal, (i : Int))] := by
      simp [map_insert, hx]
    rw [hins]
    simp only [List.map_cons, List.nodup_cons] at hnd
    rw [ih (i + 1) _ _ hnd.2]
    · simp; omega
    · intro y hy
      rw [map_find_append, hnone y (by simp [hy])]
      have : x.literal ≠ y.literal := by
        intro e
        exact hnd.1 (by rw [e]; exact List.mem_map_of_mem _ hy)
      simp [this]

/-- What a function declaration leaves in the program when its name resolves to
it: the prologue at its entry, its parameter count, and at least as many local
slots as parameters. -/
theorem func_decl_shape (p : program) (l : locals_t) (name : token_t) (params : List token_t)
    (body : List stmt_t) (q : program) (l' : locals_t) (s : symbol)
    (hc : compile_statement p l (.func_decl name params body) = .ok (q, l'))
    (hnodup : (params.map fun t => t.literal).Nodup)
    (hfresh : map_find p.syms name.literal = none)
    (hs : map_find q.syms name.literal = some s)
    (hloc : s.loc = (p.insts.length : Int) + 1) :
    (∀ k, k < params.length → q.insts[p.insts.length + 1 + k]?
        = some (.move_minus_fp_inst k ((params.length : Int) - ((k : Int) + 1))))
    ∧ s.nargs = params.length ∧ params.length ≤ s.nlocals := by
  rw [compile_statement] at hc
  have hI := compile_params_insts params.length params 0
    (p.push (.jump_inst ("function_done_" ++ toString p.insts.length))) []
  have hL := compile_params_locals params.length params 0
    (p.push (.jump_inst ("function_done_" ++ toString p.insts.length))) [] hnodup
    (by intro x _; rfl)
  obtain ⟨aP, P1, P2, P3, P4, P5⟩ := compile_params_effect params.length params 0
    (p.push (.jump_inst ("function_done_" ++ toString p.insts.length))) []
  cases hP : compile_params params.length params 0
      (p.push (.jump_inst ("function_done_" ++ toString p.insts.length))) [] with
  | mk pP nl =>
    rw [hP] at P1 P4 P5 hI hL
    simp only [hP] at hc
    cases hB : compile_block pP nl body with
    | error x => simp [hB] at hc
    | ok rB =>
      obtain ⟨pB, nl'⟩ := rB
      simp only [hB, Except.ok.injEq, Prod.mk.injEq] at hc
      obtain ⟨rfl, rfl⟩ := hc
      obtain ⟨n2, aB, EB, CB⟩ := compile_block_effect body pP nl pB nl' hB
      have hpush : (p.push (.jump_inst ("function_done_" ++ toString p.insts.length))).insts.length
          = p.insts.length + 1 := by simp [program.push]
      have hPlen : pP.insts.length = p.insts.length + 1 + params.length := by
        rw [P1, List.length_append, hpush, P2]
      have hRins : ∃ aR, (if back_is_return pB = true then pB
          else pB.push (.return_inst false)).insts = pP.insts ++ aB ++ aR := by
        by_cases hb : back_is_return pB = true
        · simp only [hb, if_true]; exact ⟨[], by rw [EB.insts]; simp⟩
        · simp only [hb, if_false]
          exact ⟨[.return_inst false], by simp [program.push, EB.insts]⟩
      obtain ⟨aR, hR⟩ := hRins
      have hRsyms : (if back_is_return pB = true then pB
          else pB.push (.return_inst false)).syms = pB.syms := by
        by_cases hb : back_is_return pB = true
        · simp only [hb, if_true]
        · simp only [hb, if_false]; rfl
      refine ⟨?_, ?_⟩
      · intro k hk
        show (if back_is_return pB = true then pB
          else pB.push (.return_inst false)).insts[p.insts.length + 1 + k]? = _
        rw [hR, List.append_assoc, List.getElem?_append_left (by omega)]
        have := hI k hk
        rw [hpush] at this
        simpa using this
      · simp only [hRsyms] at hs
        cases hfB : map_find pB.syms name.literal with
        | some s' =>
          have h1 := map_insert_kept pB.syms name.literal
            ⟨(p.push (.jump_inst ("function_done_" ++ toString p.insts.length))).insts.length,
              params.length, nl'.length⟩ s' name.literal hfB
          have h2 := map_insert_kept _ ("function_done_" ++ toString p.insts.length)
            ⟨((if back_is_return pB = true then pB
              else pB.push (.return_inst false)).insts.length : Int), 0, 0⟩ s' name.literal h1
          rw [h2] at hs
          have hs' : s' = s := by simpa using hs
          subst hs'
          have hnone : map_find pP.syms name.literal = none := by rw [P4]; exact hfresh
          have := EB.fresh name.literal s' hnone hfB
          rw [hPlen] at this
          push_cast at this
          omega
        | none =>
          have h1 : map_find (map_insert pB.syms name.literal
              ⟨(p.push (.jump_inst ("function_done_" ++ toString p.insts.length))).insts.length,
                params.length, nl'.length⟩) name.literal
              = some ⟨(p.push (.jump_inst
                  ("function_done_" ++ toString p.insts.length))).insts.length,
                params.length, nl'.length⟩ := by
            simp [map_insert, hfB, map_find_append]
          have h2 := map_insert_kept _ ("function_done_" ++ toString p.insts.length)
            ⟨((if back_is_return pB = true then pB
              else pB.push (.return_inst false)).insts.length : Int), 0, 0⟩ _ name.literal h1
          rw [h2] at hs
          have hs' := (Option.some.inj hs).symm
          subst hs'
          refine ⟨rfl, ?_⟩
          show params.length ≤ nl'.length
          have : nl.length = params.length := by simpa using hL
          omega

/-! ## C8: emitter and VM agree on the frame -/

/-- C8 as stated fails: `function f(x, x) return x; end print(f(1, 2));` declares
`f` with two parameters of the same name; the emitter counts one local slot
(`nlocals = 1`) and emits two prologue instructions.  After `CALL f, 2` on the
stack `[1, 2]` the first prologue instruction fills slot 0, the second one
addresses `stack[fp + 1]` past the end of the stack and throws
`std::out_of_range`: slot 1 never holds the second argument. -/
theorem C8_duplicate_parameter_names :
    front_end dup_source = .ok dup_program
    ∧ run_steps 3 dup_program ⟨0, 0, [], ""⟩ = .ok (dup_program, ⟨7, 0, [1, 2], ""⟩)
    ∧ dup_program.insts[7]? = some (.call_inst "f" 2)
    ∧ step dup_program ⟨7, 0, [1, 2], ""⟩ = .ok (dup_program, ⟨1, 5, [1, 2, 0, 8, 2, 0], ""⟩)
    ∧ dup_program.insts[1]? = some (.move_minus_fp_inst 0 1)
    ∧ dup_program.insts[2]? = some (.move_minus_fp_inst 1 0)
    ∧ step dup_program ⟨1, 5, [1, 2, 0, 8, 2, 0], ""⟩
        = .ok (dup_program, ⟨2, 5, [1, 2, 0, 8, 2, 1], ""⟩)
    ∧ step dup_program ⟨2, 5, [1, 2, 0, 8, 2, 1], ""⟩
        = .error (.thrown "vector::at: out_of_range") := by
  refine ⟨by decide!, by decide!, by decide!, by decide!, by decide!, by decide!, by decide!,
    by decide!⟩

/-- C8 amended: let `function f(p_0 .. p_{N-1}) body end` be lowered (with
success) into a program that had no symbol `f`, with pairwise distinct parameter
names, `f` other than `print`, and let the symbol table resolve `f` to this
declaration (`sym[f].loc` is its entry).  In every program that extends the
emitted one and keeps that symbol, `CALL f, N` executed with the arguments
`a_1 .. a_N` on top of the stack enters the function with
`fp = |base| + N + 3`; on entry argument `a_{i+1}` is at `stack[fp - (3 + N - i)]`
(so `a_N` at `fp - 4` and `a_1` at `fp - (3 + N)`); the `N` instructions at the
entry are `ST_FP -(N-i-1) -> +i`, and after they have run `stack[fp + i]` holds
`a_{i+1}` for every `i < N`, with `fp` unchanged and `pc` past the prologue. -/
theorem C8_prologue_fills_slots
    (p : program) (l : locals_t) (name : token_t) (params : List token_t) (body : List stmt_t)
    (q : program) (l' : locals_t) (s : symbol) (prog : program) (rest : List instruction)
    (m : vm) (base args : List Int)
    (hc : compile_statement p l (.func_decl name params body) = .ok (q, l'))
    (hnodup : (params.map fun t => t.literal).Nodup)
    (hname : name.literal ≠ "print")
    (hfresh : map_find p.syms name.literal = none)
    (hs : map_find q.syms name.literal = some s)
    (hloc : s.loc = (p.insts.length : Int) + 1)
    (hprog : prog.insts = q.insts ++ rest)
    (hsym : map_find prog.syms name.literal = some s)
    (hstack : m.stack = base ++ args) (hargs : args.length = params.length) :
    ∃ m1 m2,
      exec prog m (.call_inst name.literal params.length) = .ok (prog, m1)
      ∧ m1.pc = (p.insts.length : Int) + 1
      ∧ m1.fp = (base.length : Int) + params.length + 3
      ∧ (∀ i (hi : i < args.length),
          stack_at m1.stack (m1.fp - (3 + (args.length : Int) - (i : Int))) = .ok args[i])
      ∧ (∀ k, k < params.length → prog.insts[p.insts.length + 1 + k]?
          = some (.move_minus_fp_inst k ((params.length : Int) - ((k : Int) + 1))))
      ∧ run_steps params.length prog m1 = .ok (prog, m2)
      ∧ m2.pc = (p.insts.length : Int) + 1 + params.length
      ∧ m2.fp = m1.fp
      ∧ (∀ i (hi : i < args.length), stack_at m2.stack (m2.fp + (i : Int)) = .ok args[i]) := by
  obtain ⟨hins, hnargs, hnl⟩ := func_decl_shape p l name params body q l' s hc hnodup hfresh hs hloc
  have hins' : ∀ i, i < args.length → prog.insts[p.insts.length + 1 + i]?
      = some (.move_minus_fp_inst i ((args.length : Int) - ((i : Int) + 1))) := by
    intro i hi
    have h1 := hins i (by omega)
    have hlt : p.insts.length + 1 + i < q.insts.length := by
      by_contra hge
      rw [List.getElem?_eq_none (by omega)] at h1
      simp at h1
    rw [hprog, List.getElem?_append_left hlt, h1, hargs]
  have hm1 : exec prog m (.call_inst name.literal params.length) = .ok (prog,
      prologue_state (p.insts.length + 1) base args [m.fp, m.pc + 1, (s.nargs : Int)]
        s.nlocals m.cout 0) := by
    rw [exec_call prog m name.literal params.length s hname hsym]
    simp only [prologue_state, hstack, hloc]
    congr 2
    simp
  have hrun := prologue_run prog (p.insts.length + 1) base args
    [m.fp, m.pc + 1, (s.nargs : Int)] s.nlocals m.cout rfl (by omega) hins' args.length 0
    (by omega)
  refine ⟨_, prologue_state (p.insts.length + 1) base args [m.fp, m.pc + 1, (s.nargs : Int)]
    s.nlocals m.cout (0 + args.length), hm1, ?_, ?_, ?_, ?_, ?_, ?_, ?_, ?_⟩
  · simp [prologue_state]
  · simp [prologue_state, hargs]
  · intro i hi
    have hidx : (base.length : Int) + args.length + 3 - (3 + (args.length : Int) - (i : Int))
        = ((base.length + i : Nat) : Int) := by push_cast; omega
    simp only [prologue_state, hidx]
    apply stack_at_nat
    rw [List.append_assoc, List.append_assoc, List.getElem?_append_right (by omega)]
    simp only [Nat.add_sub_cancel_left]
    rw [List.getElem?_append_left (by omega)]
    exact List.getElem?_eq_getElem hi
  · intro k hk
    have := hins' k (by omega)
    rw [this, hargs]
  · rw [← hargs]; exact hrun
  · simp [prologue_state, hargs]
  · simp [prologue_state]
  · intro i hi
    have hidx : (base.length : Int) + args.length + 3 + (i : Int)
        = (((base ++ args ++ [m.fp, m.pc + 1, (s.nargs : Int)]).length + i : Nat) : Int) := by
      simp; omega
    simp only [prologue_state, hidx, Nat.zero_add]
    apply stack_at_nat
    rw [List.getElem?_append_right (by omega)]
    simp only [Nat.add_sub_cancel_left]
    rw [List.getElem?_append_left (by simp; omega)]
    rw [List.getElem?_take_of_lt (by omega)]
    exact List.getElem?_eq_getElem hi

/-- C8 amended, at the call `succ(41)` of `succ_source`: one parameter, the
argument 41 on an otherwise empty stack. -/
theorem C8_prologue_fills_slots_witness :
    ∃ m1 m2,
      exec succ_program ⟨7, 0, [41], ""⟩ (.call_inst succ_name.literal succ_params.length)
        = .ok (succ_program, m1)
      ∧ m1.pc = ((⟨[], []⟩ : program).insts.length : Int) + 1
      ∧ m1.fp = (([] : List Int).length : Int) + succ_params.length + 3
      ∧ (∀ i (hi : i < ([41] : List Int).length),
          stack_at m1.stack (m1.fp - (3 + (([41] : List Int).length : Int) - (i : Int)))
            = .ok ([41] : List Int)[i])
      ∧ (∀ k, k < succ_params.length →
          succ_program.insts[(⟨[], []⟩ : program).insts.length + 1 + k]?
            = some (.move_minus_fp_inst k ((succ_params.length : Int) - ((k : Int) + 1))))
      ∧ run_steps succ_params.length succ_program m1 = .ok (succ_program, m2)
      ∧ m2.pc = ((⟨[], []⟩ : program).insts.length : Int) + 1 + succ_params.length
      ∧ m2.fp = m1.fp
      ∧ (∀ i (hi : i < ([41] : List Int).length),
          stack_at m2.stack (m2.fp + (i : Int)) = .ok ([41] : List Int)[i]) :=
  C8_prologue_fills_slots ⟨[], []⟩ [] succ_name succ_params succ_body succ_decl_program []
    ⟨1, 1, 1⟩ succ_program [.store_inst 41, .call_inst "succ" 1, .call_inst "print" 1]
    ⟨7, 0, [41], ""⟩ [] [41]
    (by decide!) (by decide) (by decide) (by decide) (by decide) (by decide) (by decide)
    (by decide) (by decide) (by decide)

/-! ## C10: label closure -/

/-- C10 as stated fails: the tree of `print(42);` is lowered to
`PUSH 42; CALL print, 1` with an empty symbol table, so the label named by the
`CALL` has no entry. -/
theorem C10_call_print_has_no_symbol :
    compile print42_tree = .ok ⟨[], [.store_inst 42, .call_inst "print" 1]⟩
    ∧ front_end "print(42);" = .ok ⟨[], [.store_inst 42, .call_inst "print" 1]⟩
    ∧ call_label (.call_inst "print" 1) = some "print"
    ∧ map_find ([] : List (String × symbol)) "print" = none := by
  refine ⟨by decide!, by decide!, by decide, by decide⟩

/-- C10 amended: for every AST on which emission succeeds, every label named by
a `JMP`, `JZ` or `JNZ` instruction of the emitted program has an entry in the
program's symbol table.  (`CALL` is left out: the emitter writes `CALL name` for
any called name and never enters `print`.) -/
theorem C10_jump_labels_have_symbols (tree : ast) (prog : program)
    (h : compile tree = .ok prog) :
    ∀ inst ∈ prog.insts, ∀ label,
      (inst = .jump_inst label ∨ inst = .jump_if_zero_inst label
        ∨ inst = .jump_if_not_zero_inst label) →
      ∃ s, map_find prog.syms label = some s := by
  unfold compile at h
  cases hb : compile_block ⟨[], []⟩ [] tree with
  | error e => simp [hb] at h
  | ok r =>
    obtain ⟨q, l⟩ := r
    simp only [hb, Except.ok.injEq] at h
    subst h
    obtain ⟨_, added, E, C⟩ := compile_block_effect tree ⟨[], []⟩ [] q l hb
    intro inst hi label hl
    have hi' : inst ∈ added := by
      have := E.insts
      simp only [List.nil_append] at this
      rw [this] at hi
      exact hi
    have hj : jump_label inst = some label := by
      rcases hl with rfl | rfl | rfl <;> rfl
    have := C inst hi' label hj
    exact Option.isSome_iff_exists.mp this

/-- C10 amended, at the tree of an `if` statement: both generated labels are in
the symbol table. -/
theorem C10_jump_labels_have_symbols_witness :
    compile if_tree = .ok if_program
    ∧ ∀ inst ∈ if_program.insts, ∀ label,
      (inst = .jump_inst label ∨ inst = .jump_if_zero_inst label
        ∨ inst = .jump_if_not_zero_inst label) →
      ∃ s, map_find if_program.syms label = some s :=
  ⟨by decide!, C10_jump_labels_have_symbols if_tree if_program (by decide!)⟩

/-! ## The lexer as a scanner of the unread text -/

theorem advance_zero (l : location) : l.advance 0 = l := rfl

theorem step_advance (l : location) (n : Nat) :
    (l.step false).advance n = l.advance (n + 1) := by
  simp [location.step, location.advance, Nat.add_comm, Nat.add_left_comm]

theorem advance_offset (l : location) (n : Nat) : (l.advance n).offset = l.offset + n := rfl

theorem steps_offset (ws : List Char) : ∀ l : location, (l.steps ws).offset = l.offset + ws.length := by
  induction ws with
  | nil => intro l; rfl
  | cons c cs ih =>
    intro l
    rw [location.steps, ih]
    cases h : (c == '\n') <;> simp [location.step, Nat.add_comm, Nat.add_left_comm]

theorem seekg_data (f : ifstream) (off : Nat) : (f.seekg off).data = f.data := by
  unfold ifstream.seekg; split <;> rfl

theorem seekg_failbit (f : ifstream) (off : Nat) : (f.seekg off).failbit = f.failbit := by
  unfold ifstream.seekg; split <;> rfl

theorem seekg_sound (f : ifstream) (off : Nat) (h : f.failbit = false) :
    f.seekg off = ⟨f.data, f.data.drop off, false, false⟩ := by
  unfold ifstream.seekg; simp [h]

theorem get_cons (D : List Char) (x : Char) (Y : List Char) :
    ifstream.get ⟨D, x :: Y, false, false⟩ = (some x, ⟨D, Y, false, false⟩) := rfl

theorem get_nil (D : List Char) :
    ifstream.get ⟨D, [], false, false⟩ = (none, ⟨D, [], true, true⟩) := rfl

theorem match_word_none (word : List Char) (f : ifstream) (loc : location) :
    match_word word f none loc = (!word.isEmpty, loc, f) := by
  cases word <;> simp [match_word]

theorem match_word_scan (D : List Char) : ∀ (word : List Char) (x : Char) (Y : List Char)
    (loc : location), ∃ f, match_word word ⟨D, Y, false, false⟩ (some x) loc
      = ((word_scan word (x :: Y)).1, loc.advance (word_scan word (x :: Y)).2.1, f)
      ∧ f.data = D ∧ f.failbit = (word_scan word (x :: Y)).2.2 := by
  intro word
  induction word with
  | nil => intro x Y loc; exact ⟨_, rfl, rfl, rfl⟩
  | cons y v ih =>
    intro x Y loc
    by_cases hxy : x = y
    · subst hxy
      cases Y with
      | nil =>
        refine ⟨⟨D, [], true, true⟩, ?_, rfl, ?_⟩
        · simp only [match_word, bne_self_eq_false, Bool.false_eq_true, if_false, get_nil,
            match_word_none, word_scan]
          cases v <;> simp [word_scan, location.step, location.advance]
        · cases v <;> simp [word_scan]
      | cons x' Y' =>
        obtain ⟨f, h1, h2, h3⟩ := ih x' Y' (loc.step false)
        refine ⟨f, ?_, h2, ?_⟩
        · simp only [match_word, bne_self_eq_false, Bool.false_eq_true, if_false, get_cons, h1,
            word_scan, step_advance]
        · simp only [word_scan, bne_self_eq_false, Bool.false_eq_true, if_false, h3]
    · refine ⟨⟨D, Y, false, false⟩, ?_, rfl, ?_⟩
      · have : (some x != some y) = true := by simp [hxy]
        have h2 : (x != y) = true := by simp [hxy]
        simp only [match_word, this, if_true, word_scan, h2, advance_zero]
      · have h2 : (x != y) = true := by simp [hxy]
        simp only [word_scan, h2, if_true]

theorem eat_keyword_loop_scan (D : List Char) (loc : location) (T : List Char)
    (hT : D.drop loc.offset = T) : ∀ (kws : List String) (f : ifstream)
    (res : Option (String × Nat × Bool)), f.data = D → f.failbit = false →
    word_find T kws = some res →
    ∃ f', eat_keyword_loop loc kws f = (scan_yield token_kind.t_keyword loc res, f')
      ∧ f'.data = D ∧ f'.failbit = scan_failed res := by
  intro kws
  induction kws with
  | nil =>
    intro f res hd hf h
    simp only [word_find, Option.some.injEq] at h
    subst h
    exact ⟨f, rfl, hd, hf⟩
  | cons w more ih =>
    intro f res hd hf h
    have hseek : f.seekg loc.offset = ⟨D, T, false, false⟩ := by
      rw [seekg_sound f _ hf, hd, hT]
    unfold eat_keyword_loop
    simp only [hseek]
    unfold word_find at h
    cases T with
    | nil =>
      simp only [get_nil, match_word_none]
      cases hw : w.toList with
      | nil =>
        have hl : w.length = 0 := by
          show w.toList.length = 0
          rw [hw]; rfl
        simp only [hw, word_scan, hl] at h
        simp at h
        subst h
        refine ⟨⟨D, [], true, true⟩, ?_, rfl, rfl⟩
        simp [hl, scan_yield, location.advance]
      | cons y v =>
        simp only [hw, word_scan] at h
        simp at h
    | cons x Y =>
      obtain ⟨f1, h1, h2, h3⟩ := match_word_scan D w.toList x Y loc
      simp only [get_cons, h1]
      rcases hws : word_scan w.toList (x :: Y) with ⟨miss, n, eof⟩
      simp only [hws] at h h3 ⊢
      simp only [advance_offset, Nat.add_sub_cancel_left]
      by_cases hc : (!miss && n == w.length) = true
      · simp only [hc, if_true, Option.some.injEq] at h ⊢
        subst h
        exact ⟨f1, rfl, h2, h3⟩
      · simp only [hc, if_false] at h ⊢
        cases eof with
        | true => simp at h
        | false =>
          simp only [Bool.false_eq_true, if_false] at h
          exact ih f1 res h2 h3 h

theorem eat_operator_loop_scan (D : List Char) (loc : location) (T : List Char)
    (hT : D.drop loc.offset = T) : ∀ (ops : List String) (f : ifstream)
    (res : Option (String × Nat × Bool)), f = ⟨D, T, false, false⟩ →
    word_find T ops = some res →
    ∃ f', eat_operator_loop loc ops f = (scan_yield token_kind.t_operator loc res, f')
      ∧ f'.data = D ∧ f'.failbit = scan_failed res := by
  intro ops
  induction ops with
  | nil =>
    intro f res hf h
    simp only [word_find, Option.some.injEq] at h
    subst h
    subst hf
    exact ⟨_, rfl, rfl, rfl⟩
  | cons w more ih =>
    intro f res hf h
    subst hf
    unfold eat_operator_loop
    unfold word_find at h
    cases T with
    | nil =>
      simp only [get_nil, match_word_none]
      cases hw : w.toList with
      | nil =>
        have hl : w.length = 0 := by
          show w.toList.length = 0
          rw [hw]; rfl
        simp only [hw, word_scan, hl] at h
        simp at h
        subst h
        refine ⟨⟨D, [], true, true⟩, ?_, rfl, rfl⟩
        simp [hl, scan_yield, location.advance]
      | cons y v =>
        simp only [hw, word_scan] at h
        simp at h
    | cons x Y =>
      obtain ⟨f1, h1, h2, h3⟩ := match_word_scan D w.toList x Y loc
      simp only [get_cons, h1]
      rcases hws : word_scan w.toList (x :: Y) with ⟨miss, n, eof⟩
      simp only [hws] at h h3 ⊢
      simp only [advance_offset, Nat.add_sub_cancel_left]
      by_cases hc : (!miss && n == w.length) = true
      · simp only [hc, if_true, Option.some.injEq] at h ⊢
        subst h
        exact ⟨f1, rfl, h2, h3⟩
      · simp only [hc, if_false] at h ⊢
        cases eof with
        | true => simp at h
        | false =>
          simp only [Bool.false_eq_true, if_false] at h
          refine ih _ res ?_ h
          rw [seekg_sound f1 _ h3, h2, hT]

theorem step_false (l : location) : l.step false = l.advance 1 := rfl

theorem eat_identifier_loop_span (D : List Char) : ∀ (Y : List Char) (x : Char) (fuel : Nat)
    (ident : List Char) (locn : location), Y.length + 2 ≤ fuel →
    ∃ f', eat_identifier_loop fuel ⟨D, Y, false, false⟩ (some x) ident locn
        = .ok (f', ident ++ (x :: Y).takeWhile identifier_char,
            locn.advance ((x :: Y).takeWhile identifier_char).length)
      ∧ f'.data = D ∧ f'.failbit = ((x :: Y).dropWhile identifier_char).isEmpty := by
  intro Y
  induction Y with
  | nil =>
    intro x fuel ident locn hfuel
    obtain ⟨fuel, rfl⟩ : ∃ k, fuel = k + 2 := ⟨fuel - 2, by simp at hfuel; omega⟩
    by_cases hx : identifier_char x = true
    · refine ⟨⟨D, [], true, true⟩, ?_, rfl, ?_⟩
      · have hx' : (isalnum x || x == '_') = true := hx
        simp [eat_identifier_loop, hx', get_nil, List.takeWhile, hx, step_false]
      · simp [List.dropWhile, hx]
    · refine ⟨⟨D, [], false, false⟩, ?_, rfl, ?_⟩
      · have hx' : ¬ (isalnum x || x == '_') = true := hx
        simp only [eat_identifier_loop, hx', if_false]
        simp [List.takeWhile, hx, advance_zero]
      · simp [List.dropWhile, hx]
  | cons x' Y' ih =>
    intro x fuel ident locn hfuel
    obtain ⟨fuel, rfl⟩ : ∃ k, fuel = k + 1 := ⟨fuel - 1, by simp at hfuel; omega⟩
    by_cases hx : identifier_char x = true
    · obtain ⟨f', h1, h2, h3⟩ := ih x' fuel (ident ++ [x]) (locn.step false)
        (by simp at hfuel ⊢; omega)
      refine ⟨f', ?_, h2, ?_⟩
      · have hx' : (isalnum x || x == '_') = true := hx
        simp only [eat_identifier_loop, hx', if_true, get_cons, h1]
        rw [List.takeWhile_cons_of_pos hx, step_advance]
        simp
      · rw [h3, List.dropWhile_cons_of_pos hx]
    · refine ⟨⟨D, x' :: Y', false, false⟩, ?_, rfl, ?_⟩
      · have hx' : ¬ (isalnum x || x == '_') = true := hx
        simp only [eat_identifier_loop, hx', if_false]
        rw [List.takeWhile_cons_of_neg hx]
        simp [advance_zero]
      · rw [List.dropWhile_cons_of_neg hx]; rfl

theorem eat_number_loop_span (D : List Char) : ∀ (Y : List Char) (x : Char) (fuel : Nat)
    (ident : List Char) (locn : location), Y.length + 2 ≤ fuel →
    ∃ f', eat_number_loop fuel ⟨D, Y, false, false⟩ (some x) ident locn
        = .ok (f', ident ++ (x :: Y).takeWhile isdigit,
            locn.advance ((x :: Y).takeWhile isdigit).length)
      ∧ f'.data = D ∧ f'.failbit = ((x :: Y).dropWhile isdigit).isEmpty := by
  intro Y
  induction Y with
  | nil =>
    intro x fuel ident locn hfuel
    obtain ⟨fuel, rfl⟩ : ∃ k, fuel = k + 2 := ⟨fuel - 2, by simp at hfuel; omega⟩
    by_cases hx : isdigit x = true
    · refine ⟨⟨D, [], true, true⟩, ?_, rfl, ?_⟩
      · simp [eat_number_loop, get_nil, List.takeWhile, hx, step_false]
      · simp [List.dropWhile, hx]
    · refine ⟨⟨D, [], false, false⟩, ?_, rfl, ?_⟩
      · simp only [eat_number_loop, hx, if_false]
        simp [List.takeWhile, hx, advance_zero]
      · simp [List.dropWhile, hx]
  | cons x' Y' ih =>
    intro x fuel ident locn hfuel
    obtain ⟨fuel, rfl⟩ : ∃ k, fuel = k + 1 := ⟨fuel - 1, by simp at hfuel; omega⟩
    by_cases hx : isdigit x = true
    · obtain ⟨f', h1, h2, h3⟩ := ih x' fuel (ident ++ [x]) (locn.step false)
        (by simp at hfuel ⊢; omega)
      refine ⟨f', ?_, h2, ?_⟩
      · simp only [eat_number_loop, hx, if_true, get_cons, h1]
        rw [List.takeWhile_cons_of_pos hx, step_advance]
        simp
      · rw [h3, List.dropWhile_cons_of_pos hx]
    · refine ⟨⟨D, x' :: Y', false, false⟩, ?_, rfl, ?_⟩
      · simp only [eat_number_loop, hx, if_false]
        rw [List.takeWhile_cons_of_neg hx]
        simp [advance_zero]
      · rw [List.dropWhile_cons_of_neg hx]; rfl

theorem eat_identifier_scan (D : List Char) (loc : location) (T : List Char)
    (res : Option (String × Nat × Bool)) (h : identifier_scan T = some res) :
    ∃ f', eat_identifier ⟨⟨D, T, false, false⟩, loc⟩
        = .ok (scan_yield token_kind.t_identifier loc res, ⟨f', loc⟩)
      ∧ f'.data = D ∧ f'.failbit = scan_failed res := by
  cases T with
  | nil => simp [identifier_scan] at h
  | cons x Y =>
    obtain ⟨f1, h1, h2, h3⟩ := eat_identifier_loop_span D Y x (Y.length + 2) [] loc (le_refl _)
    unfold eat_identifier
    simp only [get_cons, ifstream.budget, h1, List.nil_append]
    simp only [identifier_scan] at h
    cases hid : (x :: Y).takeWhile identifier_char with
    | nil =>
      simp only [hid, Option.some.injEq] at h
      subst h
      have hx : ¬ identifier_char x = true := by
        intro hx
        rw [List.takeWhile_cons_of_pos hx] at hid
        exact List.cons_ne_nil _ _ hid
      rw [List.dropWhile_cons_of_neg hx] at h3
      exact ⟨_, rfl, by rw [seekg_data, h2], by rw [seekg_failbit, h3]; rfl⟩
    | cons c0 cs =>
      simp only [hid] at h
      by_cases hd : isdigit c0 = true
      · simp only [hd, if_true] at h ⊢
        cases he : ((x :: Y).dropWhile identifier_char).isEmpty with
        | true => simp [he] at h
        | false =>
          simp only [he, Bool.false_eq_true, if_false, Option.some.injEq] at h
          subst h
          exact ⟨_, rfl, by rw [seekg_data, h2], by rw [seekg_failbit, h3, he]; rfl⟩
      · simp only [hd, Bool.false_eq_true, if_false, Option.some.injEq] at h ⊢
        subst h
        exact ⟨f1, rfl, h2, h3⟩

theorem eat_number_scan (D : List Char) (loc : location) (T : List Char)
    (res : Option (String × Nat × Bool)) (h : number_scan T = some res) :
    ∃ f', eat_number ⟨⟨D, T, false, false⟩, loc⟩
        = .ok (scan_yield token_kind.t_number loc res, ⟨f', loc⟩)
      ∧ f'.data = D ∧ f'.failbit = scan_failed res := by
  -- the loop and what follows it, from the state the two sign tests leave
  have tail : ∀ (x : Char) (Y sign : List Char) (n : Nat) (res : Option (String × Nat × Bool)),
      (if !(sign ++ (x :: Y).takeWhile isdigit).isEmpty then
          some (some (String.mk (sign ++ (x :: Y).takeWhile isdigit),
            n + ((x :: Y).takeWhile isdigit).length, ((x :: Y).dropWhile isdigit).isEmpty))
        else if ((x :: Y).dropWhile isdigit).isEmpty then none
        else some none) = some res →
      ∃ f', (match eat_number_loop (Y.length + 2) ⟨D, Y, false, false⟩ (some x) sign
                (loc.advance n) with
            | .error e => (.error e : result (token_yield × lexer))
            | .ok (file, ident, next_loc) =>
              if !ident.isEmpty then
                .ok (some (⟨token_kind.t_number, String.mk ident, loc⟩, next_loc),
                     { _file := file, _loc := loc })
              else
                .ok (none, { _file := file.seekg loc.offset, _loc := loc }))
          = .ok (scan_yield token_kind.t_number loc res, ⟨f', loc⟩)
        ∧ f'.data = D ∧ f'.failbit = scan_failed res := by
    intro x Y sign n res h
    obtain ⟨f1, h1, h2, h3⟩ := eat_number_loop_span D Y x (Y.length + 2) sign (loc.advance n)
      (le_refl _)
    simp only [h1]
    by_cases hc : (!(sign ++ (x :: Y).takeWhile isdigit).isEmpty) = true
    · simp only [hc, if_true, Option.some.injEq] at h ⊢
      subst h
      refine ⟨f1, ?_, h2, h3⟩
      simp [scan_yield, location.advance, Nat.add_assoc]
    · simp only [hc, if_false] at h ⊢
      cases he : ((x :: Y).dropWhile isdigit).isEmpty with
      | true => simp [he] at h
      | false =>
        simp only [he, Bool.false_eq_true, if_false, Option.some.injEq] at h
        subst h
        exact ⟨_, rfl, by rw [seekg_data, h2], by rw [seekg_failbit, h3, he]; rfl⟩
  cases T with
  | nil => simp [number_scan] at h
  | cons x rest =>
    unfold eat_number
    simp only [get_cons]
    simp only [number_scan] at h
    by_cases hm : x = '-'
    · subst hm
      simp only [beq_self_eq_true, if_true] at h ⊢
      cases rest with
      | nil =>
        simp at h
        subst h
        refine ⟨⟨D, [], true, true⟩, ?_, rfl, rfl⟩
        simp [get_nil, ifstream.budget, eat_number_loop, scan_yield, location.step,
          location.advance]
      | cons x1 rest1 =>
        simp only [get_cons, List.nil_append] at h ⊢
        by_cases hp : x1 = '+'
        · subst hp
          simp only [beq_self_eq_true, if_true] at h ⊢
          cases rest1 with
          | nil =>
            simp at h
            subst h
            refine ⟨⟨D, [], true, true⟩, ?_, rfl, rfl⟩
            simp [get_nil, ifstream.budget, eat_number_loop, scan_yield, location.step,
              location.advance]
          | cons x2 rest2 =>
            simp only [get_cons, ifstream.budget, step_false, step_advance]
            exact tail x2 rest2 ['-'] 2 res h
        · have hp1 : (x1 == '+') = false := by simp [hp]
          have hp2 : (some x1 == some '+') = false := by simp [hp]
          simp only [hp1, hp2, Bool.false_eq_true, if_false, ifstream.budget, step_false] at h ⊢
          exact tail x1 rest1 ['-'] 1 res h
    · have hm1 : (x == '-') = false := by simp [hm]
      have hm2 : (some x == some '-') = false := by simp [hm]
      simp only [hm1, hm2, Bool.false_eq_true, if_false] at h ⊢
      by_cases hp : x = '+'
      · subst hp
        simp only [beq_self_eq_true, if_true] at h ⊢
        cases rest with
        | nil => simp at h
        | cons x2 rest2 =>
          simp only [get_cons, ifstream.budget, step_false]
          exact tail x2 rest2 [] 1 res (by simpa using h)
      · have hp1 : (x == '+') = false := by simp [hp]
        have hp2 : (some x == some '+') = false := by simp [hp]
        simp only [hp1, hp2, Bool.false_eq_true, if_false, ifstream.budget] at h ⊢
        have := tail x rest [] 0 res (by simpa using h)
        simpa [advance_zero] using this

theorem eat_syntax_loop_scan (D : List Char) (loc : location) (T : List Char)
    (hT : D.drop loc.offset = T) : ∀ (chars : List Char) (res : Option (String × Nat × Bool)),
    syntax_scan T chars = some res →
    ∃ f', eat_syntax_loop loc chars ⟨D, T, false, false⟩
        = (scan_yield token_kind.t_syntax loc res, f')
      ∧ f'.data = D ∧ f'.failbit = scan_failed res := by
  intro chars
  induction chars with
  | nil =>
    intro res h
    simp only [syntax_scan, Option.some.injEq] at h
    subst h
    exact ⟨_, rfl, rfl, rfl⟩
  | cons ch more ih =>
    intro res h
    cases T with
    | nil => simp [syntax_scan] at h
    | cons x rest =>
      unfold eat_syntax_loop
      simp only [syntax_scan] at h
      simp only [get_cons]
      by_cases hx : x = ch
      · subst hx
        simp only [beq_self_eq_true, if_true] at h ⊢
        by_cases he : x = '='
        · subst he
          simp only [beq_self_eq_true, if_true] at h ⊢
          cases rest with
          | nil =>
            simp only [Option.some.injEq] at h
            subst h
            exact ⟨⟨D, [], true, true⟩, by simp [get_nil, scan_yield, step_false], rfl, rfl⟩
          | cons x2 rest2 =>
            simp only [get_cons] at h ⊢
            by_cases h2 : x2 = '='
            · subst h2
              simp only [beq_self_eq_true, if_true, Option.some.injEq] at h ⊢
              subst h
              exact ⟨_, rfl, rfl, rfl⟩
            · have h2a : (x2 == '=') = false := by simp [h2]
              have h2b : (some x2 == some '=') = false := by simp [h2]
              simp only [h2a, h2b, Bool.false_eq_true, if_false, Option.some.injEq] at h ⊢
              subst h
              exact ⟨_, rfl, rfl, rfl⟩
        · have he1 : (x == '=') = false := by simp [he]
          simp only [he1, Bool.false_eq_true, if_false, Option.some.injEq] at h ⊢
          subst h
          exact ⟨_, rfl, rfl, rfl⟩
      · have hx1 : (x == ch) = false := by simp [hx]
        have hx2 : (some x == some ch) = false := by simp [hx]
        simp only [hx1, hx2, Bool.false_eq_true, if_false] at h ⊢
        have hs : ifstream.seekg ⟨D, rest, false, false⟩ loc.offset
            = ⟨D, x :: rest, false, false⟩ := by
          rw [seekg_sound _ _ rfl]; simp only [hT]
        rw [hs]
        exact ih res h

theorem after_miss (D : List Char) (loc : location) (T : List Char)
    (hT : D.drop loc.offset = T) (f : ifstream) (hd : f.data = D) (hf : f.failbit = false) :
    after_sub_lexer none ⟨f, loc⟩ = ⟨⟨D, T, false, false⟩, loc⟩ := by
  simp only [after_sub_lexer]
  rw [seekg_sound f _ hf, hd, hT]

theorem eat_keyword_eq (lx : lexer) (f f1 : ifstream) (loc : location) (y : token_yield)
    (h1 : lx._file = f) (h2 : lx._loc = loc)
    (h : eat_keyword_loop loc keywords f = (y, f1)) : eat_keyword lx = (y, ⟨f1, loc⟩) := by
  subst h1 h2
  unfold eat_keyword
  rw [h]

theorem eat_syntax_eq (lx : lexer) (f f1 : ifstream) (loc : location) (y : token_yield)
    (h1 : lx._file = f) (h2 : lx._loc = loc)
    (h : eat_syntax_loop loc [';', '=', '(', ')', ','] f = (y, f1)) :
    eat_syntax lx = (y, ⟨f1, loc⟩) := by
  subst h1 h2
  unfold eat_syntax
  rw [h]

theorem eat_operator_eq (lx : lexer) (f f1 : ifstream) (loc : location) (y : token_yield)
    (h1 : lx._file = f) (h2 : lx._loc = loc)
    (h : eat_operator_loop loc operators f = (y, f1)) : eat_operator lx = (y, ⟨f1, loc⟩) := by
  subst h1 h2
  unfold eat_operator
  rw [h]

theorem try_sub_lexers_scan (D : List Char) (loc : location) (T : List Char)
    (hT : D.drop loc.offset = T) (f : ifstream) (hd : f.data = D) (hf : f.failbit = false)
    (kind : token_kind) (literal : String) (n : Nat) (eof : Bool)
    (h : token_scan T = some (kind, literal, n, eof)) :
    ∃ f', try_sub_lexers ⟨f, loc⟩
        = .ok (some (⟨kind, literal, loc⟩, loc.advance n), ⟨f', loc.advance n⟩)
      ∧ f'.data = D ∧ f'.failbit = eof := by
  unfold token_scan at h
  unfold try_sub_lexers
  -- keyword
  cases hk : word_find T keywords with
  | none => simp [hk] at h
  | some rk =>
  obtain ⟨f1, e1, d1, b1⟩ := eat_keyword_loop_scan D loc T hT keywords f rk hd hf hk
  rw [eat_keyword_eq _ f f1 loc _ rfl rfl e1]
  cases rk with
  | some r =>
    obtain ⟨w, n', eof'⟩ := r
    simp only [hk, Option.some.injEq, Prod.mk.injEq] at h
    obtain ⟨rfl, rfl, rfl, rfl⟩ := h
    simp only [scan_yield, after_sub_lexer]
    exact ⟨_, rfl, by rw [seekg_data, d1], by rw [seekg_failbit, b1]; rfl⟩
  | none =>
  simp only [hk, scan_yield, after_miss D loc T hT f1 d1 b1] at h ⊢
  -- identifier
  cases hi : identifier_scan T with
  | none => simp [hi] at h
  | some ri =>
  obtain ⟨f2, e2, d2, b2⟩ := eat_identifier_scan D loc T ri hi
  simp only [e2]
  cases ri with
  | some r =>
    obtain ⟨w, n', eof'⟩ := r
    simp only [hi, Option.some.injEq, Prod.mk.injEq] at h
    obtain ⟨rfl, rfl, rfl, rfl⟩ := h
    simp only [scan_yield, after_sub_lexer]
    exact ⟨_, rfl, by rw [seekg_data, d2], by rw [seekg_failbit, b2]; rfl⟩
  | none =>
  simp only [hi, scan_yield, after_miss D loc T hT f2 d2 b2] at h ⊢
  -- number
  cases hn : number_scan T with
  | none => simp [hn] at h
  | some rn =>
  obtain ⟨f3, e3, d3, b3⟩ := eat_number_scan D loc T rn hn
  simp only [e3]
  cases rn with
  | some r =>
    obtain ⟨w, n', eof'⟩ := r
    simp only [hn, Option.some.injEq, Prod.mk.injEq] at h
    obtain ⟨rfl, rfl, rfl, rfl⟩ := h
    simp only [scan_yield, after_sub_lexer]
    exact ⟨_, rfl, by rw [seekg_data, d3], by rw [seekg_failbit, b3]; rfl⟩
  | none =>
  simp only [hn, scan_yield, after_miss D loc T hT f3 d3 b3] at h ⊢
  -- punctuation
  cases hs : syntax_scan T [';', '=', '(', ')', ','] with
  | none => simp [hs] at h
  | some rs =>
  obtain ⟨f4, e4, d4, b4⟩ := eat_syntax_loop_scan D loc T hT _ rs hs
  rw [ eat_syntax_eq _ _ f4 loc _ rfl rfl e4]
  cases rs with
  | some r =>
    obtain ⟨w, n', eof'⟩ := r
    simp only [hs, Option.some.injEq, Prod.mk.injEq] at h
    obtain ⟨rfl, rfl, rfl, rfl⟩ := h
    simp only [scan_yield, after_sub_lexer]
    exact ⟨_, rfl, by rw [seekg_data, d4], by rw [seekg_failbit, b4]; rfl⟩
  | none =>
  simp only [hs, scan_yield, after_miss D loc T hT f4 d4 b4] at h ⊢
  -- operator
  cases ho : word_find T operators with
  | none => simp [ho] at h
  | some ro =>
  obtain ⟨f5, e5, d5, b5⟩ := eat_operator_loop_scan D loc T hT operators _ ro rfl ho
  rw [eat_operator_eq _ _ f5 loc _ rfl rfl e5]
  cases ro with
  | some r =>
    obtain ⟨w, n', eof'⟩ := r
    simp only [ho, Option.some.injEq, Prod.mk.injEq] at h
    obtain ⟨rfl, rfl, rfl, rfl⟩ := h
    simp only [scan_yield, after_sub_lexer]
    exact ⟨_, rfl, by rw [seekg_data, d5], by rw [seekg_failbit, b5]; rfl⟩
  | none => simp [ho] at h

theorem peek_cons (D : List Char) (x : Char) (Y : List Char) :
    ifstream.peek ⟨D, x :: Y, false, false⟩ = (some x, ⟨D, x :: Y, false, false⟩) := rfl

theorem eat_whitespace_loop_span (D : List Char) : ∀ (ws : List Char) (x : Char)
    (Y : List Char) (c : Char) (R : List Char) (fuel : Nat) (locn : location) (flag : Bool),
    c :: R = ws ++ x :: Y → (∀ w ∈ ws, isspace w = true) → isspace x = false →
    ws.length + 1 ≤ fuel →
    eat_whitespace_loop fuel ⟨D, R, false, false⟩ (some c) locn flag
      = .ok (⟨D, Y, false, false⟩, locn.steps ws, flag || !ws.isEmpty) := by
  intro ws
  induction ws with
  | nil =>
    intro x Y c R fuel locn flag h _ hx hfuel
    obtain ⟨fuel, rfl⟩ : ∃ k, fuel = k + 1 := ⟨fuel - 1, by simp at hfuel; omega⟩
    simp only [List.nil_append, List.cons.injEq] at h
    obtain ⟨rfl, rfl⟩ := h
    simp [eat_whitespace_loop, holds, hx, location.steps]
  | cons w ws ih =>
    intro x Y c R fuel locn flag h hws hx hfuel
    obtain ⟨fuel, rfl⟩ : ∃ k, fuel = k + 1 := ⟨fuel - 1, by simp at hfuel; omega⟩
    simp only [List.cons_append, List.cons.injEq] at h
    obtain ⟨rfl, rfl⟩ := h
    have hc : isspace c = true := hws c (List.mem_cons_self _ _)
    obtain ⟨r0, R0, hR⟩ : ∃ r0 R0, ws ++ x :: Y = r0 :: R0 := by
      cases ws with
      | nil => exact ⟨x, Y, rfl⟩
      | cons a b => exact ⟨a, b ++ x :: Y, rfl⟩
    have hb : (some c == some '\n') = (c == '\n') := by
      by_cases hn : c = '\n' <;> simp [hn]
    simp only [eat_whitespace_loop, holds, hc, if_true, hR, peek_cons, get_cons, hb]
    rw [ih x Y r0 R0 fuel _ true hR.symm (fun w hw => hws w (List.mem_cons_of_mem _ hw)) hx
      (by simp at hfuel ⊢; omega)]
    simp [location.steps]

theorem space_scan_spec (T ws U : List Char) (h : space_scan T = some (ws, U)) :
    T = ws ++ U ∧ (∀ w ∈ ws, isspace w = true) ∧
    ∃ x Y, U = x :: Y ∧ isspace x = false ∧ (ws ≠ [] → Y ≠ []) := by
  cases T with
  | nil => simp [space_scan] at h
  | cons x Y =>
    simp only [space_scan] at h
    by_cases hx : isspace x = true
    · simp only [hx, if_true] at h
      have hsplit := List.takeWhile_append_dropWhile isspace (x :: Y)
      cases hd : (x :: Y).dropWhile isspace with
      | nil => simp [hd] at h
      | cons y rest =>
        cases rest with
        | nil => simp [hd] at h
        | cons z rest =>
          simp only [hd, Option.some.injEq, Prod.mk.injEq] at h
          obtain ⟨rfl, rfl⟩ := h
          refine ⟨by rw [← hd, hsplit], fun w hw => List.mem_takeWhile_imp hw,
            y, z :: rest, rfl, ?_, fun _ => List.cons_ne_nil _ _⟩
          have := List.head_dropWhile_not isspace (x :: Y) (by rw [hd]; simp)
          simpa [hd] using this
    · simp only [hx, if_false, Option.some.injEq, Prod.mk.injEq, Bool.false_eq_true] at h
      obtain ⟨rfl, rfl⟩ := h
      exact ⟨rfl, by simp, x, Y, rfl, by simpa using hx, fun h => absurd rfl h⟩

theorem eat_whitespace_none (D : List Char) (loc : location) (x : Char) (Y : List Char)
    (hx : isspace x = false) (hT : D.drop loc.offset = x :: Y) :
    eat_whitespace ⟨⟨D, x :: Y, false, false⟩, loc⟩
      = .ok (loc, ⟨⟨D, x :: Y, false, false⟩, loc⟩) := by
  unfold eat_whitespace
  simp only [get_cons, ifstream.budget]
  rw [eat_whitespace_loop_span D [] x Y x Y _ loc false rfl (by simp) hx (by simp)]
  simp [location.steps, seekg_sound, hT]

theorem eat_whitespace_some (D : List Char) (loc : location) (ws : List Char) (y z : Char)
    (rest : List Char) (c : Char) (R : List Char) (h : c :: R = ws ++ y :: z :: rest)
    (hne : ws ≠ []) (hws : ∀ w ∈ ws, isspace w = true) (hy : isspace y = false) :
    eat_whitespace ⟨⟨D, c :: R, false, false⟩, loc⟩
      = .ok (loc.steps ws, ⟨⟨D, z :: rest, false, false⟩, loc⟩) := by
  unfold eat_whitespace
  simp only [get_cons, ifstream.budget]
  have hlen : ws.length + 1 ≤ R.length + 2 := by
    have := congrArg List.length h
    simp at this
    omega
  rw [eat_whitespace_loop_span D ws y (z :: rest) c R _ loc false h hws hy hlen]
  cases ws with
  | nil => exact absurd rfl hne
  | cons a b => simp

theorem next_scan_ok (D : List Char) (lx : lexer) (T : List Char) (hd : lx._file.data = D)
    (hf : lx._file.failbit = false) (hT : D.drop lx._loc.offset = T)
    (ws : List Char) (kind : token_kind) (literal : String) (n : Nat) (eof : Bool)
    (T' : List Char) (h : next_scan T = some (ws, kind, literal, n, eof, T')) :
    ∃ f', next lx = .ok (some (⟨kind, literal, lx._loc.steps ws⟩, (lx._loc.steps ws).advance n),
        ⟨f', (lx._loc.steps ws).advance n⟩)
      ∧ f'.data = D ∧ f'.failbit = eof
      ∧ D.drop ((lx._loc.steps ws).advance n).offset = T' := by
  obtain ⟨f, loc⟩ := lx
  simp only at hd hf hT ⊢
  unfold next_scan at h
  cases hs : space_scan T with
  | none => simp [hs] at h
  | some p =>
  obtain ⟨ws0, U⟩ := p
  simp only [hs] at h
  cases ht : token_scan U with
  | none => simp [ht] at h
  | some q =>
  obtain ⟨k0, l0, n0, e0⟩ := q
  simp only [ht, Option.some.injEq, Prod.mk.injEq] at h
  obtain ⟨rfl, rfl, rfl, rfl, rfl, rfl⟩ := h
  obtain ⟨hsplit, hall, x, Y, rfl, hx, hY⟩ := space_scan_spec T ws0 _ hs
  have hU : D.drop (loc.steps ws0).offset = x :: Y := by
    rw [steps_offset, ← List.drop_drop, hT, hsplit]; simp
  have hdrop : D.drop ((loc.steps ws0).advance n0).offset = (x :: Y).drop n0 := by
    rw [advance_offset, ← List.drop_drop, hU]
  have hseek : f.seekg loc.offset = ⟨D, T, false, false⟩ := by
    rw [seekg_sound f _ hf, hd, hT]
  unfold next
  simp only [hseek]
  by_cases hws : ws0 = []
  · subst hws
    simp only [List.nil_append] at hsplit
    subst hsplit
    simp only [peek_cons, eat_whitespace_none D loc x Y hx hT, location.steps]
    obtain ⟨f', e, d, b⟩ := try_sub_lexers_scan D loc (x :: Y) hT ⟨D, x :: Y, false, false⟩
      rfl rfl k0 l0 n0 e0 ht
    exact ⟨f', e, d, b, hdrop⟩
  · obtain ⟨z, rest, rfl⟩ : ∃ z rest, Y = z :: rest := by
      cases Y with
      | nil => exact absurd rfl (hY hws)
      | cons z rest => exact ⟨z, rest, rfl⟩
    obtain ⟨c, R, hc⟩ : ∃ c R, T = c :: R := by
      cases ws0 with
      | nil => exact absurd rfl hws
      | cons a b => exact ⟨a, b ++ x :: z :: rest, hsplit⟩
    subst hc
    simp only [peek_cons, eat_whitespace_some D loc ws0 x z rest c R hsplit hws hall hx]
    obtain ⟨f', e, d, b⟩ := try_sub_lexers_scan D (loc.steps ws0) (x :: z :: rest) hU
      ⟨D, z :: rest, false, false⟩ rfl rfl k0 l0 n0 e0 ht
    exact ⟨f', e, d, b, hdrop⟩

theorem next_end (lx : lexer)
    (h : lx._file.failbit = true ∨ lx._file.data.drop lx._loc.offset = []) :
    ∃ lx', next lx = .ok (none, lx') := by
  obtain ⟨f, loc⟩ := lx
  simp only at h
  unfold next
  rcases hb : f.failbit with _ | _
  · have h' : f.data.drop loc.offset = [] := by
      rcases h with h | h
      · rw [hb] at h; cases h
      · exact h
    simp only [seekg_sound f _ hb, h']
    exact ⟨_, rfl⟩
  · simp [ifstream.seekg, hb, ifstream.peek, ifstream.good]

theorem tokens_loop_scan (D : List Char) : ∀ (fuel : Nat) (T : List Char) (lx : lexer)
    (failed : Bool) (toks : List token_t) (fuel2 off : Nat) (cur : token_yield)
    (acc : List token_t), lx._file.data = D → lx._file.failbit = failed →
    D.drop lx._loc.offset = T → scan_tokens fuel T lx._loc failed = some toks →
    toks.length < fuel2 →
    tokens_loop fuel2 lx off cur acc
      = .ok ((match cur with | some (t, _) => acc ++ [t] | none => acc) ++ toks) := by
  intro fuel
  induction fuel with
  | zero => intro T lx failed toks fuel2 off cur acc _ _ _ h; simp [scan_tokens] at h
  | succ fuel ih =>
    intro T lx failed toks fuel2 off cur acc hd hf hT h hlen
    obtain ⟨fuel2, rfl⟩ : ∃ k, fuel2 = k + 1 := ⟨fuel2 - 1, by omega⟩
    have hd2 : ({ lx with _file := lx._file.seekg off } : lexer)._file.data = D := by
      simp only [seekg_data, hd]
    have hf2 : ({ lx with _file := lx._file.seekg off } : lexer)._file.failbit = failed := by
      simp only [seekg_failbit, hf]
    unfold tokens_loop
    simp only [scan_tokens] at h
    cases failed with
    | true =>
      simp only [if_true, Option.some.injEq] at h
      subst h
      obtain ⟨lx', e⟩ := next_end { lx with _file := lx._file.seekg off } (Or.inl hf2)
      simp only [e, List.append_nil]
    | false =>
      simp only [Bool.false_eq_true, if_false] at h
      cases T with
      | nil =>
        simp only [Option.some.injEq] at h
        subst h
        obtain ⟨lx', e⟩ := next_end { lx with _file := lx._file.seekg off }
          (Or.inr (by simp only [seekg_data, hd]; exact hT))
        simp only [e, List.append_nil]
      | cons x Y =>
        simp only at h
        cases hn : next_scan (x :: Y) with
        | none => simp [hn] at h
        | some p =>
          obtain ⟨ws, kind, literal, n, eof, T'⟩ := p
          simp only [hn] at h
          cases hr : scan_tokens fuel T' ((lx._loc.steps ws).advance n) eof with
          | none => simp [hr] at h
          | some toks' =>
            simp only [hr, Option.some.injEq] at h
            subst h
            obtain ⟨f', e, d, b, hdrop⟩ := next_scan_ok D { lx with _file := lx._file.seekg off }
              (x :: Y) hd2 hf2 hT ws kind literal n eof T' hn
            simp only [e]
            rw [ih T' ⟨f', (lx._loc.steps ws).advance n⟩ eof toks' fuel2 _ _ _ d b hdrop hr
              (by simp at hlen; omega)]
            simp

theorem tokenize_scan (D : List Char) (fuel : Nat) (toks : List token_t)
    (h : scan_tokens fuel D ⟨1, 1, 0⟩ false = some toks) (hlen : toks.length ≤ D.length + 2) :
    tokenize D = .ok toks := by
  cases fuel with
  | zero => simp [scan_tokens] at h
  | succ fuel =>
    simp only [scan_tokens, Bool.false_eq_true, if_false] at h
    cases D with
    | nil =>
      simp only [Option.some.injEq] at h
      subst h
      rfl
    | cons x Y =>
      simp only at h
      cases hn : next_scan (x :: Y) with
      | none => simp [hn] at h
      | some p =>
        obtain ⟨ws, kind, literal, n, eof, T'⟩ := p
        simp only [hn] at h
        cases hr : scan_tokens fuel T' ((location.steps ⟨1, 1, 0⟩ ws).advance n) eof with
        | none => simp [hr] at h
        | some toks' =>
          simp only [hr, Option.some.injEq] at h
          subst h
          obtain ⟨f', e, d, b, hdrop⟩ := next_scan_ok (x :: Y)
            ⟨ifstream.seekg ⟨x :: Y, x :: Y, false, false⟩ 0, ⟨1, 1, 0⟩⟩
            (x :: Y) rfl rfl rfl ws kind literal n eof T' hn
          unfold tokenize
          simp only [e]
          rw [tokens_loop_scan (x :: Y) fuel T' ⟨f', (location.steps ⟨1, 1, 0⟩ ws).advance n⟩ eof
            toks' _ _ _ _ d b hdrop hr (by simp at hlen ⊢; omega)]
          simp

theorem takeWhile_append_stop (p : Char → Bool) (a : Char) (Z : List Char) (ha : p a = false) :
    ∀ l : List Char, (∀ c ∈ l, p c = true) → (l ++ a :: Z).takeWhile p = l := by
  intro l
  induction l with
  | nil => intro _; simp [List.takeWhile, ha]
  | cons c cs ih =>
    intro h
    have hc : p c = true := h c (List.mem_cons_self _ _)
    rw [List.cons_append, List.takeWhile_cons_of_pos hc,
      ih (fun c hc => h c (List.mem_cons_of_mem _ hc))]

theorem dropWhile_append_stop (p : Char → Bool) (a : Char) (Z : List Char) (ha : p a = false) :
    ∀ l : List Char, (∀ c ∈ l, p c = true) → (l ++ a :: Z).dropWhile p = a :: Z := by
  intro l
  induction l with
  | nil => intro _; simp [List.dropWhile, ha]
  | cons c cs ih =>
    intro h
    have hc : p c = true := h c (List.mem_cons_self _ _)
    rw [List.cons_append, List.dropWhile_cons_of_pos hc,
      ih (fun c hc => h c (List.mem_cons_of_mem _ hc))]

theorem isdigit_toNat (c : Char) (h : isdigit c = true) : 48 ≤ c.toNat ∧ c.toNat ≤ 57 := by
  simpa [isdigit] using h

theorem isdigit_identifier_char (c : Char) (h : isdigit c = true) : identifier_char c = true := by
  simp [identifier_char, isalnum, h]

theorem isdigit_not_space (c : Char) (h : isdigit c = true) : isspace c = false := by
  have := isdigit_toNat c h
  simp only [isspace, Bool.or_eq_false_iff, beq_eq_false_iff_ne, ne_eq]
  refine ⟨⟨⟨⟨⟨?_, ?_⟩, ?_⟩, ?_⟩, ?_⟩, ?_⟩ <;> (intro hc; subst hc; revert this; decide)

theorem word_find_above (x : Char) (Y : List Char) (hx : x.toNat ≤ 57) :
    ∀ ws : List String, ws.all starts_above_digits = true → word_find (x :: Y) ws = some none := by
  intro ws
  induction ws with
  | nil => intro _; rfl
  | cons w more ih =>
    intro h
    simp only [List.all_cons, Bool.and_eq_true] at h
    obtain ⟨hw, hmore⟩ := h
    unfold starts_above_digits at hw
    cases hd : w.data with
    | nil => simp [hd] at hw
    | cons y v =>
      have hl : w.toList = y :: v := hd
      have hw : 57 < y.toNat := by simpa [hd] using hw
      have hxy : (x != y) = true := by
        simp only [bne_iff_ne, ne_eq]
        intro he; subst he; omega
      simp only [word_find, hl, word_scan, hxy, if_true, Bool.not_true, Bool.false_and,
        Bool.false_eq_true, if_false]
      exact ih hmore

theorem keywords_above : keywords.all starts_above_digits = true := by decide

theorem token_scan_number (sign ds : List Char) (a : Char) (Z : List Char)
    (hs : sign = [] ∨ sign = ['-'] ∨ sign = ['+']) (hne : ds ≠ [])
    (hds : ∀ c ∈ ds, isdigit c = true) (ha : identifier_char a = false) :
    token_scan (sign ++ (ds ++ a :: Z))
      = some (token_kind.t_number, String.mk (kept_sign sign ++ ds),
          sign.length + ds.length, false) := by
  obtain ⟨d, ds', rfl⟩ : ∃ d ds', ds = d :: ds' := by
    cases ds with
    | nil => exact absurd rfl hne
    | cons d ds' => exact ⟨d, ds', rfl⟩
  have hd : isdigit d = true := hds d (List.mem_cons_self _ _)
  have hdn := isdigit_toNat d hd
  have had : isdigit a = false := by
    cases h : isdigit a with
    | false => rfl
    | true => rw [isdigit_identifier_char a h] at ha; cases ha
  have hdm : (d == '-') = false := by
    simp only [beq_eq_false_iff_ne, ne_eq]; intro h; subst h; revert hdn; decide
  have hdp : (d == '+') = false := by
    simp only [beq_eq_false_iff_ne, ne_eq]; intro h; subst h; revert hdn; decide
  have ht1 := takeWhile_append_stop isdigit a Z had (d :: ds') hds
  have hr1 := dropWhile_append_stop isdigit a Z had (d :: ds') hds
  have ht2 := takeWhile_append_stop identifier_char a Z ha (d :: ds')
    (fun c hc => isdigit_identifier_char c (hds c hc))
  have hr2 := dropWhile_append_stop identifier_char a Z ha (d :: ds')
    (fun c hc => isdigit_identifier_char c (hds c hc))
  rcases hs with rfl | rfl | rfl
  · have hk := word_find_above d (ds' ++ a :: Z) hdn.2 keywords keywords_above
    simp only [List.nil_append, List.cons_append] at ht1 hr1 ht2 hr2 ⊢
    simp only [token_scan, hk, identifier_scan, ht2, hr2, hd, if_true, List.isEmpty_cons,
      Bool.false_eq_true, if_false, number_scan, hdm, hdp, ht1, hr1, kept_sign]
    simp
  · have hk := word_find_above '-' ((d :: ds') ++ a :: Z) (by decide) keywords keywords_above
    have hi : ∀ l, List.takeWhile identifier_char ('-' :: l) = [] := fun l =>
      List.takeWhile_cons_of_neg (by decide)
    simp only [List.cons_append, List.nil_append] at ht1 hr1 hk ⊢
    simp only [token_scan, hk, identifier_scan, hi, number_scan,
      beq_self_eq_true, if_true, hdp, Bool.false_eq_true, if_false, ht1, hr1, kept_sign]
    simp [Nat.add_comm]
  · have hk := word_find_above '+' ((d :: ds') ++ a :: Z) (by decide) keywords keywords_above
    have hi : ∀ l, List.takeWhile identifier_char ('+' :: l) = [] := fun l =>
      List.takeWhile_cons_of_neg (by decide)
    have hpm : ('+' == '-') = false := by decide
    simp only [List.cons_append, List.nil_append] at ht1 hr1 hk ⊢
    simp only [token_scan, hk, identifier_scan, hi, number_scan, hpm,
      beq_self_eq_true, if_true, Bool.false_eq_true, if_false, ht1, hr1, kept_sign]
    simp [Nat.add_comm]

theorem next_scan_number (sign ds : List Char) (a : Char) (Z : List Char)
    (hs : sign = [] ∨ sign = ['-'] ∨ sign = ['+']) (hne : ds ≠ [])
    (hds : ∀ c ∈ ds, isdigit c = true) (ha : identifier_char a = false) :
    next_scan (' ' :: (sign ++ (ds ++ a :: Z)))
      = some ([' '], token_kind.t_number, String.mk (kept_sign sign ++ ds),
          sign.length + ds.length, false, a :: Z) := by
  have ht := token_scan_number sign ds a Z hs hne hds ha
  have hdrop : (sign ++ (ds ++ a :: Z)).drop (sign.length + ds.length) = a :: Z := by
    rw [← List.append_assoc, ← List.length_append]
    exact List.drop_left _ _
  obtain ⟨y, z, rest, hU, hy⟩ : ∃ y z rest, sign ++ (ds ++ a :: Z) = y :: z :: rest
      ∧ isspace y = false := by
    obtain ⟨d, ds', rfl⟩ : ∃ d ds', ds = d :: ds' := by
      cases ds with
      | nil => exact absurd rfl hne
      | cons d ds' => exact ⟨d, ds', rfl⟩
    have hd : isspace d = false := isdigit_not_space d (hds d (List.mem_cons_self _ _))
    rcases hs with rfl | rfl | rfl
    · cases ds' with
      | nil => exact ⟨d, a, Z, rfl, hd⟩
      | cons e r => exact ⟨d, e, r ++ a :: Z, rfl, hd⟩
    · exact ⟨'-', d, ds' ++ a :: Z, rfl, by decide⟩
    · exact ⟨'+', d, ds' ++ a :: Z, rfl, by decide⟩
  rw [hU] at ht hdrop ⊢
  have hsp : isspace ' ' = true := by decide
  simp only [next_scan, space_scan, hsp, if_true, List.dropWhile_cons_of_pos hsp,
    List.dropWhile_cons_of_neg (Bool.eq_false_iff.mp hy), List.takeWhile_cons_of_pos hsp,
    List.takeWhile_cons_of_neg (Bool.eq_false_iff.mp hy), ht, hdrop]

theorem stoi_literal (sign ds : List Char) (hs : sign = [] ∨ sign = ['-'] ∨ sign = ['+'])
    (hne : ds ≠ []) (hds : ∀ c ∈ ds, isdigit c = true)
    (hlo : -2147483648 ≤ literal_value sign ds) (hhi : literal_value sign ds ≤ 2147483647) :
    stoi (String.mk (kept_sign sign ++ ds)) = .ok (literal_value sign ds) := by
  obtain ⟨d, ds', rfl⟩ : ∃ d ds', ds = d :: ds' := by
    cases ds with
    | nil => exact absurd rfl hne
    | cons d ds' => exact ⟨d, ds', rfl⟩
  have hd : isdigit d = true := hds d (List.mem_cons_self _ _)
  have hdn := isdigit_toNat d hd
  have hsp : isspace d = false := isdigit_not_space d hd
  have htake : (d :: ds').takeWhile isdigit = d :: ds' := by
    rw [List.takeWhile_eq_self_iff]; exact hds
  have key : ∀ (neg : Bool), (if neg then -decimal_value (d :: ds') else decimal_value (d :: ds'))
      = literal_value sign (d :: ds') →
      (let ds := (d :: ds').takeWhile isdigit
       if ds.isEmpty then (.error (.thrown "stoi: invalid_argument") : result Int)
       else
        let n : Int := ds.foldl (fun acc d => 10 * acc + ((d.toNat : Int) - 48)) 0
        let v : Int := if neg then -n else n
        if v < -2147483648 ∨ 2147483647 < v then .error (.thrown "stoi: out_of_range")
        else .ok v) = .ok (literal_value sign (d :: ds')) := by
    intro neg hv
    simp only [htake, List.isEmpty_cons, Bool.false_eq_true, if_false]
    have : (if neg = true then -List.foldl (fun acc d => 10 * acc + ((d.toNat : Int) - 48)) 0
        (d :: ds') else List.foldl (fun acc d => 10 * acc + ((d.toNat : Int) - 48)) 0 (d :: ds'))
        = literal_value sign (d :: ds') := hv
    simp only [this]
    rw [if_neg]
    omega
  have hdm : d ≠ '-' := by intro h; subst h; revert hdn; decide
  have hdp : d ≠ '+' := by intro h; subst h; revert hdn; decide
  have hk0 : kept_sign [] = [] := rfl
  have hk1 : kept_sign ['-'] = ['-'] := rfl
  have hk2 : kept_sign ['+'] = [] := rfl
  rcases hs with rfl | rfl | rfl
  · have := key false (by simp [literal_value])
    simp only [stoi, hk0, String.toList, List.nil_append,
      List.dropWhile_cons_of_neg (Bool.eq_false_iff.mp hsp), hdm, hdp, if_false]
    exact this
  · have := key true (by simp [literal_value])
    have hm : isspace '-' = false := by decide
    simp only [stoi, hk1, String.toList, if_true, List.cons_append, List.nil_append,
      List.dropWhile_cons_of_neg (Bool.eq_false_iff.mp hm)]
    exact this
  · have := key false (by simp [literal_value])
    simp only [stoi, hk2, String.toList, List.nil_append,
      List.dropWhile_cons_of_neg (Bool.eq_false_iff.mp hsp), hdm, hdp, if_false]
    exact this

/-! ## C4: two locals and their sum -/

theorem scan_kw_local (X : List Char) :
    next_scan ('l' :: 'o' :: 'c' :: 'a' :: 'l' :: ' ' :: X)
      = some ([], token_kind.t_keyword, "local", 5, false, ' ' :: X) := rfl

theorem scan_nl_kw_local (X : List Char) :
    next_scan ('\n' :: 'l' :: 'o' :: 'c' :: 'a' :: 'l' :: ' ' :: X)
      = some (['\n'], token_kind.t_keyword, "local", 5, false, ' ' :: X) := rfl

theorem scan_sp_a (X : List Char) :
    next_scan (' ' :: 'a' :: ' ' :: X)
      = some ([' '], token_kind.t_identifier, "a", 1, false, ' ' :: X) := rfl

theorem scan_sp_b (X : List Char) :
    next_scan (' ' :: 'b' :: ' ' :: X)
      = some ([' '], token_kind.t_identifier, "b", 1, false, ' ' :: X) := rfl

theorem scan_sp_assign (X : List Char) :
    next_scan (' ' :: '=' :: ' ' :: X)
      = some ([' '], token_kind.t_syntax, "=", 1, false, ' ' :: X) := rfl

theorem scan_semicolon (X : List Char) :
    next_scan (';' :: X) = some ([], token_kind.t_syntax, ";", 1, false, X) := rfl

theorem scan_nl_print (X : List Char) :
    next_scan ('\n' :: 'p' :: 'r' :: 'i' :: 'n' :: 't' :: '(' :: X)
      = some (['\n'], token_kind.t_identifier, "print", 5, false, '(' :: X) := rfl

theorem scan_open (X : List Char) :
    next_scan ('(' :: X) = some ([], token_kind.t_syntax, "(", 1, false, X) := rfl

theorem scan_close (X : List Char) :
    next_scan (')' :: X) = some ([], token_kind.t_syntax, ")", 1, false, X) := rfl

theorem scan_a_sp (X : List Char) :
    next_scan ('a' :: ' ' :: X)
      = some ([], token_kind.t_identifier, "a", 1, false, ' ' :: X) := rfl

theorem scan_sp_plus (X : List Char) :
    next_scan (' ' :: '+' :: ' ' :: X)
      = some ([' '], token_kind.t_operator, "+", 1, false, ' ' :: X) := rfl

theorem scan_sp_b_close (X : List Char) :
    next_scan (' ' :: 'b' :: ')' :: X)
      = some ([' '], token_kind.t_identifier, "b", 1, false, ')' :: X) := rfl

theorem parse_sum (A B : String)
    (l1 l2 l3 l4 l5 l6 l7 l8 l9 l10 l11 l12 l13 l14 l15 l16 l17 : location) :
    parse [⟨token_kind.t_keyword, "local", l1⟩, ⟨token_kind.t_identifier, "a", l2⟩,
      ⟨token_kind.t_syntax, "=", l3⟩, ⟨token_kind.t_number, A, l4⟩,
      ⟨token_kind.t_syntax, ";", l5⟩,
      ⟨token_kind.t_keyword, "local", l6⟩, ⟨token_kind.t_identifier, "b", l7⟩,
      ⟨token_kind.t_syntax, "=", l8⟩, ⟨token_kind.t_number, B, l9⟩,
      ⟨token_kind.t_syntax, ";", l10⟩,
      ⟨token_kind.t_identifier, "print", l11⟩, ⟨token_kind.t_syntax, "(", l12⟩,
      ⟨token_kind.t_identifier, "a", l13⟩, ⟨token_kind.t_operator, "+", l14⟩,
      ⟨token_kind.t_identifier, "b", l15⟩, ⟨token_kind.t_syntax, ")", l16⟩,
      ⟨token_kind.t_syntax, ";", l17⟩]
    = .ok [.local_stmt ⟨token_kind.t_identifier, "a", l2⟩ (.literal_number ⟨token_kind.t_number, A, l4⟩),
        .local_stmt ⟨token_kind.t_identifier, "b", l7⟩ (.literal_number ⟨token_kind.t_number, B, l9⟩),
        .expr_stmt (.func_call ⟨token_kind.t_identifier, "print", l11⟩
          [.binary_op ⟨token_kind.t_operator, "+", l14⟩
            (.literal_id ⟨token_kind.t_identifier, "a", l13⟩)
            (.literal_id ⟨token_kind.t_identifier, "b", l15⟩)])] := by
  rfl

theorem sum_source_toList (A B : List Char) :
    (sum_source (String.mk A) (String.mk B)).toList
      = 'l' :: 'o' :: 'c' :: 'a' :: 'l' :: ' ' :: 'a' :: ' ' :: '=' :: ' ' :: (A ++
        (';' :: '\n' :: 'l' :: 'o' :: 'c' :: 'a' :: 'l' :: ' ' :: 'b' :: ' ' :: '=' :: ' ' :: (B ++
        [';', '\n', 'p', 'r', 'i', 'n', 't', '(', 'a', ' ', '+', ' ', 'b', ')', ';']))) := by
  simp only [sum_source, String.toList, String.data_append]
  simp only [List.append_assoc]
  rfl

theorem sum_tokens (sa da sb db : List Char)
    (hsa : sa = [] ∨ sa = ['-'] ∨ sa = ['+']) (hda : da ≠ []) (hda' : ∀ c ∈ da, isdigit c = true)
    (hsb : sb = [] ∨ sb = ['-'] ∨ sb = ['+']) (hdb : db ≠ []) (hdb' : ∀ c ∈ db, isdigit c = true) :
    ∃ toks, scan_tokens 18 (sum_source (String.mk (sa ++ da)) (String.mk (sb ++ db))).toList
        ⟨1, 1, 0⟩ false = some toks ∧ toks.length = 17 ∧
      ∃ l1 l2 l3 l4 l5 l6 l7 l8 l9 l10 l11 l12 l13 l14 l15 l16 l17,
      toks = [⟨token_kind.t_keyword, "local", l1⟩, ⟨token_kind.t_identifier, "a", l2⟩,
      ⟨token_kind.t_syntax, "=", l3⟩, ⟨token_kind.t_number, String.mk (kept_sign sa ++ da), l4⟩,
      ⟨token_kind.t_syntax, ";", l5⟩,
      ⟨token_kind.t_keyword, "local", l6⟩, ⟨token_kind.t_identifier, "b", l7⟩,
      ⟨token_kind.t_syntax, "=", l8⟩, ⟨token_kind.t_number, String.mk (kept_sign sb ++ db), l9⟩,
      ⟨token_kind.t_syntax, ";", l10⟩,
      ⟨token_kind.t_identifier, "print", l11⟩, ⟨token_kind.t_syntax, "(", l12⟩,
      ⟨token_kind.t_identifier, "a", l13⟩, ⟨token_kind.t_operator, "+", l14⟩,
      ⟨token_kind.t_identifier, "b", l15⟩, ⟨token_kind.t_syntax, ")", l16⟩,
      ⟨token_kind.t_syntax, ";", l17⟩] := by
  have hA := fun Z => next_scan_number sa da ';' Z hsa hda hda' (by decide)
  have hB := fun Z => next_scan_number sb db ';' Z hsb hdb hdb' (by decide)
  rw [sum_source_toList]
  simp only [scan_tokens, List.append_assoc, List.cons_append, List.nil_append,
    scan_kw_local, scan_nl_kw_local, scan_sp_a, scan_sp_b,
    scan_sp_assign, scan_semicolon, scan_nl_print, scan_open, scan_close, scan_a_sp,
    scan_sp_plus, scan_sp_b_close, hA, hB, Bool.false_eq_true, if_false]
  exact ⟨_, rfl, rfl, _, _, _, _, _, _, _, _, _, _, _, _, _, _, _, _, _, rfl⟩

theorem compile_sum (A B : String) (a b : Int) (hA : stoi A = .ok a) (hB : stoi B = .ok b)
    (l2 l4 l7 l9 l11 l13 l14 l15 : location) :
    compile [.local_stmt ⟨token_kind.t_identifier, "a", l2⟩ (.literal_number ⟨token_kind.t_number, A, l4⟩),
        .local_stmt ⟨token_kind.t_identifier, "b", l7⟩ (.literal_number ⟨token_kind.t_number, B, l9⟩),
        .expr_stmt (.func_call ⟨token_kind.t_identifier, "print", l11⟩
          [.binary_op ⟨token_kind.t_operator, "+", l14⟩
            (.literal_id ⟨token_kind.t_identifier, "a", l13⟩)
            (.literal_id ⟨token_kind.t_identifier, "b", l15⟩)])]
      = .ok ⟨[], [.store_inst a, .move_plus_fp_inst 0, .store_inst b, .move_plus_fp_inst 1,
          .dup_plus_fp_inst 0, .dup_plus_fp_inst 1, .add_inst, .call_inst "print" 1]⟩ := by
  simp [compile, compile_block, compile_statement, compile_expr, compile_arguments,
    compile_literal, clone, hA, hB, map_insert, map_find, map_index, program.push,
    binary_opcode]

theorem eval_sum (a b : Int) :
    eval 8 (show_asm [.store_inst a, .move_plus_fp_inst 0, .store_inst b, .move_plus_fp_inst 1,
          .dup_plus_fp_inst 0, .dup_plus_fp_inst 1, .add_inst, .call_inst "print" 1]
        ⟨[], [.store_inst a, .move_plus_fp_inst 0, .store_inst b, .move_plus_fp_inst 1,
          .dup_plus_fp_inst 0, .dup_plus_fp_inst 1, .add_inst, .call_inst "print" 1]⟩)
      ⟨0, 0, [], ""⟩
    = .ok (⟨[], [.store_inst a, .move_plus_fp_inst 0, .store_inst b, .move_plus_fp_inst 1,
          .dup_plus_fp_inst 0, .dup_plus_fp_inst 1, .add_inst, .call_inst "print" 1]⟩,
        ⟨8, 0, [a, b], toString (wrap32 (a + b)) ++ " \n"⟩) := by
  simp [show_asm, eval, running, step, exec, pop_stack, stack_at, pop_many, print_text]
  rw [String.append_assoc]
  rfl

/-- C4: for all decimal literals `A` and `B` (a sign `-`, `+` or none, then one
or more digits) whose values fit in a signed 32-bit integer, the pipeline run on
`local a = A;\nlocal b = B;\nprint(a + b);` succeeds, within 8 iterations of the
VM loop, and prints the 32-bit two's-complement sum of the two values followed
by one space and a newline. -/
theorem C4_local_sum (sa da sb db : List Char)
    (hsa : sa = [] ∨ sa = ['-'] ∨ sa = ['+']) (hda : da ≠ []) (hda' : ∀ c ∈ da, isdigit c = true)
    (hsb : sb = [] ∨ sb = ['-'] ∨ sb = ['+']) (hdb : db ≠ []) (hdb' : ∀ c ∈ db, isdigit c = true)
    (ha : -2147483648 ≤ literal_value sa da ∧ literal_value sa da ≤ 2147483647)
    (hb : -2147483648 ≤ literal_value sb db ∧ literal_value sb db ≤ 2147483647) (k : Nat) :
    run (sum_source (String.mk (sa ++ da)) (String.mk (sb ++ db))) (8 + k)
      = .ok (toString (wrap32 (literal_value sa da + literal_value sb db)) ++ " \n") := by
  apply run_add
  obtain ⟨toks, hscan, hlen, l1, l2, l3, l4, l5, l6, l7, l8, l9, l10, l11, l12, l13, l14, l15,
    l16, l17, rfl⟩ := sum_tokens sa da sb db hsa hda hda' hsb hdb hdb'
  have htok := tokenize_scan _ _ _ hscan (by
    rw [hlen, sum_source_toList]
    simp only [List.length_cons, List.length_append]
    omega)
  have hA := stoi_literal sa da hsa hda hda' ha.1 ha.2
  have hB := stoi_literal sb db hsb hdb hdb' hb.1 hb.2
  simp only [run, front_end, htok, parse_sum, compile_sum _ _ _ _ hA hB, eval_sum]

/-- C4 at `A = 2`, `B = 3`: the source is the one of the scenario and the text
printed is `5 \n`. -/
theorem C4_local_sum_witness :
    run (sum_source (String.mk ([] ++ ['2'])) (String.mk ([] ++ ['3']))) (8 + 0)
      = .ok (toString (wrap32 (literal_value [] ['2'] + literal_value [] ['3'])) ++ " \n")
    ∧ sum_source (String.mk ([] ++ ['2'])) (String.mk ([] ++ ['3']))
      = "local a = 2;\nlocal b = 3;\nprint(a + b);"
    ∧ toString (wrap32 (literal_value [] ['2'] + literal_value [] ['3'])) ++ " \n" = "5 \n" :=
  ⟨C4_local_sum [] ['2'] [] ['3'] (Or.inl rfl) (by decide) (by decide) (Or.inl rfl) (by decide)
    (by decide) (by decide) (by decide) 0, by decide, by decide⟩

/-! ## C5: the branch taken by an if statement -/

theorem scan_sp_n (X : List Char) :
    next_scan (' ' :: 'n' :: ' ' :: X)
      = some ([' '], token_kind.t_identifier, "n", 1, false, ' ' :: X) := rfl

theorem scan_nl_kw_if (X : List Char) :
    next_scan ('\n' :: 'i' :: 'f' :: ' ' :: X)
      = some (['\n'], token_kind.t_keyword, "if", 2, false, ' ' :: X) := rfl

theorem scan_sp_lt (X : List Char) :
    next_scan (' ' :: '<' :: ' ' :: X)
      = some ([' '], token_kind.t_operator, "<", 1, false, ' ' :: X) := rfl

theorem scan_sp_kw_then (X : List Char) :
    next_scan (' ' :: 't' :: 'h' :: 'e' :: 'n' :: '\n' :: X)
      = some ([' '], token_kind.t_keyword, "then", 4, false, '\n' :: X) := rfl

theorem scan_nl_indent_print (X : List Char) :
    next_scan ('\n' :: ' ' :: ' ' :: 'p' :: 'r' :: 'i' :: 'n' :: 't' :: '(' :: X)
      = some (['\n', ' ', ' '], token_kind.t_identifier, "print", 5, false, '(' :: X) := rfl

theorem scan_one_close (X : List Char) :
    next_scan ('1' :: ')' :: X) = some ([], token_kind.t_number, "1", 1, false, ')' :: X) := rfl

theorem scan_zero_close (X : List Char) :
    next_scan ('0' :: ')' :: X) = some ([], token_kind.t_number, "0", 1, false, ')' :: X) := rfl

theorem scan_nl_kw_else (X : List Char) :
    next_scan ('\n' :: 'e' :: 'l' :: 's' :: 'e' :: '\n' :: X)
      = some (['\n'], token_kind.t_keyword, "else", 4, false, '\n' :: X) := rfl

theorem scan_nl_kw_end_eof :
    next_scan ['\n', 'e', 'n', 'd'] = some (['\n'], token_kind.t_keyword, "end", 3, true, []) := rfl

theorem branch_source_toList (N M : List Char) :
    (branch_source (String.mk N) (String.mk M)).toList
      = 'l' :: 'o' :: 'c' :: 'a' :: 'l' :: ' ' :: 'n' :: ' ' :: '=' :: ' ' :: (N ++
        (';' :: '\n' :: 'i' :: 'f' :: ' ' :: 'n' :: ' ' :: '<' :: ' ' :: (M ++
        [' ', 't', 'h', 'e', 'n', '\n', ' ', ' ', 'p', 'r', 'i', 'n', 't', '(', '1', ')', ';',
         '\n', 'e', 'l', 's', 'e', '\n', ' ', ' ', 'p', 'r', 'i', 'n', 't', '(', '0', ')', ';',
         '\n', 'e', 'n', 'd']))) := by
  simp only [branch_source, String.toList, String.data_append]
  simp only [List.append_assoc]
  rfl

theorem parse_branch (N M : String)
    (l1 l2 l3 l4 l5 l6 l7 l8 l9 l10 l11 l12 l13 l14 l15 l16 l17 l18 l19 l20 l21 l22 : location) :
    parse [⟨token_kind.t_keyword, "local", l1⟩, ⟨token_kind.t_identifier, "n", l2⟩,
      ⟨token_kind.t_syntax, "=", l3⟩, ⟨token_kind.t_number, N, l4⟩,
      ⟨token_kind.t_syntax, ";", l5⟩,
      ⟨token_kind.t_keyword, "if", l6⟩, ⟨token_kind.t_identifier, "n", l7⟩,
      ⟨token_kind.t_operator, "<", l8⟩, ⟨token_kind.t_number, M, l9⟩,
      ⟨token_kind.t_keyword, "then", l10⟩,
      ⟨token_kind.t_identifier, "print", l11⟩, ⟨token_kind.t_syntax, "(", l12⟩,
      ⟨token_kind.t_number, "1", l13⟩, ⟨token_kind.t_syntax, ")", l14⟩,
      ⟨token_kind.t_syntax, ";", l15⟩,
      ⟨token_kind.t_keyword, "else", l16⟩,
      ⟨token_kind.t_identifier, "print", l17⟩, ⟨token_kind.t_syntax, "(", l18⟩,
      ⟨token_kind.t_number, "0", l19⟩, ⟨token_kind.t_syntax, ")", l20⟩,
      ⟨token_kind.t_syntax, ";", l21⟩,
      ⟨token_kind.t_keyword, "end", l22⟩]
    = .ok [.local_stmt ⟨token_kind.t_identifier, "n", l2⟩ (.literal_number ⟨token_kind.t_number, N, l4⟩),
        .if_stmt (.binary_op ⟨token_kind.t_operator, "<", l8⟩
            (.literal_id ⟨token_kind.t_identifier, "n", l7⟩)
            (.literal_number ⟨token_kind.t_number, M, l9⟩))
          [.expr_stmt (.func_call ⟨token_kind.t_identifier, "print", l11⟩
            [.literal_number ⟨token_kind.t_number, "1", l13⟩])]
          [.expr_stmt (.func_call ⟨token_kind.t_identifier, "print", l17⟩
            [.literal_number ⟨token_kind.t_number, "0", l19⟩])]] := by
  rfl

theorem branch_tokens (sn dn sm dm : List Char)
    (hsn : sn = [] ∨ sn = ['-'] ∨ sn = ['+']) (hdn : dn ≠ []) (hdn' : ∀ c ∈ dn, isdigit c = true)
    (hsm : sm = [] ∨ sm = ['-'] ∨ sm = ['+']) (hdm : dm ≠ []) (hdm' : ∀ c ∈ dm, isdigit c = true) :
    ∃ toks, scan_tokens 23 (branch_source (String.mk (sn ++ dn)) (String.mk (sm ++ dm))).toList
        ⟨1, 1, 0⟩ false = some toks ∧ toks.length = 22 ∧
      ∃ l1 l2 l3 l4 l5 l6 l7 l8 l9 l10 l11 l12 l13 l14 l15 l16 l17 l18 l19 l20 l21 l22,
      toks = [⟨token_kind.t_keyword, "local", l1⟩, ⟨token_kind.t_identifier, "n", l2⟩,
      ⟨token_kind.t_syntax, "=", l3⟩, ⟨token_kind.t_number, String.mk (kept_sign sn ++ dn), l4⟩,
      ⟨token_kind.t_syntax, ";", l5⟩,
      ⟨token_kind.t_keyword, "if", l6⟩, ⟨token_kind.t_identifier, "n", l7⟩,
      ⟨token_kind.t_operator, "<", l8⟩, ⟨token_kind.t_number, String.mk (kept_sign sm ++ dm), l9⟩,
      ⟨token_kind.t_keyword, "then", l10⟩,
      ⟨token_kind.t_identifier, "print", l11⟩, ⟨token_kind.t_syntax, "(", l12⟩,
      ⟨token_kind.t_number, "1", l13⟩, ⟨token_kind.t_syntax, ")", l14⟩,
      ⟨token_kind.t_syntax, ";", l15⟩,
      ⟨token_kind.t_keyword, "else", l16⟩,
      ⟨token_kind.t_identifier, "print", l17⟩, ⟨token_kind.t_syntax, "(", l18⟩,
      ⟨token_kind.t_number, "0", l19⟩, ⟨token_kind.t_syntax, ")", l20⟩,
      ⟨token_kind.t_syntax, ";", l21⟩,
      ⟨token_kind.t_keyword, "end", l22⟩] := by
  have hN := fun Z => next_scan_number sn dn ';' Z hsn hdn hdn' (by decide)
  have hM := fun Z => next_scan_number sm dm ' ' Z hsm hdm hdm' (by decide)
  rw [branch_source_toList]
  simp only [scan_tokens, List.append_assoc, List.cons_append, List.nil_append,
    scan_kw_local, scan_sp_n, scan_sp_assign, scan_semicolon, scan_nl_kw_if, scan_sp_lt,
    scan_sp_kw_then, scan_nl_indent_print, scan_open, scan_close, scan_one_close,
    scan_zero_close, scan_nl_kw_else, scan_nl_kw_end_eof, hN, hM, Bool.false_eq_true, if_false,
    if_true]
  exact ⟨_, rfl, rfl, _, _, _, _, _, _, _, _, _, _, _, _, _, _, _, _, _, _, _, _, _, _, rfl⟩

theorem stoi_one : stoi "1" = .ok 1 := by decide

theorem stoi_zero : stoi "0" = .ok 0 := by decide

theorem compile_branch (N M : String) (n m : Int) (hN : stoi N = .ok n) (hM : stoi M = .ok m)
    (l2 l4 l7 l8 l9 l11 l13 l17 l19 : location) :
    compile [.local_stmt ⟨token_kind.t_identifier, "n", l2⟩ (.literal_number ⟨token_kind.t_number, N, l4⟩),
        .if_stmt (.binary_op ⟨token_kind.t_operator, "<", l8⟩
            (.literal_id ⟨token_kind.t_identifier, "n", l7⟩)
            (.literal_number ⟨token_kind.t_number, M, l9⟩))
          [.expr_stmt (.func_call ⟨token_kind.t_identifier, "print", l11⟩
            [.literal_number ⟨token_kind.t_number, "1", l13⟩])]
          [.expr_stmt (.func_call ⟨token_kind.t_identifier, "print", l17⟩
            [.literal_number ⟨token_kind.t_number, "0", l19⟩])]]
      = .ok (branch_program n m) := by
  have e1 : "label_else_" ++ toString (2 : Nat) = "label_else_2" := by decide
  have e2 : "label_out_" ++ toString (2 : Nat) = "label_out_2" := by decide
  simp [compile, compile_block, compile_statement, compile_expr, compile_arguments,
    compile_literal, clone, hN, hM, stoi_one, stoi_zero, map_insert, map_find, map_index,
    program.push, binary_opcode, e1, e2, branch_program, branch_insts]

theorem eval_branch (n m : Int) :
    ∃ prog vm', eval 9 (show_asm (branch_program n m).insts (branch_program n m)) ⟨0, 0, [], ""⟩
      = .ok (prog, vm') ∧ vm'.cout = if n < m then "1 \n" else "0 \n" := by
  have hs : show_asm (branch_program n m).insts (branch_program n m) = branch_program n m := by
    simp [show_asm, branch_program, branch_insts, program.sym, map_index, map_find]
  rw [hs]
  by_cases h : n < m
  · refine ⟨branch_program n m, ⟨11, 0, [n], "1 \n"⟩, ?_, by simp [h]⟩
    simp [eval, running, step, exec, pop_stack, stack_at, pop_many, print_text, logic_cond, h,
      branch_program, branch_insts, program.sym, map_index, map_find]
    decide
  · refine ⟨branch_program n m, ⟨11, 0, [n], "0 \n"⟩, ?_, by simp [h]⟩
    simp [eval, running, step, exec, pop_stack, stack_at, pop_many, print_text, logic_cond, h,
      branch_program, branch_insts, program.sym, map_index, map_find]
    decide

/-- C5: for all decimal literals `N` and `M` (a sign `-`, `+` or none, then one
or more digits) whose values fit in a signed 32-bit integer, the pipeline run on
`local n = N;\nif n < M then\n  print(1);\nelse\n  print(0);\nend` succeeds,
within 9 iterations of the VM loop, and prints exactly `1 \n` when the value of
`N` is less than the value of `M` and exactly `0 \n` otherwise. -/
theorem C5_if_else_branch (sn dn sm dm : List Char)
    (hsn : sn = [] ∨ sn = ['-'] ∨ sn = ['+']) (hdn : dn ≠ []) (hdn' : ∀ c ∈ dn, isdigit c = true)
    (hsm : sm = [] ∨ sm = ['-'] ∨ sm = ['+']) (hdm : dm ≠ []) (hdm' : ∀ c ∈ dm, isdigit c = true)
    (hn : -2147483648 ≤ literal_value sn dn ∧ literal_value sn dn ≤ 2147483647)
    (hm : -2147483648 ≤ literal_value sm dm ∧ literal_value sm dm ≤ 2147483647) (k : Nat) :
    run (branch_source (String.mk (sn ++ dn)) (String.mk (sm ++ dm))) (9 + k)
      = .ok (if literal_value sn dn < literal_value sm dm then "1 \n" else "0 \n") := by
  apply run_add
  obtain ⟨toks, hscan, hlen, l1, l2, l3, l4, l5, l6, l7, l8, l9, l10, l11, l12, l13, l14, l15,
    l16, l17, l18, l19, l20, l21, l22, rfl⟩ := branch_tokens sn dn sm dm hsn hdn hdn' hsm hdm hdm'
  have htok := tokenize_scan _ _ _ hscan (by
    rw [hlen, branch_source_toList]
    simp only [List.length_cons, List.length_append]
    omega)
  have hN := stoi_literal sn dn hsn hdn hdn' hn.1 hn.2
  have hM := stoi_literal sm dm hsm hdm hdm' hm.1 hm.2
  obtain ⟨prog, vm', he, hc⟩ := eval_branch (literal_value sn dn) (literal_value sm dm)
  simp only [run, front_end, htok, parse_branch, compile_branch _ _ _ _ hN hM, he, hc]

/-- C5 at `N = 3`, `M = 5`: the source is the one of the scenario and the text
printed is `1 \n`. -/
theorem C5_if_else_branch_witness :
    run (branch_source (String.mk ([] ++ ['3'])) (String.mk ([] ++ ['5']))) (9 + 0)
      = .ok (if literal_value [] ['3'] < literal_value [] ['5'] then "1 \n" else "0 \n")
    ∧ branch_source (String.mk ([] ++ ['3'])) (String.mk ([] ++ ['5']))
      = "local n = 3;\nif n < 5 then\n  print(1);\nelse\n  print(0);\nend"
    ∧ (if literal_value [] ['3'] < literal_value [] ['5'] then "1 \n" else "0 \n") = "1 \n" :=
  ⟨C5_if_else_branch [] ['3'] [] ['5'] (Or.inl rfl) (by decide) (by decide) (Or.inl rfl)
    (by decide) (by decide) (by decide) (by decide) 0, by decide, by decide⟩

/-! ## The lexer on every input -/

theorem get_failed (D r : List Char) (e : Bool) :
    ifstream.get ⟨D, r, e, true⟩ = (none, ⟨D, r, e, true⟩) := by
  simp [ifstream.get, ifstream.good]

theorem peek_failed (D r : List Char) (e : Bool) :
    ifstream.peek ⟨D, r, e, true⟩ = (none, ⟨D, r, e, true⟩) := by
  simp [ifstream.peek, ifstream.good]

theorem seekg_failed (D r : List Char) (e : Bool) (off : Nat) :
    ifstream.seekg ⟨D, r, e, true⟩ off = ⟨D, r, false, true⟩ := rfl

theorem failed_eta (f : ifstream) (D : List Char) (hd : f.data = D) (hf : f.failbit = true) :
    f = ⟨D, f.rest, f.eofbit, true⟩ := by
  cases f; simp_all

theorem keywords_nonempty : ∀ w ∈ keywords, w.toList ≠ [] := by decide

theorem operators_nonempty : ∀ w ∈ operators, w.toList ≠ [] := by decide

theorem eat_keyword_loop_failed (loc : location) : ∀ (kws : List String) (D r : List Char)
    (e : Bool), (∀ w ∈ kws, w.toList ≠ []) →
    eat_keyword_loop loc kws ⟨D, r, e, true⟩ = (none, ⟨D, r, e && kws.isEmpty, true⟩) := by
  intro kws
  induction kws with
  | nil => intro D r e _; simp [eat_keyword_loop]
  | cons w more ih =>
    intro D r e h
    have hw : w.toList ≠ [] := h w (List.mem_cons_self _ _)
    have hw' : w.toList.isEmpty = false := by
      cases hl : w.toList with
      | nil => exact absurd hl hw
      | cons a b => rfl
    unfold eat_keyword_loop
    simp only [seekg_failed, get_failed, match_word_none, hw', Bool.not_false, Bool.not_true,
      Bool.false_and, Bool.false_eq_true, if_false]
    rw [ih D r false (fun w hw => h w (List.mem_cons_of_mem _ hw))]
    simp

theorem eat_operator_loop_failed (loc : location) : ∀ (ops : List String) (D r : List Char)
    (e : Bool), (∀ w ∈ ops, w.toList ≠ []) →
    eat_operator_loop loc ops ⟨D, r, e, true⟩ = (none, ⟨D, r, e && ops.isEmpty, true⟩) := by
  intro ops
  induction ops with
  | nil => intro D r e _; simp [eat_operator_loop]
  | cons w more ih =>
    intro D r e h
    have hw : w.toList ≠ [] := h w (List.mem_cons_self _ _)
    have hw' : w.toList.isEmpty = false := by
      cases hl : w.toList with
      | nil => exact absurd hl hw
      | cons a b => rfl
    unfold eat_operator_loop
    simp only [seekg_failed, get_failed, match_word_none, hw', Bool.not_false, Bool.not_true,
      Bool.false_and, Bool.false_eq_true, if_false]
    rw [ih D r false (fun w hw => h w (List.mem_cons_of_mem _ hw))]
    simp

theorem eat_syntax_loop_failed (loc : location) : ∀ (chars : List Char) (D r : List Char)
    (e : Bool),
    eat_syntax_loop loc chars ⟨D, r, e, true⟩ = (none, ⟨D, r, e && chars.isEmpty, true⟩) := by
  intro chars
  induction chars with
  | nil => intro D r e; simp [eat_syntax_loop]
  | cons ch more ih =>
    intro D r e
    unfold eat_syntax_loop
    have hc : ((none : Option Char) == some ch) = false := rfl
    simp only [get_failed, hc, Bool.false_eq_true, if_false, seekg_failed]
    rw [ih D r false]
    simp

theorem eat_identifier_failed (D r : List Char) (e : Bool) (loc : location) :
    eat_identifier ⟨⟨D, r, e, true⟩, loc⟩ = .ok (none, ⟨⟨D, r, false, true⟩, loc⟩) := by
  simp [eat_identifier, get_failed, ifstream.budget, eat_identifier_loop, seekg_failed]

theorem eat_number_failed (D r : List Char) (e : Bool) (loc : location) :
    eat_number ⟨⟨D, r, e, true⟩, loc⟩ = .ok (none, ⟨⟨D, r, false, true⟩, loc⟩) := by
  have h1 : ((none : Option Char) == some '-') = false := rfl
  have h2 : ((none : Option Char) == some '+') = false := rfl
  simp [eat_number, get_failed, ifstream.budget, eat_number_loop, seekg_failed, h1, h2]

theorem after_miss_failed (D r : List Char) (e : Bool) (loc : location) :
    after_sub_lexer none ⟨⟨D, r, e, true⟩, loc⟩ = ⟨⟨D, r, false, true⟩, loc⟩ := rfl

theorem eat_keyword_loop_none (D : List Char) (loc : location) (T : List Char)
    (hT : D.drop loc.offset = T) : ∀ (kws : List String) (f : ifstream), f.data = D →
    f.failbit = false → (∀ w ∈ kws, w.toList ≠ []) → word_find T kws = none →
    ∃ r e, eat_keyword_loop loc kws f = (none, ⟨D, r, e, true⟩) := by
  intro kws
  induction kws with
  | nil => intro f _ _ _ h; simp [word_find] at h
  | cons w more ih =>
    intro f hd hf hne h
    have hw : w.toList ≠ [] := hne w (List.mem_cons_self _ _)
    have hmore : ∀ w ∈ more, w.toList ≠ [] := fun w hw => hne w (List.mem_cons_of_mem _ hw)
    have hseek : f.seekg loc.offset = ⟨D, T, false, false⟩ := by
      rw [seekg_sound f _ hf, hd, hT]
    unfold eat_keyword_loop
    simp only [hseek]
    unfold word_find at h
    cases T with
    | nil =>
      have hw' : w.toList.isEmpty = false := by
        cases hl : w.toList with
        | nil => exact absurd hl hw
        | cons a b => rfl
      simp only [get_nil, match_word_none, hw', Bool.not_false, Bool.not_true, Bool.false_and,
        Bool.false_eq_true, if_false]
      rw [eat_keyword_loop_failed loc more D [] true hmore]
      exact ⟨_, _, rfl⟩
    | cons x Y =>
      obtain ⟨f1, h1, h2, h3⟩ := match_word_scan D w.toList x Y loc
      simp only [get_cons, h1]
      rcases hws : word_scan w.toList (x :: Y) with ⟨miss, n, eof⟩
      simp only [hws] at h h3 ⊢
      simp only [advance_offset, Nat.add_sub_cancel_left]
      by_cases hc : (!miss && n == w.length) = true
      · simp [hc] at h
      · simp only [hc, if_false] at h ⊢
        cases eof with
        | true =>
          rw [failed_eta f1 D h2 h3, eat_keyword_loop_failed loc more D _ _ hmore]
          exact ⟨_, _, rfl⟩
        | false =>
          simp only [Bool.false_eq_true, if_false] at h
          exact ih f1 h2 h3 hmore h

theorem eat_operator_loop_none (D : List Char) (loc : location) (T : List Char)
    (hT : D.drop loc.offset = T) : ∀ (ops : List String),
    (∀ w ∈ ops, w.toList ≠ []) → word_find T ops = none →
    ∃ r e, eat_operator_loop loc ops ⟨D, T, false, false⟩ = (none, ⟨D, r, e, true⟩) := by
  intro ops
  induction ops with
  | nil => intro _ h; simp [word_find] at h
  | cons w more ih =>
    intro hne h
    have hw : w.toList ≠ [] := hne w (List.mem_cons_self _ _)
    have hmore : ∀ w ∈ more, w.toList ≠ [] := fun w hw => hne w (List.mem_cons_of_mem _ hw)
    unfold eat_operator_loop
    unfold word_find at h
    cases T with
    | nil =>
      have hw' : w.toList.isEmpty = false := by
        cases hl : w.toList with
        | nil => exact absurd hl hw
        | cons a b => rfl
      simp only [get_nil, match_word_none, hw', Bool.not_false, Bool.not_true, Bool.false_and,
        Bool.false_eq_true, if_false, seekg_failed]
      rw [eat_operator_loop_failed loc more D [] false hmore]
      exact ⟨_, _, rfl⟩
    | cons x Y =>
      obtain ⟨f1, h1, h2, h3⟩ := match_word_scan D w.toList x Y loc
      simp only [get_cons, h1]
      rcases hws : word_scan w.toList (x :: Y) with ⟨miss, n, eof⟩
      simp only [hws] at h h3 ⊢
      simp only [advance_offset, Nat.add_sub_cancel_left]
      by_cases hc : (!miss && n == w.length) = true
      · simp [hc] at h
      · simp only [hc, if_false] at h ⊢
        cases eof with
        | true =>
          rw [failed_eta f1 D h2 h3, seekg_failed, eat_operator_loop_failed loc more D _ _ hmore]
          exact ⟨_, _, rfl⟩
        | false =>
          simp only [Bool.false_eq_true, if_false] at h
          have hs : f1.seekg loc.offset = ⟨D, x :: Y, false, false⟩ := by
            rw [seekg_sound f1 _ h3, h2, hT]
          rw [hs]
          exact ih hmore h

theorem syntax_scan_cons (x : Char) (rest : List Char) :
    ∀ chars : List Char, syntax_scan (x :: rest) chars ≠ none := by
  intro chars
  induction chars with
  | nil => simp [syntax_scan]
  | cons ch more ih =>
    simp only [syntax_scan]
    split
    · split
      · split <;> simp
        split <;> simp
      · simp
    · exact ih

theorem eat_syntax_loop_none (D : List Char) (loc : location) (T : List Char)
    (chars : List Char) (h : syntax_scan T chars = none) :
    ∃ r e, eat_syntax_loop loc chars ⟨D, T, false, false⟩ = (none, ⟨D, r, e, true⟩) := by
  cases T with
  | cons x rest => exact absurd h (syntax_scan_cons x rest chars)
  | nil =>
    cases chars with
    | nil => simp [syntax_scan] at h
    | cons ch more =>
      unfold eat_syntax_loop
      have hc : ((none : Option Char) == some ch) = false := rfl
      simp only [get_nil, hc, Bool.false_eq_true, if_false, seekg_failed,
        eat_syntax_loop_failed]
      exact ⟨_, _, rfl⟩

theorem eat_identifier_none (D : List Char) (loc : location) (T : List Char)
    (h : identifier_scan T = none) :
    ∃ r e, eat_identifier ⟨⟨D, T, false, false⟩, loc⟩ = .ok (none, ⟨⟨D, r, e, true⟩, loc⟩) := by
  cases T with
  | nil =>
    refine ⟨[], false, ?_⟩
    simp [eat_identifier, get_nil, ifstream.budget, eat_identifier_loop, seekg_failed]
  | cons x Y =>
    obtain ⟨f1, h1, h2, h3⟩ := eat_identifier_loop_span D Y x (Y.length + 2) [] loc (le_refl _)
    unfold eat_identifier
    simp only [get_cons, ifstream.budget, h1, List.nil_append]
    simp only [identifier_scan] at h
    cases hid : (x :: Y).takeWhile identifier_char with
    | nil => simp [hid] at h
    | cons c0 cs =>
      simp only [hid] at h
      by_cases hd : isdigit c0 = true
      · simp only [hd, if_true] at h ⊢
        cases he : ((x :: Y).dropWhile identifier_char).isEmpty with
        | false => simp [he] at h
        | true =>
          rw [he] at h3
          rw [failed_eta f1 D h2 h3, seekg_failed]
          exact ⟨_, _, rfl⟩
      · simp [hd] at h

theorem eat_number_none (D : List Char) (loc : location) (T : List Char)
    (h : number_scan T = none) :
    ∃ r e, eat_number ⟨⟨D, T, false, false⟩, loc⟩ = .ok (none, ⟨⟨D, r, e, true⟩, loc⟩) := by
  -- the loop and what follows it, from the state the two sign tests leave
  have tail : ∀ (x : Char) (Y sign : List Char) (n : Nat),
      (if !(sign ++ (x :: Y).takeWhile isdigit).isEmpty then
          some (some (String.mk (sign ++ (x :: Y).takeWhile isdigit),
            n + ((x :: Y).takeWhile isdigit).length, ((x :: Y).dropWhile isdigit).isEmpty))
        else if ((x :: Y).dropWhile isdigit).isEmpty then none
        else some none) = none →
      ∃ r e, (match eat_number_loop (Y.length + 2) ⟨D, Y, false, false⟩ (some x) sign
                (loc.advance n) with
            | .error e => (.error e : result (token_yield × lexer))
            | .ok (file, ident, next_loc) =>
              if !ident.isEmpty then
                .ok (some (⟨token_kind.t_number, String.mk ident, loc⟩, next_loc),
                     { _file := file, _loc := loc })
              else
                .ok (none, { _file := file.seekg loc.offset, _loc := loc }))
          = .ok (none, ⟨⟨D, r, e, true⟩, loc⟩) := by
    intro x Y sign n h
    obtain ⟨f1, h1, h2, h3⟩ := eat_number_loop_span D Y x (Y.length + 2) sign (loc.advance n)
      (le_refl _)
    simp only [h1]
    by_cases hc : (!(sign ++ (x :: Y).takeWhile isdigit).isEmpty) = true
    · simp [hc] at h
    · simp only [hc, if_false] at h ⊢
      cases he : ((x :: Y).dropWhile isdigit).isEmpty with
      | false => simp [he] at h
      | true =>
        rw [he] at h3
        rw [failed_eta f1 D h2 h3, seekg_failed]
        exact ⟨_, _, rfl⟩
  have hn1 : ((none : Option Char) == some '-') = false := rfl
  have hn2 : ((none : Option Char) == some '+') = false := rfl
  cases T with
  | nil =>
    refine ⟨[], false, ?_⟩
    simp [eat_number, get_nil, ifstream.budget, eat_number_loop, seekg_failed, hn1, hn2]
  | cons x rest =>
    unfold eat_number
    simp only [get_cons]
    simp only [number_scan] at h
    by_cases hm : x = '-'
    · subst hm
      simp only [beq_self_eq_true, if_true] at h ⊢
      cases rest with
      | nil => simp at h
      | cons x1 rest1 =>
        simp only [get_cons, List.nil_append] at h ⊢
        by_cases hp : x1 = '+'
        · subst hp
          simp only [beq_self_eq_true, if_true] at h ⊢
          cases rest1 with
          | nil => simp at h
          | cons x2 rest2 =>
            simp only [get_cons, ifstream.budget, step_false, step_advance]
            exact tail x2 rest2 ['-'] 2 h
        · have hp1 : (x1 == '+') = false := by simp [hp]
          have hp2 : (some x1 == some '+') = false := by simp [hp]
          simp only [hp1, hp2, Bool.false_eq_true, if_false, ifstream.budget, step_false] at h ⊢
          exact tail x1 rest1 ['-'] 1 h
    · have hm1 : (x == '-') = false := by simp [hm]
      have hm2 : (some x == some '-') = false := by simp [hm]
      simp only [hm1, hm2, Bool.false_eq_true, if_false] at h ⊢
      by_cases hp : x = '+'
      · subst hp
        simp only [beq_self_eq_true, if_true] at h ⊢
        cases rest with
        | nil =>
          refine ⟨[], false, ?_⟩
          simp [get_nil, ifstream.budget, eat_number_loop, seekg_failed]
        | cons x2 rest2 =>
          simp only [get_cons, ifstream.budget, step_false]
          exact tail x2 rest2 [] 1 (by simpa using h)
      · have hp1 : (x == '+') = false := by simp [hp]
        have hp2 : (some x == some '+') = false := by simp [hp]
        simp only [hp1, hp2, Bool.false_eq_true, if_false, ifstream.budget] at h ⊢
        have := tail x rest [] 0 (by simpa using h)
        simpa [advance_zero] using this

theorem eat_keyword_failed (D r : List Char) (e : Bool) (loc : location) :
    eat_keyword ⟨⟨D, r, e, true⟩, loc⟩ = (none, ⟨⟨D, r, false, true⟩, loc⟩) := by
  rw [eat_keyword_eq _ ⟨D, r, e, true⟩ ⟨D, r, false, true⟩ loc none rfl rfl]
  rw [eat_keyword_loop_failed loc keywords D r e keywords_nonempty]
  simp [keywords]

theorem eat_syntax_failed (D r : List Char) (e : Bool) (loc : location) :
    eat_syntax ⟨⟨D, r, e, true⟩, loc⟩ = (none, ⟨⟨D, r, false, true⟩, loc⟩) := by
  rw [ eat_syntax_eq _ ⟨D, r, e, true⟩ ⟨D, r, false, true⟩ loc none rfl rfl]
  rw [ eat_syntax_loop_failed loc _ D r e]
  simp

theorem eat_operator_failed (D r : List Char) (e : Bool) (loc : location) :
    eat_operator ⟨⟨D, r, e, true⟩, loc⟩ = (none, ⟨⟨D, r, false, true⟩, loc⟩) := by
  rw [eat_operator_eq _ ⟨D, r, e, true⟩ ⟨D, r, false, true⟩ loc none rfl rfl]
  rw [eat_operator_loop_failed loc operators D r e operators_nonempty]
  simp [operators]

theorem try_sub_lexers_silent (D : List Char) (loc : location) (T : List Char)
    (hT : D.drop loc.offset = T) (f : ifstream) (hd : f.data = D) (hf : f.failbit = false)
    (h : token_scan T = none) (hn : no_match T = false) :
    ∃ r e, try_sub_lexers ⟨f, loc⟩ = .ok (none, ⟨⟨D, r, e, true⟩, loc⟩) := by
  unfold token_scan at h
  unfold no_match at hn
  unfold try_sub_lexers
  -- keyword
  cases hk : word_find T keywords with
  | none =>
    obtain ⟨r, e, e1⟩ := eat_keyword_loop_none D loc T hT keywords f hd hf keywords_nonempty hk
    rw [eat_keyword_eq _ f _ loc _ rfl rfl e1]
    simp only [after_miss_failed, eat_identifier_failed, eat_number_failed, eat_syntax_failed,
      eat_operator_failed, peek_failed]
    exact ⟨_, _, rfl⟩
  | some rk =>
  obtain ⟨f1, e1, d1, b1⟩ := eat_keyword_loop_scan D loc T hT keywords f rk hd hf hk
  rw [eat_keyword_eq _ f f1 loc _ rfl rfl e1]
  cases rk with
  | some r => obtain ⟨w, n', eof'⟩ := r; simp [hk] at h
  | none =>
  simp only [hk, scan_yield, after_miss D loc T hT f1 d1 b1] at h hn ⊢
  -- identifier
  cases hi : identifier_scan T with
  | none =>
    obtain ⟨r, e, e2⟩ := eat_identifier_none D loc T hi
    simp only [e2, after_miss_failed, eat_number_failed, eat_syntax_failed,
      eat_operator_failed, peek_failed]
    exact ⟨_, _, rfl⟩
  | some ri =>
  obtain ⟨f2, e2, d2, b2⟩ := eat_identifier_scan D loc T ri hi
  simp only [e2]
  cases ri with
  | some r => obtain ⟨w, n', eof'⟩ := r; simp [hi] at h
  | none =>
  simp only [hi, scan_yield, after_miss D loc T hT f2 d2 b2] at h hn ⊢
  -- number
  cases hnum : number_scan T with
  | none =>
    obtain ⟨r, e, e3⟩ := eat_number_none D loc T hnum
    simp only [e3, after_miss_failed, eat_syntax_failed, eat_operator_failed, peek_failed]
    exact ⟨_, _, rfl⟩
  | some rn =>
  obtain ⟨f3, e3, d3, b3⟩ := eat_number_scan D loc T rn hnum
  simp only [e3]
  cases rn with
  | some r => obtain ⟨w, n', eof'⟩ := r; simp [hnum] at h
  | none =>
  simp only [hnum, scan_yield, after_miss D loc T hT f3 d3 b3] at h hn ⊢
  -- punctuation
  cases hs : syntax_scan T [';', '=', '(', ')', ','] with
  | none =>
    obtain ⟨r, e, e4⟩ := eat_syntax_loop_none D loc T _ hs
    rw [ eat_syntax_eq _ _ _ loc _ rfl rfl e4]
    simp only [after_miss_failed, eat_operator_failed, peek_failed]
    exact ⟨_, _, rfl⟩
  | some rs =>
  obtain ⟨f4, e4, d4, b4⟩ := eat_syntax_loop_scan D loc T hT _ rs hs
  rw [ eat_syntax_eq _ _ f4 loc _ rfl rfl e4]
  cases rs with
  | some r => obtain ⟨w, n', eof'⟩ := r; simp [hs] at h
  | none =>
  simp only [hs, scan_yield, after_miss D loc T hT f4 d4 b4] at h hn ⊢
  -- operator
  cases ho : word_find T operators with
  | none =>
    obtain ⟨r, e, e5⟩ := eat_operator_loop_none D loc T hT operators operators_nonempty ho
    rw [eat_operator_eq _ _ _ loc _ rfl rfl e5]
    simp only [after_miss_failed, peek_failed]
    exact ⟨_, _, rfl⟩
  | some ro =>
  cases ro with
  | some r => obtain ⟨w, n', eof'⟩ := r; simp [ho] at h
  | none => simp [ho] at hn

theorem try_sub_lexers_unexpected (D : List Char) (loc : location) (x : Char) (Y : List Char)
    (hT : D.drop loc.offset = x :: Y) (f : ifstream) (hd : f.data = D)
    (hf : f.failbit = false) (hn : no_match (x :: Y) = true) :
    try_sub_lexers ⟨f, loc⟩ = .error (.thrown ("unexpected character: "
        ++ String.singleton x ++ " at " ++ toString loc.line ++ ":" ++ toString loc.column)) := by
  unfold no_match at hn
  simp only [Bool.and_eq_true, beq_iff_eq] at hn
  obtain ⟨⟨⟨⟨hk, hi⟩, hnum⟩, hs⟩, ho⟩ := hn
  unfold try_sub_lexers
  obtain ⟨f1, e1, d1, b1⟩ := eat_keyword_loop_scan D loc _ hT keywords f _ hd hf hk
  rw [eat_keyword_eq _ f f1 loc _ rfl rfl e1]
  simp only [scan_yield, after_miss D loc _ hT f1 d1 b1]
  obtain ⟨f2, e2, d2, b2⟩ := eat_identifier_scan D loc _ _ hi
  simp only [e2, scan_yield, after_miss D loc _ hT f2 d2 b2]
  obtain ⟨f3, e3, d3, b3⟩ := eat_number_scan D loc _ _ hnum
  simp only [e3, scan_yield, after_miss D loc _ hT f3 d3 b3]
  obtain ⟨f4, e4, d4, b4⟩ := eat_syntax_loop_scan D loc _ hT _ _ hs
  rw [ eat_syntax_eq _ _ f4 loc _ rfl rfl e4]
  simp only [scan_yield, after_miss D loc _ hT f4 d4 b4]
  obtain ⟨f5, e5, d5, b5⟩ := eat_operator_loop_scan D loc _ hT operators _ _ rfl ho
  rw [eat_operator_eq _ _ f5 loc _ rfl rfl e5]
  simp only [scan_yield, after_miss D loc _ hT f5 d5 b5, peek_cons, get_cons]

theorem peek_nil (D : List Char) :
    ifstream.peek ⟨D, [], false, false⟩ = (none, ⟨D, [], true, false⟩) := rfl

theorem peek_eof (D r : List Char) (b : Bool) :
    ifstream.peek ⟨D, r, true, b⟩ = (none, ⟨D, r, true, true⟩) := by
  simp [ifstream.peek, ifstream.good]

theorem next_failed (lx : lexer) (hf : lx._file.failbit = true) :
    next lx = .ok (none, ⟨⟨lx._file.data, lx._file.rest, false, true⟩, lx._loc⟩) := by
  obtain ⟨⟨D, r, e, b⟩, loc⟩ := lx
  simp only at hf
  subst hf
  unfold next
  simp only [seekg_failed, peek_failed]

theorem next_empty (lx : lexer) (hf : lx._file.failbit = false)
    (hT : lx._file.data.drop lx._loc.offset = []) :
    next lx = .ok (none, ⟨⟨lx._file.data, [], true, false⟩, lx._loc⟩) := by
  obtain ⟨f, loc⟩ := lx
  simp only at hf hT
  unfold next
  simp only [seekg_sound f _ hf, hT, peek_nil]

theorem eat_whitespace_loop_all (D : List Char) : ∀ (R : List Char) (c : Char) (fuel : Nat)
    (locn : location) (flag : Bool), isspace c = true → (∀ w ∈ R, isspace w = true) →
    R.length + 1 ≤ fuel →
    eat_whitespace_loop fuel ⟨D, R, false, false⟩ (some c) locn flag
      = .ok (⟨D, [], true, false⟩, locn.steps (c :: R), true) := by
  intro R
  induction R with
  | nil =>
    intro c fuel locn flag hc _ hfuel
    obtain ⟨fuel, rfl⟩ : ∃ k, fuel = k + 1 := ⟨fuel - 1, by simp at hfuel; omega⟩
    have hb : (some c == some '\n') = (c == '\n') := by
      by_cases hn : c = '\n' <;> simp [hn]
    simp [eat_whitespace_loop, holds, hc, peek_nil, location.steps, hb]
  | cons r0 R0 ih =>
    intro c fuel locn flag hc hR hfuel
    obtain ⟨fuel, rfl⟩ : ∃ k, fuel = k + 1 := ⟨fuel - 1, by simp at hfuel; omega⟩
    have hb : (some c == some '\n') = (c == '\n') := by
      by_cases hn : c = '\n' <;> simp [hn]
    simp only [eat_whitespace_loop, holds, hc, if_true, peek_cons, get_cons, hb]
    rw [ih r0 fuel _ true (hR r0 (List.mem_cons_self _ _))
      (fun w hw => hR w (List.mem_cons_of_mem _ hw)) (by simp at hfuel ⊢; omega)]
    simp [location.steps]

theorem next_space_end (lx : lexer) (hf : lx._file.failbit = false) (x : Char) (Y : List Char)
    (hT : lx._file.data.drop lx._loc.offset = x :: Y) (h : space_scan (x :: Y) = none) :
    ∃ lx', next lx = .ok (none, lx') ∧ lx'._file.data = lx._file.data
      ∧ lx'._loc = lx._loc.steps ((x :: Y).takeWhile isspace)
      ∧ lx'._file.failbit = ((x :: Y).dropWhile isspace).isEmpty := by
  obtain ⟨f, loc⟩ := lx
  simp only at hf hT ⊢
  have hseek : f.seekg loc.offset = ⟨f.data, x :: Y, false, false⟩ := by
    rw [seekg_sound f _ hf, hT]
  simp only [space_scan] at h
  have hx : isspace x = true := by
    cases hx : isspace x with
    | true => rfl
    | false => simp [hx] at h
  simp only [hx, if_true] at h
  have hsplit := List.takeWhile_append_dropWhile isspace (x :: Y)
  have hall : ∀ w ∈ (x :: Y).takeWhile isspace, isspace w = true :=
    fun w hw => List.mem_takeWhile_imp hw
  unfold next
  simp only [hseek, peek_cons]
  unfold eat_whitespace
  simp only [get_cons, ifstream.budget]
  cases hd : (x :: Y).dropWhile isspace with
  | nil =>
    rw [hd, List.append_nil] at hsplit
    rw [hsplit] at hall
    rw [eat_whitespace_loop_all f.data Y x _ loc false hx
      (fun w hw => hall w (List.mem_cons_of_mem _ hw)) (by omega)]
    simp only [Bool.not_true, Bool.false_eq_true, if_false, peek_eof]
    exact ⟨_, rfl, rfl, by rw [hsplit], rfl⟩
  | cons y rest =>
    cases rest with
    | cons z rest => simp [hd] at h
    | nil =>
      rw [hd] at hsplit
      have hy : isspace y = false := by
        have := List.head_dropWhile_not isspace (x :: Y) (by rw [hd]; simp)
        simpa [hd] using this
      have hlen : ((x :: Y).takeWhile isspace).length + 1 ≤ Y.length + 2 := by
        have := congrArg List.length hsplit
        simp at this
        omega
      rw [eat_whitespace_loop_span f.data _ y [] x Y _ loc false hsplit.symm hall hy hlen]
      have hne : ((x :: Y).takeWhile isspace).isEmpty = false := by
        rw [List.takeWhile_cons_of_pos hx]; rfl
      simp only [hne, Bool.not_false, Bool.or_true, Bool.not_true, Bool.false_eq_true, if_false,
        peek_nil]
      exact ⟨_, rfl, rfl, rfl, rfl⟩

theorem next_eq_try (lx : lexer) (hf : lx._file.failbit = false) (T ws U : List Char)
    (hT : lx._file.data.drop lx._loc.offset = T) (hs : space_scan T = some (ws, U)) :
    ∃ f1, next lx = try_sub_lexers ⟨f1, lx._loc.steps ws⟩ ∧ f1.data = lx._file.data
      ∧ f1.failbit = false ∧ lx._file.data.drop (lx._loc.steps ws).offset = U := by
  obtain ⟨f, loc⟩ := lx
  simp only at hf hT ⊢
  obtain ⟨hsplit, hall, x, Y, rfl, hx, hY⟩ := space_scan_spec T ws _ hs
  have hU : f.data.drop (loc.steps ws).offset = x :: Y := by
    rw [steps_offset, ← List.drop_drop, hT, hsplit]; simp
  have hseek : f.seekg loc.offset = ⟨f.data, T, false, false⟩ := by
    rw [seekg_sound f _ hf, hT]
  unfold next
  simp only [hseek]
  by_cases hws : ws = []
  · subst hws
    simp only [List.nil_append] at hsplit
    subst hsplit
    simp only [peek_cons, eat_whitespace_none f.data loc x Y hx hT, location.steps]
    exact ⟨_, rfl, rfl, rfl, hU⟩
  · obtain ⟨z, rest, rfl⟩ : ∃ z rest, Y = z :: rest := by
      cases Y with
      | nil => exact absurd rfl (hY hws)
      | cons z rest => exact ⟨z, rest, rfl⟩
    obtain ⟨c, R, hc⟩ : ∃ c R, T = c :: R := by
      cases ws with
      | nil => exact absurd rfl hws
      | cons a b => exact ⟨a, b ++ x :: z :: rest, hsplit⟩
    subst hc
    simp only [peek_cons, eat_whitespace_some f.data loc ws x z rest c R hsplit hws hall hx]
    exact ⟨_, rfl, rfl, rfl, hU⟩

theorem next_silent (lx : lexer) (hf : lx._file.failbit = false) (T ws U : List Char)
    (hT : lx._file.data.drop lx._loc.offset = T) (hs : space_scan T = some (ws, U))
    (h : token_scan U = none) (hn : no_match U = false) :
    ∃ r e, next lx = .ok (none, ⟨⟨lx._file.data, r, e, true⟩, lx._loc.steps ws⟩) := by
  obtain ⟨f1, e1, d1, b1, hU⟩ := next_eq_try lx hf T ws U hT hs
  rw [e1]
  rw [← d1] at hU
  obtain ⟨r, e, e2⟩ := try_sub_lexers_silent f1.data _ U hU f1 rfl b1 h hn
  rw [d1] at e2
  exact ⟨r, e, e2⟩

theorem next_unexpected (lx : lexer) (hf : lx._file.failbit = false) (T ws : List Char)
    (x : Char) (Y : List Char)
    (hT : lx._file.data.drop lx._loc.offset = T) (hs : space_scan T = some (ws, x :: Y))
    (hn : no_match (x :: Y) = true) :
    next lx = .error (.thrown ("unexpected character: " ++ String.singleton x ++ " at "
        ++ toString (lx._loc.steps ws).line ++ ":" ++ toString (lx._loc.steps ws).column)) := by
  obtain ⟨f1, e1, d1, b1, hU⟩ := next_eq_try lx hf T ws _ hT hs
  rw [e1]
  rw [← d1] at hU
  exact try_sub_lexers_unexpected f1.data _ x Y hU f1 rfl b1 hn

theorem no_match_token_scan (U : List Char) (h : no_match U = true) : token_scan U = none := by
  unfold no_match at h
  simp only [Bool.and_eq_true, beq_iff_eq] at h
  obtain ⟨⟨⟨⟨hk, hi⟩, hnum⟩, hs⟩, ho⟩ := h
  simp [token_scan, hk, hi, hnum, hs, ho]

theorem next_token_inv (lx : lexer) (tok : token_t) (post : location) (lx' : lexer)
    (h : next lx = .ok (some (tok, post), lx')) :
    lx._file.failbit = false ∧ ∃ ws kind literal n eof T',
      next_scan (lx._file.data.drop lx._loc.offset) = some (ws, kind, literal, n, eof, T')
      ∧ tok = ⟨kind, literal, lx._loc.steps ws⟩ ∧ post = (lx._loc.steps ws).advance n
      ∧ lx'._loc = post ∧ lx'._file.data = lx._file.data ∧ lx'._file.failbit = eof := by
  cases hf : lx._file.failbit with
  | true => rw [next_failed lx hf] at h; simp at h
  | false =>
    refine ⟨rfl, ?_⟩
    cases hT : lx._file.data.drop lx._loc.offset with
    | nil => rw [next_empty lx hf hT] at h; simp at h
    | cons x Y =>
      cases hs : space_scan (x :: Y) with
      | none =>
        obtain ⟨l, e, _⟩ := next_space_end lx hf x Y hT hs
        rw [e] at h; simp at h
      | some p =>
        obtain ⟨ws, U⟩ := p
        cases ht : token_scan U with
        | none =>
          cases hn : no_match U with
          | false =>
            obtain ⟨r, e, e1⟩ := next_silent lx hf _ ws U hT hs ht hn
            rw [e1] at h; simp at h
          | true =>
            obtain ⟨_, _, x', Y', rfl, _, _⟩ := space_scan_spec _ ws U hs
            rw [next_unexpected lx hf _ ws x' Y' hT hs hn] at h
            simp at h
        | some q =>
          obtain ⟨kind, literal, n, eof⟩ := q
          have hns : next_scan (x :: Y) = some (ws, kind, literal, n, eof, U.drop n) := by
            simp [next_scan, hs, ht]
          obtain ⟨f', e, d, b, _⟩ := next_scan_ok lx._file.data lx (x :: Y) rfl hf hT ws kind
            literal n eof _ hns
          rw [e] at h
          simp only [Except.ok.injEq, Prod.mk.injEq, Option.some.injEq] at h
          obtain ⟨⟨h1, h2⟩, h3⟩ := h
          exact ⟨ws, kind, literal, n, eof, _, hns, h1.symm, h2.symm, by rw [← h3, h2],
            by rw [← h3]; exact d, by rw [← h3]; exact b⟩

theorem next_total_token (lx : lexer) (hf : lx._file.failbit = false) (ws : List Char)
    (kind : token_kind) (literal : String) (n : Nat) (eof : Bool) (T' : List Char)
    (h : next_outcome (lx._file.data.drop lx._loc.offset) = .token ws kind literal n eof T') :
    ∃ f', next lx = .ok (some (⟨kind, literal, lx._loc.steps ws⟩, (lx._loc.steps ws).advance n),
        ⟨f', (lx._loc.steps ws).advance n⟩)
      ∧ f'.data = lx._file.data ∧ f'.failbit = eof
      ∧ lx._file.data.drop ((lx._loc.steps ws).advance n).offset = T' := by
  cases hT : lx._file.data.drop lx._loc.offset with
  | nil => rw [hT] at h; simp [next_outcome] at h
  | cons x Y =>
    rw [hT] at h
    simp only [next_outcome] at h
    cases hs : space_scan (x :: Y) with
    | none => simp [hs] at h
    | some p =>
      obtain ⟨ws0, U⟩ := p
      simp only [hs] at h
      cases ht : token_scan U with
      | none =>
        simp only [ht] at h
        split at h
        · split at h <;> simp at h
        · simp at h
      | some q =>
        obtain ⟨k0, l0, n0, e0⟩ := q
        simp only [ht, next_result.token.injEq] at h
        obtain ⟨rfl, rfl, rfl, rfl, rfl, rfl⟩ := h
        exact next_scan_ok lx._file.data lx (x :: Y) rfl hf hT ws0 k0 l0 n0 e0 _
          (by simp [next_scan, hs, ht])

theorem next_total_finished (lx : lexer) (hf : lx._file.failbit = false) (ws : List Char)
    (failed : Bool)
    (h : next_outcome (lx._file.data.drop lx._loc.offset) = .finished ws failed) :
    ∃ lx', next lx = .ok (none, lx') ∧ lx'._file.data = lx._file.data
      ∧ lx'._loc = lx._loc.steps ws ∧ lx'._file.failbit = failed := by
  cases hT : lx._file.data.drop lx._loc.offset with
  | nil =>
    rw [hT] at h
    simp only [next_outcome, next_result.finished.injEq] at h
    obtain ⟨rfl, rfl⟩ := h
    exact ⟨_, next_empty lx hf hT, rfl, rfl, rfl⟩
  | cons x Y =>
    rw [hT] at h
    simp only [next_outcome] at h
    cases hs : space_scan (x :: Y) with
    | none =>
      simp only [hs, next_result.finished.injEq] at h
      obtain ⟨rfl, rfl⟩ := h
      exact next_space_end lx hf x Y hT hs
    | some p =>
      obtain ⟨ws0, U⟩ := p
      simp only [hs] at h
      cases ht : token_scan U with
      | some q => obtain ⟨k0, l0, n0, e0⟩ := q; simp [ht] at h
      | none =>
        simp only [ht] at h
        obtain ⟨_, _, x', Y', rfl, _, _⟩ := space_scan_spec _ ws0 U hs
        simp only at h
        cases hn : no_match (x' :: Y') with
        | true => simp [hn] at h
        | false =>
          simp only [hn, Bool.false_eq_true, if_false, next_result.finished.injEq] at h
          obtain ⟨rfl, rfl⟩ := h
          obtain ⟨r, e, e1⟩ := next_silent lx hf _ ws0 _ hT hs ht hn
          exact ⟨_, e1, rfl, rfl, rfl⟩

theorem next_total_unexpected (lx : lexer) (hf : lx._file.failbit = false) (ws : List Char)
    (c : Char) (h : next_outcome (lx._file.data.drop lx._loc.offset) = .unexpected ws c) :
    next lx = .error (.thrown (unexpected_message c (lx._loc.steps ws))) := by
  cases hT : lx._file.data.drop lx._loc.offset with
  | nil => rw [hT] at h; simp [next_outcome] at h
  | cons x Y =>
    rw [hT] at h
    simp only [next_outcome] at h
    cases hs : space_scan (x :: Y) with
    | none => simp [hs] at h
    | some p =>
      obtain ⟨ws0, U⟩ := p
      simp only [hs] at h
      cases ht : token_scan U with
      | some q => obtain ⟨k0, l0, n0, e0⟩ := q; simp [ht] at h
      | none =>
        simp only [ht] at h
        obtain ⟨_, _, x', Y', rfl, _, _⟩ := space_scan_spec _ ws0 U hs
        simp only at h
        cases hn : no_match (x' :: Y') with
        | false => simp [hn] at h
        | true =>
          simp only [hn, if_true, next_result.unexpected.injEq] at h
          obtain ⟨rfl, rfl⟩ := h
          exact next_unexpected lx hf _ ws0 x' Y' hT hs hn

theorem tokens_loop_succ (fuel : Nat) (lx : lexer) (off : Nat) (cur : token_yield)
    (acc : List token_t) :
    tokens_loop (fuel + 1) lx off cur acc
      = match next { lx with _file := lx._file.seekg off } with
        | .error e => .error e
        | .ok (some (t, post), lx) =>
          tokens_loop fuel { lx with _loc := post } post.offset (some (t, post)) (pushed acc cur)
        | .ok (none, _) => .ok (pushed acc cur) := by
  cases cur <;> rfl

theorem tokens_loop_total (D : List Char) : ∀ (fuel : Nat) (lx : lexer) (off : Nat)
    (cur : token_yield) (acc : List token_t), lx._file.data = D →
    tokens_loop fuel lx off cur acc
      = (lex_from fuel (D.drop lx._loc.offset) lx._loc lx._file.failbit).map
          (fun toks => pushed acc cur ++ toks) := by
  intro fuel
  induction fuel with
  | zero => intro lx off cur acc _; rfl
  | succ fuel ih =>
    intro lx off cur acc hd
    have hd2 : ({ lx with _file := lx._file.seekg off } : lexer)._file.data = D := by
      simp only [seekg_data, hd]
    rw [tokens_loop_succ]
    cases hf : lx._file.failbit with
    | true =>
      have hf2 : ({ lx with _file := lx._file.seekg off } : lexer)._file.failbit = true := by
        simp only [seekg_failbit, hf]
      rw [next_failed _ hf2]
      simp [lex_from, Except.map]
    | false =>
      have hf2 : ({ lx with _file := lx._file.seekg off } : lexer)._file.failbit = false := by
        simp only [seekg_failbit, hf]
      simp only [lex_from, Bool.false_eq_true, if_false]
      cases ho : next_outcome (D.drop lx._loc.offset) with
      | token ws kind literal n eof T' =>
        obtain ⟨f', e, d, b, hdrop⟩ := next_total_token { lx with _file := lx._file.seekg off }
          hf2 ws kind literal n eof T' (by simp only [seekg_data, hd]; exact ho)
        simp only [e]
        rw [ih ⟨f', (lx._loc.steps ws).advance n⟩ _ _ _ (by rw [d, seekg_data, hd])]
        simp only [seekg_data, hd] at hdrop
        simp only [hdrop, b]
        cases lex_from fuel T' ((lx._loc.steps ws).advance n) eof with
        | error x => rfl
        | ok toks => simp [Except.map, pushed]
      | finished ws failed =>
        obtain ⟨lx', e, _⟩ := next_total_finished { lx with _file := lx._file.seekg off }
          hf2 ws failed (by simp only [seekg_data, hd]; exact ho)
        simp [e, Except.map]
      | unexpected ws c =>
        rw [next_total_unexpected { lx with _file := lx._file.seekg off } hf2 ws c
          (by simp only [seekg_data, hd]; exact ho)]
        rfl

theorem tokenize_total (D : List Char) : tokenize D = lex_all D := by
  have hseek : ifstream.seekg ⟨D, D, false, false⟩ 0 = ⟨D, D, false, false⟩ := rfl
  unfold tokenize lex_all
  simp only [hseek]
  cases ho : next_outcome D with
  | token ws kind literal n eof T' =>
    obtain ⟨f', e, d, b, hdrop⟩ := next_total_token ⟨⟨D, D, false, false⟩, ⟨1, 1, 0⟩⟩ rfl
      ws kind literal n eof T' (by simpa using ho)
    simp only [e]
    rw [tokens_loop_total D _ ⟨f', _⟩ _ _ _ d]
    simp only at hdrop
    simp only [hdrop, b]
    cases lex_from (D.length + 2) T' ((location.steps ⟨1, 1, 0⟩ ws).advance n) eof with
    | error x => rfl
    | ok toks => simp [Except.map, pushed]
  | finished ws failed =>
    obtain ⟨lx', e, d, l, b⟩ := next_total_finished ⟨⟨D, D, false, false⟩, ⟨1, 1, 0⟩⟩ rfl
      ws failed (by simpa using ho)
    simp only [e]
    rw [tokens_loop_total D _ lx' _ _ _ d]
    simp only at l
    rw [l, b, steps_offset]
    simp only [Nat.zero_add]
    cases lex_from (D.length + 2) (D.drop ws.length) (location.steps ⟨1, 1, 0⟩ ws)
        failed with
    | error x => simp [Except.map]
    | ok toks => simp [Except.map, pushed]
  | unexpected ws c =>
    rw [next_total_unexpected ⟨⟨D, D, false, false⟩, ⟨1, 1, 0⟩⟩ rfl ws c (by simpa using ho)]

theorem word_scan_hit : ∀ (w T : List Char), (word_scan w T).1 = false →
    (word_scan w T).2.1 = w.length ∧ w <+: T := by
  intro w
  induction w with
  | nil =>
    intro T _
    cases T <;> exact ⟨rfl, List.nil_prefix⟩
  | cons c more ih =>
    intro T h
    cases T with
    | nil => simp [word_scan] at h
    | cons x rest =>
      by_cases hx : x = c
      · subst hx
        simp only [word_scan, bne_self_eq_false, Bool.false_eq_true, if_false] at h ⊢
        obtain ⟨h1, h2⟩ := ih rest h
        exact ⟨by simp [h1], (List.cons_prefix_cons).2 ⟨rfl, h2⟩⟩
      · have hb : (x != c) = true := by simp [hx]
        simp [word_scan, hb] at h

theorem word_scan_prefix : ∀ (w T : List Char), w <+: T → (word_scan w T).1 = false := by
  intro w
  induction w with
  | nil => intro T _; cases T <;> rfl
  | cons c more ih =>
    intro T h
    cases T with
    | nil => simp at h
    | cons x rest =>
      obtain ⟨h1, h2⟩ := (List.cons_prefix_cons).1 h
      subst h1
      simp only [word_scan, bne_self_eq_false, Bool.false_eq_true, if_false]
      exact ih rest h2

theorem word_find_hit (T : List Char) : ∀ (ws : List String) (w : String) (n : Nat) (eof : Bool),
    word_find T ws = some (some (w, n, eof)) →
    ∃ pre post, ws = pre ++ w :: post ∧ (∀ v ∈ pre, ¬ v.toList <+: T) ∧ w.toList <+: T
      ∧ n = w.length := by
  intro ws
  induction ws with
  | nil => intro w n eof h; simp [word_find] at h
  | cons v more ih =>
    intro w n eof h
    unfold word_find at h
    rcases hws : word_scan v.toList T with ⟨miss, m, e⟩
    simp only [hws] at h
    by_cases hc : (!miss && m == v.length) = true
    · simp only [hc, if_true, Option.some.injEq, Prod.mk.injEq] at h
      obtain ⟨rfl, rfl, rfl⟩ := h
      have hm : miss = false := by
        cases miss <;> simp_all
      have := word_scan_hit v.toList T (by rw [hws]; exact hm)
      rw [hws] at this
      exact ⟨[], more, rfl, by simp, this.2, this.1⟩
    · simp only [hc, if_false] at h
      cases e with
      | true => simp at h
      | false =>
        simp only [Bool.false_eq_true, if_false] at h
        obtain ⟨pre, post, h1, h2, h3, h4⟩ := ih w n eof h
        refine ⟨v :: pre, post, by rw [h1]; rfl, ?_, h3, h4⟩
        intro u hu hp
        rcases List.mem_cons.1 hu with rfl | hu
        · have hm := word_scan_prefix _ T hp
          have hh := word_scan_hit _ T hm
          rw [hws] at hm hh
          simp only at hm hh
          apply hc
          simp [hm, hh.1]
        · exact h2 u hu hp

theorem word_find_miss (T : List Char) : ∀ (ws : List String), word_find T ws = some none →
    ∀ v ∈ ws, ¬ v.toList <+: T := by
  intro ws
  induction ws with
  | nil => intro _ v hv; simp at hv
  | cons v more ih =>
    intro h u hu hp
    unfold word_find at h
    rcases hws : word_scan v.toList T with ⟨miss, m, e⟩
    simp only [hws] at h
    by_cases hc : (!miss && m == v.length) = true
    · simp [hc] at h
    · simp only [hc, if_false] at h
      cases e with
      | true => simp at h
      | false =>
        simp only [Bool.false_eq_true, if_false] at h
        rcases List.mem_cons.1 hu with rfl | hu
        · have hm := word_scan_prefix _ T hp
          have hh := word_scan_hit _ T hm
          rw [hws] at hm hh
          simp only at hm hh
          apply hc
          simp [hm, hh.1]
        · exact ih h u hu hp

theorem identifier_scan_hit (T : List Char) (lit : String) (n : Nat) (eof : Bool)
    (h : identifier_scan T = some (some (lit, n, eof))) :
    lit = String.mk (T.takeWhile identifier_char) ∧ n = (T.takeWhile identifier_char).length
      ∧ ∃ c cs, T.takeWhile identifier_char = c :: cs ∧ isdigit c = false := by
  cases T with
  | nil => simp [identifier_scan] at h
  | cons x Y =>
    simp only [identifier_scan] at h
    cases hid : (x :: Y).takeWhile identifier_char with
    | nil => simp [hid] at h
    | cons c0 cs =>
      simp only [hid] at h
      cases hd : isdigit c0 with
      | true =>
        simp only [hd, if_true] at h
        split at h <;> simp at h
      | false =>
        simp only [hd, Bool.false_eq_true, if_false, Option.some.injEq, Prod.mk.injEq] at h
        obtain ⟨rfl, rfl, _⟩ := h
        exact ⟨rfl, rfl, c0, cs, rfl, hd⟩

theorem number_scan_hit (T : List Char) (lit : String) (n : Nat) (eof : Bool)
    (h : number_scan T = some (some (lit, n, eof))) :
    ∃ sign plus ds, (sign = [] ∨ sign = ['-']) ∧ (plus = [] ∨ plus = ['+'])
      ∧ (∀ c ∈ ds, isdigit c = true) ∧ sign ++ ds ≠ [] ∧ lit = String.mk (sign ++ ds)
      ∧ n = sign.length + plus.length + ds.length ∧ sign ++ plus ++ ds <+: T := by
  -- what the digit loop contributes after the signs
  have tail : ∀ (sign plus U : List Char) (m : Nat), m = sign.length + plus.length →
      (sign = [] ∨ sign = ['-']) → (plus = [] ∨ plus = ['+']) → sign ++ plus ++ U = T →
      (if !(sign ++ U.takeWhile isdigit).isEmpty then
          some (some (String.mk (sign ++ U.takeWhile isdigit), m + (U.takeWhile isdigit).length,
            (U.dropWhile isdigit).isEmpty))
        else if (U.dropWhile isdigit).isEmpty then none
        else some none) = some (some (lit, n, eof)) →
      ∃ sign plus ds, (sign = [] ∨ sign = ['-']) ∧ (plus = [] ∨ plus = ['+'])
        ∧ (∀ c ∈ ds, isdigit c = true) ∧ sign ++ ds ≠ [] ∧ lit = String.mk (sign ++ ds)
        ∧ n = sign.length + plus.length + ds.length ∧ sign ++ plus ++ ds <+: T := by
    intro sign plus U m hm hs hp hT h
    by_cases hc : (!(sign ++ U.takeWhile isdigit).isEmpty) = true
    · simp only [hc, if_true, Option.some.injEq, Prod.mk.injEq] at h
      obtain ⟨rfl, rfl, _⟩ := h
      refine ⟨sign, plus, U.takeWhile isdigit, hs, hp, fun c hc => List.mem_takeWhile_imp hc,
        ?_, rfl, by rw [hm], ?_⟩
      · intro he; rw [he] at hc; simp at hc
      · rw [← hT]
        exact List.prefix_append_right_inj _ |>.2 (List.takeWhile_prefix _)
    · have hc' : (!(sign ++ U.takeWhile isdigit).isEmpty) = false := by
        cases hb : (!(sign ++ U.takeWhile isdigit).isEmpty) with
        | false => rfl
        | true => exact absurd hb hc
      simp only [hc', Bool.false_eq_true, if_false] at h
      split at h <;> simp at h
  cases T with
  | nil => simp [number_scan] at h
  | cons x rest =>
    simp only [number_scan] at h
    by_cases hm : x = '-'
    · subst hm
      simp only [beq_self_eq_true, if_true] at h
      cases rest with
      | nil =>
        simp only [Option.some.injEq, Prod.mk.injEq] at h
        obtain ⟨rfl, rfl, _⟩ := h
        exact ⟨['-'], [], [], Or.inr rfl, Or.inl rfl, by simp, by simp, rfl, rfl, by simp⟩
      | cons x1 rest1 =>
        simp only at h
        by_cases hp : x1 = '+'
        · subst hp
          simp only [beq_self_eq_true, if_true] at h
          exact tail ['-'] ['+'] rest1 2 rfl (Or.inr rfl) (Or.inr rfl) rfl h
        · have hp1 : (x1 == '+') = false := by simp [hp]
          simp only [hp1, Bool.false_eq_true, if_false] at h
          exact tail ['-'] [] (x1 :: rest1) 1 rfl (Or.inr rfl) (Or.inl rfl) rfl h
    · have hm1 : (x == '-') = false := by simp [hm]
      simp only [hm1, Bool.false_eq_true, if_false] at h
      by_cases hp : x = '+'
      · subst hp
        simp only [beq_self_eq_true, if_true] at h
        exact tail [] ['+'] rest 1 rfl (Or.inl rfl) (Or.inr rfl) rfl (by simpa using h)
      · have hp1 : (x == '+') = false := by simp [hp]
        simp only [hp1, Bool.false_eq_true, if_false] at h
        exact tail [] [] (x :: rest) 0 rfl (Or.inl rfl) (Or.inl rfl) rfl (by simpa using h)

theorem syntax_scan_hit (T : List Char) : ∀ (chars : List Char) (lit : String) (n : Nat)
    (eof : Bool), syntax_scan T chars = some (some (lit, n, eof)) →
    ∃ c rest, c ∈ chars ∧ T = c :: rest ∧ lit = String.singleton c ∧ n = 1 := by
  intro chars
  induction chars with
  | nil => intro lit n eof h; simp [syntax_scan] at h
  | cons ch more ih =>
    intro lit n eof h
    cases T with
    | nil => simp [syntax_scan] at h
    | cons x rest =>
      simp only [syntax_scan] at h
      by_cases hx : x = ch
      · subst hx
        simp only [beq_self_eq_true, if_true] at h
        have key : some (some (String.singleton x, 1, eof)) = some (some (lit, n, eof)) →
            ∃ c rest', c ∈ x :: more ∧ x :: rest = c :: rest' ∧ lit = String.singleton c
              ∧ n = 1 := by
          intro h
          simp only [Option.some.injEq, Prod.mk.injEq] at h
          exact ⟨x, rest, List.mem_cons_self _ _, rfl, h.1.symm, h.2.1.symm⟩
        split at h
        · split at h
          · simp only [Option.some.injEq, Prod.mk.injEq] at h
            exact ⟨x, _, List.mem_cons_self _ _, rfl, h.1.symm, h.2.1.symm⟩
          · split at h
            · simp at h
            · simp only [Option.some.injEq, Prod.mk.injEq] at h
              exact ⟨x, _, List.mem_cons_self _ _, rfl, h.1.symm, h.2.1.symm⟩
        · simp only [Option.some.injEq, Prod.mk.injEq] at h
          exact ⟨x, _, List.mem_cons_self _ _, rfl, h.1.symm, h.2.1.symm⟩
      · have hx1 : (x == ch) = false := by simp [hx]
        simp only [hx1, Bool.false_eq_true, if_false] at h
        obtain ⟨c, r, h1, h2, h3, h4⟩ := ih lit n eof h
        exact ⟨c, r, List.mem_cons_of_mem _ h1, h2, h3, h4⟩

theorem token_scan_cases (U : List Char) (kind : token_kind) (lit : String) (n : Nat)
    (eof : Bool) (h : token_scan U = some (kind, lit, n, eof)) :
    (kind = token_kind.t_keyword ∧ word_find U keywords = some (some (lit, n, eof)))
    ∨ (kind = token_kind.t_identifier ∧ word_find U keywords = some none
        ∧ identifier_scan U = some (some (lit, n, eof)))
    ∨ (kind = token_kind.t_number ∧ word_find U keywords = some none
        ∧ identifier_scan U = some none ∧ number_scan U = some (some (lit, n, eof)))
    ∨ (kind = token_kind.t_syntax ∧ word_find U keywords = some none
        ∧ identifier_scan U = some none ∧ number_scan U = some none
        ∧ syntax_scan U [';', '=', '(', ')', ','] = some (some (lit, n, eof)))
    ∨ (kind = token_kind.t_operator ∧ word_find U keywords = some none
        ∧ identifier_scan U = some none ∧ number_scan U = some none
        ∧ syntax_scan U [';', '=', '(', ')', ','] = some none
        ∧ word_find U operators = some (some (lit, n, eof))) := by
  unfold token_scan at h
  cases hk : word_find U keywords with
  | none => simp [hk] at h
  | some rk =>
  cases rk with
  | some r =>
    obtain ⟨w, n', e'⟩ := r
    simp only [hk, Option.some.injEq, Prod.mk.injEq] at h
    obtain ⟨rfl, rfl, rfl, rfl⟩ := h
    exact Or.inl ⟨rfl, rfl⟩
  | none =>
  simp only [hk] at h
  cases hi : identifier_scan U with
  | none => simp [hi] at h
  | some ri =>
  cases ri with
  | some r =>
    obtain ⟨w, n', e'⟩ := r
    simp only [hi, Option.some.injEq, Prod.mk.injEq] at h
    obtain ⟨rfl, rfl, rfl, rfl⟩ := h
    exact Or.inr (Or.inl ⟨rfl, rfl, rfl⟩)
  | none =>
  simp only [hi] at h
  cases hn : number_scan U with
  | none => simp [hn] at h
  | some rn =>
  cases rn with
  | some r =>
    obtain ⟨w, n', e'⟩ := r
    simp only [hn, Option.some.injEq, Prod.mk.injEq] at h
    obtain ⟨rfl, rfl, rfl, rfl⟩ := h
    exact Or.inr (Or.inr (Or.inl ⟨rfl, rfl, rfl, rfl⟩))
  | none =>
  simp only [hn] at h
  cases hs : syntax_scan U [';', '=', '(', ')', ','] with
  | none => simp [hs] at h
  | some rs =>
  cases rs with
  | some r =>
    obtain ⟨w, n', e'⟩ := r
    simp only [hs, Option.some.injEq, Prod.mk.injEq] at h
    obtain ⟨rfl, rfl, rfl, rfl⟩ := h
    exact Or.inr (Or.inr (Or.inr (Or.inl ⟨rfl, rfl, rfl, rfl, rfl⟩)))
  | none =>
  simp only [hs] at h
  cases ho : word_find U operators with
  | none => simp [ho] at h
  | some ro =>
  cases ro with
  | some r =>
    obtain ⟨w, n', e'⟩ := r
    simp only [ho, Option.some.injEq, Prod.mk.injEq] at h
    obtain ⟨rfl, rfl, rfl, rfl⟩ := h
    exact Or.inr (Or.inr (Or.inr (Or.inr ⟨rfl, rfl, rfl, rfl, rfl, rfl⟩)))
  | none => simp [ho] at h

theorem keywords_no_newline : ∀ w ∈ keywords, ∀ c ∈ w.toList, c ≠ '\n' := by decide

theorem operators_no_newline : ∀ w ∈ operators, ∀ c ∈ w.toList, c ≠ '\n' := by decide

theorem identifier_char_not_newline (c : Char) (h : identifier_char c = true) : c ≠ '\n' := by
  intro hc; subst hc; revert h; decide

theorem isdigit_not_plus (c : Char) (h : isdigit c = true) : c ≠ '+' := by
  intro hc; subst hc; revert h; decide

theorem filter_digits_plus : ∀ ds : List Char, (∀ c ∈ ds, isdigit c = true) →
    ds.filter (fun c => c != '+') = ds := by
  intro ds h
  rw [List.filter_eq_self]
  intro c hc
  simp [isdigit_not_plus c (h c hc)]

theorem prefix_take {l U : List Char} (h : l <+: U) : U.take l.length = l :=
  (List.prefix_iff_eq_take.1 h).symm

/-- The length, the text and the bytes of a token found by `token_scan`. -/
theorem token_scan_text (U : List Char) (kind : token_kind) (lit : String) (n : Nat)
    (eof : Bool) (h : token_scan U = some (kind, lit, n, eof)) :
    0 < n ∧ n ≤ U.length
    ∧ lit.toList = (if kind = token_kind.t_number then (U.take n).filter (fun c => c != '+')
        else U.take n)
    ∧ ∀ c ∈ U.take n, c ≠ '\n' := by
  have word : ∀ (ws : List String), (∀ w ∈ ws, w.toList ≠ []) →
      (∀ w ∈ ws, ∀ c ∈ w.toList, c ≠ '\n') →
      word_find U ws = some (some (lit, n, eof)) →
      0 < n ∧ n ≤ U.length ∧ lit.toList = U.take n ∧ ∀ c ∈ U.take n, c ≠ '\n' := by
    intro ws hne hnl hw
    obtain ⟨pre, post, h1, _, h3, h4⟩ := word_find_hit U ws lit n eof hw
    have hmem : lit ∈ ws := by rw [h1]; simp
    have hlen : n = lit.toList.length := h4
    have htake : U.take n = lit.toList := by rw [hlen]; exact prefix_take h3
    refine ⟨?_, ?_, htake.symm, ?_⟩
    · rw [hlen]; exact List.length_pos.2 (hne lit hmem)
    · rw [hlen]; exact h3.length_le
    · rw [htake]; exact hnl lit hmem
  rcases token_scan_cases U kind lit n eof h with
    ⟨rfl, hk⟩ | ⟨rfl, _, hi⟩ | ⟨rfl, _, _, hn⟩ | ⟨rfl, _, _, _, hs⟩ | ⟨rfl, _, _, _, _, ho⟩
  · obtain ⟨a, b, c, d⟩ := word keywords keywords_nonempty keywords_no_newline hk
    exact ⟨a, b, by simpa using c, d⟩
  · obtain ⟨h1, h2, c, cs, h3, _⟩ := identifier_scan_hit U lit n eof hi
    have hp : U.takeWhile identifier_char <+: U := List.takeWhile_prefix _
    have htake : U.take n = U.takeWhile identifier_char := by rw [h2]; exact prefix_take hp
    refine ⟨by rw [h2, h3]; simp, by rw [h2]; exact hp.length_le, ?_, ?_⟩
    · simp [h1, htake]
    · rw [htake]
      intro c hc
      exact identifier_char_not_newline c (List.mem_takeWhile_imp hc)
  · obtain ⟨sign, plus, ds, hs, hp, hd, hne, hl, hn', hpre⟩ := number_scan_hit U lit n eof hn
    have hlen : n = (sign ++ plus ++ ds).length := by simp [hn', Nat.add_assoc]
    have htake : U.take n = sign ++ plus ++ ds := by rw [hlen]; exact prefix_take hpre
    refine ⟨?_, by rw [hlen]; exact hpre.length_le, ?_, ?_⟩
    · rw [hn']
      cases sign with
      | cons a b => simp
      | nil =>
        cases ds with
        | nil => simp at hne
        | cons a b => simp
    · simp only [if_true, htake, hl, String.toList, List.filter_append,
        filter_digits_plus ds hd]
      rcases hs with rfl | rfl <;> rcases hp with rfl | rfl <;> simp
    · rw [htake]
      intro c hc
      simp only [List.mem_append] at hc
      rcases hc with (hc | hc) | hc
      · rcases hs with rfl | rfl
        · simp at hc
        · simp at hc; subst hc; decide
      · rcases hp with rfl | rfl
        · simp at hc
        · simp at hc; subst hc; decide
      · intro he; subst he
        have := hd _ hc
        revert this; decide
  · obtain ⟨c, rest, hc, rfl, rfl, rfl⟩ := syntax_scan_hit U _ lit n eof hs
    refine ⟨by decide, by simp, by simp [String.singleton], ?_⟩
    intro d hd
    simp at hd
    subst hd
    simp at hc
    rcases hc with rfl | rfl | rfl | rfl | rfl <;> decide
  · obtain ⟨a, b, c, d⟩ := word operators operators_nonempty operators_no_newline ho
    exact ⟨a, b, by simpa using c, d⟩

theorem next_scan_some (T ws : List Char) (kind : token_kind) (lit : String) (n : Nat)
    (eof : Bool) (T' : List Char) (h : next_scan T = some (ws, kind, lit, n, eof, T')) :
    ∃ U, space_scan T = some (ws, U) ∧ token_scan U = some (kind, lit, n, eof)
      ∧ T' = U.drop n := by
  unfold next_scan at h
  cases hs : space_scan T with
  | none => simp [hs] at h
  | some p =>
    obtain ⟨ws0, U⟩ := p
    simp only [hs] at h
    cases ht : token_scan U with
    | none => simp [ht] at h
    | some q =>
      obtain ⟨k0, l0, n0, e0⟩ := q
      simp only [ht, Option.some.injEq, Prod.mk.injEq] at h
      obtain ⟨rfl, rfl, rfl, rfl, rfl, rfl⟩ := h
      exact ⟨U, rfl, ht, rfl⟩

/-- A token returned by `next`: the unread text is white space `ws` followed by
`U`, the token is the one `token_scan` finds at the start of `U`, it is located
after the white space and the post-location is `n` bytes further. -/
theorem next_token_text (lx : lexer) (tok : token_t) (post : location) (lx' : lexer)
    (h : next lx = .ok (some (tok, post), lx')) :
    ∃ ws U n eof, lx._file.data.drop lx._loc.offset = ws ++ U
      ∧ (∀ w ∈ ws, isspace w = true)
      ∧ token_scan U = some (tok.kind, tok.literal, n, eof)
      ∧ tok.loc = lx._loc.steps ws ∧ post = tok.loc.advance n
      ∧ lx._file.data.drop tok.loc.offset = U
      ∧ lx'._loc = post ∧ lx'._file.data = lx._file.data ∧ lx'._file.failbit = eof
      ∧ lx._file.failbit = false := by
  obtain ⟨hf, ws, kind, lit, n, eof, T', hns, rfl, rfl, hl, hd, hb⟩ :=
    next_token_inv lx tok post lx' h
  obtain ⟨U, hs, ht, _⟩ := next_scan_some _ ws kind lit n eof T' hns
  obtain ⟨hsplit, hall, _⟩ := space_scan_spec _ ws U hs
  refine ⟨ws, U, n, eof, hsplit, hall, ht, rfl, rfl, ?_, hl, hd, hb, hf⟩
  simp only [steps_offset]
  rw [← List.drop_drop, hsplit]
  simp

/-! ## Lists of words in which the longer word comes first -/

theorem longer_first_spec : ∀ (pre : List String) (w : String) (post : List String),
    longer_first (pre ++ w :: post) = true →
    ∀ v ∈ post, w.toList <+: v.toList → v.length ≤ w.length := by
  intro pre
  induction pre with
  | nil =>
    intro w post h v hv hp
    simp only [List.nil_append, longer_first, Bool.and_eq_true, List.all_eq_true,
      Bool.or_eq_true, Bool.not_eq_true', decide_eq_true_eq] at h
    rcases h.1 v hv with h1 | h1
    · rw [← List.isPrefixOf_iff_prefix] at hp
      rw [hp] at h1
      cases h1
    · exact h1
  | cons p pre ih =>
    intro w post h v hv hp
    simp only [List.cons_append, longer_first, Bool.and_eq_true] at h
    exact ih w post h.2 v hv hp

theorem operators_longer_first : longer_first operators = true := by decide

theorem two_byte_operator_scan (a b : Char) (w : String) (Y : List Char)
    (h : (a, b, w) = ('=', '=', "==") ∨ (a, b, w) = ('!', '=', "!=")
      ∨ (a, b, w) = ('>', '=', ">=") ∨ (a, b, w) = ('<', '=', "<=")) :
    next_scan (a :: b :: Y)
      = some ([], token_kind.t_operator, w, 2, Y.isEmpty, Y) := by
  rcases h with h | h | h | h <;> cases h <;> cases Y <;> rfl

/-! ## The token list as a function of the text -/

theorem next_outcome_token (T ws : List Char) (kind : token_kind) (lit : String) (n : Nat)
    (eof : Bool) (T' : List Char) (h : next_outcome T = .token ws kind lit n eof T') :
    ∃ U, space_scan T = some (ws, U) ∧ token_scan U = some (kind, lit, n, eof)
      ∧ T' = U.drop n := by
  cases T with
  | nil => simp [next_outcome] at h
  | cons x Y =>
    simp only [next_outcome] at h
    cases hs : space_scan (x :: Y) with
    | none => simp [hs] at h
    | some p =>
      obtain ⟨ws', U⟩ := p
      simp only [hs] at h
      cases ht : token_scan U with
      | none =>
        simp only [ht] at h
        cases U with
        | nil => simp at h
        | cons c V =>
          simp only at h
          split at h <;> simp at h
      | some q =>
        obtain ⟨k, l, m, e⟩ := q
        simp only [ht, next_result.token.injEq] at h
        obtain ⟨rfl, rfl, rfl, rfl, rfl, rfl⟩ := h
        exact ⟨U, rfl, ht, rfl⟩

theorem next_outcome_shorter (T ws : List Char) (kind : token_kind) (lit : String) (n : Nat)
    (eof : Bool) (T' : List Char) (h : next_outcome T = .token ws kind lit n eof T') :
    T'.length < T.length := by
  obtain ⟨U, hs, ht, rfl⟩ := next_outcome_token T ws kind lit n eof T' h
  obtain ⟨hT, _⟩ := space_scan_spec T ws U hs
  obtain ⟨h1, h2, _⟩ := token_scan_text U kind lit n eof ht
  rw [hT, List.length_drop, List.length_append]
  omega

theorem lex_from_length : ∀ (fuel : Nat) (text : List Char) (loc : location) (failed : Bool),
    text.length + 1 ≤ fuel →
    (∃ toks, lex_from fuel text loc failed = .ok toks ∧ toks.length ≤ text.length)
    ∨ ∃ msg, lex_from fuel text loc failed = .error (.thrown msg) := by
  intro fuel
  induction fuel with
  | zero => intro text loc failed h; omega
  | succ fuel ih =>
    intro text loc failed h
    cases failed with
    | true => exact Or.inl ⟨[], by simp [lex_from], Nat.zero_le _⟩
    | false =>
      cases ho : next_outcome text with
      | token ws kind lit n eof T' =>
        have hlt := next_outcome_shorter text ws kind lit n eof T' ho
        rcases ih T' ((loc.steps ws).advance n) eof (by omega) with ⟨toks, h1, h2⟩ | ⟨msg, h1⟩
        · refine Or.inl ⟨⟨kind, lit, loc.steps ws⟩ :: toks, ?_, ?_⟩
          · simp [lex_from, ho, h1]
          · simp only [List.length_cons]; omega
        · exact Or.inr ⟨msg, by simp [lex_from, ho, h1]⟩
      | finished ws f => exact Or.inl ⟨[], by simp [lex_from, ho], Nat.zero_le _⟩
      | unexpected ws c =>
        exact Or.inr ⟨unexpected_message c (loc.steps ws), by simp [lex_from, ho]⟩

theorem lex_all_length (D : List Char) :
    (∃ toks, lex_all D = .ok toks ∧ toks.length ≤ D.length)
    ∨ ∃ msg, lex_all D = .error (.thrown msg) := by
  cases ho : next_outcome D with
  | token ws kind lit n eof T' =>
    have hlt := next_outcome_shorter D ws kind lit n eof T' ho
    rcases lex_from_length (D.length + 2) T' ((location.steps ⟨1, 1, 0⟩ ws).advance n) eof
      (by omega) with ⟨toks, h1, h2⟩ | ⟨msg, h1⟩
    · refine Or.inl ⟨⟨kind, lit, location.steps ⟨1, 1, 0⟩ ws⟩ :: toks, ?_, ?_⟩
      · simp [lex_all, ho, h1]
      · simp only [List.length_cons]; omega
    · exact Or.inr ⟨msg, by simp [lex_all, ho, h1]⟩
  | finished ws f =>
    rcases lex_from_length (D.length + 2) (D.drop ws.length) (location.steps ⟨1, 1, 0⟩ ws) f
      (by rw [List.length_drop]; omega) with ⟨toks, h1, h2⟩ | ⟨msg, h1⟩
    · refine Or.inl ⟨toks, by simp [lex_all, ho, h1], ?_⟩
      rw [List.length_drop] at h2
      omega
    · exact Or.inr ⟨msg, by simp [lex_all, ho, h1]⟩
  | unexpected ws c =>
    exact Or.inr ⟨unexpected_message c (location.steps ⟨1, 1, 0⟩ ws), by simp [lex_all, ho]⟩

/-! ## Locations along the text -/

theorem steps_append (a : List Char) : ∀ (l : location) (b : List Char),
    l.steps (a ++ b) = (l.steps a).steps b := by
  induction a with
  | nil => intro l b; rfl
  | cons c a ih => intro l b; exact ih _ b

theorem steps_same_line (cs : List Char) : ∀ l : location, (∀ c ∈ cs, c ≠ '\n') →
    l.steps cs = l.advance cs.length := by
  induction cs with
  | nil => intro l _; rfl
  | cons c cs ih =>
    intro l h
    have hc : (c == '\n') = false := by
      rw [beq_eq_false_iff_ne]
      exact h c (List.mem_cons_self _ _)
    show (l.step (c == '\n')).steps cs = _
    rw [hc, ih _ (fun d hd => h d (List.mem_cons_of_mem _ hd)), step_advance]
    rfl

theorem steps_from_start (cs : List Char) :
    location.steps ⟨1, 1, 0⟩ cs
      = ⟨1 + cs.count '\n', 1 + (cs.reverse.takeWhile (fun c => c != '\n')).length,
          cs.length⟩ := by
  induction cs using List.reverseRecOn with
  | nil => rfl
  | append_singleton cs c ih =>
    rw [steps_append, ih]
    by_cases hc : c = '\n'
    · subst hc
      simp [location.steps, location.step, Nat.add_assoc]
    · have hb : (c == '\n') = false := by rw [beq_eq_false_iff_ne]; exact hc
      have hne : ('\n' == c) = false := by
        rw [beq_eq_false_iff_ne]; exact fun h => hc h.symm
      simp [location.steps, location.step, hb, hc, List.count_append, List.count_cons,
        List.count_nil, hne, Nat.add_assoc]

theorem take_add_drop (D : List Char) (a : Nat) (X : List Char) (h : X <+: D.drop a) :
    D.take (a + X.length) = D.take a ++ X := by
  rw [List.take_add]
  congr 1
  exact prefix_take h

/-- What every token of the list satisfies when the list comes from the text
`text` of the file `D` at `loc`. -/
theorem lex_from_locs (D : List Char) : ∀ (fuel : Nat) (text : List Char) (loc : location)
    (failed : Bool) (toks : List token_t),
    lex_from fuel text loc failed = .ok toks →
    D.drop loc.offset = text → loc = location.steps ⟨1, 1, 0⟩ (D.take loc.offset) →
    ∀ t ∈ toks, t.loc = location.steps ⟨1, 1, 0⟩ (D.take t.loc.offset)
      ∧ loc.offset ≤ t.loc.offset
      ∧ ∃ n eof, token_scan (D.drop t.loc.offset) = some (t.kind, t.literal, n, eof) := by
  intro fuel
  induction fuel with
  | zero => intro text loc failed toks h; simp [lex_from] at h
  | succ fuel ih =>
    intro text loc failed toks h hD hl t ht
    cases failed with
    | true =>
      simp only [lex_from, if_true, Except.ok.injEq] at h
      subst h
      cases ht
    | false =>
      cases ho : next_outcome text with
      | token ws kind lit n eof T' =>
        obtain ⟨U, hs, hts, hT'⟩ := next_outcome_token text ws kind lit n eof T' ho
        obtain ⟨hT, _⟩ := space_scan_spec text ws U hs
        obtain ⟨h1, h2, _, h4⟩ := token_scan_text U kind lit n eof hts
        have hoff : (loc.steps ws).offset = loc.offset + ws.length := steps_offset ws loc
        have hws : ws <+: D.drop loc.offset := by rw [hD, hT]; exact List.prefix_append _ _
        have hloc1 : loc.steps ws = location.steps ⟨1, 1, 0⟩ (D.take (loc.steps ws).offset) := by
          rw [hoff, take_add_drop D _ ws hws, steps_append, ← hl]
        have hU : D.drop (loc.steps ws).offset = U := by
          rw [hoff, ← List.drop_drop, hD, hT, List.drop_left]
        cases hr : lex_from fuel T' ((loc.steps ws).advance n) eof with
        | error e => simp [lex_from, ho, hr] at h
        | ok more =>
          simp only [lex_from, ho, hr, Bool.false_eq_true, if_false, Except.ok.injEq] at h
          subst h
          rcases List.mem_cons.1 ht with rfl | hmem
          · exact ⟨hloc1, by show loc.offset ≤ (loc.steps ws).offset; omega, n, eof,
              by show token_scan (D.drop (loc.steps ws).offset) = _; rw [hU]; exact hts⟩
          · have htk : U.take n <+: D.drop (loc.steps ws).offset := by
              rw [hU]; exact List.take_prefix _ _
            have hlen : (U.take n).length = n := by
              rw [List.length_take]; omega
            have hD2 : D.drop ((loc.steps ws).advance n).offset = T' := by
              rw [advance_offset, ← List.drop_drop, hU, hT']
            have hl2 : (loc.steps ws).advance n
                = location.steps ⟨1, 1, 0⟩ (D.take ((loc.steps ws).advance n).offset) := by
              rw [advance_offset]
              have := take_add_drop D (loc.steps ws).offset (U.take n) htk
              rw [hlen] at this
              rw [this, steps_append, ← hloc1, steps_same_line _ _ h4, hlen]
            obtain ⟨a1, a2, a3⟩ := ih T' _ eof more hr hD2 hl2 t hmem
            refine ⟨a1, ?_, a3⟩
            rw [advance_offset] at a2
            omega
      | finished ws f =>
        simp only [lex_from, ho, Bool.false_eq_true, if_false, Except.ok.injEq] at h
        subst h
        cases ht
      | unexpected ws c =>
        simp [lex_from, ho] at h

theorem next_outcome_finished (T ws : List Char) (f : Bool)
    (h : next_outcome T = .finished ws f) : ws <+: T := by
  cases T with
  | nil =>
    simp only [next_outcome, next_result.finished.injEq] at h
    rw [← h.1]
  | cons x Y =>
    simp only [next_outcome] at h
    cases hs : space_scan (x :: Y) with
    | none =>
      simp only [hs, next_result.finished.injEq] at h
      rw [← h.1]
      exact List.takeWhile_prefix _
    | some p =>
      obtain ⟨ws', U⟩ := p
      obtain ⟨hT, _⟩ := space_scan_spec _ ws' U hs
      simp only [hs] at h
      have hp : ws' <+: x :: Y := by rw [hT]; exact List.prefix_append _ _
      cases ht : token_scan U with
      | some q => simp [ht] at h
      | none =>
        simp only [ht] at h
        cases U with
        | nil =>
          simp only [next_result.finished.injEq] at h
          rw [← h.1]; exact hp
        | cons c V =>
          simp only at h
          split at h
          · cases h
          · simp only [next_result.finished.injEq] at h
            rw [← h.1]; exact hp

/-- What every token of the token vector of the file `D` satisfies. -/
theorem lex_all_locs (D : List Char) (toks : List token_t) (h : lex_all D = .ok toks) :
    ∀ t ∈ toks, t.loc = location.steps ⟨1, 1, 0⟩ (D.take t.loc.offset)
      ∧ ∃ n eof, token_scan (D.drop t.loc.offset) = some (t.kind, t.literal, n, eof) := by
  have hstart : ∀ ws : List Char, ws <+: D →
      D.drop (location.steps ⟨1, 1, 0⟩ ws).offset = D.drop ws.length
      ∧ location.steps ⟨1, 1, 0⟩ ws
        = location.steps ⟨1, 1, 0⟩ (D.take (location.steps ⟨1, 1, 0⟩ ws).offset) := by
    intro ws hws
    have ho : (location.steps ⟨1, 1, 0⟩ ws).offset = ws.length := by
      rw [steps_offset]; simp
    rw [ho, prefix_take hws]
    exact ⟨rfl, rfl⟩
  intro t ht
  unfold lex_all at h
  cases ho : next_outcome D with
  | token ws kind lit n eof T' =>
    obtain ⟨U, hs, hts, hT'⟩ := next_outcome_token D ws kind lit n eof T' ho
    obtain ⟨hT, _⟩ := space_scan_spec D ws U hs
    obtain ⟨h1, h2, _, h4⟩ := token_scan_text U kind lit n eof hts
    have hws : ws <+: D := by rw [hT]; exact List.prefix_append _ _
    obtain ⟨hd, hl⟩ := hstart ws hws
    have hU : D.drop (location.steps ⟨1, 1, 0⟩ ws).offset = U := by
      rw [hd]
      conv_lhs => rw [hT]
      exact List.drop_left _ _
    cases hr : lex_from (D.length + 2) T' ((location.steps ⟨1, 1, 0⟩ ws).advance n) eof with
    | error e => simp [ho, hr] at h
    | ok more =>
      simp only [ho, hr, Except.ok.injEq] at h
      subst h
      rcases List.mem_cons.1 ht with rfl | hmem
      · exact ⟨hl, n, eof,
          by show token_scan (D.drop (location.steps ⟨1, 1, 0⟩ ws).offset) = _; rw [hU]; exact hts⟩
      · have htk : U.take n <+: D.drop (location.steps ⟨1, 1, 0⟩ ws).offset := by
          rw [hU]; exact List.take_prefix _ _
        have hlen : (U.take n).length = n := by
          rw [List.length_take]; omega
        have hD2 : D.drop ((location.steps ⟨1, 1, 0⟩ ws).advance n).offset = T' := by
          rw [advance_offset, ← List.drop_drop, hU, hT']
        have hl2 : (location.steps ⟨1, 1, 0⟩ ws).advance n
            = location.steps ⟨1, 1, 0⟩
                (D.take ((location.steps ⟨1, 1, 0⟩ ws).advance n).offset) := by
          rw [advance_offset]
          have := take_add_drop D (location.steps ⟨1, 1, 0⟩ ws).offset (U.take n) htk
          rw [hlen] at this
          rw [this, steps_append, ← hl, steps_same_line _ _ h4, hlen]
        obtain ⟨a1, _, a3⟩ := lex_from_locs D _ T' _ eof more hr hD2 hl2 t hmem
        exact ⟨a1, a3⟩
  | finished ws f =>
    have hws := next_outcome_finished D ws f ho
    obtain ⟨hd, hl⟩ := hstart ws hws
    simp only [ho] at h
    obtain ⟨a1, _, a3⟩ := lex_from_locs D _ _ _ f toks h hd hl t ht
    exact ⟨a1, a3⟩
  | unexpected ws c => simp [ho] at h

/-! ## A literal followed by a blank -/

theorem word_scan_miss : ∀ (v T : List Char), ¬ v <+: T → ¬ T <+: v →
    ∃ k, word_scan v T = (true, k, false) := by
  intro v
  induction v with
  | nil => intro T h _; exact absurd (List.nil_prefix) h
  | cons a v ih =>
    intro T h1 h2
    cases T with
    | nil => exact absurd (List.nil_prefix) h2
    | cons x T =>
      by_cases hx : x = a
      · subst hx
        have h1' : ¬ v <+: T := fun h => h1 ((List.prefix_cons_inj x).2 h)
        have h2' : ¬ T <+: v := fun h => h2 ((List.prefix_cons_inj x).2 h)
        obtain ⟨k, hk⟩ := ih T h1' h2'
        exact ⟨k + 1, by simp [word_scan, hk]⟩
      · exact ⟨0, by simp [word_scan, hx]⟩

theorem word_find_none (T : List Char) : ∀ ws : List String,
    (∀ v ∈ ws, ¬ v.toList <+: T ∧ ¬ T <+: v.toList) → word_find T ws = some none := by
  intro ws
  induction ws with
  | nil => intro _; rfl
  | cons w ws ih =>
    intro h
    obtain ⟨h1, h2⟩ := h w (List.mem_cons_self _ _)
    obtain ⟨k, hk⟩ := word_scan_miss w.toList T h1 h2
    simp only [word_find, hk, Bool.not_true, Bool.false_and, Bool.false_eq_true, if_false]
    exact ih (fun v hv => h v (List.mem_cons_of_mem _ hv))

theorem prefix_of_append_stop (v l : List Char) (a : Char) (Z : List Char)
    (h : v <+: l ++ a :: Z) (ha : a ∉ v) : v <+: l := by
  rcases List.prefix_or_prefix_of_prefix h (List.prefix_append l (a :: Z)) with hp | hp
  · exact hp
  · obtain ⟨t, rfl⟩ := hp
    rw [List.prefix_append_right_inj] at h
    cases t with
    | nil => simp
    | cons b t =>
      have hb : b = a := by
        obtain ⟨s, hs⟩ := h
        simp only [List.cons_append, List.cons.injEq] at hs
        exact hs.1
      subst hb
      exact absurd (List.mem_append_right _ (List.mem_cons_self _ _)) ha

theorem not_prefix_with_stop (v l : List Char) (a : Char) (Z : List Char) (ha : a ∉ v) :
    ¬ (l ++ a :: Z) <+: v := by
  intro h
  exact ha (h.subset (List.mem_append_right _ (List.mem_cons_self _ _)))

theorem keywords_no_space : ∀ w ∈ keywords, ' ' ∉ w.toList := by decide

theorem keyword_stable : ∀ w ∈ keywords, ∀ rest : List Char,
    token_scan (w.toList ++ ' ' :: rest) = some (token_kind.t_keyword, w, w.length, false) := by
  intro w hw rest
  simp only [keywords, List.mem_cons, List.mem_singleton, List.not_mem_nil, or_false] at hw
  rcases hw with rfl | rfl | rfl | rfl | rfl | rfl | rfl | rfl | rfl | rfl | rfl | rfl | rfl
    | rfl | rfl | rfl | rfl | rfl | rfl | rfl <;> rfl

theorem syntax_stable : ∀ c ∈ [';', '=', '(', ')', ','], ∀ rest : List Char,
    token_scan (c :: ' ' :: rest)
      = some (token_kind.t_syntax, String.singleton c, 1, false) := by
  intro c hc rest
  simp only [List.mem_cons, List.mem_singleton, List.not_mem_nil, or_false] at hc
  rcases hc with rfl | rfl | rfl | rfl | rfl <;> rfl

theorem number_scan_minus (X : List Char) : number_scan ('-' :: X) ≠ some none := by
  cases X with
  | nil => simp [number_scan]
  | cons x X =>
    simp only [number_scan, beq_self_eq_true, if_true]
    split <;> simp

theorem operator_stable (U : List Char) (hk : word_find U keywords = some none)
    (hn : number_scan U = some none) : ∀ w ∈ operators, w.toList <+: U →
    ∀ rest : List Char,
    token_scan (w.toList ++ ' ' :: rest) = some (token_kind.t_operator, w, w.length, false) := by
  intro w hw hp rest
  have hmiss := word_find_miss U keywords hk
  simp only [operators, List.mem_cons, List.mem_singleton, List.not_mem_nil, or_false] at hw
  rcases hw with rfl | rfl | rfl | rfl | rfl | rfl | rfl | rfl | rfl | rfl | rfl | rfl | rfl
    | rfl | rfl
  · exact absurd (List.IsPrefix.trans (by decide : "and".toList <+: "and ".toList) hp)
      (hmiss "and" (by decide))
  · exact absurd (List.IsPrefix.trans (by decide : "or".toList <+: "or ".toList) hp)
      (hmiss "or" (by decide))
  · exact absurd (List.IsPrefix.trans (by decide : "not".toList <+: "not ".toList) hp)
      (hmiss "not" (by decide))
  · rfl
  · rfl
  · rfl
  · rfl
  · rfl
  · obtain ⟨X, hX⟩ := hp
    rw [← hX] at hn
    exact absurd hn (number_scan_minus _)
  · rfl
  · rfl
  · rfl
  · rfl
  · rfl
  · rfl

theorem identifier_stable (U : List Char) (lit : String) (n : Nat) (eof : Bool)
    (hk : word_find U keywords = some none)
    (hi : identifier_scan U = some (some (lit, n, eof))) (rest : List Char) :
    token_scan (lit.toList ++ ' ' :: rest)
      = some (token_kind.t_identifier, lit, lit.length, false) := by
  obtain ⟨hl, _, c, cs, htw, hdc⟩ := identifier_scan_hit U lit n eof hi
  have hmiss := word_find_miss U keywords hk
  have hlit : lit.toList = c :: cs := by rw [hl, htw]; rfl
  have hall : ∀ d ∈ c :: cs, identifier_char d = true := by
    intro d hd
    rw [← htw] at hd
    exact List.mem_takeWhile_imp hd
  have hpre : c :: cs <+: U := by rw [← htw]; exact List.takeWhile_prefix _
  have hsp : identifier_char ' ' = false := by decide
  have hkw : word_find (c :: cs ++ ' ' :: rest) keywords = some none := by
    apply word_find_none
    intro v hv
    have hns := keywords_no_space v hv
    refine ⟨?_, not_prefix_with_stop _ _ _ _ hns⟩
    intro hp
    exact hmiss v hv ((prefix_of_append_stop _ _ _ _ hp hns).trans hpre)
  have ht := takeWhile_append_stop identifier_char ' ' rest hsp (c :: cs) hall
  have hr := dropWhile_append_stop identifier_char ' ' rest hsp (c :: cs) hall
  have hlen : lit.length = (c :: cs).length := by
    show lit.toList.length = _
    rw [hlit]
  have hmk : lit = String.mk (c :: cs) := by rw [hl, htw]
  rw [hlit, hlen, hmk]
  simp only [List.cons_append] at hkw ht hr ⊢
  simp only [token_scan, hkw, identifier_scan, ht, hr, hdc, Bool.false_eq_true, if_false]
  rfl

theorem number_stable (U : List Char) (lit : String) (n : Nat) (eof : Bool)
    (hn : number_scan U = some (some (lit, n, eof))) (rest : List Char) :
    token_scan (lit.toList ++ ' ' :: rest)
      = some (token_kind.t_number, lit, lit.length, false) := by
  obtain ⟨sign, plus, ds, hs, _, hds, hne, hl, _⟩ := number_scan_hit U lit n eof hn
  subst hl
  show token_scan ((sign ++ ds) ++ ' ' :: rest)
    = some (token_kind.t_number, String.mk (sign ++ ds), (sign ++ ds).length, false)
  by_cases hd : ds = []
  · subst hd
    rcases hs with rfl | rfl
    · exact absurd rfl hne
    · rfl
  · have hs' : sign = [] ∨ sign = ['-'] ∨ sign = ['+'] := by
      rcases hs with h | h
      · exact Or.inl h
      · exact Or.inr (Or.inl h)
    have hks : kept_sign sign = sign := by
      rcases hs with rfl | rfl <;> rfl
    have := token_scan_number sign ds ' ' rest hs' hd hds (by decide)
    rw [hks] at this
    rw [List.append_assoc, this, List.length_append]

theorem token_scan_not_space (c : Char) (X : List Char)
    (r : token_kind × String × Nat × Bool) (h : token_scan (c :: X) = some r) :
    isspace c = false := by
  cases hc : isspace c with
  | false => rfl
  | true =>
    exfalso
    simp only [isspace, Bool.or_eq_true, beq_iff_eq] at hc
    have hnone : token_scan (c :: X) = none := by
      rcases hc with ((((rfl | rfl) | rfl) | rfl) | rfl) | rfl <;> rfl
    rw [hnone] at h
    cases h

theorem token_scan_stable (U : List Char) (kind : token_kind) (lit : String) (n : Nat)
    (eof : Bool) (h : token_scan U = some (kind, lit, n, eof)) :
    (∀ rest : List Char,
      token_scan (lit.toList ++ ' ' :: rest) = some (kind, lit, lit.length, false))
    ∧ ∃ c cs, lit.toList = c :: cs ∧ isspace c = false := by
  have hst : ∀ rest : List Char,
      token_scan (lit.toList ++ ' ' :: rest) = some (kind, lit, lit.length, false) := by
    rcases token_scan_cases U kind lit n eof h with
      ⟨rfl, hw⟩ | ⟨rfl, hk, hi⟩ | ⟨rfl, _, _, hn⟩ | ⟨rfl, _, _, _, hsx⟩
        | ⟨rfl, hk, _, hn, _, hop⟩
    · obtain ⟨pre, post, hops, _⟩ := word_find_hit U keywords lit n eof hw
      exact keyword_stable lit (by rw [hops]; simp)
    · exact identifier_stable U lit n eof hk hi
    · exact number_stable U lit n eof hn
    · obtain ⟨c, rest', hc, _, hl, _⟩ := syntax_scan_hit U _ lit n eof hsx
      subst hl
      exact syntax_stable c hc
    · obtain ⟨pre, post, hops, _, hp, _⟩ := word_find_hit U operators lit n eof hop
      exact operator_stable U hk hn lit (by rw [hops]; simp) hp
  refine ⟨hst, ?_⟩
  cases hl : lit.toList with
  | nil =>
    have := hst []
    rw [hl] at this
    have hnone : token_scan ([] ++ [' ']) = none := rfl
    rw [hnone] at this
    cases this
  | cons c cs =>
    have := hst []
    rw [hl] at this
    exact ⟨c, cs, rfl, token_scan_not_space c _ _ this⟩

theorem space_scan_blank (c : Char) (X : List Char) (hc : isspace c = false) (hX : X ≠ []) :
    space_scan (' ' :: c :: X) = some ([' '], c :: X) := by
  cases X with
  | nil => exact absurd rfl hX
  | cons z X =>
    have h1 : isspace ' ' = true := by decide
    simp [space_scan, h1, hc, List.dropWhile_cons, List.takeWhile_cons]

theorem space_scan_start (c : Char) (X : List Char) (hc : isspace c = false) :
    space_scan (c :: X) = some ([], c :: X) := by
  simp [space_scan, hc]

theorem next_outcome_literal (kind : token_kind) (lit : String) (R : List Char)
    (hs : ∀ rest : List Char,
      token_scan (lit.toList ++ ' ' :: rest) = some (kind, lit, lit.length, false))
    (hc : ∃ c cs, lit.toList = c :: cs ∧ isspace c = false) :
    next_outcome (lit.toList ++ ' ' :: R) = .token [] kind lit lit.length false (' ' :: R)
    ∧ next_outcome (' ' :: (lit.toList ++ ' ' :: R))
      = .token [' '] kind lit lit.length false (' ' :: R) := by
  obtain ⟨c, cs, hl, hsp⟩ := hc
  have ht := hs R
  have hd : (lit.toList ++ ' ' :: R).drop lit.length = ' ' :: R := List.drop_left _ _
  rw [hl] at ht hd ⊢
  simp only [List.cons_append] at ht hd ⊢
  constructor
  · simp only [next_outcome, space_scan_start c _ hsp, ht, hd]
  · have hb := space_scan_blank c (cs ++ ' ' :: R) hsp (by simp)
    simp only [next_outcome, hb, ht, hd]

theorem lex_from_spaced : ∀ toks : List token_t,
    (∀ t ∈ toks, (∀ rest : List Char,
        token_scan (t.literal.toList ++ ' ' :: rest)
          = some (t.kind, t.literal, t.literal.length, false))
      ∧ ∃ c cs, t.literal.toList = c :: cs ∧ isspace c = false) →
    ∀ (fuel : Nat) (loc : location), toks.length + 1 ≤ fuel →
    ∃ toks', lex_from fuel (' ' :: spaced_literals toks) loc false = .ok toks'
      ∧ toks'.map (fun t => (t.kind, t.literal)) = toks.map (fun t => (t.kind, t.literal)) := by
  intro toks
  induction toks with
  | nil =>
    intro _ fuel loc hf
    obtain ⟨fuel, rfl⟩ : ∃ k, fuel = k + 1 := ⟨fuel - 1, by omega⟩
    exact ⟨[], rfl, rfl⟩
  | cons t toks ih =>
    intro hst fuel loc hf
    obtain ⟨fuel, rfl⟩ : ∃ k, fuel = k + 1 := ⟨fuel - 1, by omega⟩
    obtain ⟨hs, hc⟩ := hst t (List.mem_cons_self _ _)
    obtain ⟨_, ho⟩ := next_outcome_literal t.kind t.literal (spaced_literals toks) hs hc
    obtain ⟨toks', h1, h2⟩ := ih (fun u hu => hst u (List.mem_cons_of_mem _ hu)) fuel
      ((loc.steps [' ']).advance t.literal.length)
      (by simp only [List.length_cons] at hf; omega)
    refine ⟨⟨t.kind, t.literal, loc.steps [' ']⟩ :: toks', ?_, ?_⟩
    · simp only [spaced_literals, lex_from, Bool.false_eq_true, if_false, ho, h1]
    · simp only [List.map_cons, h2]

theorem spaced_literals_length : ∀ toks : List token_t,
    toks.length ≤ (spaced_literals toks).length := by
  intro toks
  induction toks with
  | nil => exact Nat.le_refl _
  | cons t toks ih =>
    simp only [spaced_literals, List.length_cons, List.length_append]
    omega

theorem lex_all_spaced (toks : List token_t)
    (hst : ∀ t ∈ toks, (∀ rest : List Char,
        token_scan (t.literal.toList ++ ' ' :: rest)
          = some (t.kind, t.literal, t.literal.length, false))
      ∧ ∃ c cs, t.literal.toList = c :: cs ∧ isspace c = false) :
    ∃ toks', lex_all (spaced_literals toks) = .ok toks'
      ∧ toks'.map (fun t => (t.kind, t.literal)) = toks.map (fun t => (t.kind, t.literal)) := by
  cases toks with
  | nil => exact ⟨[], rfl, rfl⟩
  | cons t toks =>
    obtain ⟨hs, hc⟩ := hst t (List.mem_cons_self _ _)
    obtain ⟨ho, _⟩ := next_outcome_literal t.kind t.literal (spaced_literals toks) hs hc
    have hlen := spaced_literals_length toks
    obtain ⟨toks', h1, h2⟩ := lex_from_spaced toks
      (fun u hu => hst u (List.mem_cons_of_mem _ hu))
      ((spaced_literals (t :: toks)).length + 2)
      ((location.steps ⟨1, 1, 0⟩ []).advance t.literal.length)
      (by simp only [spaced_literals, List.length_cons, List.length_append]; omega)
    refine ⟨⟨t.kind, t.literal, location.steps ⟨1, 1, 0⟩ []⟩ :: toks', ?_, ?_⟩
    · unfold lex_all
      simp only [spaced_literals] at h1 ⊢
      simp only [ho, h1]
    · simp only [List.map_cons, h2]

/-! ## C11: symbol locations -/

/-- C11: for every AST on which emission succeeds, every entry `sym[L]` of the
emitted symbol table has `0 ≤ sym[L].loc ≤ |insts|` (in fact `0 < sym[L].loc`). -/
theorem C11_symbol_locations_in_range (tree : ast) (prog : program)
    (h : compile tree = .ok prog) :
    ∀ L s, map_find prog.syms L = some s →
      0 ≤ s.loc ∧ 0 < s.loc ∧ s.loc ≤ (prog.insts.length : Int) := by
  unfold compile at h
  cases hb : compile_block ⟨[], []⟩ [] tree with
  | error e => simp [hb] at h
  | ok r =>
    obtain ⟨q, l⟩ := r
    simp only [hb, Except.ok.injEq] at h
    subst h
    obtain ⟨_, added, hem, _⟩ := compile_block_effect tree ⟨[], []⟩ [] q l hb
    intro L s hs
    have := hem.fresh L s rfl hs
    simp only [List.length_nil, Nat.cast_zero] at this
    exact ⟨le_of_lt this.1, this.1, this.2⟩

/-- C11 at the tree of an `if` statement: both labels are at the end of the
three instructions. -/
theorem C11_symbol_locations_in_range_witness :
    compile if_tree = .ok if_program
    ∧ ∀ L s, map_find if_program.syms L = some s →
      0 ≤ s.loc ∧ 0 < s.loc ∧ s.loc ≤ (if_program.insts.length : Int) :=
  ⟨by decide!, C11_symbol_locations_in_range if_tree if_program (by decide!)⟩

/-! ## C12: the literal of a number token -/

/-- C12 fails on `n - 1;`: the `-` comes back as a number token whose literal
`-` has no digit.  What holds for every number token returned by `next`: its
literal is an optional `-` followed by digits, and it is `-` when there is no
digit; a `+` is never part of it. -/
theorem C12_number_literal_without_digit :
    tokenize "n - 1;".toList
      = .ok [⟨token_kind.t_identifier, "n", ⟨1, 1, 0⟩⟩, ⟨token_kind.t_number, "-", ⟨1, 3, 2⟩⟩,
          ⟨token_kind.t_number, "1", ⟨1, 5, 4⟩⟩, ⟨token_kind.t_syntax, ";", ⟨1, 6, 5⟩⟩]
    ∧ (∀ c ∈ "-".toList, isdigit c = false)
    ∧ ∀ (lx : lexer) (tok : token_t) (post : location) (lx' : lexer),
        next lx = .ok (some (tok, post), lx') → tok.kind = token_kind.t_number →
        ∃ sign ds, tok.literal = String.mk (sign ++ ds) ∧ (sign = [] ∨ sign = ['-'])
          ∧ (∀ c ∈ ds, isdigit c = true) ∧ (ds = [] → sign = ['-']) := by
  refine ⟨by decide!, by decide, ?_⟩
  intro lx tok post lx' h hk
  obtain ⟨ws, U, n, eof, _, _, ht, _⟩ := next_token_text lx tok post lx' h
  rw [hk] at ht
  rcases token_scan_cases U _ _ n eof ht with
    ⟨hc, _⟩ | ⟨hc, _⟩ | ⟨_, _, _, hn⟩ | ⟨hc, _⟩ | ⟨hc, _⟩
  · cases hc
  · cases hc
  · obtain ⟨sign, plus, ds, hs, _, hd, hne, hl, _⟩ := number_scan_hit U _ n eof hn
    refine ⟨sign, ds, hl, hs, hd, ?_⟩
    intro he
    subst he
    rcases hs with rfl | rfl
    · simp at hne
    · rfl
  · cases hc
  · cases hc

/-! ## C13: the literal and the matched text -/

/-- C13 as stated fails: on `+5;` the number token reaches from offset 0 to
offset 2 but its literal is `5`, not the two bytes `+5`. -/
theorem C13_plus_sign_is_dropped :
    ¬ ∀ (lx : lexer) (tok : token_t) (post : location) (lx' : lexer),
      next lx = .ok (some (tok, post), lx') →
      tok.literal.toList
        = (lx._file.data.drop tok.loc.offset).take (post.offset - tok.loc.offset) := by
  intro h
  have h1 : next (lexer_on "+5;".toList)
      = .ok (some (⟨token_kind.t_number, "5", ⟨1, 1, 0⟩⟩, ⟨1, 3, 2⟩),
          ⟨⟨"+5;".toList, [';'], false, false⟩, ⟨1, 3, 2⟩⟩) := by decide!
  have := h _ _ _ _ h1
  revert this
  decide

/-- C13 amended: for every token returned by `next` with its post-location, the
post-offset lies after the token's offset and within the input, and the literal
is the input from the token's offset up to the post-offset, except that in a
number token every `+` is left out. -/
theorem C13_literal_is_text_without_plus (lx : lexer) (tok : token_t) (post : location)
    (lx' : lexer) (h : next lx = .ok (some (tok, post), lx')) :
    tok.loc.offset < post.offset ∧ post.offset ≤ lx._file.data.length
    ∧ tok.literal.toList
      = (if tok.kind = token_kind.t_number then
          ((lx._file.data.drop tok.loc.offset).take (post.offset - tok.loc.offset)).filter
            (fun c => c != '+')
        else (lx._file.data.drop tok.loc.offset).take (post.offset - tok.loc.offset)) := by
  obtain ⟨ws, U, n, eof, _, _, ht, _, hp, hU, _⟩ := next_token_text lx tok post lx' h
  obtain ⟨h1, h2, h3, _⟩ := token_scan_text U _ _ n eof ht
  have hlen : U.length = lx._file.data.length - tok.loc.offset := by
    rw [← hU, List.length_drop]
  have hpo : post.offset = tok.loc.offset + n := by rw [hp]; rfl
  have hsub : post.offset - tok.loc.offset = n := by omega
  refine ⟨by omega, by omega, ?_⟩
  rw [hsub, hU]
  exact h3

/-- C13 amended, on `+5;`: the literal `5` is the text `+5` without the `+`. -/
theorem C13_literal_is_text_without_plus_witness :
    next (lexer_on "+5;".toList)
      = .ok (some (⟨token_kind.t_number, "5", ⟨1, 1, 0⟩⟩, ⟨1, 3, 2⟩),
          ⟨⟨"+5;".toList, [';'], false, false⟩, ⟨1, 3, 2⟩⟩)
    ∧ (0 < 2 ∧ 2 ≤ "+5;".toList.length
      ∧ "5".toList = (("+5;".toList.drop 0).take (2 - 0)).filter (fun c => c != '+')) :=
  ⟨by decide!,
    C13_literal_is_text_without_plus (lexer_on "+5;".toList)
      ⟨token_kind.t_number, "5", ⟨1, 1, 0⟩⟩ ⟨1, 3, 2⟩
      ⟨⟨"+5;".toList, [';'], false, false⟩, ⟨1, 3, 2⟩⟩ (by decide!)⟩

/-! ## C14: the order of the sub-lexers -/

/-- C14: a token returned by `next` comes from the first sub-lexer, in the
order keyword, identifier, number, syntax, operator, that matches the text at
the token's offset: every sub-lexer before it declines that text.  So the
literal of an identifier token is not a keyword (no keyword is even a prefix of
the text), and it is a letter or `_` followed by letters, digits and `_`. -/
theorem C14_first_sub_lexer_wins (lx : lexer) (tok : token_t) (post : location) (lx' : lexer)
    (h : next lx = .ok (some (tok, post), lx')) :
    (∃ n eof,
      (tok.kind = token_kind.t_keyword
        ∧ word_find (lx._file.data.drop tok.loc.offset) keywords = some (some (tok.literal, n, eof)))
      ∨ (tok.kind = token_kind.t_identifier
        ∧ word_find (lx._file.data.drop tok.loc.offset) keywords = some none
        ∧ identifier_scan (lx._file.data.drop tok.loc.offset) = some (some (tok.literal, n, eof)))
      ∨ (tok.kind = token_kind.t_number
        ∧ word_find (lx._file.data.drop tok.loc.offset) keywords = some none
        ∧ identifier_scan (lx._file.data.drop tok.loc.offset) = some none
        ∧ number_scan (lx._file.data.drop tok.loc.offset) = some (some (tok.literal, n, eof)))
      ∨ (tok.kind = token_kind.t_syntax
        ∧ word_find (lx._file.data.drop tok.loc.offset) keywords = some none
        ∧ identifier_scan (lx._file.data.drop tok.loc.offset) = some none
        ∧ number_scan (lx._file.data.drop tok.loc.offset) = some none
        ∧ syntax_scan (lx._file.data.drop tok.loc.offset) [';', '=', '(', ')', ',']
            = some (some (tok.literal, n, eof)))
      ∨ (tok.kind = token_kind.t_operator
        ∧ word_find (lx._file.data.drop tok.loc.offset) keywords = some none
        ∧ identifier_scan (lx._file.data.drop tok.loc.offset) = some none
        ∧ number_scan (lx._file.data.drop tok.loc.offset) = some none
        ∧ syntax_scan (lx._file.data.drop tok.loc.offset) [';', '=', '(', ')', ','] = some none
        ∧ word_find (lx._file.data.drop tok.loc.offset) operators
            = some (some (tok.literal, n, eof))))
    ∧ (tok.kind = token_kind.t_identifier →
        tok.literal ∉ keywords
        ∧ (∀ k ∈ keywords, ¬ k.toList <+: lx._file.data.drop tok.loc.offset)
        ∧ ∃ c cs, tok.literal = String.mk (c :: cs)
          ∧ ((65 ≤ c.toNat ∧ c.toNat ≤ 90) ∨ (97 ≤ c.toNat ∧ c.toNat ≤ 122) ∨ c = '_')
          ∧ ∀ d ∈ cs, (65 ≤ d.toNat ∧ d.toNat ≤ 90) ∨ (97 ≤ d.toNat ∧ d.toNat ≤ 122)
              ∨ (48 ≤ d.toNat ∧ d.toNat ≤ 57) ∨ d = '_') := by
  obtain ⟨ws, U, n, eof, _, _, ht, _, _, hU, _⟩ := next_token_text lx tok post lx' h
  rw [hU]
  have hcases := token_scan_cases U _ _ n eof ht
  refine ⟨⟨n, eof, hcases⟩, ?_⟩
  intro hk
  have hchar : ∀ d : Char, identifier_char d = true →
      (65 ≤ d.toNat ∧ d.toNat ≤ 90) ∨ (97 ≤ d.toNat ∧ d.toNat ≤ 122)
        ∨ (48 ≤ d.toNat ∧ d.toNat ≤ 57) ∨ d = '_' := by
    intro d hd
    simp only [identifier_char, isalnum, isdigit, Bool.or_eq_true, Bool.and_eq_true,
      decide_eq_true_eq, beq_iff_eq] at hd
    tauto
  rcases hcases with ⟨hc, _⟩ | ⟨_, hw, hi⟩ | ⟨hc, _⟩ | ⟨hc, _⟩ | ⟨hc, _⟩
  · rw [hk] at hc; cases hc
  · obtain ⟨hl, _, c, cs, htw, hdc⟩ := identifier_scan_hit U _ n eof hi
    have hmiss := word_find_miss U keywords hw
    have hpre : tok.literal.toList <+: U := by
      rw [hl]
      exact List.takeWhile_prefix _
    refine ⟨?_, hmiss, c, cs, by rw [hl, htw], ?_, ?_⟩
    · intro hmem
      exact hmiss _ hmem hpre
    · have hc : identifier_char c = true := by
        have : c ∈ U.takeWhile identifier_char := by rw [htw]; exact List.mem_cons_self _ _
        exact (List.mem_takeWhile_imp this)
      have hd : ¬ (48 ≤ c.toNat ∧ c.toNat ≤ 57) := by
        intro hh
        simp [isdigit, hh.1, hh.2] at hdc
      rcases hchar c hc with h1 | h1 | h1 | h1
      · exact Or.inl h1
      · exact Or.inr (Or.inl h1)
      · exact absurd h1 hd
      · exact Or.inr (Or.inr h1)
    · intro d hd
      have : d ∈ U.takeWhile identifier_char := by rw [htw]; exact List.mem_cons_of_mem _ hd
      exact hchar d (List.mem_takeWhile_imp this)
  · rw [hk] at hc; cases hc
  · rw [hk] at hc; cases hc
  · rw [hk] at hc; cases hc

/-- C14 on `abc;`: the identifier `abc`. -/
theorem C14_first_sub_lexer_wins_witness :
    next (lexer_on "abc;".toList)
      = .ok (some (⟨token_kind.t_identifier, "abc", ⟨1, 1, 0⟩⟩, ⟨1, 4, 3⟩),
          ⟨⟨"abc;".toList, [';'], false, false⟩, ⟨1, 4, 3⟩⟩)
    ∧ "abc" ∉ keywords :=
  ⟨by decide!,
    ((C14_first_sub_lexer_wins (lexer_on "abc;".toList)
      ⟨token_kind.t_identifier, "abc", ⟨1, 1, 0⟩⟩ ⟨1, 4, 3⟩
      ⟨⟨"abc;".toList, [';'], false, false⟩, ⟨1, 4, 3⟩⟩ (by decide!)).2 rfl).1⟩

/-! ## C15: text that starts with a digit -/

/-- C15 as stated fails: `9abc;` lexes to the number `9`, the identifier `abc`
and `;`, and `9abc` alone lexes to no token at all; neither is an error. -/
theorem C15_digit_led_identifier_lexes :
    tokenize "9abc;".toList
      = .ok [⟨token_kind.t_number, "9", ⟨1, 1, 0⟩⟩, ⟨token_kind.t_identifier, "abc", ⟨1, 2, 1⟩⟩,
          ⟨token_kind.t_syntax, ";", ⟨1, 5, 4⟩⟩]
    ∧ tokenize "9abc".toList = .ok [] := by
  constructor <;> decide!

/-- C15 amended: when the unread text starts with a digit, `next` never fails:
it returns the leading digits as a number token, unless the text consists of
identifier bytes up to the end of the file, where it returns no token. -/
theorem C15_digit_led_text_is_no_error (lx : lexer) (x : Char) (Y : List Char)
    (hf : lx._file.failbit = false) (hT : lx._file.data.drop lx._loc.offset = x :: Y)
    (hx : isdigit x = true) :
    (∃ lx', next lx
        = .ok (some (⟨token_kind.t_number, String.mk ((x :: Y).takeWhile isdigit), lx._loc⟩,
            lx._loc.advance ((x :: Y).takeWhile isdigit).length), lx'))
    ∨ ((∀ c ∈ x :: Y, identifier_char c = true) ∧ ∃ lx', next lx = .ok (none, lx')) := by
  have hsp : space_scan (x :: Y) = some ([], x :: Y) := by
    simp [space_scan, isdigit_not_space x hx]
  have hx57 : x.toNat ≤ 57 := by
    simp only [isdigit, Bool.and_eq_true, decide_eq_true_eq] at hx
    exact hx.2
  have hkw := word_find_above x Y hx57 keywords keywords_above
  have hic := isdigit_identifier_char x hx
  by_cases he : ((x :: Y).dropWhile identifier_char).isEmpty = true
  · right
    have hid : identifier_scan (x :: Y) = none := by
      simp only [identifier_scan, List.takeWhile_cons, hic, if_true, hx, he]
    have hts : token_scan (x :: Y) = none := by
      simp only [token_scan, hkw, hid]
    have hnm : no_match (x :: Y) = false := by
      simp [no_match, hid]
    obtain ⟨r, e, hn⟩ := next_silent lx hf (x :: Y) [] (x :: Y) hT hsp hts hnm
    refine ⟨?_, _, hn⟩
    intro c hc
    have hnil : (x :: Y).dropWhile identifier_char = [] := by
      simpa using he
    rw [List.dropWhile_eq_nil_iff] at hnil
    exact hnil c hc
  · left
    have he' : ((x :: Y).dropWhile identifier_char).isEmpty = false := by
      simpa using he
    have hid : identifier_scan (x :: Y) = some none := by
      simp only [identifier_scan, List.takeWhile_cons, hic, if_true, hx, he']
      rfl
    have hm : (x == '-') = false := by
      rw [beq_eq_false_iff_ne]; rintro rfl; revert hx; decide
    have hp : (x == '+') = false := by
      rw [beq_eq_false_iff_ne]; rintro rfl; revert hx; decide
    have hnum : number_scan (x :: Y)
        = some (some (String.mk ((x :: Y).takeWhile isdigit),
            ((x :: Y).takeWhile isdigit).length, ((x :: Y).dropWhile isdigit).isEmpty)) := by
      simp [number_scan, hm, hp, hx, List.takeWhile_cons]
    have hts : token_scan (x :: Y)
        = some (token_kind.t_number, String.mk ((x :: Y).takeWhile isdigit),
            ((x :: Y).takeWhile isdigit).length, ((x :: Y).dropWhile isdigit).isEmpty) := by
      simp only [token_scan, hkw, hid, hnum]
    have hns : next_scan (x :: Y)
        = some ([], token_kind.t_number, String.mk ((x :: Y).takeWhile isdigit),
            ((x :: Y).takeWhile isdigit).length, ((x :: Y).dropWhile isdigit).isEmpty,
            (x :: Y).drop ((x :: Y).takeWhile isdigit).length) := by
      simp only [next_scan, hsp, hts]
    obtain ⟨f', hn, _⟩ := next_scan_ok lx._file.data lx (x :: Y) rfl hf hT _ _ _ _ _ _ hns
    exact ⟨_, hn⟩

/-- C15 amended, on `9abc;`: the number token `9`. -/
theorem C15_digit_led_text_is_no_error_witness :
    isdigit '9' = true
    ∧ ((∃ lx', next (lexer_on "9abc;".toList)
        = .ok (some (⟨token_kind.t_number, String.mk ("9abc;".toList.takeWhile isdigit),
              ⟨1, 1, 0⟩⟩,
            location.advance ⟨1, 1, 0⟩ ("9abc;".toList.takeWhile isdigit).length), lx'))
      ∨ ((∀ c ∈ "9abc;".toList, identifier_char c = true)
        ∧ ∃ lx', next (lexer_on "9abc;".toList) = .ok (none, lx'))) :=
  ⟨by decide,
    C15_digit_led_text_is_no_error (lexer_on "9abc;".toList) '9' "abc;".toList rfl rfl
      (by decide)⟩

/-! ## C16: the byte no sub-lexer matches -/

/-- C16 fails at the end of a file: on `!` no sub-lexer matches, but the
operator sub-lexer reads EOF and `next` returns no token instead of failing
(on `!;` it fails), and on `a @` the byte after the blank is the last one and
is never looked at (on `a @;` it fails).  What holds: when the text after the
white space `ws` starts with the byte `x` and every sub-lexer declines it
without reading EOF, `next` fails with the message naming `x` and the line and
column after `ws`. -/
theorem C16_unexpected_character_lost_at_eof :
    tokenize "!".toList = .ok []
    ∧ tokenize "!;".toList = .error (.thrown "unexpected character: ! at 1:1")
    ∧ tokenize "a @".toList = .ok [⟨token_kind.t_identifier, "a", ⟨1, 1, 0⟩⟩]
    ∧ tokenize "a @;".toList = .error (.thrown "unexpected character: @ at 1:3")
    ∧ ∀ (lx : lexer) (ws : List Char) (x : Char) (Y : List Char),
        lx._file.failbit = false →
        space_scan (lx._file.data.drop lx._loc.offset) = some (ws, x :: Y) →
        no_match (x :: Y) = true →
        next lx = .error (.thrown (unexpected_message x (lx._loc.steps ws))) := by
  refine ⟨by decide!, by decide!, by decide!, by decide!, ?_⟩
  intro lx ws x Y hf hs hn
  exact next_unexpected lx hf _ ws x Y rfl hs hn

/-! ## C17: operators -/

/-- C17: the literal of an operator token returned by `next` is an entry of the
operator list, a prefix of the text at the token's offset, and no entry of the
list that is a prefix of that text is longer; and when the unread text starts
with `==`, `!=`, `>=` or `<=`, `next` returns that operator as one token of two
bytes (so `==` is not lexed as `=` and `=`). -/
theorem C17_operator_longest_match :
    (∀ (lx : lexer) (tok : token_t) (post : location) (lx' : lexer),
      next lx = .ok (some (tok, post), lx') → tok.kind = token_kind.t_operator →
      tok.literal ∈ operators
      ∧ tok.literal.toList <+: lx._file.data.drop tok.loc.offset
      ∧ ∀ v ∈ operators, v.toList <+: lx._file.data.drop tok.loc.offset →
          v.length ≤ tok.literal.length)
    ∧ (∀ (lx : lexer) (w : String) (Y : List Char), w ∈ ["==", "!=", ">=", "<="] →
      lx._file.failbit = false → lx._file.data.drop lx._loc.offset = w.toList ++ Y →
      ∃ lx', next lx
        = .ok (some (⟨token_kind.t_operator, w, lx._loc⟩, lx._loc.advance 2), lx'))
    ∧ tokenize "a == b <= c;".toList
      = .ok [⟨token_kind.t_identifier, "a", ⟨1, 1, 0⟩⟩, ⟨token_kind.t_operator, "==", ⟨1, 3, 2⟩⟩,
          ⟨token_kind.t_identifier, "b", ⟨1, 6, 5⟩⟩, ⟨token_kind.t_operator, "<=", ⟨1, 8, 7⟩⟩,
          ⟨token_kind.t_identifier, "c", ⟨1, 11, 10⟩⟩, ⟨token_kind.t_syntax, ";", ⟨1, 12, 11⟩⟩] := by
  refine ⟨?_, ?_, by decide!⟩
  · intro lx tok post lx' h hk
    obtain ⟨ws, U, n, eof, _, _, ht, _, _, hU, _⟩ := next_token_text lx tok post lx' h
    rw [hU]
    rcases token_scan_cases U _ _ n eof ht with
      ⟨hc, _⟩ | ⟨hc, _⟩ | ⟨hc, _⟩ | ⟨hc, _⟩ | ⟨_, _, _, _, _, hop⟩
    · rw [hk] at hc; cases hc
    · rw [hk] at hc; cases hc
    · rw [hk] at hc; cases hc
    · rw [hk] at hc; cases hc
    · obtain ⟨pre, post', hops, hpre, hw, _⟩ := word_find_hit U operators _ n eof hop
      refine ⟨by rw [hops]; simp, hw, ?_⟩
      intro v hv hvU
      rw [hops, List.mem_append, List.mem_cons] at hv
      rcases hv with hv | rfl | hv
      · exact absurd hvU (hpre v hv)
      · exact le_refl _
      · by_cases hl : v.length ≤ tok.literal.length
        · exact hl
        · have hlen : tok.literal.toList.length ≤ v.toList.length := by
            have : tok.literal.length < v.length := by omega
            exact le_of_lt this
          have hp := List.prefix_of_prefix_length_le hw hvU hlen
          have hlf := operators_longer_first
          rw [hops] at hlf
          exact longer_first_spec pre _ post' hlf v hv hp
  · intro lx w Y hw hf hT
    have hs : ∃ a b, w.toList = [a, b] ∧ ((a, b, w) = ('=', '=', "==")
        ∨ (a, b, w) = ('!', '=', "!=") ∨ (a, b, w) = ('>', '=', ">=")
        ∨ (a, b, w) = ('<', '=', "<=")) := by
      simp only [List.mem_cons, List.mem_singleton, List.not_mem_nil, or_false] at hw
      rcases hw with rfl | rfl | rfl | rfl
      · exact ⟨'=', '=', rfl, Or.inl rfl⟩
      · exact ⟨'!', '=', rfl, Or.inr (Or.inl rfl)⟩
      · exact ⟨'>', '=', rfl, Or.inr (Or.inr (Or.inl rfl))⟩
      · exact ⟨'<', '=', rfl, Or.inr (Or.inr (Or.inr rfl))⟩
    obtain ⟨a, b, hab, hc⟩ := hs
    rw [hab] at hT
    have hns := two_byte_operator_scan a b w Y hc
    obtain ⟨f', hn, _⟩ := next_scan_ok lx._file.data lx (a :: b :: Y) rfl hf hT _ _ _ _ _ _ hns
    exact ⟨_, hn⟩

/-! ## C18: lexing the literals again -/

/-- C18: when a file lexes to the tokens `t_1..t_n`, the text made of the
literals of `t_1..t_n`, each followed by one blank, lexes too, to tokens with
the same kinds and literals in the same order. -/
theorem C18_lexer_round_trip (D : List Char) (toks : List token_t)
    (h : tokenize D = .ok toks) :
    ∃ toks', tokenize (spaced_literals toks) = .ok toks'
      ∧ toks'.map (fun t => (t.kind, t.literal)) = toks.map (fun t => (t.kind, t.literal)) := by
  rw [tokenize_total] at h ⊢
  apply lex_all_spaced
  intro t ht
  obtain ⟨_, n, eof, hts⟩ := lex_all_locs D toks h t ht
  exact token_scan_stable _ _ _ n eof hts

/-- C18 on `n - 1;`: its four tokens, then the tokens of `n - 1 ; `. -/
theorem C18_lexer_round_trip_witness :
    tokenize "n - 1;".toList
      = .ok [⟨token_kind.t_identifier, "n", ⟨1, 1, 0⟩⟩, ⟨token_kind.t_number, "-", ⟨1, 3, 2⟩⟩,
          ⟨token_kind.t_number, "1", ⟨1, 5, 4⟩⟩, ⟨token_kind.t_syntax, ";", ⟨1, 6, 5⟩⟩]
    ∧ ∃ toks', tokenize "n - 1 ; ".toList = .ok toks'
      ∧ toks'.map (fun t => (t.kind, t.literal))
        = [(token_kind.t_identifier, "n"), (token_kind.t_number, "-"),
            (token_kind.t_number, "1"), (token_kind.t_syntax, ";")] :=
  ⟨by decide!,
    C18_lexer_round_trip "n - 1;".toList
      [⟨token_kind.t_identifier, "n", ⟨1, 1, 0⟩⟩, ⟨token_kind.t_number, "-", ⟨1, 3, 2⟩⟩,
        ⟨token_kind.t_number, "1", ⟨1, 5, 4⟩⟩, ⟨token_kind.t_syntax, ";", ⟨1, 6, 5⟩⟩]
      (by decide!)⟩

/-! ## C19: token locations -/

/-- C19: for every token `t` of the token vector of a file, `t.loc.offset` is an
offset of the file at which the text of `t` starts (the sub-lexers find `t`
there, and the literal is that text, a number's without `+`), `t.loc.line` is 1
plus the number of `\n` before that offset and `t.loc.column` is 1 plus the
number of bytes after the last `\n` before that offset (after the start of the
file when there is none); and the location of a token returned by `next` is the
lexer's location stepped over the white space in front of the token, where a
step over `\n` goes to column 1 of the next line, a step over another byte goes
to the next column, and each step adds one to the offset. -/
theorem C19_token_locations :
    (∀ (D : List Char) (toks : List token_t), tokenize D = .ok toks → ∀ t ∈ toks,
      t.loc.offset < D.length
      ∧ (∃ n eof, token_scan (D.drop t.loc.offset) = some (t.kind, t.literal, n, eof)
          ∧ t.literal.toList
            = (if t.kind = token_kind.t_number then
                ((D.drop t.loc.offset).take n).filter (fun c => c != '+')
              else (D.drop t.loc.offset).take n))
      ∧ t.loc.line = 1 + (D.take t.loc.offset).count '\n'
      ∧ t.loc.column
        = 1 + ((D.take t.loc.offset).reverse.takeWhile (fun c => c != '\n')).length)
    ∧ (∀ (lx : lexer) (tok : token_t) (post : location) (lx' : lexer),
      next lx = .ok (some (tok, post), lx') →
      ∃ ws, ws <+: lx._file.data.drop lx._loc.offset ∧ (∀ w ∈ ws, isspace w = true)
        ∧ (∀ x ∈ (lx._file.data.drop tok.loc.offset).head?, isspace x = false)
        ∧ tok.loc = lx._loc.steps ws)
    ∧ (∀ (l : location) (c : Char) (cs : List Char),
      l.steps (c :: cs)
        = location.steps (if c = '\n' then ⟨l.line + 1, 1, l.offset + 1⟩
            else ⟨l.line, l.column + 1, l.offset + 1⟩) cs)
    ∧ tokenize "a\tb\r\nc;".toList
      = .ok [⟨token_kind.t_identifier, "a", ⟨1, 1, 0⟩⟩, ⟨token_kind.t_identifier, "b", ⟨1, 3, 2⟩⟩,
          ⟨token_kind.t_identifier, "c", ⟨2, 1, 5⟩⟩, ⟨token_kind.t_syntax, ";", ⟨2, 2, 6⟩⟩] := by
  refine ⟨?_, ?_, ?_, by decide!⟩
  · intro D toks h t ht
    rw [tokenize_total] at h
    obtain ⟨hl, n, eof, hts⟩ := lex_all_locs D toks h t ht
    obtain ⟨h1, h2, h3, _⟩ := token_scan_text _ _ _ n eof hts
    rw [steps_from_start] at hl
    refine ⟨?_, ⟨n, eof, hts, h3⟩, congrArg location.line hl, congrArg location.column hl⟩
    rw [List.length_drop] at h2
    omega
  · intro lx tok post lx' h
    obtain ⟨_, ws, kind, lit, n, eof, T', hns, htok, _⟩ := next_token_inv lx tok post lx' h
    obtain ⟨U, hs, _, _⟩ := next_scan_some _ ws kind lit n eof T' hns
    obtain ⟨hT, hws, x, Y, hU, hx, _⟩ := space_scan_spec _ ws U hs
    subst htok
    refine ⟨ws, by rw [hT]; exact List.prefix_append _ _, hws, ?_, rfl⟩
    have hd : lx._file.data.drop (lx._loc.steps ws).offset = U := by
      rw [steps_offset, ← List.drop_drop, hT, List.drop_left]
    show ∀ y ∈ (lx._file.data.drop (lx._loc.steps ws).offset).head?, isspace y = false
    rw [hd, hU]
    intro y hy
    simp only [List.head?_cons, Option.mem_def, Option.some.injEq] at hy
    rw [← hy]
    exact hx
  · intro l c cs
    by_cases hc : c = '\n'
    · subst hc; rfl
    · have hb : (c == '\n') = false := by rw [beq_eq_false_iff_ne]; exact hc
      simp only [location.steps, location.step, hb, hc, if_false, Bool.false_eq_true]

/-! ## C20: the token sequence is finite -/

/-- C20: every token returned by `next` has a post-location whose offset is
greater than the token's offset and at most the length of the input; and the
loop that calls `next` from offset 0 always ends: it collects at most as many
tokens as the input has bytes, or it stops with a thrown lex error. -/
theorem C20_token_sequence_is_finite :
    (∀ (lx : lexer) (tok : token_t) (post : location) (lx' : lexer),
      next lx = .ok (some (tok, post), lx') →
      tok.loc.offset < post.offset ∧ post.offset ≤ lx._file.data.length)
    ∧ (∀ D : List Char,
      (∃ toks, tokenize D = .ok toks ∧ toks.length ≤ D.length)
      ∨ ∃ msg, tokenize D = .error (.thrown msg)) := by
  constructor
  · intro lx tok post lx' h
    obtain ⟨ws, U, n, eof, _, _, ht, _, hp, hU, _⟩ := next_token_text lx tok post lx' h
    obtain ⟨h1, h2, _⟩ := token_scan_text U _ _ n eof ht
    have hlen : U.length = lx._file.data.length - tok.loc.offset := by
      rw [← hU, List.length_drop]
    have hpo : post.offset = tok.loc.offset + n := by rw [hp]; rfl
    omega
  · intro D
    rw [tokenize_total]
    exact lex_all_length D

/-! ## Lowering of expressions -/

theorem binary_opcode_spec (oplit : String) :
    (∀ inst, spec_opcode oplit = some inst → binary_opcode oplit = .ok inst)
    ∧ (spec_opcode oplit = none → binary_opcode oplit = .error (.thrown "unknown operator")) := by
  unfold spec_opcode binary_opcode
  split <;> simp_all

mutual
theorem clone_of_compile_expr : ∀ (e : expr_t) (p : program) (l : locals_t)
    (r : program × locals_t), compile_expr p l e = .ok r → ∃ c, clone e = .ok c
  | .null, p, l, r, h => by simp [compile_expr] at h
  | .literal_id t, p, l, r, h => ⟨_, by rw [clone]⟩
  | .literal_number t, p, l, r, h => ⟨_, by rw [clone]⟩
  | .func_call name args, p, l, r, h => by
    rw [compile_expr] at h
    cases ha : compile_arguments p l args with
    | error e => simp [ha] at h
    | ok r1 =>
      obtain ⟨cs, hcs⟩ := clone_all_of_compile_arguments args p l r1 ha
      exact ⟨_, by rw [clone, hcs]⟩
  | .binary_op op left right, p, l, r, h => by
    rw [compile_expr] at h
    cases hc1 : clone left with
    | error e => simp [hc1] at h
    | ok c1 =>
      simp only [hc1] at h
      cases h1 : compile_expr p l left with
      | error e => simp [h1] at h
      | ok r1 =>
        simp only [h1] at h
        cases hc2 : clone right with
        | error e => simp [hc2] at h
        | ok c2 => exact ⟨_, by rw [clone, hc1, hc2]⟩
theorem clone_all_of_compile_arguments : ∀ (es : List expr_t) (p : program) (l : locals_t)
    (r : program × locals_t), compile_arguments p l es = .ok r → ∃ cs, clone_all es = .ok cs
  | [], p, l, r, h => ⟨[], by rw [clone_all]⟩
  | e :: es, p, l, r, h => by
    rw [compile_arguments] at h
    cases hc : clone e with
    | error x => simp [hc] at h
    | ok c =>
      simp only [hc] at h
      cases h1 : compile_expr p l e with
      | error x => simp [h1] at h
      | ok r1 =>
        simp only [h1] at h
        obtain ⟨cs, hcs⟩ := clone_all_of_compile_arguments es r1.1 r1.2 r h
        exact ⟨_, by rw [clone_all, hc, hcs]⟩
end

/-! ## Labels without a symbol -/

theorem sym_missing (prog : program) (label : String) (h : map_find prog.syms label = none) :
    prog.sym label = (⟨0, 0, 0⟩, ⟨prog.syms ++ [(label, ⟨0, 0, 0⟩)], prog.insts⟩) := by
  simp only [program.sym, map_index, h]

theorem sym_present (prog : program) (label : String) (s : symbol)
    (h : map_find prog.syms label = some s) : prog.sym label = (s, prog) := by
  simp only [program.sym, map_index, h]

theorem call_of_unknown_loops : ∀ (n : Nat) (prog : program) (m : vm),
    prog.insts = [.call_inst "f" 0] →
    (map_find prog.syms "f" = none ∨ map_find prog.syms "f" = some ⟨0, 0, 0⟩) →
    m.pc = 0 → eval n prog m = .error .fuel := by
  intro n
  induction n with
  | zero =>
    intro prog m hi _ hpc
    rw [eval]
    simp [running, hi, hpc]
  | succ n ih =>
    intro prog m hi hs hpc
    have hrun : running prog m = true := by simp [running, hi, hpc]
    have hne : ("f" : String) ≠ "print" := by decide
    rw [eval]
    simp only [hrun, if_true]
    rcases hs with hs | hs
    · have hstep : step prog m = .ok (⟨prog.syms ++ [("f", ⟨0, 0, 0⟩)], prog.insts⟩,
          ⟨0, ((m.stack ++ [m.fp, m.pc + 1, ((0 : Nat) : Int)]).length : Int),
            m.stack ++ [m.fp, m.pc + 1, ((0 : Nat) : Int)] ++ List.replicate 0 0, m.cout⟩) := by
        simp only [step, hi, hpc, Int.toNat_zero, List.getElem?_cons_zero, exec, hne, if_false,
          sym_missing prog "f" hs]
      rw [hstep]
      exact ih _ _ hi (Or.inr (by rw [map_find_append, hs]; simp)) rfl
    · have hstep : step prog m = .ok (prog,
          ⟨0, ((m.stack ++ [m.fp, m.pc + 1, ((0 : Nat) : Int)]).length : Int),
            m.stack ++ [m.fp, m.pc + 1, ((0 : Nat) : Int)] ++ List.replicate 0 0, m.cout⟩) := by
        simp only [step, hi, hpc, Int.toNat_zero, List.getElem?_cons_zero, exec, hne, if_false,
          sym_present prog "f" _ hs]
      rw [hstep]
      exact ih _ _ hi (Or.inr hs) rfl

/-! ## The locals map while an expression is lowered -/

theorem map_index_kept {α : Type} (m : List (String × α)) (k : String) (v x : α) (key : String)
    (h : map_find m key = some x) : map_find (map_index m k v).2 key = some x := by
  unfold map_index
  cases hk : map_find m k with
  | some y => simpa using h
  | none => simp [map_find_append, h]

mutual
theorem compile_expr_locals_kept : ∀ (e : expr_t) (p : program) (l : locals_t) (q : program)
    (l' : locals_t), compile_expr p l e = .ok (q, l') →
    ∀ key s, map_find l key = some s → map_find l' key = some s
  | .null, p, l, q, l', h => by simp [compile_expr] at h
  | .literal_id t, p, l, q, l', h => by
    rw [compile_expr] at h
    simp only [compile_literal, Except.ok.injEq, Prod.mk.injEq] at h
    obtain ⟨_, rfl⟩ := h
    intro key s hs
    exact map_index_kept l t.literal 0 s key hs
  | .literal_number t, p, l, q, l', h => by
    rw [compile_expr] at h
    simp only [compile_literal] at h
    cases hs : stoi t.literal with
    | error e => simp [hs] at h
    | ok num =>
      simp only [hs, Except.ok.injEq, Prod.mk.injEq] at h
      obtain ⟨_, rfl⟩ := h
      intro key s hs
      exact hs
  | .func_call name args, p, l, q, l', h => by
    rw [compile_expr] at h
    cases ha : compile_arguments p l args with
    | error e => simp [ha] at h
    | ok r =>
      obtain ⟨q1, l1⟩ := r
      simp only [ha, Except.ok.injEq, Prod.mk.injEq] at h
      obtain ⟨_, rfl⟩ := h
      exact compile_arguments_locals_kept args p l q1 l1 ha
  | .binary_op op left right, p, l, q, l', h => by
    rw [compile_expr] at h
    cases hc1 : clone left with
    | error e => simp [hc1] at h
    | ok c1 =>
      simp only [hc1] at h
      cases h1 : compile_expr p l left with
      | error e => simp [h1] at h
      | ok r1 =>
        obtain ⟨q1, l1⟩ := r1
        simp only [h1] at h
        cases hc2 : clone right with
        | error e => simp [hc2] at h
        | ok c2 =>
          simp only [hc2] at h
          cases h2 : compile_expr q1 l1 right with
          | error e => simp [h2] at h
          | ok r2 =>
            obtain ⟨q2, l2⟩ := r2
            simp only [h2] at h
            cases ho : binary_opcode op.literal with
            | error e => simp [ho] at h
            | ok inst =>
              simp only [ho, Except.ok.injEq, Prod.mk.injEq] at h
              obtain ⟨_, rfl⟩ := h
              intro key s hs
              exact compile_expr_locals_kept right q1 l1 q2 l2 h2 key s
                (compile_expr_locals_kept left p l q1 l1 h1 key s hs)
theorem compile_arguments_locals_kept : ∀ (es : List expr_t) (p : program) (l : locals_t)
    (q : program) (l' : locals_t), compile_arguments p l es = .ok (q, l') →
    ∀ key s, map_find l key = some s → map_find l' key = some s
  | [], p, l, q, l', h => by
    simp only [compile_arguments, Except.ok.injEq, Prod.mk.injEq] at h
    obtain ⟨_, rfl⟩ := h
    intro key s hs
    exact hs
  | e :: es, p, l, q, l', h => by
    rw [compile_arguments] at h
    cases hc : clone e with
    | error x => simp [hc] at h
    | ok c =>
      simp only [hc] at h
      cases h1 : compile_expr p l e with
      | error x => simp [h1] at h
      | ok r1 =>
        obtain ⟨q1, l1⟩ := r1
        simp only [h1] at h
        intro key s hs
        exact compile_arguments_locals_kept es q1 l1 q l' h key s
          (compile_expr_locals_kept e p l q1 l1 h1 key s hs)
end

theorem map_insert_found {α : Type} (m : List (String × α)) (k : String) (v : α)
    (h : map_find m k = none) : map_find (map_insert m k v) k = some v := by
  unfold map_insert
  simp [h, map_find_append]

/-! ## Reading the token vector -/

theorem drop_step {α : Type} (toks : List α) (it : Nat) (t : α) (rest : List α)
    (h : toks.drop it = t :: rest) :
    toks[it]? = some t ∧ toks.drop (it + 1) = rest ∧ it < toks.length := by
  have hlt : it < toks.length := by
    by_contra hc
    rw [List.drop_eq_nil_of_le (by omega)] at h
    cases h
  refine ⟨?_, ?_, hlt⟩
  · have := List.getElem?_drop (L := toks) (i := it) (j := 0)
    rw [h] at this
    simpa using this.symm
  · rw [← List.drop_drop, h]
    rfl

theorem drop_next {α : Type} (toks : List α) (it : Nat) (t : α) (rest : List α)
    (h : toks.drop it = t :: rest) : toks.drop (it + 1) = rest :=
  (drop_step toks it t rest h).2.1

theorem drop_lt {α : Type} (toks : List α) (it : Nat) (t : α) (rest : List α)
    (h : toks.drop it = t :: rest) : ¬ toks.length ≤ it :=
  Nat.not_le.2 (drop_step toks it t rest h).2.2

theorem drop_skip {α : Type} (toks : List α) (it : Nat) (ts post : List α)
    (h : toks.drop it = ts ++ post) : toks.drop (it + ts.length) = post := by
  rw [← List.drop_drop, h, List.drop_left]

theorem token_at_drop (toks : List token_t) (it : Nat) (t : token_t) (rest : List token_t)
    (h : toks.drop it = t :: rest) : token_at toks it = .ok t := by
  simp only [token_at, (drop_step toks it t rest h).1]

theorem token_at_end (toks : List token_t) (it : Nat) (h : toks.drop it = []) :
    token_at toks it = .error (.undefined "_tokens[it] with it >= _tokens.size()") := by
  have hle : toks.length ≤ it := by
    by_contra hc
    have := List.length_drop it toks
    rw [h] at this
    simp at this
    omega
  simp only [token_at, List.getElem?_eq_none hle]

theorem expect_syntax_drop (toks : List token_t) (it : Nat) (t : token_t)
    (rest : List token_t) (s : String) (h : toks.drop it = t :: rest) :
    expect_syntax toks it s = .ok (is_punct t s) := by
  simp only [ expect_syntax, token_at_drop toks it t rest h, is_punct]
  by_cases h1 : t.kind = token_kind.t_syntax <;> by_cases h2 : t.literal = s <;> simp [h1, h2]

theorem expect_keyword_drop (toks : List token_t) (it : Nat) (t : token_t)
    (rest : List token_t) (w : String) (h : toks.drop it = t :: rest) :
    expect_keyword toks it w = .ok (is_word t w) := by
  simp only [expect_keyword, token_at_drop toks it t rest h, is_word]
  by_cases h1 : t.kind = token_kind.t_keyword <;> by_cases h2 : t.literal = w <;> simp [h1, h2]

theorem expect_identifier_drop (toks : List token_t) (it : Nat) (t : token_t)
    (rest : List token_t) (h : toks.drop it = t :: rest) :
    expect_identifier toks it = .ok (t.kind == token_kind.t_identifier) := by
  simp only [expect_identifier, token_at_drop toks it t rest h]
  by_cases h1 : t.kind = token_kind.t_identifier <;> simp [h1]

theorem primary_not_punct (t : token_t) (s : String) (h : is_primary t = true) :
    is_punct t s = false := by
  simp only [is_primary, Bool.or_eq_true, beq_iff_eq] at h
  rcases h with h | h <;> simp [is_punct, h]

theorem primary_not_word (t : token_t) (w : String) (h : is_primary t = true) :
    is_word t w = false := by
  simp only [is_primary, Bool.or_eq_true, beq_iff_eq] at h
  rcases h with h | h <;> simp [is_word, h]

theorem punct_not_operator (t : token_t) (s : String) (h : is_punct t s = true) :
    t.kind ≠ token_kind.t_operator := by
  simp only [is_punct, Bool.and_eq_true, beq_iff_eq] at h
  rw [h.1]
  decide

theorem word_not_operator (t : token_t) (w : String) (h : is_word t w = true) :
    t.kind ≠ token_kind.t_operator := by
  simp only [is_word, Bool.and_eq_true, beq_iff_eq] at h
  rw [h.1]
  decide

theorem punct_other (t : token_t) (s s' : String) (h : is_punct t s = true) (hne : s ≠ s') :
    is_punct t s' = false := by
  simp only [is_punct, Bool.and_eq_true, beq_iff_eq] at h
  simp [is_punct, h.1, h.2, hne]

theorem word_other (t : token_t) (w w' : String) (h : is_word t w = true) (hne : w ≠ w') :
    is_word t w' = false := by
  simp only [is_word, Bool.and_eq_true, beq_iff_eq] at h
  simp [is_word, h.1, h.2, hne]

theorem word_not_punct (t : token_t) (w s : String) (h : is_word t w = true) :
    is_punct t s = false := by
  simp only [is_word, Bool.and_eq_true, beq_iff_eq] at h
  simp [is_punct, h.1]

theorem punct_not_word (t : token_t) (s w : String) (h : is_punct t s = true) :
    is_word t w = false := by
  simp only [is_punct, Bool.and_eq_true, beq_iff_eq] at h
  simp [is_word, h.1]

theorem ends_expression_punct (q : token_t) (s : String) (rest : List token_t)
    (h : is_punct q s = true) (hne : s ≠ "(") : ends_expression (q :: rest) :=
  ⟨q, rest, rfl, punct_other q s "(" h hne, punct_not_operator q s h⟩

theorem ends_expression_word (q : token_t) (w : String) (rest : List token_t)
    (h : is_word q w = true) : ends_expression (q :: rest) :=
  ⟨q, rest, rfl, word_not_punct q w "(" h, word_not_operator q w h⟩

theorem ends_expression_primary (q : token_t) (rest : List token_t)
    (h : is_primary q = true) : ends_expression (q :: rest) := by
  refine ⟨q, rest, rfl, primary_not_punct q "(" h, ?_⟩
  simp only [is_primary, Bool.or_eq_true, beq_iff_eq] at h
  rcases h with h | h <;> rw [h] <;> decide

theorem operand_of_number (t : token_t) (h : t.kind = token_kind.t_number) :
    operand_of t = .literal_number t := by
  simp only [operand_of, h]

theorem operand_of_identifier (t : token_t) (h : t.kind = token_kind.t_identifier) :
    operand_of t = .literal_id t := by
  simp only [operand_of, h]

/-! ## Expressions of the grammar are parsed -/

theorem expr_tokens_head : ∀ (e : expr_t) (ts : List token_t), expr_tokens e ts →
    ∃ t rest, ts = t :: rest ∧ is_primary t = true := by
  intro e ts h
  cases e with
  | null => simp [expr_tokens] at h
  | literal_number t =>
    simp only [expr_tokens] at h
    exact ⟨t, [], h.2, by simp [is_primary, h.1]⟩
  | literal_id t =>
    simp only [expr_tokens] at h
    exact ⟨t, [], h.2, by simp [is_primary, h.1]⟩
  | func_call name args =>
    simp only [expr_tokens] at h
    obtain ⟨hk, lp, mid, rp, _, _, _, rfl⟩ := h
    exact ⟨name, _, rfl, by simp [is_primary, hk]⟩
  | binary_op op l r =>
    simp only [expr_tokens] at h
    obtain ⟨_, lt, rt, hl, _, _, _, rfl⟩ := h
    exact ⟨lt, _, rfl, hl⟩

theorem primary_complete (t : token_t) (q : token_t) (rest : List token_t)
    (toks : List token_t) (it fuel : Nat) (hd : toks.drop it = t :: q :: rest)
    (hq1 : is_punct q "(" = false) (hq2 : q.kind ≠ token_kind.t_operator) :
    parse_expression toks (fuel + 1) it = .ok (some (operand_of t, it + 1)) := by
  have hd1 := drop_next _ _ _ _ hd
  rw [parse_expression]
  simp only [ge_iff_le, drop_lt _ _ _ _ hd, drop_lt _ _ _ _ hd1, if_false,
    token_at_drop _ _ _ _ hd, token_at_drop _ _ _ _ hd1, expect_syntax_drop _ _ _ _ _ hd1, hq1,
    bind, Except.bind, pure, Except.pure, Bool.false_eq_true]
  simp [hq2]

theorem binary_complete (lt op rt : token_t) (post : List token_t)
    (toks : List token_t) (it fuel : Nat) (hd : toks.drop it = lt :: op :: rt :: post)
    (hop : op.kind = token_kind.t_operator) (hr : is_primary rt = true) :
    parse_expression toks (fuel + 1) it
      = .ok (some (.binary_op op (operand_of lt) (operand_of rt), it + 3)) := by
  have hd1 := drop_next _ _ _ _ hd
  have hd2 := drop_next _ _ _ _ hd1
  have hp : is_punct op "(" = false := by simp [is_punct, hop]
  rw [parse_expression]
  simp only [ge_iff_le, drop_lt _ _ _ _ hd, drop_lt _ _ _ _ hd1, drop_lt _ _ _ _ hd2, if_false,
    token_at_drop _ _ _ _ hd, token_at_drop _ _ _ _ hd1, token_at_drop _ _ _ _ hd2,
    expect_syntax_drop _ _ _ _ _ hd1, hp, bind, Except.bind, pure, Except.pure,
    Bool.false_eq_true, hop]
  simp only [is_primary, Bool.or_eq_true, beq_iff_eq] at hr
  rcases hr with hr | hr
  · simp [hr, operand_of_number rt hr]
  · simp [hr, operand_of_identifier rt hr]

mutual
theorem parse_expression_complete : ∀ (e : expr_t) (ts : List token_t), expr_tokens e ts →
    ∀ (toks : List token_t) (it : Nat) (post : List token_t) (fuel : Nat),
    toks.drop it = ts ++ post → (ts.length = 1 → ends_expression post) → ts.length ≤ fuel →
    parse_expression toks fuel it = .ok (some (e, it + ts.length))
  | .null, ts, h, _, _, _, _, _, _, _ => by simp [expr_tokens] at h
  | .literal_number t, ts, h, toks, it, post, fuel, hd, hf, hfuel => by
    simp only [expr_tokens] at h
    obtain ⟨hk, rfl⟩ := h
    obtain ⟨q, rest, rfl, hq1, hq2⟩ := hf rfl
    obtain ⟨fuel, rfl⟩ : ∃ k, fuel = k + 1 := ⟨fuel - 1, by simp at hfuel; omega⟩
    rw [primary_complete t q rest toks it fuel hd hq1 hq2, operand_of_number t hk]
    rfl
  | .literal_id t, ts, h, toks, it, post, fuel, hd, hf, hfuel => by
    simp only [expr_tokens] at h
    obtain ⟨hk, rfl⟩ := h
    obtain ⟨q, rest, rfl, hq1, hq2⟩ := hf rfl
    obtain ⟨fuel, rfl⟩ : ∃ k, fuel = k + 1 := ⟨fuel - 1, by simp at hfuel; omega⟩
    rw [primary_complete t q rest toks it fuel hd hq1 hq2, operand_of_identifier t hk]
    rfl
  | .binary_op op left right, ts, h, toks, it, post, fuel, hd, hf, hfuel => by
    simp only [expr_tokens] at h
    obtain ⟨hop, lt, rt, _, hr, rfl, rfl, rfl⟩ := h
    obtain ⟨fuel, rfl⟩ : ∃ k, fuel = k + 1 := ⟨fuel - 1, by simp at hfuel; omega⟩
    exact binary_complete lt op rt post toks it fuel hd hop hr
  | .func_call name args, ts, h, toks, it, post, fuel, hd, hf, hfuel => by
    simp only [expr_tokens] at h
    obtain ⟨hk, lp, mid, rp, hlp, hrp, hargs, rfl⟩ := h
    obtain ⟨fuel, rfl⟩ : ∃ k, fuel = k + 1 := ⟨fuel - 1, by simp at hfuel; omega⟩
    have hd0 : toks.drop it = name :: lp :: (mid ++ rp :: post) := by simpa using hd
    have hd1 := drop_next _ _ _ _ hd0
    have hd2 := drop_next _ _ _ _ hd1
    have hargs' := parse_call_arguments_complete args mid hargs toks (it + 1 + 1) rp post []
      fuel hd2 hrp (by simp at hfuel; omega)
    rw [parse_expression]
    simp only [ge_iff_le, drop_lt _ _ _ _ hd0, if_false, token_at_drop _ _ _ _ hd0,
      expect_syntax_drop _ _ _ _ _ hd1, hlp, bind, Except.bind, pure, Except.pure, if_true,
      hargs', List.nil_append]
    simp
    omega
theorem parse_call_arguments_complete : ∀ (args : List expr_t) (mid : List token_t),
    arglist_tokens args mid →
    ∀ (toks : List token_t) (it : Nat) (rp : token_t) (post : List token_t)
      (acc : List expr_t) (fuel : Nat),
    toks.drop it = mid ++ rp :: post → is_punct rp ")" = true → mid.length + 1 ≤ fuel →
    parse_call_arguments toks fuel it acc = .ok (some (acc ++ args, it + mid.length))
  | [], mid, h, toks, it, rp, post, acc, fuel, hd, hrp, hfuel => by
    simp only [arglist_tokens] at h
    subst h
    obtain ⟨fuel, rfl⟩ : ∃ k, fuel = k + 1 := ⟨fuel - 1, by omega⟩
    rw [parse_call_arguments]
    simp only [List.nil_append] at hd
    simp only [expect_syntax_drop _ _ _ _ _ hd, hrp, bind, Except.bind, pure, Except.pure,
      if_true, List.append_nil, List.length_nil, Nat.add_zero]
  | e :: more, mid, h, toks, it, rp, post, acc, fuel, hd, hrp, hfuel => by
    simp only [arglist_tokens] at h
    obtain ⟨ts1, he, hrest⟩ := h
    obtain ⟨fuel, rfl⟩ : ∃ k, fuel = k + 1 := ⟨fuel - 1, by omega⟩
    obtain ⟨t, r1, rfl, ht⟩ := expr_tokens_head e ts1 he
    rcases hrest with ⟨rfl, rfl⟩ | ⟨hne, c, ts2, hc, hmore, rfl⟩
    · have hd0 : toks.drop it = t :: (r1 ++ rp :: post) := by simpa using hd
      have hpe := parse_expression_complete e (t :: r1) he toks it (rp :: post) fuel hd
        (fun _ => ends_expression_punct rp ")" post hrp (by decide))
        (by simp at hfuel ⊢; omega)
      have hd1 := drop_skip _ _ _ _ hd
      have hnil := parse_call_arguments_complete [] [] (by simp [arglist_tokens]) toks
        (it + (t :: r1).length) rp post (acc ++ [e]) fuel (by simpa using hd1) hrp
        (by simp at hfuel ⊢; omega)
      rw [parse_call_arguments]
      simp only [expect_syntax_drop _ _ _ _ _ hd0, primary_not_punct t ")" ht, bind,
        Except.bind, pure, Except.pure, Bool.false_eq_true, if_false, hpe,
        expect_syntax_drop _ _ _ _ _ hd1, punct_other rp ")" "," hrp (by decide), hnil]
      simp
    · have hd' : toks.drop it = (t :: r1) ++ (c :: (ts2 ++ rp :: post)) := by simpa using hd
      have hd0 : toks.drop it = t :: (r1 ++ c :: (ts2 ++ rp :: post)) := by simpa using hd
      have hpe := parse_expression_complete e (t :: r1) he toks it _ fuel hd'
        (fun _ => ends_expression_punct c "," _ hc (by decide))
        (by simp at hfuel ⊢; omega)
      have hd1 := drop_skip _ _ _ _ hd'
      have hd2 := drop_next _ _ _ _ hd1
      have hrec := parse_call_arguments_complete more ts2 hmore toks
        (it + (t :: r1).length + 1) rp post (acc ++ [e]) fuel hd2 hrp
        (by simp at hfuel ⊢; omega)
      rw [parse_call_arguments]
      simp only [expect_syntax_drop _ _ _ _ _ hd0, primary_not_punct t ")" ht, bind,
        Except.bind, pure, Except.pure, Bool.false_eq_true, if_false, hpe,
        expect_syntax_drop _ _ _ _ _ hd1, hc, if_true, hrec]
      simp
      omega
end

/-! ## Statements of the grammar are parsed -/

theorem parse_params_tail : ∀ (ps : List token_t) (ts2 : List token_t), params_tokens ps ts2 →
    ∀ (toks : List token_t) (it : Nat) (c rp : token_t) (post : List token_t)
      (acc : List token_t) (fuel : Nat),
    toks.drop it = c :: (ts2 ++ rp :: post) → is_punct c "," = true → is_punct rp ")" = true →
    acc ≠ [] → ts2.length + 1 ≤ fuel →
    parse_params toks fuel it acc = .ok (some (acc ++ ps, it + 1 + ts2.length))
  | [], _, h, _, _, _, _, _, _, _, _, _, _, _, _ => by simp [params_tokens] at h
  | [p], ts2, h, toks, it, c, rp, post, acc, fuel, hd, hc, hrp, hacc, hfuel => by
    simp only [params_tokens] at h
    obtain ⟨hk, rfl⟩ := h
    obtain ⟨fuel, rfl⟩ : ∃ k, fuel = k + 2 := ⟨fuel - 2, by simp at hfuel; omega⟩
    have hd0 : toks.drop it = c :: p :: rp :: post := by simpa using hd
    have hd1 := drop_next _ _ _ _ hd0
    have hd2 := drop_next _ _ _ _ hd1
    have he : acc.isEmpty = false := by
      cases acc with
      | nil => exact absurd rfl hacc
      | cons a l => rfl
    rw [parse_params]
    simp only [expect_syntax_drop _ _ _ _ _ hd0, punct_other c "," ")" hc (by decide), bind,
      Except.bind, pure, Except.pure, Bool.false_eq_true, if_false, he, Bool.not_false, if_true,
      hc, Bool.not_true, token_at_drop _ _ _ _ hd1]
    rw [parse_params]
    simp only [expect_syntax_drop _ _ _ _ _ hd2, hrp, bind, Except.bind, pure, Except.pure,
      if_true, List.length_singleton]
  | p :: q :: more, ts2, h, toks, it, c, rp, post, acc, fuel, hd, hc, hrp, hacc, hfuel => by
    simp only [params_tokens] at h
    obtain ⟨hk, c', ts3, hc', hrest, rfl⟩ := h
    obtain ⟨fuel, rfl⟩ : ∃ k, fuel = k + 1 := ⟨fuel - 1, by omega⟩
    have hd0 : toks.drop it = c :: p :: c' :: (ts3 ++ rp :: post) := by simpa using hd
    have hd1 := drop_next _ _ _ _ hd0
    have hd2 := drop_next _ _ _ _ hd1
    have he : acc.isEmpty = false := by
      cases acc with
      | nil => exact absurd rfl hacc
      | cons a l => rfl
    have hrec := parse_params_tail (q :: more) ts3 hrest toks (it + 2) c' rp post (acc ++ [p])
      fuel hd2 hc' hrp (by simp) (by simp at hfuel; omega)
    rw [parse_params]
    simp only [expect_syntax_drop _ _ _ _ _ hd0, punct_other c "," ")" hc (by decide), bind,
      Except.bind, pure, Except.pure, Bool.false_eq_true, if_false, he, Bool.not_false, if_true,
      hc, Bool.not_true, token_at_drop _ _ _ _ hd1, hrec]
    simp
    omega

theorem identifier_not_punct (t : token_t) (s : String)
    (h : t.kind = token_kind.t_identifier) : is_punct t s = false := by
  simp [is_punct, h]

theorem parse_params_complete (ps : List token_t) (pts : List token_t)
    (h : params_tokens ps pts) (toks : List token_t) (it : Nat) (rp : token_t)
    (post : List token_t) (fuel : Nat)
    (hd : toks.drop it = pts ++ rp :: post) (hrp : is_punct rp ")" = true)
    (hfuel : pts.length + 1 ≤ fuel) :
    parse_params toks fuel it [] = .ok (some (ps, it + pts.length)) := by
  match ps, h with
  | [], h => simp [params_tokens] at h
  | [p], h =>
    simp only [params_tokens] at h
    obtain ⟨hk, rfl⟩ := h
    obtain ⟨fuel, rfl⟩ : ∃ k, fuel = k + 2 := ⟨fuel - 2, by simp at hfuel; omega⟩
    have hd0 : toks.drop it = p :: rp :: post := by simpa using hd
    have hd1 := drop_next _ _ _ _ hd0
    rw [parse_params]
    simp only [expect_syntax_drop _ _ _ _ _ hd0, identifier_not_punct p ")" hk, bind,
      Except.bind, pure, Except.pure, Bool.false_eq_true, if_false, List.isEmpty_nil,
      Bool.not_true, token_at_drop _ _ _ _ hd0, List.nil_append]
    rw [parse_params]
    simp only [expect_syntax_drop _ _ _ _ _ hd1, hrp, bind, Except.bind, pure, Except.pure,
      if_true, List.length_singleton]
  | p :: q :: more, h =>
    simp only [params_tokens] at h
    obtain ⟨hk, c, ts2, hc, hrest, rfl⟩ := h
    obtain ⟨fuel, rfl⟩ : ∃ k, fuel = k + 1 := ⟨fuel - 1, by omega⟩
    have hd0 : toks.drop it = p :: c :: (ts2 ++ rp :: post) := by simpa using hd
    have hd1 := drop_next _ _ _ _ hd0
    have hrec := parse_params_tail (q :: more) ts2 hrest toks (it + 1) c rp post [p] fuel hd1 hc
      hrp (by simp) (by simp at hfuel; omega)
    rw [parse_params]
    simp only [expect_syntax_drop _ _ _ _ _ hd0, identifier_not_punct p ")" hk, bind,
      Except.bind, pure, Except.pure, Bool.false_eq_true, if_false, List.isEmpty_nil,
      Bool.not_true, token_at_drop _ _ _ _ hd0, List.nil_append, hrec]
    simp
    omega

theorem parse_if_skip (toks : List token_t) (it fuel : Nat) (t : token_t)
    (rest : List token_t) (hd : toks.drop it = t :: rest) (h : is_word t "if" = false) :
    parse_if toks (fuel + 1) it = .ok none := by
  rw [parse_if]
  simp only [expect_keyword_drop _ _ _ _ _ hd, h, bind, Except.bind, pure, Except.pure,
    Bool.not_false, if_true]

theorem parse_return_skip (toks : List token_t) (it fuel : Nat) (t : token_t)
    (rest : List token_t) (hd : toks.drop it = t :: rest) (h : is_word t "return" = false) :
    parse_return toks fuel it = .ok none := by
  simp only [parse_return, expect_keyword_drop _ _ _ _ _ hd, h, bind, Except.bind, pure,
    Except.pure, Bool.not_false, if_true]

theorem parse_function_skip (toks : List token_t) (it fuel : Nat) (t : token_t)
    (rest : List token_t) (hd : toks.drop it = t :: rest) (h : is_word t "function" = false) :
    parse_function toks (fuel + 1) it = .ok none := by
  rw [parse_function]
  simp only [expect_keyword_drop _ _ _ _ _ hd, h, bind, Except.bind, pure, Except.pure,
    Bool.not_false, if_true]

theorem parse_local_skip (toks : List token_t) (it fuel : Nat) (t : token_t)
    (rest : List token_t) (hd : toks.drop it = t :: rest) (h : is_word t "local" = false) :
    parse_local toks fuel it = .ok none := by
  simp only [parse_local, expect_keyword_drop _ _ _ _ _ hd, h, bind, Except.bind, pure,
    Except.pure, Bool.not_false, if_true]

/-- A keyword followed by an identifier is no expression statement. -/
theorem parse_expression_statement_skip (toks : List token_t) (it fuel : Nat)
    (t n : token_t) (rest : List token_t) (hd : toks.drop it = t :: n :: rest)
    (hn : n.kind = token_kind.t_identifier) :
    parse_expression_statement toks (fuel + 1) it = .ok none := by
  have hq2 : n.kind ≠ token_kind.t_operator := by rw [hn]; decide
  have hpe := primary_complete t n rest toks it fuel hd (identifier_not_punct n "(" hn) hq2
  have hd1 := drop_next _ _ _ _ hd
  simp only [parse_expression_statement, hpe, bind, Except.bind, pure, Except.pure,
    expect_syntax_drop _ _ _ _ _ hd1, identifier_not_punct n ";" hn, Bool.not_false, if_true]

theorem parse_expression_statement_complete (e : expr_t) (ets : List token_t)
    (he : expr_tokens e ets) (semi : token_t) (hsemi : is_punct semi ";" = true)
    (toks : List token_t) (it : Nat) (post : List token_t) (fuel : Nat)
    (hd : toks.drop it = ets ++ semi :: post) (hfuel : ets.length ≤ fuel) :
    parse_expression_statement toks fuel it = .ok (some (.expr_stmt e, it + ets.length + 1)) := by
  have hpe := parse_expression_complete e ets he toks it (semi :: post) fuel hd
    (fun _ => ends_expression_punct semi ";" post hsemi (by decide)) hfuel
  have hd1 := drop_skip _ _ _ _ hd
  simp only [parse_expression_statement, hpe, bind, Except.bind, pure, Except.pure,
    expect_syntax_drop _ _ _ _ _ hd1, hsemi, Bool.not_true, Bool.false_eq_true, if_false]

theorem parse_return_complete (e : expr_t) (ets : List token_t)
    (he : expr_tokens e ets) (kret semi : token_t) (hret : is_word kret "return" = true)
    (hsemi : is_punct semi ";" = true)
    (toks : List token_t) (it : Nat) (post : List token_t) (fuel : Nat)
    (hd : toks.drop it = kret :: (ets ++ semi :: post)) (hfuel : ets.length ≤ fuel) :
    parse_return toks fuel it = .ok (some (.ret_stmt e, it + 1 + ets.length + 1)) := by
  have hd1 := drop_next _ _ _ _ hd
  have hpe := parse_expression_complete e ets he toks (it + 1) (semi :: post) fuel hd1
    (fun _ => ends_expression_punct semi ";" post hsemi (by decide)) hfuel
  have hd2 := drop_skip _ _ _ _ hd1
  simp only [parse_return, expect_keyword_drop _ _ _ _ _ hd, hret, hpe, bind, Except.bind, pure,
    Except.pure, expect_syntax_drop _ _ _ _ _ hd2, hsemi, Bool.not_true, Bool.false_eq_true,
    if_false]

theorem parse_local_complete (e : expr_t) (ets : List token_t)
    (he : expr_tokens e ets) (klocal name eq semi : token_t)
    (hlocal : is_word klocal "local" = true) (hname : name.kind = token_kind.t_identifier)
    (heq : is_punct eq "=" = true) (hsemi : is_punct semi ";" = true)
    (toks : List token_t) (it : Nat) (post : List token_t) (fuel : Nat)
    (hd : toks.drop it = klocal :: name :: eq :: (ets ++ semi :: post))
    (hfuel : ets.length ≤ fuel) :
    parse_local toks fuel it
      = .ok (some (.local_stmt name e, it + 1 + 1 + 1 + ets.length + 1)) := by
  have hd1 := drop_next _ _ _ _ hd
  have hd2 := drop_next _ _ _ _ hd1
  have hd3 := drop_next _ _ _ _ hd2
  have hpe := parse_expression_complete e ets he toks (it + 1 + 1 + 1) (semi :: post) fuel hd3
    (fun _ => ends_expression_punct semi ";" post hsemi (by decide)) hfuel
  have hd4 := drop_skip _ _ _ _ hd3
  simp only [parse_local, expect_keyword_drop _ _ _ _ _ hd, hlocal,
    expect_identifier_drop _ _ _ _ hd1, hname, token_at_drop _ _ _ _ hd1,
    expect_syntax_drop _ _ _ _ _ hd2, heq, hpe, bind, Except.bind, pure,
    Except.pure, expect_syntax_drop _ _ _ _ _ hd4, hsemi, Bool.not_true, Bool.false_eq_true,
    if_false, beq_self_eq_true]

theorem parse_function_assemble (toks : List token_t) (it fuel : Nat)
    (kfun name lp : token_t) (rest : List token_t) (params : List token_t) (i1 : Nat)
    (body : List stmt_t) (i2 : Nat)
    (hd : toks.drop it = kfun :: name :: lp :: rest)
    (hfun : is_word kfun "function" = true) (hname : name.kind = token_kind.t_identifier)
    (hlp : is_punct lp "(" = true)
    (hp : parse_params toks fuel (it + 1 + 1 + 1) [] = .ok (some (params, i1)))
    (hb : parse_block toks fuel false (i1 + 1) [] = .ok (some (body, i2))) :
    parse_function toks (fuel + 1) it = .ok (some (.func_decl name params body, i2 + 1)) := by
  have hd1 := drop_next _ _ _ _ hd
  have hd2 := drop_next _ _ _ _ hd1
  rw [parse_function]
  simp only [expect_keyword_drop _ _ _ _ _ hd, hfun, expect_identifier_drop _ _ _ _ hd1, hname,
    token_at_drop _ _ _ _ hd1, expect_syntax_drop _ _ _ _ _ hd2, hlp, hp, hb, bind,
    Except.bind, pure, Except.pure, Bool.not_true, Bool.false_eq_true, if_false,
    beq_self_eq_true]

theorem parse_if_assemble_plain (toks : List token_t) (it fuel : Nat)
    (kif kthen kend : token_t) (r0 r1 r2 : List token_t) (cond : expr_t) (i1 : Nat)
    (then_body : List stmt_t) (i2 : Nat)
    (hd : toks.drop it = kif :: r0) (hif : is_word kif "if" = true)
    (hc : parse_expression toks fuel (it + 1) = .ok (some (cond, i1)))
    (hd1 : toks.drop i1 = kthen :: r1) (hthen : is_word kthen "then" = true)
    (hb : parse_block toks fuel true (i1 + 1) [] = .ok (some (then_body, i2)))
    (hd2 : toks.drop i2 = kend :: r2) (hend : is_word kend "end" = true) :
    parse_if toks (fuel + 1) it = .ok (some (.if_stmt cond then_body [], i2 + 1)) := by
  rw [parse_if]
  simp only [expect_keyword_drop _ _ _ _ _ hd, hif, hc, expect_keyword_drop _ _ _ _ _ hd1,
    hthen, hb, expect_keyword_drop _ _ _ _ _ hd2, word_other kend "end" "else" hend (by decide),
    bind, Except.bind, pure, Except.pure, Bool.not_true, Bool.false_eq_true, if_false]

theorem parse_if_assemble_else (toks : List token_t) (it fuel : Nat)
    (kif kthen kelse : token_t) (r0 r1 r2 : List token_t) (cond : expr_t) (i1 : Nat)
    (then_body : List stmt_t) (i2 : Nat) (else_body : List stmt_t) (i3 : Nat)
    (hd : toks.drop it = kif :: r0) (hif : is_word kif "if" = true)
    (hc : parse_expression toks fuel (it + 1) = .ok (some (cond, i1)))
    (hd1 : toks.drop i1 = kthen :: r1) (hthen : is_word kthen "then" = true)
    (hb : parse_block toks fuel true (i1 + 1) [] = .ok (some (then_body, i2)))
    (hd2 : toks.drop i2 = kelse :: r2) (helse : is_word kelse "else" = true)
    (hb2 : parse_block toks fuel false (i2 + 1) [] = .ok (some (else_body, i3))) :
    parse_if toks (fuel + 1) it = .ok (some (.if_stmt cond then_body else_body, i3 + 1)) := by
  rw [parse_if]
  simp only [expect_keyword_drop _ _ _ _ _ hd, hif, hc, expect_keyword_drop _ _ _ _ _ hd1,
    hthen, hb, expect_keyword_drop _ _ _ _ _ hd2, helse, hb2,
    bind, Except.bind, pure, Except.pure, Bool.not_true, Bool.false_eq_true, if_false, if_true]

theorem parse_statement_if (toks : List token_t) (it fuel : Nat) (r : stmt_t × Nat)
    (h : parse_if toks fuel it = .ok (some r)) :
    parse_statement toks (fuel + 1) it = .ok (some r) := by
  rw [parse_statement]
  simp only [h, bind, Except.bind, pure, Except.pure]

theorem parse_statement_return (toks : List token_t) (it fuel : Nat) (r : stmt_t × Nat)
    (h1 : parse_if toks fuel it = .ok none) (h : parse_return toks fuel it = .ok (some r)) :
    parse_statement toks (fuel + 1) it = .ok (some r) := by
  rw [parse_statement]
  simp only [h1, h, bind, Except.bind, pure, Except.pure]

theorem parse_statement_expression (toks : List token_t) (it fuel : Nat) (r : stmt_t × Nat)
    (h1 : parse_if toks fuel it = .ok none) (h2 : parse_return toks fuel it = .ok none)
    (h : parse_expression_statement toks fuel it = .ok (some r)) :
    parse_statement toks (fuel + 1) it = .ok (some r) := by
  rw [parse_statement]
  simp only [h1, h2, h, bind, Except.bind, pure, Except.pure]

theorem parse_statement_function (toks : List token_t) (it fuel : Nat) (r : stmt_t × Nat)
    (h1 : parse_if toks fuel it = .ok none) (h2 : parse_return toks fuel it = .ok none)
    (h3 : parse_expression_statement toks fuel it = .ok none)
    (h : parse_function toks fuel it = .ok (some r)) :
    parse_statement toks (fuel + 1) it = .ok (some r) := by
  rw [parse_statement]
  simp only [h1, h2, h3, h, bind, Except.bind, pure, Except.pure]

theorem parse_statement_local (toks : List token_t) (it fuel : Nat) (r : Option (stmt_t × Nat))
    (h1 : parse_if toks fuel it = .ok none) (h2 : parse_return toks fuel it = .ok none)
    (h3 : parse_expression_statement toks fuel it = .ok none)
    (h4 : parse_function toks fuel it = .ok none)
    (h : parse_local toks fuel it = .ok r) :
    parse_statement toks (fuel + 1) it = .ok r := by
  rw [parse_statement]
  simp only [h1, h2, h3, h4, h, bind, Except.bind, pure, Except.pure]

theorem stmt_tokens_head : ∀ (s : stmt_t) (ts : List token_t), stmt_tokens s ts →
    ∃ t rest, ts = t :: rest ∧ is_word t "end" = false ∧ is_word t "else" = false := by
  intro s ts h
  cases s with
  | if_stmt c th el =>
    simp only [stmt_tokens] at h
    obtain ⟨kif, cts, kthen, tts, kend, hif, _, _, _, _, h⟩ := h
    rcases h with ⟨_, rfl⟩ | ⟨kelse, ets, _, _, rfl⟩
    · exact ⟨kif, _, rfl, word_other kif "if" _ hif (by decide),
        word_other kif "if" _ hif (by decide)⟩
    · exact ⟨kif, _, rfl, word_other kif "if" _ hif (by decide),
        word_other kif "if" _ hif (by decide)⟩
  | ret_stmt e =>
    simp only [stmt_tokens] at h
    obtain ⟨kret, ets, semi, hret, _, _, rfl⟩ := h
    exact ⟨kret, _, rfl, word_other kret "return" _ hret (by decide),
      word_other kret "return" _ hret (by decide)⟩
  | expr_stmt e =>
    simp only [stmt_tokens] at h
    obtain ⟨ets, semi, he, _, rfl⟩ := h
    obtain ⟨t, r, rfl, ht⟩ := expr_tokens_head e ets he
    exact ⟨t, _, rfl, primary_not_word t _ ht, primary_not_word t _ ht⟩
  | func_decl name params body =>
    simp only [stmt_tokens] at h
    obtain ⟨kfun, lp, pts, rp, bts, kend, hfun, _, _, _, _, _, _, rfl⟩ := h
    exact ⟨kfun, _, rfl, word_other kfun "function" _ hfun (by decide),
      word_other kfun "function" _ hfun (by decide)⟩
  | local_stmt name e =>
    simp only [stmt_tokens] at h
    obtain ⟨klocal, eq, ets, semi, hlocal, _, _, _, _, rfl⟩ := h
    exact ⟨klocal, _, rfl, word_other klocal "local" _ hlocal (by decide),
      word_other klocal "local" _ hlocal (by decide)⟩

mutual
theorem parse_statement_complete : ∀ (s : stmt_t) (ts : List token_t), stmt_tokens s ts →
    ∀ (toks : List token_t) (it : Nat) (post : List token_t) (fuel : Nat),
    toks.drop it = ts ++ post → ts.length ≤ fuel →
    parse_statement toks fuel it = .ok (some (s, it + ts.length))
  | .expr_stmt e, ts, h, toks, it, post, fuel, hd, hfuel => by
    simp only [stmt_tokens] at h
    obtain ⟨ets, semi, he, hsemi, rfl⟩ := h
    obtain ⟨t, r, rfl, ht⟩ := expr_tokens_head e ets he
    obtain ⟨fuel, rfl⟩ : ∃ k, fuel = k + 2 := ⟨fuel - 2, by simp at hfuel; omega⟩
    have hd0 : toks.drop it = t :: (r ++ semi :: post) := by simpa using hd
    have hd' : toks.drop it = (t :: r) ++ semi :: post := by simpa using hd
    have h1 := parse_if_skip toks it fuel t _ hd0 (primary_not_word t _ ht)
    have h2 := parse_return_skip toks it (fuel + 1) t _ hd0 (primary_not_word t _ ht)
    have h3 := parse_expression_statement_complete e (t :: r) he semi hsemi toks it post
      (fuel + 1) hd' (by simp at hfuel ⊢; omega)
    rw [parse_statement_expression toks it (fuel + 1) _ h1 h2 h3]
    simp
    omega
  | .ret_stmt e, ts, h, toks, it, post, fuel, hd, hfuel => by
    simp only [stmt_tokens] at h
    obtain ⟨kret, ets, semi, hret, he, hsemi, rfl⟩ := h
    obtain ⟨t, r, rfl, ht⟩ := expr_tokens_head e ets he
    obtain ⟨fuel, rfl⟩ : ∃ k, fuel = k + 2 := ⟨fuel - 2, by simp at hfuel; omega⟩
    have hd0 : toks.drop it = kret :: ((t :: r) ++ semi :: post) := by simpa using hd
    have h1 := parse_if_skip toks it fuel kret _ hd0 (word_other kret "return" _ hret (by decide))
    have h2 := parse_return_complete e (t :: r) he kret semi hret hsemi toks it post
      (fuel + 1) hd0 (by simp at hfuel ⊢; omega)
    rw [parse_statement_return toks it (fuel + 1) _ h1 h2]
    simp
    omega
  | .local_stmt name e, ts, h, toks, it, post, fuel, hd, hfuel => by
    simp only [stmt_tokens] at h
    obtain ⟨klocal, eq, ets, semi, hlocal, hname, heq, he, hsemi, rfl⟩ := h
    obtain ⟨fuel, rfl⟩ : ∃ k, fuel = k + 2 := ⟨fuel - 2, by simp at hfuel; omega⟩
    have hd0 : toks.drop it = klocal :: name :: eq :: (ets ++ semi :: post) := by
      simpa using hd
    have h1 := parse_if_skip toks it fuel klocal _ hd0
      (word_other klocal "local" _ hlocal (by decide))
    have h2 := parse_return_skip toks it (fuel + 1) klocal _ hd0
      (word_other klocal "local" _ hlocal (by decide))
    have h3 := parse_expression_statement_skip toks it fuel klocal name _ hd0 hname
    have h4 := parse_function_skip toks it fuel klocal _ hd0
      (word_other klocal "local" _ hlocal (by decide))
    have h5 := parse_local_complete e ets he klocal name eq semi hlocal hname heq hsemi toks it
      post (fuel + 1) hd0 (by simp at hfuel ⊢; omega)
    rw [parse_statement_local toks it (fuel + 1) _ h1 h2 h3 h4 h5]
    simp
    omega
  | .func_decl name params body, ts, h, toks, it, post, fuel, hd, hfuel => by
    simp only [stmt_tokens] at h
    obtain ⟨kfun, lp, pts, rp, bts, kend, hfun, hname, hlp, hps, hrp, hbody, hend, rfl⟩ := h
    obtain ⟨fuel, rfl⟩ : ∃ k, fuel = k + 2 := ⟨fuel - 2, by simp at hfuel; omega⟩
    have hd0 : toks.drop it = kfun :: name :: lp :: (pts ++ rp :: (bts ++ kend :: post)) := by
      simpa using hd
    have h1 := parse_if_skip toks it fuel kfun _ hd0
      (word_other kfun "function" _ hfun (by decide))
    have h2 := parse_return_skip toks it (fuel + 1) kfun _ hd0
      (word_other kfun "function" _ hfun (by decide))
    have h3 := parse_expression_statement_skip toks it fuel kfun name _ hd0 hname
    have hd3 := drop_next _ _ _ _ (drop_next _ _ _ _ (drop_next _ _ _ _ hd0))
    have hp := parse_params_complete params pts hps toks (it + 1 + 1 + 1) rp _ fuel hd3 hrp
      (by simp at hfuel; omega)
    have hd4 := drop_next _ _ _ _ (drop_skip _ _ _ _ hd3)
    have hb := parse_block_complete body bts hbody toks (it + 1 + 1 + 1 + pts.length + 1) kend
      post [] fuel false hd4 (Or.inl hend) (by simp at hfuel; omega)
    have h4 := parse_function_assemble toks it fuel kfun name lp _ params _ (body) _ hd0 hfun
      hname hlp hp hb
    rw [parse_statement_function toks it (fuel + 1) _ h1 h2 h3 h4]
    simp
    omega
  | .if_stmt cond then_body else_body, ts, h, toks, it, post, fuel, hd, hfuel => by
    simp only [stmt_tokens] at h
    obtain ⟨kif, cts, kthen, tts, kend, hif, hc, hthen, htb, hend, h⟩ := h
    rcases h with ⟨rfl, rfl⟩ | ⟨kelse, ets, helse, heb, rfl⟩
    · obtain ⟨fuel, rfl⟩ : ∃ k, fuel = k + 2 := ⟨fuel - 2, by simp at hfuel; omega⟩
      have hd0 : toks.drop it = kif :: (cts ++ kthen :: (tts ++ kend :: post)) := by
        simpa using hd
      have hd1 := drop_next _ _ _ _ hd0
      have hce := parse_expression_complete cond cts hc toks (it + 1) _ fuel hd1
        (fun _ => ends_expression_word kthen "then" _ hthen) (by simp at hfuel; omega)
      have hd2 := drop_skip _ _ _ _ hd1
      have hd3 := drop_next _ _ _ _ hd2
      have hb := parse_block_complete then_body tts htb toks (it + 1 + cts.length + 1) kend
        post [] fuel true hd3 (Or.inl hend) (by simp at hfuel; omega)
      have hd4 := drop_skip _ _ _ _ hd3
      have h1 := parse_if_assemble_plain toks it fuel kif kthen kend _ _ _ cond _ then_body _
        hd0 hif hce hd2 hthen hb hd4 hend
      rw [parse_statement_if toks it (fuel + 1) _ h1]
      simp
      omega
    · obtain ⟨fuel, rfl⟩ : ∃ k, fuel = k + 2 := ⟨fuel - 2, by simp at hfuel; omega⟩
      have hd0 : toks.drop it
          = kif :: (cts ++ kthen :: (tts ++ kelse :: (ets ++ kend :: post))) := by
        simpa using hd
      have hd1 := drop_next _ _ _ _ hd0
      have hce := parse_expression_complete cond cts hc toks (it + 1) _ fuel hd1
        (fun _ => ends_expression_word kthen "then" _ hthen) (by simp at hfuel; omega)
      have hd2 := drop_skip _ _ _ _ hd1
      have hd3 := drop_next _ _ _ _ hd2
      have hb := parse_block_complete then_body tts htb toks (it + 1 + cts.length + 1) kelse
        _ [] fuel true hd3 (Or.inr ⟨rfl, helse⟩) (by simp at hfuel; omega)
      have hd4 := drop_skip _ _ _ _ hd3
      have hd5 := drop_next _ _ _ _ hd4
      have hb2 := parse_block_complete else_body ets heb toks
        (it + 1 + cts.length + 1 + tts.length + 1) kend post [] fuel false hd5 (Or.inl hend)
        (by simp at hfuel; omega)
      have h1 := parse_if_assemble_else toks it fuel kif kthen kelse _ _ _ cond _ then_body _
        else_body _ hd0 hif hce hd2 hthen hb hd4 helse hb2
      rw [parse_statement_if toks it (fuel + 1) _ h1]
      simp
      omega
theorem parse_block_complete : ∀ (stmts : List stmt_t) (bts : List token_t),
    block_tokens stmts bts →
    ∀ (toks : List token_t) (it : Nat) (ender : token_t) (post : List token_t)
      (acc : List stmt_t) (fuel : Nat) (stop_at_else : Bool),
    toks.drop it = bts ++ ender :: post →
    (is_word ender "end" = true ∨ (stop_at_else = true ∧ is_word ender "else" = true)) →
    bts.length + 1 ≤ fuel →
    parse_block toks fuel stop_at_else it acc = .ok (some (acc ++ stmts, it + bts.length))
  | [], bts, h, toks, it, ender, post, acc, fuel, stop_at_else, hd, hender, hfuel => by
    simp only [block_tokens] at h
    subst h
    obtain ⟨fuel, rfl⟩ : ∃ k, fuel = k + 1 := ⟨fuel - 1, by omega⟩
    simp only [List.nil_append] at hd
    rw [parse_block]
    rcases hender with he | ⟨rfl, he⟩
    · simp only [expect_keyword_drop _ _ _ _ _ hd, he, bind, Except.bind, pure, Except.pure,
        if_true, List.append_nil, List.length_nil, Nat.add_zero]
    · simp only [expect_keyword_drop _ _ _ _ _ hd, he,
        word_other ender "else" "end" he (by decide), bind, Except.bind, pure, Except.pure,
        if_true, Bool.false_eq_true, if_false, Bool.and_self, List.append_nil, List.length_nil,
        Nat.add_zero]
  | s :: more, bts, h, toks, it, ender, post, acc, fuel, stop_at_else, hd, hender, hfuel => by
    simp only [block_tokens] at h
    obtain ⟨ts1, ts2, hs, hmore, rfl⟩ := h
    obtain ⟨t, r, rfl, ht1, ht2⟩ := stmt_tokens_head s ts1 hs
    obtain ⟨fuel, rfl⟩ : ∃ k, fuel = k + 1 := ⟨fuel - 1, by omega⟩
    have hd0 : toks.drop it = t :: (r ++ (ts2 ++ ender :: post)) := by simpa using hd
    have hd' : toks.drop it = (t :: r) ++ (ts2 ++ ender :: post) := by simpa using hd
    have hst := parse_statement_complete s (t :: r) hs toks it _ fuel hd'
      (by simp at hfuel ⊢; omega)
    have hd1 := drop_skip _ _ _ _ hd'
    have hrec := parse_block_complete more ts2 hmore toks (it + (t :: r).length) ender post
      (acc ++ [s]) fuel stop_at_else hd1 hender (by simp at hfuel ⊢; omega)
    rw [parse_block]
    simp only [expect_keyword_drop _ _ _ _ _ hd0, ht1, ht2, bind, Except.bind, pure,
      Except.pure, Bool.false_eq_true, if_false, Bool.and_false, hst, hrec]
    simp
    omega
end

/-! ## Programs of the grammar are parsed -/

theorem parse_loop_complete : ∀ (stmts : List stmt_t) (bts : List token_t),
    block_tokens stmts bts →
    ∀ (toks : List token_t) (it : Nat) (acc : ast) (fuel : Nat),
    toks.drop it = bts → bts.length + 1 ≤ fuel →
    parse_loop toks fuel it acc = .ok (acc ++ stmts) := by
  intro stmts
  induction stmts with
  | nil =>
    intro bts h toks it acc fuel hd hfuel
    simp only [block_tokens] at h
    subst h
    obtain ⟨fuel, rfl⟩ : ∃ k, fuel = k + 1 := ⟨fuel - 1, by omega⟩
    have hle : ¬ it < toks.length := by
      intro hlt
      have := List.length_drop it toks
      rw [hd] at this
      simp at this
      omega
    simp only [parse_loop, hle, if_false, List.append_nil]
  | cons s more ih =>
    intro bts h toks it acc fuel hd hfuel
    simp only [block_tokens] at h
    obtain ⟨ts1, ts2, hs, hmore, rfl⟩ := h
    obtain ⟨t, r, rfl, _, _⟩ := stmt_tokens_head s ts1 hs
    obtain ⟨fuel, rfl⟩ : ∃ k, fuel = k + 1 := ⟨fuel - 1, by omega⟩
    have hd0 : toks.drop it = t :: (r ++ ts2) := by simpa using hd
    have hlt : it < toks.length := (drop_step _ _ _ _ hd0).2.2
    have hst := parse_statement_complete s (t :: r) hs toks it ts2 fuel hd
      (by simp at hfuel ⊢; omega)
    have hd1 := drop_skip _ _ _ _ hd
    have hrec := ih ts2 hmore toks (it + (t :: r).length) (acc ++ [s]) fuel hd1
      (by simp at hfuel ⊢; omega)
    simp only [parse_loop, hlt, if_true, hst, hrec, List.append_assoc, List.singleton_append]

theorem parse_complete (tree : ast) (toks : List token_t) (h : block_tokens tree toks) :
    parse toks = .ok tree := by
  have := parse_loop_complete tree toks h toks 0 [] (4 * toks.length + 8) rfl (by omega)
  simpa [parse] using this

/-! ## Call arguments with and without commas -/

theorem call_arguments_with : ∀ (args : List expr_t) (w wo : List token_t),
    call_arguments args w wo → arglist_tokens args w
  | [], w, wo, h => by
    simp only [call_arguments] at h
    simp only [arglist_tokens]
    exact h.1
  | e :: more, w, wo, h => by
    simp only [call_arguments] at h
    obtain ⟨ts1, he, hrest⟩ := h
    simp only [arglist_tokens]
    refine ⟨ts1, he, ?_⟩
    rcases hrest with ⟨hm, hw, _⟩ | ⟨hne, c, w2, wo2, hc, hmore, hw, _⟩
    · exact Or.inl ⟨hm, hw⟩
    · exact Or.inr ⟨hne, c, w2, hc, call_arguments_with more w2 wo2 hmore, hw⟩

theorem call_arguments_head : ∀ (args : List expr_t) (w wo : List token_t),
    call_arguments args w wo → args ≠ [] → ∃ t rest, wo = t :: rest ∧ is_primary t = true
  | [], _, _, _, hne => absurd rfl hne
  | e :: more, w, wo, h, _ => by
    simp only [call_arguments] at h
    obtain ⟨ts1, he, hrest⟩ := h
    obtain ⟨t, r, rfl, ht⟩ := expr_tokens_head e ts1 he
    rcases hrest with ⟨_, _, rfl⟩ | ⟨_, c, w2, wo2, _, _, _, rfl⟩
    · exact ⟨t, r, rfl, ht⟩
    · exact ⟨t, r ++ wo2, rfl, ht⟩

theorem parse_call_arguments_juxtaposed : ∀ (args : List expr_t) (w wo : List token_t),
    call_arguments args w wo →
    ∀ (toks : List token_t) (it : Nat) (rp : token_t) (post : List token_t)
      (acc : List expr_t) (fuel : Nat),
    toks.drop it = wo ++ rp :: post → is_punct rp ")" = true → wo.length + 1 ≤ fuel →
    parse_call_arguments toks fuel it acc = .ok (some (acc ++ args, it + wo.length))
  | [], w, wo, h, toks, it, rp, post, acc, fuel, hd, hrp, hfuel => by
    simp only [call_arguments] at h
    obtain ⟨_, rfl⟩ := h
    exact parse_call_arguments_complete [] [] (by simp [arglist_tokens]) toks it rp post acc
      fuel hd hrp hfuel
  | e :: more, w, wo, h, toks, it, rp, post, acc, fuel, hd, hrp, hfuel => by
    simp only [call_arguments] at h
    obtain ⟨ts1, he, hrest⟩ := h
    obtain ⟨fuel, rfl⟩ : ∃ k, fuel = k + 1 := ⟨fuel - 1, by omega⟩
    obtain ⟨t, r1, rfl, ht⟩ := expr_tokens_head e ts1 he
    rcases hrest with ⟨rfl, _, rfl⟩ | ⟨hne, c, w2, wo2, hc, hmore, _, rfl⟩
    · exact parse_call_arguments_complete [e] (t :: r1)
        (by rw [arglist_tokens]; exact ⟨_, he, Or.inl ⟨rfl, rfl⟩⟩) toks it rp post acc
        (fuel + 1) hd hrp hfuel
    · obtain ⟨t2, r2, rfl, ht2⟩ := call_arguments_head more w2 wo2 hmore hne
      have hd' : toks.drop it = (t :: r1) ++ (t2 :: (r2 ++ rp :: post)) := by simpa using hd
      have hd0 : toks.drop it = t :: (r1 ++ t2 :: (r2 ++ rp :: post)) := by simpa using hd
      have hpe := parse_expression_complete e (t :: r1) he toks it _ fuel hd'
        (fun _ => ends_expression_primary t2 _ ht2) (by simp at hfuel ⊢; omega)
      have hd1 := drop_skip _ _ _ _ hd'
      have hd1' : toks.drop (it + (t :: r1).length) = (t2 :: r2) ++ rp :: post := by
        simpa using hd1
      have hrec := parse_call_arguments_juxtaposed more w2 (t2 :: r2) hmore toks
        (it + (t :: r1).length) rp post (acc ++ [e]) fuel hd1' hrp
        (by simp at hfuel ⊢; omega)
      rw [parse_call_arguments]
      simp only [expect_syntax_drop _ _ _ _ _ hd0, primary_not_punct t ")" ht, bind,
        Except.bind, pure, Except.pure, Bool.false_eq_true, if_false, hpe,
        expect_syntax_drop _ _ _ _ _ hd1, primary_not_punct t2 "," ht2, hrec]
      simp
      omega

theorem parse_call_assemble (toks : List token_t) (it fuel : Nat) (name lp : token_t)
    (rest : List token_t) (args : List expr_t) (i1 : Nat)
    (hd : toks.drop it = name :: lp :: rest) (hlp : is_punct lp "(" = true)
    (hargs : parse_call_arguments toks fuel (it + 1 + 1) [] = .ok (some (args, i1))) :
    parse_expression toks (fuel + 1) it = .ok (some (.func_call name args, i1 + 1)) := by
  have hd1 := drop_next _ _ _ _ hd
  rw [parse_expression]
  simp only [ge_iff_le, drop_lt _ _ _ _ hd, if_false, token_at_drop _ _ _ _ hd,
    expect_syntax_drop _ _ _ _ _ hd1, hlp, bind, Except.bind, pure, Except.pure, if_true,
    hargs]

/-- The token vector of one expression statement whose expression is parsed up
to its `;`. -/
theorem parse_one_expression (toks : List token_t) (t semi : token_t) (rest : List token_t)
    (e : expr_t) (i1 : Nat) (ht : is_primary t = true) (hsemi : is_punct semi ";" = true)
    (hd : toks = t :: rest) (hlen : toks.length = i1 + 1)
    (hd1 : toks.drop i1 = [semi])
    (he : parse_expression toks (4 * toks.length + 6) 0 = .ok (some (e, i1))) :
    parse toks = .ok [.expr_stmt e] := by
  have hd0 : toks.drop 0 = t :: rest := by simpa using hd
  have h1 := parse_if_skip toks 0 (4 * toks.length + 5) t _ hd0 (primary_not_word t _ ht)
  have h2 := parse_return_skip toks 0 (4 * toks.length + 6) t _ hd0 (primary_not_word t _ ht)
  have h3 : parse_expression_statement toks (4 * toks.length + 6) 0
      = .ok (some (.expr_stmt e, i1 + 1)) := by
    simp only [parse_expression_statement, he, bind, Except.bind, pure, Except.pure,
      expect_syntax_drop _ _ _ _ _ hd1, hsemi, Bool.not_true, Bool.false_eq_true, if_false]
  have h4 := parse_statement_expression toks 0 (4 * toks.length + 6) _ h1 h2 h3
  have hlt : 0 < toks.length := by omega
  have hfu : 4 * toks.length + 8 = (4 * toks.length + 6) + 1 + 1 := rfl
  have hnl : ¬ i1 + 1 < toks.length := by omega
  simp only [parse, hfu, parse_loop, hlt, if_true, h4, hnl, if_false, List.nil_append]

theorem parse_text_eq (source : String) (toks : List token_t) (r : result ast)
    (h1 : tokenize source.toList = .ok toks) (h2 : parse toks = r) : parse_text source = r := by
  simp only [parse_text, h1, h2]

/-! ## What a parsed binary expression holds -/

theorem binary_op_parsed (toks : List token_t) (fuel it : Nat) (op : token_t)
    (l r : expr_t) (n : Nat)
    (h : parse_expression toks fuel it = .ok (some (.binary_op op l r, n))) :
    op.kind = token_kind.t_operator
    ∧ (∃ lt, toks[it]? = some lt ∧ l = operand_of lt)
    ∧ ((∃ t, t.kind = token_kind.t_number ∧ r = .literal_number t)
      ∨ (∃ t, t.kind = token_kind.t_identifier ∧ r = .literal_id t)) := by
  cases fuel with
  | zero => simp [parse_expression] at h
  | succ fuel =>
    rw [parse_expression] at h
    by_cases h0 : it ≥ toks.length
    · simp [h0] at h
    · simp only [h0, if_false, bind, Except.bind, pure, Except.pure] at h
      cases ht : token_at toks it with
      | error e => simp [ht] at h
      | ok lt =>
        have hlt : toks[it]? = some lt := by
          unfold token_at at ht
          cases hg : toks[it]? with
          | none => simp [hg] at ht
          | some t => simp [hg] at ht; rw [ht]
        simp only [ht] at h
        cases hs : expect_syntax toks (it + 1) "(" with
        | error e => simp [hs] at h
        | ok b =>
          simp only [hs] at h
          cases b with
          | true =>
            simp only [if_true] at h
            cases ha : parse_call_arguments toks fuel (it + 1 + 1) [] with
            | error e => simp [ha] at h
            | ok a =>
              cases a with
              | none => simp [ha] at h
              | some p => simp [ha] at h
          | false =>
            simp only [Bool.false_eq_true, if_false] at h
            by_cases h1 : it + 1 ≥ toks.length
            · simp only [h1, if_true, Except.ok.injEq, Option.some.injEq, Prod.mk.injEq] at h
              obtain ⟨h, _⟩ := h
              unfold operand_of at h
              split at h <;> cases h
            · simp only [h1, if_false] at h
              cases hop : token_at toks (it + 1) with
              | error e => simp [hop] at h
              | ok o =>
                simp only [hop] at h
                by_cases hk : o.kind = token_kind.t_operator
                · simp only [hk, bne_self_eq_false, Bool.false_eq_true, if_false] at h
                  by_cases h2 : it + 1 + 1 ≥ toks.length
                  · simp [h2] at h
                  · simp only [h2, if_false] at h
                    cases hr : token_at toks (it + 1 + 1) with
                    | error e => simp [hr] at h
                    | ok rt =>
                      simp only [hr] at h
                      split at h
                      · next hrk =>
                        simp only [Except.ok.injEq, Option.some.injEq, Prod.mk.injEq,
                          expr_t.binary_op.injEq] at h
                        obtain ⟨⟨rfl, rfl, rfl⟩, _⟩ := h
                        exact ⟨hk, ⟨lt, hlt, rfl⟩, Or.inl ⟨rt, hrk, rfl⟩⟩
                      · next hrk =>
                        simp only [Except.ok.injEq, Option.some.injEq, Prod.mk.injEq,
                          expr_t.binary_op.injEq] at h
                        obtain ⟨⟨rfl, rfl, rfl⟩, _⟩ := h
                        exact ⟨hk, ⟨lt, hlt, rfl⟩, Or.inr ⟨rt, hrk, rfl⟩⟩
                      · simp at h
                · have hne : (o.kind != token_kind.t_operator) = true := by
                    simp [hk]
                  simp only [hne, if_true, Except.ok.injEq, Option.some.injEq,
                    Prod.mk.injEq] at h
                  obtain ⟨h, _⟩ := h
                  unfold operand_of at h
                  split at h <;> cases h

/-! ## C21: what `parse` accepts -/

/-- C21 fails: `parse` returns trees outside the grammar.  On `;;` it returns
an expression statement whose expression is empty (null); on `1(2);` a
`func_call` whose name is a number token; on `function f(1) end` a function
declaration whose parameter is a number token; on `= + 1;` a `binary_op` whose
left operand is empty.  What `parse_expression` does check: in every
`binary_op` it returns, the operator is an operator token and the right
operand is a `literal_number` of a number token or a `literal_id` of an
identifier token, while the left operand is built from the token at the start
without a check of its kind. -/
theorem C21_parse_accepts_invalid_programs :
    parse_text ";;" = .ok [.expr_stmt .null]
    ∧ front_end ";;" = .error (.thrown "unknown expression")
    ∧ parse_text "1(2);"
      = .ok [.expr_stmt (.func_call ⟨token_kind.t_number, "1", ⟨1, 1, 0⟩⟩
          [.literal_number ⟨token_kind.t_number, "2", ⟨1, 3, 2⟩⟩])]
    ∧ parse_text "function f(1) end"
      = .ok [.func_decl ⟨token_kind.t_identifier, "f", ⟨1, 10, 9⟩⟩
          [⟨token_kind.t_number, "1", ⟨1, 12, 11⟩⟩] []]
    ∧ parse_text "= + 1;"
      = .ok [.expr_stmt (.binary_op ⟨token_kind.t_operator, "+", ⟨1, 3, 2⟩⟩ .null
          (.literal_number ⟨token_kind.t_number, "1", ⟨1, 5, 4⟩⟩))]
    ∧ ∀ (toks : List token_t) (fuel it : Nat) (op : token_t) (l r : expr_t) (n : Nat),
        parse_expression toks fuel it = .ok (some (.binary_op op l r, n)) →
        op.kind = token_kind.t_operator
        ∧ (∃ lt, toks[it]? = some lt ∧ l = operand_of lt)
        ∧ ((∃ t, t.kind = token_kind.t_number ∧ r = .literal_number t)
          ∨ (∃ t, t.kind = token_kind.t_identifier ∧ r = .literal_id t)) := by
  refine ⟨?_, by decide!, ?_, ?_, ?_, binary_op_parsed⟩
  · exact parse_text_eq ";;"
      [⟨token_kind.t_syntax, ";", ⟨1, 1, 0⟩⟩, ⟨token_kind.t_syntax, ";", ⟨1, 2, 1⟩⟩] _
      (by decide!) rfl
  · exact parse_text_eq "1(2);"
      [⟨token_kind.t_number, "1", ⟨1, 1, 0⟩⟩, ⟨token_kind.t_syntax, "(", ⟨1, 2, 1⟩⟩,
        ⟨token_kind.t_number, "2", ⟨1, 3, 2⟩⟩, ⟨token_kind.t_syntax, ")", ⟨1, 4, 3⟩⟩,
        ⟨token_kind.t_syntax, ";", ⟨1, 5, 4⟩⟩] _ (by decide!) rfl
  · exact parse_text_eq "function f(1) end"
      [⟨token_kind.t_keyword, "function", ⟨1, 1, 0⟩⟩, ⟨token_kind.t_identifier, "f", ⟨1, 10, 9⟩⟩,
        ⟨token_kind.t_syntax, "(", ⟨1, 11, 10⟩⟩, ⟨token_kind.t_number, "1", ⟨1, 12, 11⟩⟩,
        ⟨token_kind.t_syntax, ")", ⟨1, 13, 12⟩⟩, ⟨token_kind.t_keyword, "end", ⟨1, 15, 14⟩⟩] _
      (by decide!) rfl
  · exact parse_text_eq "= + 1;"
      [⟨token_kind.t_syntax, "=", ⟨1, 1, 0⟩⟩, ⟨token_kind.t_operator, "+", ⟨1, 3, 2⟩⟩,
        ⟨token_kind.t_number, "1", ⟨1, 5, 4⟩⟩, ⟨token_kind.t_syntax, ";", ⟨1, 6, 5⟩⟩] _
      (by decide!) rfl

/-! ## C22: every program of the grammar is parsed -/

/-- C22: when the token vector is a sequence of statements that the grammar of
the specification derives for the tree `tree` (one node per top-level
statement, in order, each of the variant of its statement form, with the
sub-expressions and bodies the grammar derives), `parse` returns `tree`. -/
theorem C22_parser_completeness (tree : ast) (toks : List token_t)
    (h : block_tokens tree toks) : parse toks = .ok tree := by
  have := parse_loop_complete tree toks h toks 0 [] (4 * toks.length + 8) rfl (by omega)
  simpa [parse] using this

/-- C22 on `local a = 1;` and `if a < 2 then print(a, 2); end`. -/
theorem C22_parser_completeness_witness :
    tokenize "local a = 1;\nif a < 2 then print(a, 2); end".toList = .ok grammar_tokens
    ∧ block_tokens grammar_tree grammar_tokens
    ∧ parse grammar_tokens = .ok grammar_tree := by
  have hder : block_tokens grammar_tree grammar_tokens := by
    unfold grammar_tree grammar_tokens
    refine ⟨_, _, ⟨⟨token_kind.t_keyword, "local", ⟨1, 1, 0⟩⟩,
        ⟨token_kind.t_syntax, "=", ⟨1, 9, 8⟩⟩, _, ⟨token_kind.t_syntax, ";", ⟨1, 12, 11⟩⟩,
        rfl, rfl, rfl, ⟨rfl, rfl⟩, rfl, rfl⟩,
      ⟨_, [], ⟨⟨token_kind.t_keyword, "if", ⟨2, 1, 13⟩⟩, _,
          ⟨token_kind.t_keyword, "then", ⟨2, 10, 22⟩⟩, _,
          ⟨token_kind.t_keyword, "end", ⟨2, 28, 40⟩⟩, rfl,
          ⟨rfl, ⟨token_kind.t_identifier, "a", ⟨2, 4, 16⟩⟩,
            ⟨token_kind.t_number, "2", ⟨2, 8, 20⟩⟩, rfl, rfl, rfl, rfl, rfl⟩, rfl,
          ⟨_, [], ⟨_, ⟨token_kind.t_syntax, ";", ⟨2, 26, 38⟩⟩,
            ⟨rfl, ⟨token_kind.t_syntax, "(", ⟨2, 20, 32⟩⟩, _,
              ⟨token_kind.t_syntax, ")", ⟨2, 25, 37⟩⟩, rfl, rfl,
              ⟨_, ⟨rfl, rfl⟩, Or.inr ⟨by simp, ⟨token_kind.t_syntax, ",", ⟨2, 22, 34⟩⟩, _, rfl,
                ⟨_, ⟨rfl, rfl⟩, Or.inl ⟨rfl, rfl⟩⟩, rfl⟩⟩, rfl⟩,
            rfl, rfl⟩, rfl, rfl⟩,
          rfl, Or.inl ⟨rfl, rfl⟩⟩, rfl, rfl⟩, rfl⟩
  exact ⟨by decide!, hder, C22_parser_completeness grammar_tree grammar_tokens hder⟩

/-! ## C23: a statement parser that fails after its keyword -/

/-- C23 does not hold of the code: on the tokens of `if(a);` the parser of `if`
finds its keyword and then fails (no `then` follows), and the parser of
expression statements, tried later at the same position, accepts the tokens as
a call named by the keyword token `if`; likewise for `return(a);`.  Parsing
succeeds.  The later parser accepts only because `parse_expression` takes any
token as the name of a call: the switch for its left operand ends in
`default: break` and the name is never tested, whereas the switch for the right
operand returns `nullopt` in its default branch and `parse_function` tests the
name with `expect_identifier`. -/
theorem C23_later_parser_accepts :
    tokenize "if(a);".toList
      = .ok [⟨token_kind.t_keyword, "if", ⟨1, 1, 0⟩⟩, ⟨token_kind.t_syntax, "(", ⟨1, 3, 2⟩⟩,
          ⟨token_kind.t_identifier, "a", ⟨1, 4, 3⟩⟩, ⟨token_kind.t_syntax, ")", ⟨1, 5, 4⟩⟩,
          ⟨token_kind.t_syntax, ";", ⟨1, 6, 5⟩⟩]
    ∧ expect_keyword [⟨token_kind.t_keyword, "if", ⟨1, 1, 0⟩⟩,
          ⟨token_kind.t_syntax, "(", ⟨1, 3, 2⟩⟩, ⟨token_kind.t_identifier, "a", ⟨1, 4, 3⟩⟩,
          ⟨token_kind.t_syntax, ")", ⟨1, 5, 4⟩⟩, ⟨token_kind.t_syntax, ";", ⟨1, 6, 5⟩⟩] 0 "if"
        = .ok true
    ∧ parse_if [⟨token_kind.t_keyword, "if", ⟨1, 1, 0⟩⟩,
          ⟨token_kind.t_syntax, "(", ⟨1, 3, 2⟩⟩, ⟨token_kind.t_identifier, "a", ⟨1, 4, 3⟩⟩,
          ⟨token_kind.t_syntax, ")", ⟨1, 5, 4⟩⟩, ⟨token_kind.t_syntax, ";", ⟨1, 6, 5⟩⟩] 27 0
        = .ok none
    ∧ parse [⟨token_kind.t_keyword, "if", ⟨1, 1, 0⟩⟩,
          ⟨token_kind.t_syntax, "(", ⟨1, 3, 2⟩⟩, ⟨token_kind.t_identifier, "a", ⟨1, 4, 3⟩⟩,
          ⟨token_kind.t_syntax, ")", ⟨1, 5, 4⟩⟩, ⟨token_kind.t_syntax, ";", ⟨1, 6, 5⟩⟩]
        = .ok [.expr_stmt (.func_call ⟨token_kind.t_keyword, "if", ⟨1, 1, 0⟩⟩
            [.literal_id ⟨token_kind.t_identifier, "a", ⟨1, 4, 3⟩⟩])]
    ∧ parse_text "return(a);"
        = .ok [.expr_stmt (.func_call ⟨token_kind.t_keyword, "return", ⟨1, 1, 0⟩⟩
            [.literal_id ⟨token_kind.t_identifier, "a", ⟨1, 8, 7⟩⟩])] := by
  refine ⟨by decide!, by decide!, rfl, rfl, ?_⟩
  exact parse_text_eq "return(a);"
    [⟨token_kind.t_keyword, "return", ⟨1, 1, 0⟩⟩, ⟨token_kind.t_syntax, "(", ⟨1, 7, 6⟩⟩,
      ⟨token_kind.t_identifier, "a", ⟨1, 8, 7⟩⟩, ⟨token_kind.t_syntax, ")", ⟨1, 9, 8⟩⟩,
      ⟨token_kind.t_syntax, ";", ⟨1, 10, 9⟩⟩] _ (by decide!) rfl

/-- When the token at `it` is the keyword `if`, `return`, `function` or `local`
and the parser of that keyword returns no statement, no other keyword parser
accepts the tokens at `it`, and the parser of expression statements decides:
`parse_statement` returns what `parse_expression_statement` returns at `it`, a
statement or none. -/
theorem failed_keyword_parser_falls_through (toks : List token_t) (it fuel : Nat) (k : token_t)
    (rest : List token_t) (hd : toks.drop it = k :: rest) :
    (is_word k "if" = true → parse_if toks (fuel + 1) it = .ok none →
      parse_statement toks (fuel + 2) it = parse_expression_statement toks (fuel + 1) it)
    ∧ (is_word k "return" = true → parse_return toks (fuel + 1) it = .ok none →
      parse_statement toks (fuel + 2) it = parse_expression_statement toks (fuel + 1) it)
    ∧ (is_word k "function" = true → parse_function toks (fuel + 1) it = .ok none →
      parse_statement toks (fuel + 2) it = parse_expression_statement toks (fuel + 1) it)
    ∧ (is_word k "local" = true → parse_local toks (fuel + 1) it = .ok none →
      parse_statement toks (fuel + 2) it = parse_expression_statement toks (fuel + 1) it) := by
  refine ⟨?_, ?_, ?_, ?_⟩
  · intro hk h
    have h2 := parse_return_skip toks it (fuel + 1) k rest hd (word_other k _ _ hk (by decide))
    have h4 := parse_function_skip toks it fuel k rest hd (word_other k _ _ hk (by decide))
    have h5 := parse_local_skip toks it (fuel + 1) k rest hd (word_other k _ _ hk (by decide))
    rw [parse_statement]
    cases h3 : parse_expression_statement toks (fuel + 1) it with
    | error e => simp only [h, h2, h3, bind, Except.bind, pure, Except.pure]
    | ok r =>
      cases r with
      | none => simp only [h, h2, h3, h4, h5, bind, Except.bind, pure, Except.pure]
      | some x => simp only [h, h2, h3, bind, Except.bind, pure, Except.pure]
  · intro hk h
    have h1 := parse_if_skip toks it fuel k rest hd (word_other k _ _ hk (by decide))
    have h4 := parse_function_skip toks it fuel k rest hd (word_other k _ _ hk (by decide))
    have h5 := parse_local_skip toks it (fuel + 1) k rest hd (word_other k _ _ hk (by decide))
    rw [parse_statement]
    cases h3 : parse_expression_statement toks (fuel + 1) it with
    | error e => simp only [h, h1, h3, bind, Except.bind, pure, Except.pure]
    | ok r =>
      cases r with
      | none => simp only [h, h1, h3, h4, h5, bind, Except.bind, pure, Except.pure]
      | some x => simp only [h, h1, h3, bind, Except.bind, pure, Except.pure]
  · intro hk h
    have h1 := parse_if_skip toks it fuel k rest hd (word_other k _ _ hk (by decide))
    have h2 := parse_return_skip toks it (fuel + 1) k rest hd (word_other k _ _ hk (by decide))
    have h5 := parse_local_skip toks it (fuel + 1) k rest hd (word_other k _ _ hk (by decide))
    rw [parse_statement]
    cases h3 : parse_expression_statement toks (fuel + 1) it with
    | error e => simp only [h1, h2, h3, bind, Except.bind, pure, Except.pure]
    | ok r =>
      cases r with
      | none => simp only [h, h1, h2, h3, h5, bind, Except.bind, pure, Except.pure]
      | some x => simp only [h1, h2, h3, bind, Except.bind, pure, Except.pure]
  · intro hk h
    have h1 := parse_if_skip toks it fuel k rest hd (word_other k _ _ hk (by decide))
    have h2 := parse_return_skip toks it (fuel + 1) k rest hd (word_other k _ _ hk (by decide))
    have h4 := parse_function_skip toks it fuel k rest hd (word_other k _ _ hk (by decide))
    rw [parse_statement]
    cases h3 : parse_expression_statement toks (fuel + 1) it with
    | error e => simp only [h1, h2, h3, bind, Except.bind, pure, Except.pure]
    | ok r =>
      cases r with
      | none => simp only [h, h1, h2, h3, h4, bind, Except.bind, pure, Except.pure]
      | some x => simp only [h1, h2, h3, bind, Except.bind, pure, Except.pure]

/-- On the tokens of `if(a);` the statement at 0 is the expression statement
that calls `if`. -/
theorem failed_keyword_parser_on_if :
    parse_if [⟨token_kind.t_keyword, "if", ⟨1, 1, 0⟩⟩,
          ⟨token_kind.t_syntax, "(", ⟨1, 3, 2⟩⟩, ⟨token_kind.t_identifier, "a", ⟨1, 4, 3⟩⟩,
          ⟨token_kind.t_syntax, ")", ⟨1, 5, 4⟩⟩, ⟨token_kind.t_syntax, ";", ⟨1, 6, 5⟩⟩] 27 0
        = .ok none
    ∧ parse_statement [⟨token_kind.t_keyword, "if", ⟨1, 1, 0⟩⟩,
          ⟨token_kind.t_syntax, "(", ⟨1, 3, 2⟩⟩, ⟨token_kind.t_identifier, "a", ⟨1, 4, 3⟩⟩,
          ⟨token_kind.t_syntax, ")", ⟨1, 5, 4⟩⟩, ⟨token_kind.t_syntax, ";", ⟨1, 6, 5⟩⟩] 28 0
        = .ok (some (.expr_stmt (.func_call ⟨token_kind.t_keyword, "if", ⟨1, 1, 0⟩⟩
            [.literal_id ⟨token_kind.t_identifier, "a", ⟨1, 4, 3⟩⟩]), 5)) :=
  ⟨rfl, ((failed_keyword_parser_falls_through [⟨token_kind.t_keyword, "if", ⟨1, 1, 0⟩⟩,
          ⟨token_kind.t_syntax, "(", ⟨1, 3, 2⟩⟩, ⟨token_kind.t_identifier, "a", ⟨1, 4, 3⟩⟩,
          ⟨token_kind.t_syntax, ")", ⟨1, 5, 4⟩⟩, ⟨token_kind.t_syntax, ";", ⟨1, 6, 5⟩⟩] 0 26
        ⟨token_kind.t_keyword, "if", ⟨1, 1, 0⟩⟩ _ rfl).1 rfl rfl).trans rfl⟩

/-! ## C24: commas between call arguments -/

/-- C24: for a call `name ( ... ) ;` whose arguments are expressions of the
grammar, the token vector with a `,` between consecutive arguments and the
token vector with those commas removed are both parsed, to the same tree: one
expression statement with the `func_call` of `name` and the arguments in order. -/
theorem C24_commas_are_optional (name lp rp semi : token_t) (args : List expr_t)
    (w wo : List token_t) (hname : name.kind = token_kind.t_identifier)
    (hlp : is_punct lp "(" = true) (hrp : is_punct rp ")" = true)
    (hsemi : is_punct semi ";" = true) (h : call_arguments args w wo) :
    parse (name :: lp :: (w ++ [rp, semi])) = .ok [.expr_stmt (.func_call name args)]
    ∧ parse (name :: lp :: (wo ++ [rp, semi])) = .ok [.expr_stmt (.func_call name args)] := by
  have hp : is_primary name = true := by simp [is_primary, hname]
  constructor
  · apply parse_one_expression _ name semi _ _ (w.length + 3) hp hsemi rfl (by simp)
    · have : (name :: lp :: (w ++ [rp, semi])) = (name :: lp :: (w ++ [rp])) ++ [semi] := by
        simp
      rw [this]
      have hl : w.length + 3 = (name :: lp :: (w ++ [rp])).length := by simp
      rw [hl, List.drop_left]
    · have hargs := parse_call_arguments_complete args w (call_arguments_with args w wo h)
        (name :: lp :: (w ++ [rp, semi])) (0 + 1 + 1) rp [semi] []
        (4 * (name :: lp :: (w ++ [rp, semi])).length + 5) (by simp) hrp
        (by simp; omega)
      have := parse_call_assemble _ 0 _ name lp _ args _ rfl hlp hargs
      rw [this]
      simp
      omega
  · apply parse_one_expression _ name semi _ _ (wo.length + 3) hp hsemi rfl (by simp)
    · have : (name :: lp :: (wo ++ [rp, semi])) = (name :: lp :: (wo ++ [rp])) ++ [semi] := by
        simp
      rw [this]
      have hl : wo.length + 3 = (name :: lp :: (wo ++ [rp])).length := by simp
      rw [hl, List.drop_left]
    · have hargs := parse_call_arguments_juxtaposed args w wo h
        (name :: lp :: (wo ++ [rp, semi])) (0 + 1 + 1) rp [semi] []
        (4 * (name :: lp :: (wo ++ [rp, semi])).length + 5) (by simp) hrp
        (by simp; omega)
      have := parse_call_assemble _ 0 _ name lp _ args _ rfl hlp hargs
      rw [this]
      simp
      omega

/-- C24 on `f(a,b);` and `f(a b);`. -/
theorem C24_commas_are_optional_witness :
    call_arguments
      [.literal_id ⟨token_kind.t_identifier, "a", ⟨1, 3, 2⟩⟩,
       .literal_id ⟨token_kind.t_identifier, "b", ⟨1, 5, 4⟩⟩]
      [⟨token_kind.t_identifier, "a", ⟨1, 3, 2⟩⟩, ⟨token_kind.t_syntax, ",", ⟨1, 4, 3⟩⟩,
       ⟨token_kind.t_identifier, "b", ⟨1, 5, 4⟩⟩]
      [⟨token_kind.t_identifier, "a", ⟨1, 3, 2⟩⟩, ⟨token_kind.t_identifier, "b", ⟨1, 5, 4⟩⟩]
    ∧ parse [⟨token_kind.t_identifier, "f", ⟨1, 1, 0⟩⟩, ⟨token_kind.t_syntax, "(", ⟨1, 2, 1⟩⟩,
        ⟨token_kind.t_identifier, "a", ⟨1, 3, 2⟩⟩, ⟨token_kind.t_syntax, ",", ⟨1, 4, 3⟩⟩,
        ⟨token_kind.t_identifier, "b", ⟨1, 5, 4⟩⟩, ⟨token_kind.t_syntax, ")", ⟨1, 6, 5⟩⟩,
        ⟨token_kind.t_syntax, ";", ⟨1, 7, 6⟩⟩]
      = .ok [.expr_stmt (.func_call ⟨token_kind.t_identifier, "f", ⟨1, 1, 0⟩⟩
          [.literal_id ⟨token_kind.t_identifier, "a", ⟨1, 3, 2⟩⟩,
           .literal_id ⟨token_kind.t_identifier, "b", ⟨1, 5, 4⟩⟩])]
    ∧ parse [⟨token_kind.t_identifier, "f", ⟨1, 1, 0⟩⟩, ⟨token_kind.t_syntax, "(", ⟨1, 2, 1⟩⟩,
        ⟨token_kind.t_identifier, "a", ⟨1, 3, 2⟩⟩,
        ⟨token_kind.t_identifier, "b", ⟨1, 5, 4⟩⟩, ⟨token_kind.t_syntax, ")", ⟨1, 6, 5⟩⟩,
        ⟨token_kind.t_syntax, ";", ⟨1, 7, 6⟩⟩]
      = .ok [.expr_stmt (.func_call ⟨token_kind.t_identifier, "f", ⟨1, 1, 0⟩⟩
          [.literal_id ⟨token_kind.t_identifier, "a", ⟨1, 3, 2⟩⟩,
           .literal_id ⟨token_kind.t_identifier, "b", ⟨1, 5, 4⟩⟩])] := by
  have hder : call_arguments
      [.literal_id ⟨token_kind.t_identifier, "a", ⟨1, 3, 2⟩⟩,
       .literal_id ⟨token_kind.t_identifier, "b", ⟨1, 5, 4⟩⟩]
      [⟨token_kind.t_identifier, "a", ⟨1, 3, 2⟩⟩, ⟨token_kind.t_syntax, ",", ⟨1, 4, 3⟩⟩,
       ⟨token_kind.t_identifier, "b", ⟨1, 5, 4⟩⟩]
      [⟨token_kind.t_identifier, "a", ⟨1, 3, 2⟩⟩, ⟨token_kind.t_identifier, "b", ⟨1, 5, 4⟩⟩] :=
    ⟨_, ⟨rfl, rfl⟩, Or.inr ⟨by simp, ⟨token_kind.t_syntax, ",", ⟨1, 4, 3⟩⟩, _, _, rfl,
      ⟨_, ⟨rfl, rfl⟩, Or.inl ⟨rfl, rfl, rfl⟩⟩, rfl, rfl⟩⟩
  exact ⟨hder, C24_commas_are_optional ⟨token_kind.t_identifier, "f", ⟨1, 1, 0⟩⟩
    ⟨token_kind.t_syntax, "(", ⟨1, 2, 1⟩⟩ ⟨token_kind.t_syntax, ")", ⟨1, 6, 5⟩⟩
    ⟨token_kind.t_syntax, ";", ⟨1, 7, 6⟩⟩ _ _ _ rfl rfl rfl rfl hder⟩

/-! ## C25: a token vector that ends inside a statement -/

/-- C25 fails: when the token vector is a call `name ( ... )` of the grammar
without the `;` of its statement, `parse_expression_statement` tests
`_tokens[it]` for `;` with `it` equal to the number of tokens, which is
undefined behaviour, so `parse` neither throws the parse error nor stays inside
the vector; the tokens of `print(1)` are such a vector; the same happens on the
tokens `print ( 1` and on a lone `a`.  On the three tokens of `local a =` the parse error is
thrown. -/
theorem C25_read_past_the_last_token :
    (∀ (name lp rp : token_t) (args : List expr_t) (mid : List token_t),
      name.kind = token_kind.t_identifier → is_punct lp "(" = true → is_punct rp ")" = true →
      arglist_tokens args mid →
      parse (name :: lp :: (mid ++ [rp]))
        = .error (.undefined "_tokens[it] with it >= _tokens.size()"))
    ∧ parse_text "print(1)" = .error (.undefined "_tokens[it] with it >= _tokens.size()")
    ∧ parse [⟨token_kind.t_identifier, "print", ⟨1, 1, 0⟩⟩, ⟨token_kind.t_syntax, "(", ⟨1, 6, 5⟩⟩,
        ⟨token_kind.t_number, "1", ⟨1, 7, 6⟩⟩]
      = .error (.undefined "_tokens[it] with it >= _tokens.size()")
    ∧ parse [⟨token_kind.t_identifier, "a", ⟨1, 1, 0⟩⟩]
      = .error (.undefined "_tokens[it] with it >= _tokens.size()")
    ∧ parse [⟨token_kind.t_keyword, "local", ⟨1, 1, 0⟩⟩, ⟨token_kind.t_identifier, "a", ⟨1, 7, 6⟩⟩,
        ⟨token_kind.t_syntax, "=", ⟨1, 9, 8⟩⟩]
      = .error (.thrown "parse error, end too early, check your source code") := by
  refine ⟨?_, ?_, rfl, rfl, rfl⟩
  rotate_left
  · exact parse_text_eq "print(1)"
      [⟨token_kind.t_identifier, "print", ⟨1, 1, 0⟩⟩, ⟨token_kind.t_syntax, "(", ⟨1, 6, 5⟩⟩,
        ⟨token_kind.t_number, "1", ⟨1, 7, 6⟩⟩, ⟨token_kind.t_syntax, ")", ⟨1, 8, 7⟩⟩] _
      (by decide!) rfl
  intro name lp rp args mid hname hlp hrp hargs
  have hp : is_primary name = true := by simp [is_primary, hname]
  have hd0 : (name :: lp :: (mid ++ [rp])).drop 0 = name :: lp :: (mid ++ [rp]) := rfl
  have h1 := parse_if_skip (name :: lp :: (mid ++ [rp])) 0
    (4 * (name :: lp :: (mid ++ [rp])).length + 5) name _ hd0 (primary_not_word name _ hp)
  have h2 := parse_return_skip (name :: lp :: (mid ++ [rp])) 0
    (4 * (name :: lp :: (mid ++ [rp])).length + 6) name _ hd0 (primary_not_word name _ hp)
  have hargs' := parse_call_arguments_complete args mid hargs
    (name :: lp :: (mid ++ [rp])) (0 + 1 + 1) rp [] []
    (4 * (name :: lp :: (mid ++ [rp])).length + 5) (by simp) hrp (by simp; omega)
  have he := parse_call_assemble _ 0 _ name lp _ args _ rfl hlp hargs'
  have hend : (name :: lp :: (mid ++ [rp])).drop (0 + 1 + 1 + mid.length + 1) = [] := by
    apply List.drop_eq_nil_of_le
    simp
    omega
  have h3 : parse_expression_statement (name :: lp :: (mid ++ [rp]))
      (4 * (name :: lp :: (mid ++ [rp])).length + 6) 0
      = .error (.undefined "_tokens[it] with it >= _tokens.size()") := by
    simp only [parse_expression_statement, he, bind, Except.bind, pure, Except.pure,
      expect_syntax, token_at_end _ _ hend]
  have h4 : parse_statement (name :: lp :: (mid ++ [rp]))
      (4 * (name :: lp :: (mid ++ [rp])).length + 6 + 1) 0
      = .error (.undefined "_tokens[it] with it >= _tokens.size()") := by
    rw [parse_statement]
    simp only [h1, h2, h3, bind, Except.bind, pure, Except.pure]
  have hlt : 0 < (name :: lp :: (mid ++ [rp])).length := by simp
  have hfu : 4 * (name :: lp :: (mid ++ [rp])).length + 8
      = (4 * (name :: lp :: (mid ++ [rp])).length + 6 + 1) + 1 := rfl
  simp only [parse, hfu, parse_loop, hlt, if_true, h4]

/-! ## C26: the opcode of a binary operator -/

/-- C26: when lowering `L` on `prog` gives `p1` and lowering `R` on `p1` gives
`p2`, both by appending instructions, lowering `binary_op(op, L, R)` on `prog`
gives `p2` with one more instruction, the opcode the table of the specification
has for the literal of `op`; when the table has no opcode for the literal, as
for `*`, `/`, `^` and `%`, lowering fails with the exception `unknown operator`. -/
theorem C26_binary_op_opcode (prog : program) (locals : locals_t) (op : token_t)
    (L R : expr_t) (p1 : program) (l1 : locals_t) (p2 : program) (l2 : locals_t)
    (hL : compile_expr prog locals L = .ok (p1, l1))
    (hR : compile_expr p1 l1 R = .ok (p2, l2)) :
    (∃ codeL codeR, p1.insts = prog.insts ++ codeL ∧ p2.insts = prog.insts ++ codeL ++ codeR
      ∧ ∀ inst, spec_opcode op.literal = some inst →
        ∃ q, compile_expr prog locals (.binary_op op L R) = .ok (q, l2)
          ∧ q.insts = prog.insts ++ codeL ++ codeR ++ [inst] ∧ q.syms = prog.syms)
    ∧ (spec_opcode op.literal = none →
        compile_expr prog locals (.binary_op op L R) = .error (.thrown "unknown operator"))
    ∧ spec_opcode "*" = none ∧ spec_opcode "/" = none ∧ spec_opcode "^" = none
    ∧ spec_opcode "%" = none := by
  obtain ⟨c1, hc1⟩ := clone_of_compile_expr L prog locals _ hL
  obtain ⟨c2, hc2⟩ := clone_of_compile_expr R p1 l1 _ hR
  obtain ⟨hs1, _, codeL, hi1, _⟩ := compile_expr_effect L prog locals p1 l1 hL
  obtain ⟨hs2, _, codeR, hi2, _⟩ := compile_expr_effect R p1 l1 p2 l2 hR
  obtain ⟨hsome, hnone⟩ := binary_opcode_spec op.literal
  refine ⟨⟨codeL, codeR, hi1, by rw [hi2, hi1], ?_⟩, ?_, by decide, by decide, by decide,
    by decide⟩
  · intro inst hinst
    refine ⟨p2.push inst, ?_, ?_, ?_⟩
    · rw [compile_expr]
      simp only [hc1, hL, hc2, hR, hsome inst hinst]
    · simp only [program.push, hi2, hi1]
    · simp only [program.push, hs2, hs1]
  · intro hn
    rw [compile_expr]
    simp only [hc1, hL, hc2, hR, hnone hn]

/-- C26 on `1 + 2` lowered on the empty program: `PUSH 1`, `PUSH 2`, `ADD`. -/
theorem C26_binary_op_opcode_witness :
    compile_expr ⟨[], []⟩ [] (.literal_number ⟨token_kind.t_number, "1", ⟨1, 1, 0⟩⟩)
      = .ok (⟨[], [.store_inst 1]⟩, [])
    ∧ compile_expr ⟨[], [.store_inst 1]⟩ []
        (.literal_number ⟨token_kind.t_number, "2", ⟨1, 5, 4⟩⟩)
      = .ok (⟨[], [.store_inst 1, .store_inst 2]⟩, [])
    ∧ ∃ q, compile_expr ⟨[], []⟩ [] (.binary_op ⟨token_kind.t_operator, "+", ⟨1, 3, 2⟩⟩
          (.literal_number ⟨token_kind.t_number, "1", ⟨1, 1, 0⟩⟩)
          (.literal_number ⟨token_kind.t_number, "2", ⟨1, 5, 4⟩⟩)) = .ok (q, [])
        ∧ q.insts = [.store_inst 1, .store_inst 2, .add_inst] := by
  refine ⟨by decide!, by decide!, ?_⟩
  obtain ⟨⟨codeL, codeR, h1, h2, h3⟩, _⟩ := C26_binary_op_opcode ⟨[], []⟩ []
    ⟨token_kind.t_operator, "+", ⟨1, 3, 2⟩⟩
    (.literal_number ⟨token_kind.t_number, "1", ⟨1, 1, 0⟩⟩)
    (.literal_number ⟨token_kind.t_number, "2", ⟨1, 5, 4⟩⟩)
    ⟨[], [.store_inst 1]⟩ [] ⟨[], [.store_inst 1, .store_inst 2]⟩ []
    (by decide!) (by decide!)
  obtain ⟨q, hq, hqi, _⟩ := h3 .add_inst (by decide)
  refine ⟨q, hq, ?_⟩
  simp only [List.nil_append] at h1 h2 hqi
  rw [hqi, ← h2]
  rfl

/-! ## C27: a call or jump to a label without a symbol -/

/-- C27 fails: a `CALL f` with `f` other than `print` and without a symbol is
no error.  `prog.syms[f]` adds the symbol `(0, 0, 0)` for `f`, the frame triple
is pushed and execution goes on at instruction 0 with no local slot; likewise
`JMP`, `JZ` on 0 and `JNZ` on a non-zero value go on at instruction 0 when the
label has no symbol.  The program of `f();` never leaves the VM loop. -/
theorem C27_unknown_label_restarts_at_zero :
    (∀ (prog : program) (m : vm) (f : String) (argc : Nat), f ≠ "print" →
      map_find prog.syms f = none → prog.insts[m.pc.toNat]? = some (.call_inst f argc) →
      step prog m = .ok (⟨prog.syms ++ [(f, ⟨0, 0, 0⟩)], prog.insts⟩,
        ⟨0, (m.stack.length : Int) + 3, m.stack ++ [m.fp, m.pc + 1, 0], m.cout⟩))
    ∧ (∀ (prog : program) (m : vm) (label : String),
      map_find prog.syms label = none → prog.insts[m.pc.toNat]? = some (.jump_inst label) →
      step prog m = .ok (⟨prog.syms ++ [(label, ⟨0, 0, 0⟩)], prog.insts⟩,
        ⟨0, m.fp, m.stack, m.cout⟩))
    ∧ (∀ (prog : program) (m : vm) (label : String) (rest : List Int),
      map_find prog.syms label = none → m.stack = rest ++ [0] →
      prog.insts[m.pc.toNat]? = some (.jump_if_zero_inst label) →
      step prog m = .ok (⟨prog.syms ++ [(label, ⟨0, 0, 0⟩)], prog.insts⟩,
        ⟨0, m.fp, rest, m.cout⟩))
    ∧ (∀ (prog : program) (m : vm) (label : String) (rest : List Int) (v : Int),
      map_find prog.syms label = none → m.stack = rest ++ [v] → v ≠ 0 →
      prog.insts[m.pc.toNat]? = some (.jump_if_not_zero_inst label) →
      step prog m = .ok (⟨prog.syms ++ [(label, ⟨0, 0, 0⟩)], prog.insts⟩,
        ⟨0, m.fp, rest, m.cout⟩))
    ∧ front_end "f();" = .ok ⟨[], [.call_inst "f" 0]⟩
    ∧ (∀ n : Nat, eval n ⟨[], [.call_inst "f" 0]⟩ ⟨0, 0, [], ""⟩ = .error .fuel)
    ∧ (∀ n : Nat, run "f();" n = .error .fuel) := by
  have hfe : front_end "f();" = .ok ⟨[], [.call_inst "f" 0]⟩ := by decide!
  refine ⟨?_, ?_, ?_, ?_, hfe, ?_, ?_⟩
  · intro prog m f argc hne hs hi
    simp only [step, hi, exec, hne, if_false, sym_missing prog f hs]
    simp
  · intro prog m label hs hi
    simp only [step, hi, exec, sym_missing prog label hs]
  · intro prog m label rest hs hst hi
    simp only [step, hi, exec, hst, pop_stack_concat, if_true, sym_missing prog label hs]
  · intro prog m label rest v hs hst hv hi
    simp only [step, hi, exec, hst, pop_stack_concat, ne_eq, hv, not_false_eq_true, if_true,
      sym_missing prog label hs]
  · intro n
    exact call_of_unknown_loops n _ _ rfl (Or.inl rfl) rfl
  · intro n
    simp only [run, hfe]
    have hsa : show_asm [.call_inst "f" 0] ⟨[], [.call_inst "f" 0]⟩
        = ⟨[("f", ⟨0, 0, 0⟩)], [.call_inst "f" 0]⟩ := by decide!
    rw [hsa, call_of_unknown_loops n ⟨[("f", ⟨0, 0, 0⟩)], [.call_inst "f" 0]⟩ ⟨0, 0, [], ""⟩
      rfl (Or.inr (by decide)) rfl]

/-! ## C28: `ADD` and `SUB` -/

/-- C28: on a stack that ends with `left`, `right`, `ADD` replaces the two by
`left + right` and `SUB` by `left - right`, reduced to 32 bits: the result lies
in the `int32_t` range and differs from the exact result by a multiple of
`2^32` (so it is the exact result when that is in range); the rest of the
stack, `fp` and the output are unchanged, the program is unchanged and `pc`
becomes `pc + 1`. -/
theorem C28_add_sub_wrap :
    (∀ (prog : program) (m : vm) (rest : List Int) (left right : Int),
      m.stack = rest ++ [left, right] →
      (prog.insts[m.pc.toNat]? = some .add_inst →
        step prog m = .ok (prog, ⟨m.pc + 1, m.fp, rest ++ [wrap32 (left + right)], m.cout⟩))
      ∧ (prog.insts[m.pc.toNat]? = some .subtract_inst →
        step prog m = .ok (prog, ⟨m.pc + 1, m.fp, rest ++ [wrap32 (left - right)], m.cout⟩)))
    ∧ (∀ v : Int, -2147483648 ≤ wrap32 v ∧ wrap32 v ≤ 2147483647
        ∧ (4294967296 : Int) ∣ wrap32 v - v)
    ∧ (∀ v : Int, -2147483648 ≤ v → v ≤ 2147483647 → wrap32 v = v)
    ∧ step ⟨[], [.add_inst]⟩ ⟨0, 0, [2147483647, 1], ""⟩
        = .ok (⟨[], [.add_inst]⟩, ⟨1, 0, [-2147483648], ""⟩)
    ∧ step ⟨[], [.subtract_inst]⟩ ⟨0, 0, [-2147483648, 1], ""⟩
        = .ok (⟨[], [.subtract_inst]⟩, ⟨1, 0, [2147483647], ""⟩) := by
  refine ⟨?_, ?_, ?_, by decide!, by decide!⟩
  · intro prog m rest left right hst
    have h2 : rest ++ [left, right] = (rest ++ [left]) ++ [right] := by simp
    constructor
    · intro hi
      simp only [step, hi, exec, hst, h2, pop_stack_concat]
    · intro hi
      simp only [step, hi, exec, hst, h2, pop_stack_concat]
  · intro v
    unfold wrap32
    refine ⟨by omega, by omega, ?_⟩
    have : (v + 2147483648) % 4294967296 - 2147483648 - v
        = -(4294967296 * ((v + 2147483648) / 4294967296)) := by
      have := Int.emod_add_ediv (v + 2147483648) 4294967296
      omega
    rw [this]
    exact Dvd.dvd.neg_right (Dvd.intro _ rfl)
  · intro v h1 h2
    unfold wrap32
    omega

/-! ## C29: `COND` -/

/-- C29: on a stack that ends with `left`, `right`, `COND op` replaces the two
by one value: for `LT`, `GT`, `LE`, `GE`, `EQ`, `NE` it is 1 when the comparison
of `left` with `right` as signed integers holds and 0 otherwise, for `AND` it
is the bitwise and and for `OR` the bitwise or of `left` and `right` (bit by
bit in two's complement); the rest of the stack, `fp` and the output are
unchanged, the program is unchanged and `pc` becomes `pc + 1`. -/
theorem C29_cond_values :
    (∀ (prog : program) (m : vm) (rest : List Int) (left right : Int) (op : logical_op),
      m.stack = rest ++ [left, right] →
      prog.insts[m.pc.toNat]? = some (.logic_cond_inst op) →
      ∃ v, step prog m = .ok (prog, ⟨m.pc + 1, m.fp, rest ++ [v], m.cout⟩)
        ∧ (op = .LT → v = if left < right then 1 else 0)
        ∧ (op = .GT → v = if left > right then 1 else 0)
        ∧ (op = .LE → v = if left ≤ right then 1 else 0)
        ∧ (op = .GE → v = if left ≥ right then 1 else 0)
        ∧ (op = .EQ → v = if left = right then 1 else 0)
        ∧ (op = .NE → v = if left ≠ right then 1 else 0)
        ∧ (op = .AND → ∀ i : Nat, v.testBit i = (left.testBit i && right.testBit i))
        ∧ (op = .OR → ∀ i : Nat, v.testBit i = (left.testBit i || right.testBit i)))
    ∧ step ⟨[], [.logic_cond_inst .AND]⟩ ⟨0, 0, [6, 3], ""⟩
        = .ok (⟨[], [.logic_cond_inst .AND]⟩, ⟨1, 0, [2], ""⟩)
    ∧ step ⟨[], [.logic_cond_inst .OR]⟩ ⟨0, 0, [-4, 1], ""⟩
        = .ok (⟨[], [.logic_cond_inst .OR]⟩, ⟨1, 0, [-3], ""⟩)
    ∧ step ⟨[], [.logic_cond_inst .LT]⟩ ⟨0, 0, [-1, 0], ""⟩
        = .ok (⟨[], [.logic_cond_inst .LT]⟩, ⟨1, 0, [1], ""⟩) := by
  refine ⟨?_, by decide!, by decide!, by decide!⟩
  intro prog m rest left right op hst hi
  have h2 : rest ++ [left, right] = (rest ++ [left]) ++ [right] := by simp
  refine ⟨logic_cond op left right, ?_, ?_⟩
  · simp only [step, hi, exec, hst, h2, pop_stack_concat]
  · refine ⟨?_, ?_, ?_, ?_, ?_, ?_, ?_, ?_⟩ <;> intro h <;> subst h
    · rfl
    · rfl
    · rfl
    · rfl
    · rfl
    · rfl
    · intro i
      exact Int.testBit_land left right i
    · intro i
      exact Int.testBit_lor left right i

/-! ## C30: the slot of a local -/

/-- C30 as stated fails for a second declaration of a name: in
`local x = 1; local x = 2; print(x);` the second declaration stores to slot 1
(`POP_FP 1`), but `x` keeps slot 0 and the reference reads slot 0
(`PUSH_FP 0`), so the program prints 1. -/
theorem C30_redeclared_local_keeps_its_slot :
    front_end "local x = 1; local x = 2; print(x);"
      = .ok ⟨[], [.store_inst 1, .move_plus_fp_inst 0, .store_inst 2, .move_plus_fp_inst 1,
          .dup_plus_fp_inst 0, .call_inst "print" 1]⟩
    ∧ run "local x = 1; local x = 2; print(x);" 6 = .ok "1 \n" := by
  constructor <;> decide!

/-- C30 amended: lowering `local x = E` with the locals map `m` inserts
`x -> |m|` into the map unless `x` has an entry, lowers `E` with that map and
then appends `POP_FP |m|`.  When `x` had no entry in `m`, a reference to `x`
lowered afterwards emits `PUSH_FP |m|`, the slot of the `POP_FP`; when `x` had
the slot `s` in `m`, it keeps `s`, and a reference emits `PUSH_FP s`. -/
theorem C30_local_slot (prog : program) (m : locals_t) (x : token_t) (E : expr_t)
    (prog1 : program) (m1 : locals_t)
    (h : compile_statement prog m (.local_stmt x E) = .ok (prog1, m1)) :
    (∃ p', compile_expr prog (map_insert m x.literal (m.length : Int)) E = .ok (p', m1)
      ∧ prog1 = p'.push (.move_plus_fp_inst m.length))
    ∧ (map_find m x.literal = none →
        map_find m1 x.literal = some (m.length : Int)
        ∧ ∀ (ref : token_t) (prog2 : program), ref.literal = x.literal →
          compile_expr prog2 m1 (.literal_id ref)
            = .ok (prog2.push (.dup_plus_fp_inst m.length), m1))
    ∧ (∀ s, map_find m x.literal = some s →
        map_find m1 x.literal = some s
        ∧ ∀ (ref : token_t) (prog2 : program), ref.literal = x.literal →
          compile_expr prog2 m1 (.literal_id ref)
            = .ok (prog2.push (.dup_plus_fp_inst s), m1)) := by
  rw [compile_statement] at h
  cases hc : clone E with
  | error e => simp [hc] at h
  | ok c =>
    simp only [hc] at h
    cases he : compile_expr prog (map_insert m x.literal (m.length : Int)) E with
    | error e => simp [he] at h
    | ok r =>
      obtain ⟨p', l'⟩ := r
      simp only [he, Except.ok.injEq, Prod.mk.injEq] at h
      obtain ⟨rfl, rfl⟩ := h
      have hkept := compile_expr_locals_kept E prog _ p' l' he
      have href : ∀ (s : Int), map_find l' x.literal = some s →
          ∀ (ref : token_t) (prog2 : program), ref.literal = x.literal →
          compile_expr prog2 l' (.literal_id ref)
            = .ok (prog2.push (.dup_plus_fp_inst s), l') := by
        intro s hs ref prog2 hr
        rw [compile_expr]
        simp only [compile_literal, map_index, hr, hs]
      refine ⟨⟨p', rfl, rfl⟩, ?_, ?_⟩
      · intro hn
        have h1 := hkept _ _ (map_insert_found m x.literal (m.length : Int) hn)
        exact ⟨h1, href _ h1⟩
      · intro s hs
        have h1 := hkept _ _ (map_insert_kept m x.literal (m.length : Int) s x.literal hs)
        exact ⟨h1, href _ h1⟩

/-- C30 amended, on `local x = 1` lowered on the empty program with no locals. -/
theorem C30_local_slot_witness :
    compile_statement ⟨[], []⟩ []
        (.local_stmt ⟨token_kind.t_identifier, "x", ⟨1, 7, 6⟩⟩
          (.literal_number ⟨token_kind.t_number, "1", ⟨1, 11, 10⟩⟩))
      = .ok (⟨[], [.store_inst 1, .move_plus_fp_inst 0]⟩, [("x", 0)])
    ∧ map_find ([("x", 0)] : locals_t) "x" = some 0 :=
  ⟨by decide!,
    ((C30_local_slot ⟨[], []⟩ [] ⟨token_kind.t_identifier, "x", ⟨1, 7, 6⟩⟩
      (.literal_number ⟨token_kind.t_number, "1", ⟨1, 11, 10⟩⟩)
      ⟨[], [.store_inst 1, .move_plus_fp_inst 0]⟩ [("x", 0)] (by decide!)).2.1 rfl).1⟩

/-! ## The parameter loop -/

/-- The program after the parameter loop: the symbols are untouched and one
`ST_FP` per parameter is appended. -/
theorem compile_params_code (nargs : Nat) : ∀ (params : List token_t) (i : Nat)
    (p : program) (nl : locals_t),
    (compile_params nargs params i p nl).1
      = ⟨p.syms, p.insts ++ (List.range' i params.length).map
          fun k => .move_minus_fp_inst k ((nargs : Int) - ((k : Int) + 1))⟩ := by
  intro params
  induction params with
  | nil => intro i p nl; simp [compile_params]
  | cons x xs ih =>
    intro i p nl
    simp only [compile_params]
    rw [ih]
    simp [program.push, List.range'_succ]

/-- The program after the parameter loop of a declaration. -/
theorem compile_params_prologue (params : List token_t) (p : program) (nl : locals_t) :
    (compile_params params.length params 0 p nl).1
      = ⟨p.syms, p.insts ++ prologue params.length⟩ := by
  rw [compile_params_code, prologue, List.range_eq_range']

/-- An entry of the map is kept by the parameter loop. -/
theorem compile_params_kept (nargs : Nat) : ∀ (params : List token_t) (i : Nat)
    (p : program) (nl : locals_t) (key : String) (v : Int), map_find nl key = some v →
    map_find (compile_params nargs params i p nl).2 key = some v := by
  intro params
  induction params with
  | nil => intro i p nl key v h; simpa [compile_params] using h
  | cons x xs ih =>
    intro i p nl key v h
    simp only [compile_params]
    exact ih _ _ _ key v (map_insert_kept _ _ _ _ _ h)

/-- The map after the parameter loop: an entry of the map it starts from is
kept, any other name has the slot of the first parameter of that name. -/
theorem compile_params_map (nargs : Nat) : ∀ (params : List token_t) (i : Nat)
    (p : program) (nl : locals_t) (key : String),
    map_find (compile_params nargs params i p nl).2 key
      = match map_find nl key with
        | some v => some v
        | none => param_slot params i key := by
  intro params
  induction params with
  | nil => intro i p nl key; cases h : map_find nl key <;> simp [compile_params, param_slot, h]
  | cons x xs ih =>
    intro i p nl key
    simp only [compile_params]
    rw [ih]
    cases h : map_find nl key with
    | some v => simp [map_insert_kept _ _ _ _ _ h]
    | none =>
      by_cases hx : x.literal = key
      · subst hx
        simp [map_insert_found _ _ _ h, param_slot]
      · have : map_find (map_insert nl x.literal (i : Int)) key = none := by
          unfold map_insert
          cases hk : map_find nl x.literal with
          | some y => simpa using h
          | none => simp [map_find_append, h, hx]
        simp [this, param_slot, hx]

/-- With pairwise distinct names parameter `k` has slot `k`. -/
theorem param_slot_nodup : ∀ (params : List token_t) (i k : Nat) (x : token_t),
    (params.map fun t => t.literal).Nodup → params[k]? = some x →
    param_slot params i x.literal = some ((i + k : Nat) : Int) := by
  intro params
  induction params with
  | nil => intro i k x _ hk; simp at hk
  | cons a as ih =>
    intro i k x hnd hk
    simp only [List.map_cons, List.nodup_cons] at hnd
    cases k with
    | zero =>
      simp only [List.getElem?_cons_zero, Option.some.injEq] at hk
      subst hk
      simp [param_slot]
    | succ k =>
      simp only [List.getElem?_cons_succ] at hk
      have hne : a.literal ≠ x.literal := by
        intro e
        apply hnd.1
        rw [e]
        exact List.mem_map_of_mem _ (List.getElem?_mem hk)
      simp only [param_slot, hne, if_false]
      rw [ih (i + 1) k x hnd.2 hk]
      congr 2
      omega

/-! ## The program of a function that ends with a nested declaration -/

/-- What `back_is_return` tests: the last instruction is a `return_inst`, with or
without a value. -/
theorem back_is_return_iff (p : program) :
    back_is_return p = true ↔ ∃ b, p.insts.getLast? = some (.return_inst b) := by
  unfold back_is_return
  cases h : p.insts.getLast? with
  | none => simp
  | some i => cases i <;> simp

/-- Inside `nested_program` the machine alternates between the `CALL f` at 3 and
the `JMP function_done_1` at 1, and never leaves the loop. -/
theorem nested_program_loops : ∀ (n : Nat) (m : vm), (m.pc = 1 ∨ m.pc = 3) →
    eval n nested_program m = .error .fuel := by
  intro n
  induction n with
  | zero =>
    intro m hpc
    rw [eval]
    rcases hpc with h | h <;> simp [running, h, nested_program]
  | succ n ih =>
    intro m hpc
    rw [eval]
    rcases hpc with h | h
    · have hrun : running nested_program m = true := by simp [running, h, nested_program]
      have hstep : step nested_program m = .ok (nested_program, { m with pc := 3 }) := by
        have hi : nested_program.insts[Int.toNat 1]? = some (.jump_inst "function_done_1") := by
          decide
        have hs : map_find nested_program.syms "function_done_1" = some ⟨3, 0, 0⟩ := by decide
        simp only [step, h, hi, exec, sym_present nested_program "function_done_1" _ hs]
      simp only [hrun, if_true, hstep]
      exact ih _ (Or.inr rfl)
    · have hrun : running nested_program m = true := by simp [running, h, nested_program]
      have hstep : step nested_program m = .ok (nested_program,
          { m with pc := 1, fp := ((m.stack ++ [m.fp, m.pc + 1, ((0 : Nat) : Int)]).length : Int),
                   stack := m.stack ++ [m.fp, m.pc + 1, ((0 : Nat) : Int)]
                     ++ List.replicate 0 0 }) := by
        have hne : ("f" : String) ≠ "print" := by decide
        have hi : nested_program.insts[Int.toNat 3]? = some (.call_inst "f" 0) := by decide
        have hs : map_find nested_program.syms "f" = some ⟨1, 0, 0⟩ := by decide
        simp only [step, h, hi, exec, hne, if_false, sym_present nested_program "f" _ hs]
      simp only [hrun, if_true, hstep]
      exact ih _ (Or.inl rfl)

/-! ## Statement lists in sequence -/

/-- Lowering a concatenation lowers the first list and then the second. -/
theorem compile_block_append : ∀ (a b : List stmt_t) (p : program) (l : locals_t),
    compile_block p l (a ++ b)
      = match compile_block p l a with
        | .error e => .error e
        | .ok (q, l') => compile_block q l' b
  | [], b, p, l => by simp [compile_block]
  | st :: a, b, p, l => by
    rw [List.cons_append, compile_block, compile_block]
    cases h : compile_statement p l st with
    | error e => rfl
    | ok r =>
      obtain ⟨q, l'⟩ := r
      exact compile_block_append a b q l'

/-- A symbol is never changed by lowering further statements. -/
theorem compile_block_kept (sts : List stmt_t) (p : program) (l : locals_t) (q : program)
    (l' : locals_t) (h : compile_block p l sts = .ok (q, l')) (key : String) (s : symbol)
    (hs : map_find p.syms key = some s) : map_find q.syms key = some s := by
  obtain ⟨_, added, E, _⟩ := compile_block_effect sts p l q l' h
  exact E.kept key s hs

/-! ## C31: the code and the labels of an `if` statement -/

/-- C31 as stated fails on `clash_source`: the `if` is lowered at instruction
count 3, its `JMP label_out_3` is instruction 7, but `label_else_3` is not
registered at 8: the table already holds the function `label_else_3` (entry 1),
and `std::map::insert` keeps the entry it finds.  The `JZ label_else_3` then
jumps into that function, and the run ends with `std::out_of_range` where the
else-body would have printed 2. -/
theorem C31_label_insert_is_dropped :
    front_end clash_source = .ok clash_program
    ∧ clash_program.insts[4]? = some (.jump_if_zero_inst "label_else_3")
    ∧ clash_program.insts[7]? = some (.jump_inst "label_out_3")
    ∧ map_find clash_program.syms "label_else_3" = some ⟨1, 1, 1⟩
    ∧ map_find clash_program.syms "label_else_3" ≠ some ⟨8, 0, 0⟩
    ∧ run clash_source 100 = .error (.thrown "vector::at: out_of_range") := by
  refine ⟨by decide!, by decide, by decide, by decide, by decide, by decide!⟩

/-- C31 amended: let an `if` statement be lowered (with success) into a program
`p` of `i` instructions, giving `q`.  Then
`q.insts = p.insts ++ code(condition) ++ [JZ label_else_i] ++ code(then-body)
++ [JMP label_out_i] ++ code(else-body)`, where the three code blocks are what
`compile_expr` and the two statement loops append, each started on the program
left by the part before it.  `label_else_i -> (index after the JMP, 0, 0)` is
inserted before the else-body is lowered and `label_out_i -> (|q.insts|, 0, 0)`
after it, both with `std::map::insert`: a label without an entry at that moment
gets the stated index, a label that has an entry keeps the entry. -/
theorem C31_if_lowering (p : program) (l : locals_t) (c : expr_t) (t e : List stmt_t)
    (q : program) (l' : locals_t)
    (h : compile_statement p l (.if_stmt c t e) = .ok (q, l')) :
    ∃ (codeC codeT codeE : List instruction) (lc lt : locals_t)
      (st se : List (String × symbol)),
      q.insts = p.insts ++ codeC ++ [.jump_if_zero_inst ("label_else_" ++ toString p.insts.length)]
        ++ codeT ++ [.jump_inst ("label_out_" ++ toString p.insts.length)] ++ codeE
      ∧ compile_expr p l c = .ok (⟨p.syms, p.insts ++ codeC⟩, lc)
      ∧ compile_block ⟨p.syms, p.insts ++ codeC
            ++ [.jump_if_zero_inst ("label_else_" ++ toString p.insts.length)]⟩ lc t
          = .ok (⟨st, p.insts ++ codeC
            ++ [.jump_if_zero_inst ("label_else_" ++ toString p.insts.length)] ++ codeT⟩, lt)
      ∧ compile_block
          ⟨map_insert st ("label_else_" ++ toString p.insts.length)
              ⟨(p.insts.length + codeC.length + 1 + codeT.length + 1 : Nat), 0, 0⟩,
            p.insts ++ codeC ++ [.jump_if_zero_inst ("label_else_" ++ toString p.insts.length)]
              ++ codeT ++ [.jump_inst ("label_out_" ++ toString p.insts.length)]⟩ lt e
          = .ok (⟨se, q.insts⟩, l')
      ∧ q.syms = map_insert se ("label_out_" ++ toString p.insts.length)
          ⟨(q.insts.length : Nat), 0, 0⟩
      ∧ (map_find st ("label_else_" ++ toString p.insts.length) = none →
          map_find q.syms ("label_else_" ++ toString p.insts.length)
            = some ⟨(p.insts.length + codeC.length + 1 + codeT.length + 1 : Nat), 0, 0⟩)
      ∧ (∀ s, map_find st ("label_else_" ++ toString p.insts.length) = some s →
          map_find q.syms ("label_else_" ++ toString p.insts.length) = some s)
      ∧ (map_find se ("label_out_" ++ toString p.insts.length) = none →
          map_find q.syms ("label_out_" ++ toString p.insts.length)
            = some ⟨(q.insts.length : Nat), 0, 0⟩)
      ∧ (∀ s, map_find se ("label_out_" ++ toString p.insts.length) = some s →
          map_find q.syms ("label_out_" ++ toString p.insts.length) = some s) := by
  rw [compile_statement] at h
  cases hcl : clone c with
  | error x => simp [hcl] at h
  | ok c' =>
    simp only [hcl] at h
    cases hc : compile_expr p l c with
    | error x => simp [hc] at h
    | ok rc =>
      obtain ⟨pc, lc⟩ := rc
      simp only [hc] at h
      obtain ⟨hcs, _, codeC, hci, _⟩ := compile_expr_effect c p l pc lc hc
      cases ht : compile_block
          (pc.push (.jump_if_zero_inst ("label_else_" ++ toString p.insts.length))) lc t with
      | error x => simp [ht] at h
      | ok rt =>
        obtain ⟨pt, lt⟩ := rt
        simp only [ht] at h
        obtain ⟨_, codeT, ET, _⟩ := compile_block_effect t _ lc pt lt ht
        cases he : compile_block
            { (pt.push (.jump_inst ("label_out_" ++ toString p.insts.length))) with
              syms := map_insert (pt.push (.jump_inst ("label_out_" ++ toString p.insts.length))).syms
                ("label_else_" ++ toString p.insts.length)
                ⟨(pt.push (.jump_inst ("label_out_" ++ toString p.insts.length))).insts.length,
                  0, 0⟩ } lt e with
        | error x => simp [he] at h
        | ok re =>
          obtain ⟨pe, le⟩ := re
          simp only [he, Except.ok.injEq, Prod.mk.injEq] at h
          obtain ⟨rfl, rfl⟩ := h
          obtain ⟨_, codeE, EE, _⟩ := compile_block_effect e _ lt pe le he
          have hpc : pc = ⟨p.syms, p.insts ++ codeC⟩ := by
            cases pc; simp only [program.mk.injEq]; exact ⟨hcs, hci⟩
          subst hpc
          have hpti : pt.insts = p.insts ++ codeC
              ++ [.jump_if_zero_inst ("label_else_" ++ toString p.insts.length)] ++ codeT := by
            rw [ET.insts]; rfl
          have hpt : pt = ⟨pt.syms, p.insts ++ codeC
              ++ [.jump_if_zero_inst ("label_else_" ++ toString p.insts.length)] ++ codeT⟩ := by
            cases pt; simp only [program.mk.injEq, true_and]; exact hpti
          have hpei : pe.insts = p.insts ++ codeC
              ++ [.jump_if_zero_inst ("label_else_" ++ toString p.insts.length)] ++ codeT
              ++ [.jump_inst ("label_out_" ++ toString p.insts.length)] ++ codeE := by
            rw [EE.insts]; simp only [program.push]; rw [hpti]
          have hlen : (pt.push (.jump_inst ("label_out_" ++ toString p.insts.length))).insts.length
              = p.insts.length + codeC.length + 1 + codeT.length + 1 := by
            simp only [program.push]; rw [hpti]; simp only [List.length_append, List.length_singleton]
          refine ⟨codeC, codeT, codeE, lc, lt, pt.syms, pe.syms, hpei, rfl, ?_, ?_, ?_, ?_, ?_, ?_, ?_⟩
          · rw [← hpt]; exact ht
          · rw [← hlen]
            have : (⟨pe.syms, pe.insts⟩ : program) = pe := rfl
            rw [this, ← he]
            congr 1
            simp only [program.push]
            rw [hpti]
          · rfl
          · intro hn
            have h1 := map_insert_found pt.syms ("label_else_" ++ toString p.insts.length)
              (⟨(p.insts.length + codeC.length + 1 + codeT.length + 1 : Nat), 0, 0⟩ : symbol) hn
            rw [← hlen] at h1 ⊢
            exact map_insert_kept _ _ _ _ _ (EE.kept _ _ h1)
          · intro s hs
            have h1 := map_insert_kept pt.syms ("label_else_" ++ toString p.insts.length)
              (⟨(pt.push (.jump_inst ("label_out_" ++ toString p.insts.length))).insts.length,
                  0, 0⟩ : symbol) s _ hs
            exact map_insert_kept _ _ _ _ _ (EE.kept _ _ h1)
          · intro hn
            exact map_insert_found _ _ _ hn
          · intro s hs
            exact map_insert_kept _ _ _ _ _ hs

/-- C31 amended, on the `if` statement of `if_tree` lowered into the empty program. -/
theorem C31_if_lowering_witness :
    compile_statement ⟨[], []⟩ []
        (.if_stmt (.literal_number ⟨token_kind.t_number, "1", ⟨1, 4, 3⟩⟩) [] [])
      = .ok (if_program, [])
    ∧ ∃ (codeC codeT codeE : List instruction) (lc lt : locals_t)
      (st se : List (String × symbol)),
      if_program.insts = (⟨[], []⟩ : program).insts ++ codeC
        ++ [.jump_if_zero_inst ("label_else_" ++ toString (⟨[], []⟩ : program).insts.length)]
        ++ codeT ++ [.jump_inst ("label_out_" ++ toString (⟨[], []⟩ : program).insts.length)]
        ++ codeE
      ∧ compile_expr ⟨[], []⟩ [] (.literal_number ⟨token_kind.t_number, "1", ⟨1, 4, 3⟩⟩)
          = .ok (⟨(⟨[], []⟩ : program).syms, (⟨[], []⟩ : program).insts ++ codeC⟩, lc)
      ∧ compile_block ⟨(⟨[], []⟩ : program).syms, (⟨[], []⟩ : program).insts ++ codeC
            ++ [.jump_if_zero_inst
                ("label_else_" ++ toString (⟨[], []⟩ : program).insts.length)]⟩ lc []
          = .ok (⟨st, (⟨[], []⟩ : program).insts ++ codeC
            ++ [.jump_if_zero_inst ("label_else_" ++ toString (⟨[], []⟩ : program).insts.length)]
            ++ codeT⟩, lt)
      ∧ compile_block
          ⟨map_insert st ("label_else_" ++ toString (⟨[], []⟩ : program).insts.length)
              ⟨((⟨[], []⟩ : program).insts.length + codeC.length + 1 + codeT.length + 1 : Nat),
                0, 0⟩,
            (⟨[], []⟩ : program).insts ++ codeC
              ++ [.jump_if_zero_inst
                  ("label_else_" ++ toString (⟨[], []⟩ : program).insts.length)]
              ++ codeT
              ++ [.jump_inst ("label_out_" ++ toString (⟨[], []⟩ : program).insts.length)]⟩ lt []
          = .ok (⟨se, if_program.insts⟩, [])
      ∧ if_program.syms = map_insert se
          ("label_out_" ++ toString (⟨[], []⟩ : program).insts.length)
          ⟨(if_program.insts.length : Nat), 0, 0⟩
      ∧ (map_find st ("label_else_" ++ toString (⟨[], []⟩ : program).insts.length) = none →
          map_find if_program.syms ("label_else_" ++ toString (⟨[], []⟩ : program).insts.length)
            = some ⟨((⟨[], []⟩ : program).insts.length + codeC.length + 1 + codeT.length + 1
                : Nat), 0, 0⟩)
      ∧ (∀ s, map_find st ("label_else_" ++ toString (⟨[], []⟩ : program).insts.length)
            = some s →
          map_find if_program.syms ("label_else_" ++ toString (⟨[], []⟩ : program).insts.length)
            = some s)
      ∧ (map_find se ("label_out_" ++ toString (⟨[], []⟩ : program).insts.length) = none →
          map_find if_program.syms ("label_out_" ++ toString (⟨[], []⟩ : program).insts.length)
            = some ⟨(if_program.insts.length : Nat), 0, 0⟩)
      ∧ (∀ s, map_find se ("label_out_" ++ toString (⟨[], []⟩ : program).insts.length)
            = some s →
          map_find if_program.syms ("label_out_" ++ toString (⟨[], []⟩ : program).insts.length)
            = some s) :=
  ⟨by decide!, C31_if_lowering ⟨[], []⟩ []
    (.literal_number ⟨token_kind.t_number, "1", ⟨1, 4, 3⟩⟩) [] [] if_program [] (by decide!)⟩

/-! ## C32: the code and the symbols of a function declaration -/

/-- C32 as stated fails on `function f(a, a) end`: the locals map the body is
lowered against does not hold `p_1 -> 1`.  The parameter loop inserts `a -> 0`
and then `a -> 1` with `std::map::insert`, which keeps `a -> 0`; the map has one
entry, and the symbol of `f` records two parameters and one local slot. -/
theorem C32_repeated_parameter_has_one_slot :
    front_end twice_source = .ok twice_program
    ∧ map_find twice_program.syms "f" = some ⟨1, 2, 1⟩
    ∧ (compile_params 2
        [⟨token_kind.t_identifier, "a", ⟨1, 12, 11⟩⟩, ⟨token_kind.t_identifier, "a", ⟨1, 15, 14⟩⟩]
        0 ⟨[], [.jump_inst "function_done_0"]⟩ []).2 = [("a", 0)]
    ∧ map_find (compile_params 2
        [⟨token_kind.t_identifier, "a", ⟨1, 12, 11⟩⟩, ⟨token_kind.t_identifier, "a", ⟨1, 15, 14⟩⟩]
        0 ⟨[], [.jump_inst "function_done_0"]⟩ []).2 "a" ≠ some 1 := by
  refine ⟨by decide!, by decide, by decide, by decide⟩

/-- C32 amended: let `function f(p_0 .. p_{N-1}) B end` be lowered (with success)
into a program `p` of `i` instructions, giving `q`.  Then `q.insts` is `p.insts`
followed by `JMP function_done_i`, the `N` prologue instructions
`ST_FP -(N-k-1) -> +k`, the code of `B`, and a `RET` unless a `return_inst` is
last.  `B` is lowered against the map of the parameter loop, which maps a name
to the slot of the first parameter of that name (so to `p_k -> k` for all `k`
when the names are pairwise distinct, and then it has `N` entries); the map of
the enclosing scope is unchanged.  After the body `f -> (i + 1, N, size of the
inner map)` and then `function_done_i -> (|q.insts|, 0, 0)` are inserted with
`std::map::insert`: `f` gets this entry when the table had none for `f`, and
keeps the entry it had otherwise. -/
theorem C32_function_lowering (p : program) (l : locals_t) (name : token_t)
    (params : List token_t) (body : List stmt_t) (q : program) (l' : locals_t)
    (h : compile_statement p l (.func_decl name params body) = .ok (q, l')) :
    ∃ (codeB ret : List instruction) (nl : locals_t) (sB : List (String × symbol)),
      q.insts = p.insts ++ [.jump_inst ("function_done_" ++ toString p.insts.length)]
        ++ prologue params.length ++ codeB ++ ret
      ∧ compile_block
          ⟨p.syms, p.insts ++ [.jump_inst ("function_done_" ++ toString p.insts.length)]
            ++ prologue params.length⟩
          (compile_params params.length params 0
            (p.push (.jump_inst ("function_done_" ++ toString p.insts.length))) []).2 body
        = .ok (⟨sB, p.insts ++ [.jump_inst ("function_done_" ++ toString p.insts.length)]
            ++ prologue params.length ++ codeB⟩, nl)
      ∧ ret = (if back_is_return
            ⟨sB, p.insts ++ [.jump_inst ("function_done_" ++ toString p.insts.length)]
              ++ prologue params.length ++ codeB⟩ = true then []
          else [.return_inst false])
      ∧ q.syms = map_insert
          (map_insert sB name.literal ⟨(p.insts.length + 1 : Nat), params.length, nl.length⟩)
          ("function_done_" ++ toString p.insts.length) ⟨(q.insts.length : Nat), 0, 0⟩
      ∧ l' = l
      ∧ (∀ key, map_find (compile_params params.length params 0
            (p.push (.jump_inst ("function_done_" ++ toString p.insts.length))) []).2 key
          = param_slot params 0 key)
      ∧ ((params.map fun t => t.literal).Nodup →
          (compile_params params.length params 0
            (p.push (.jump_inst ("function_done_" ++ toString p.insts.length))) []).2.length
            = params.length
          ∧ ∀ (k : Nat) (x : token_t), params[k]? = some x →
            map_find (compile_params params.length params 0
              (p.push (.jump_inst ("function_done_" ++ toString p.insts.length))) []).2 x.literal
              = some (k : Int))
      ∧ (map_find sB name.literal = none →
          map_find q.syms name.literal
            = some ⟨(p.insts.length + 1 : Nat), params.length, nl.length⟩)
      ∧ (∀ s, map_find sB name.literal = some s → map_find q.syms name.literal = some s) := by
  rw [compile_statement] at h
  have hP1 := compile_params_prologue params
    (p.push (.jump_inst ("function_done_" ++ toString p.insts.length))) []
  have hM := compile_params_map params.length params 0
    (p.push (.jump_inst ("function_done_" ++ toString p.insts.length))) []
  have hL := compile_params_locals params.length params 0
    (p.push (.jump_inst ("function_done_" ++ toString p.insts.length))) []
  cases hP : compile_params params.length params 0
      (p.push (.jump_inst ("function_done_" ++ toString p.insts.length))) [] with
  | mk pP nl0 =>
    rw [hP] at hP1 hM hL
    simp only at hP1 hM hL
    simp only [hP] at h
    cases hB : compile_block pP nl0 body with
    | error x => simp [hB] at h
    | ok rB =>
      obtain ⟨pB, nl⟩ := rB
      simp only [hB, Except.ok.injEq, Prod.mk.injEq] at h
      obtain ⟨rfl, rfl⟩ := h
      obtain ⟨_, codeB, EB, _⟩ := compile_block_effect body pP nl0 pB nl hB
      have hpPi : pP.insts = p.insts ++ [.jump_inst ("function_done_" ++ toString p.insts.length)]
          ++ prologue params.length := by rw [hP1]; rfl
      have hpBi : pB.insts = p.insts ++ [.jump_inst ("function_done_" ++ toString p.insts.length)]
          ++ prologue params.length ++ codeB := by rw [EB.insts, hpPi]
      have hpB : pB = ⟨pB.syms, p.insts
          ++ [.jump_inst ("function_done_" ++ toString p.insts.length)]
          ++ prologue params.length ++ codeB⟩ := by
        cases pB; simp only [program.mk.injEq, true_and]; exact hpBi
      refine ⟨codeB, if back_is_return pB = true then [] else [.return_inst false], nl, pB.syms,
        ?_, ?_, ?_, ?_, rfl, ?_, ?_, ?_, ?_⟩
      · cases hb : back_is_return pB
        · simp [program.push, hpBi]
        · simp [hpBi]
      · rw [← hpB]
        have : (⟨p.syms, p.insts ++ [.jump_inst ("function_done_" ++ toString p.insts.length)]
            ++ prologue params.length⟩ : program) = pP := by rw [hP1]; rfl
        rw [this]; exact hB
      · rw [← hpB]
      · by_cases hb : back_is_return pB = true
        · simp [hb, program.push]
        · simp [hb, program.push]
      · intro key
        rw [hM]; rfl
      · intro hnd
        refine ⟨by simpa using hL hnd (by intro x _; rfl), ?_⟩
        intro k x hk
        rw [hM]
        show param_slot params 0 x.literal = some (k : Int)
        rw [param_slot_nodup params 0 k x hnd hk]
        simp
      · intro hn
        apply map_insert_kept
        by_cases hb : back_is_return pB = true
        · simp only [hb, if_true]
          have := map_insert_found pB.syms name.literal
            (⟨((p.push (.jump_inst ("function_done_" ++ toString p.insts.length))).insts.length
              : Int), params.length, nl.length⟩ : symbol) hn
          simpa [program.push] using this
        · simp only [hb, if_false]
          have := map_insert_found pB.syms name.literal
            (⟨((p.push (.jump_inst ("function_done_" ++ toString p.insts.length))).insts.length
              : Int), params.length, nl.length⟩ : symbol) hn
          simpa [program.push] using this
      · intro s hs
        apply map_insert_kept
        by_cases hb : back_is_return pB = true
        · simp only [hb, if_true]; exact map_insert_kept _ _ _ _ _ hs
        · simp only [hb, if_false]; exact map_insert_kept _ _ _ _ _ hs

/-- C32 amended, on the declaration of `succ` lowered into the empty program. -/
theorem C32_function_lowering_witness :
    compile_statement ⟨[], []⟩ [] (.func_decl succ_name succ_params succ_body)
      = .ok (succ_decl_program, [])
    ∧
    ∃ (codeB ret : List instruction) (nl : locals_t) (sB : List (String × symbol)),
      succ_decl_program.insts = (⟨[], []⟩ : program).insts ++ [.jump_inst ("function_done_" ++ toString (⟨[], []⟩ : program).insts.length)]
        ++ prologue succ_params.length ++ codeB ++ ret
      ∧ compile_block
          ⟨(⟨[], []⟩ : program).syms, (⟨[], []⟩ : program).insts ++ [.jump_inst ("function_done_" ++ toString (⟨[], []⟩ : program).insts.length)]
            ++ prologue succ_params.length⟩
          (compile_params succ_params.length succ_params 0
            ((⟨[], []⟩ : program).push (.jump_inst ("function_done_" ++ toString (⟨[], []⟩ : program).insts.length))) []).2 succ_body
        = .ok (⟨sB, (⟨[], []⟩ : program).insts ++ [.jump_inst ("function_done_" ++ toString (⟨[], []⟩ : program).insts.length)]
            ++ prologue succ_params.length ++ codeB⟩, nl)
      ∧ ret = (if back_is_return
            ⟨sB, (⟨[], []⟩ : program).insts ++ [.jump_inst ("function_done_" ++ toString (⟨[], []⟩ : program).insts.length)]
              ++ prologue succ_params.length ++ codeB⟩ = true then []
          else [.return_inst false])
      ∧ succ_decl_program.syms = map_insert
          (map_insert sB succ_name.literal ⟨((⟨[], []⟩ : program).insts.length + 1 : Nat), succ_params.length, nl.length⟩)
          ("function_done_" ++ toString (⟨[], []⟩ : program).insts.length) ⟨(succ_decl_program.insts.length : Nat), 0, 0⟩
      ∧ ([] : locals_t) = ([] : locals_t)
      ∧ (∀ key, map_find (compile_params succ_params.length succ_params 0
            ((⟨[], []⟩ : program).push (.jump_inst ("function_done_" ++ toString (⟨[], []⟩ : program).insts.length))) []).2 key
          = param_slot succ_params 0 key)
      ∧ ((succ_params.map fun t => t.literal).Nodup →
          (compile_params succ_params.length succ_params 0
            ((⟨[], []⟩ : program).push (.jump_inst ("function_done_" ++ toString (⟨[], []⟩ : program).insts.length))) []).2.length
            = succ_params.length
          ∧ ∀ (k : Nat) (x : token_t), succ_params[k]? = some x →
            map_find (compile_params succ_params.length succ_params 0
              ((⟨[], []⟩ : program).push (.jump_inst ("function_done_" ++ toString (⟨[], []⟩ : program).insts.length))) []).2 x.literal
              = some (k : Int))
      ∧ (map_find sB succ_name.literal = none →
          map_find succ_decl_program.syms succ_name.literal
            = some ⟨((⟨[], []⟩ : program).insts.length + 1 : Nat), succ_params.length, nl.length⟩)
      ∧ (∀ s, map_find sB succ_name.literal = some s → map_find succ_decl_program.syms succ_name.literal = some s) :=
  ⟨by decide!, C32_function_lowering ⟨[], []⟩ [] succ_name succ_params succ_body
    succ_decl_program [] (by decide!)⟩

/-! ## C33: the `RET` at the end of a function -/

/-- C33 fails on `function f() function g() end end`: no `RET` is appended when
the last emitted instruction is the `RET` of a nested declaration.  The test of
`compile_func_decl` is `dynamic_cast<return_inst*>`, which holds for `RETVAL` and
for `RET` alike: lowering a declaration appends `RET` exactly when the last
instruction after the body is no `return_inst` at all.  In the program of
`nested_source` the code of `f` is the single `JMP function_done_1` at 1, which
leaves the function without returning; `f(); print(1);` then calls `f` again and
again and never prints. -/
theorem C33_no_ret_after_nested_declaration :
    (∀ (p : program) (l : locals_t) (name : token_t) (params : List token_t)
      (body : List stmt_t) (q : program) (l' : locals_t),
      compile_statement p l (.func_decl name params body) = .ok (q, l') →
      ∃ pB nl,
        compile_block
            (compile_params params.length params 0
              (p.push (.jump_inst ("function_done_" ++ toString p.insts.length))) []).1
            (compile_params params.length params 0
              (p.push (.jump_inst ("function_done_" ++ toString p.insts.length))) []).2 body
          = .ok (pB, nl)
        ∧ (back_is_return pB = true ↔ ∃ b, pB.insts.getLast? = some (.return_inst b))
        ∧ q.insts = if back_is_return pB = true then pB.insts
            else pB.insts ++ [.return_inst false])
    ∧ front_end nested_source = .ok nested_program
    ∧ nested_program.insts[1]? = some (.jump_inst "function_done_1")
    ∧ nested_program.insts[2]? = some (.return_inst false)
    ∧ map_find nested_program.syms "f" = some ⟨1, 0, 0⟩
    ∧ map_find nested_program.syms "function_done_1" = some ⟨3, 0, 0⟩
    ∧ map_find nested_program.syms "function_done_0" = some ⟨3, 0, 0⟩
    ∧ (∀ n : Nat, run nested_source n = .error .fuel) := by
  have hfe : front_end nested_source = .ok nested_program := by decide!
  refine ⟨?_, hfe, by decide, by decide, by decide, by decide, by decide, ?_⟩
  · intro p l name params body q l' h
    rw [compile_statement] at h
    cases hP : compile_params params.length params 0
        (p.push (.jump_inst ("function_done_" ++ toString p.insts.length))) [] with
    | mk pP nl0 =>
      simp only [hP] at h
      cases hB : compile_block pP nl0 body with
      | error x => simp [hB] at h
      | ok rB =>
        obtain ⟨pB, nl⟩ := rB
        simp only [hB, Except.ok.injEq, Prod.mk.injEq] at h
        obtain ⟨rfl, rfl⟩ := h
        refine ⟨pB, nl, rfl, back_is_return_iff pB, ?_⟩
        by_cases hb : back_is_return pB = true
        · simp [hb]
        · simp [hb, program.push]
  · intro n
    have hshow : show_asm nested_program.insts nested_program = nested_program := by decide!
    simp only [run, hfe, hshow]
    cases n with
    | zero => rfl
    | succ n =>
      have h0 : eval (n + 1) nested_program ⟨0, 0, [], ""⟩
          = eval n nested_program ⟨3, 0, [], ""⟩ := by
        rw [eval]
        rfl
      rw [h0, nested_program_loops n _ (Or.inr rfl)]

/-! ## C39: a reference to an unknown name takes slot 0 and grows the map -/

/-- C39: lowering a reference to a name `x` that the locals map `m` does not hold
succeeds: it appends `PUSH_FP +0` and adds `x -> 0`, so the map grows by one.  A
`local` statement lowered afterwards stores through `POP_FP |m| + 1` where it would
have used `POP_FP |m|` before the reference, and a function records one local slot
more: `function f() print(x); local y = 1; end` records `nlocals = 2` and stores
`y` through `POP_FP 1`, while `function f() local y = 1; end` records `nlocals = 1`
and stores `y` through `POP_FP 0`. -/
theorem C39_unknown_name_takes_a_slot :
    (∀ (prog : program) (m : locals_t) (x : token_t), map_find m x.literal = none →
      compile_expr prog m (.literal_id x)
          = .ok (prog.push (.dup_plus_fp_inst 0), m ++ [(x.literal, 0)])
        ∧ (m ++ [(x.literal, (0 : Int))]).length = m.length + 1)
    ∧ (∀ (prog : program) (m : locals_t) (name : token_t) (e : expr_t) (q : program)
        (m' : locals_t), compile_statement prog m (.local_stmt name e) = .ok (q, m') →
        q.insts.getLast? = some (.move_plus_fp_inst m.length))
    ∧ (∀ (prog : program) (m : locals_t) (x name : token_t) (e : expr_t) (p q : program)
        (m1 m2 : locals_t), map_find m x.literal = none →
        compile_expr prog m (.literal_id x) = .ok (p, m1) →
        compile_statement p m1 (.local_stmt name e) = .ok (q, m2) →
        q.insts.getLast? = some (.move_plus_fp_inst (m.length + 1)))
    ∧ front_end "function f() print(x); local y = 1; end"
        = .ok ⟨[("f", ⟨1, 0, 2⟩), ("function_done_0", ⟨6, 0, 0⟩)],
            [.jump_inst "function_done_0", .dup_plus_fp_inst 0, .call_inst "print" 1,
             .store_inst 1, .move_plus_fp_inst 1, .return_inst false]⟩
    ∧ front_end "function f() local y = 1; end"
        = .ok ⟨[("f", ⟨1, 0, 1⟩), ("function_done_0", ⟨4, 0, 0⟩)],
            [.jump_inst "function_done_0", .store_inst 1, .move_plus_fp_inst 0,
             .return_inst false]⟩ := by
  have hlocal : ∀ (prog : program) (m : locals_t) (name : token_t) (e : expr_t) (q : program)
      (m' : locals_t), compile_statement prog m (.local_stmt name e) = .ok (q, m') →
      q.insts.getLast? = some (.move_plus_fp_inst m.length) := by
    intro prog m name e q m' h
    rw [compile_statement] at h
    cases hc : clone e with
    | error x => simp [hc] at h
    | ok c =>
      simp only [hc] at h
      cases he : compile_expr prog (map_insert m name.literal (m.length : Int)) e with
      | error x => simp [he] at h
      | ok r =>
        obtain ⟨p1, l1⟩ := r
        simp only [he, Except.ok.injEq, Prod.mk.injEq] at h
        obtain ⟨rfl, rfl⟩ := h
        simp [program.push]
  have href : ∀ (prog : program) (m : locals_t) (x : token_t), map_find m x.literal = none →
      compile_expr prog m (.literal_id x)
        = .ok (prog.push (.dup_plus_fp_inst 0), m ++ [(x.literal, 0)]) := by
    intro prog m x hx
    rw [compile_expr]
    simp [compile_literal, map_index, hx]
  refine ⟨fun prog m x hx => ⟨href prog m x hx, by simp⟩, hlocal, ?_, by decide!, by decide!⟩
  intro prog m x name e p q m1 m2 hx h1 h2
  rw [href prog m x hx] at h1
  simp only [Except.ok.injEq, Prod.mk.injEq] at h1
  obtain ⟨rfl, rfl⟩ := h1
  have := hlocal _ _ name e q m2 h2
  simpa using this

/-! ## C40: the symbol of a name declared twice -/

/-- C40 as stated fails on `shadow_source`, where the body of the first
declaration of `f` holds the second one: the symbol of a function is inserted
after its body has been lowered, so the nested declaration inserts first and the
table maps `f` to its entry 2, one parameter and one slot, not to the entry 1 of
the first declaration.  `print(f(7))` prints 2. -/
theorem C40_nested_declaration_inserts_first :
    front_end shadow_source = .ok shadow_program
    ∧ map_find shadow_program.syms "f" = some ⟨2, 1, 1⟩
    ∧ map_find shadow_program.syms "f" ≠ some ⟨1, 0, 0⟩
    ∧ run shadow_source 100 = .ok "2 \n" := by
  refine ⟨by decide!, by decide, by decide, by decide!⟩

/-- C40 amended: `std::map::insert` keeps the entry it finds, and a declaration
inserts its symbol after its body.  Let a statement list `pre ++ [function
f(..) body end] ++ post` be lowered from the empty program, `p` being the program
after `pre` and `nl` the inner locals map after the body, and let the table
have no entry `f` when the body of that declaration has been lowered (no
earlier declaration or label of that name, none nested in the body).  Then the
emitted table maps `f` to `(|p.insts| + 1, N, |nl|)`, the entry, parameter count
and slot count of that declaration, whatever `post` declares; and in every
program whose table has this entry, `CALL f` with `f` other than `print`
continues at `|p.insts| + 1`. -/
theorem C40_first_inserted_declaration_wins (pre post : List stmt_t) (name : token_t)
    (params : List token_t) (body : List stmt_t) (prog p pB : program) (l nl : locals_t)
    (hpre : compile_block ⟨[], []⟩ [] pre = .ok (p, l))
    (hbody : compile_block
        (compile_params params.length params 0
          (p.push (.jump_inst ("function_done_" ++ toString p.insts.length))) []).1
        (compile_params params.length params 0
          (p.push (.jump_inst ("function_done_" ++ toString p.insts.length))) []).2 body
      = .ok (pB, nl))
    (hfresh : map_find pB.syms name.literal = none)
    (hc : compile (pre ++ .func_decl name params body :: post) = .ok prog) :
    map_find prog.syms name.literal
        = some ⟨(p.insts.length + 1 : Nat), params.length, nl.length⟩
    ∧ (name.literal ≠ "print" → ∀ (r : program) (m : vm) (argc : Nat),
        map_find r.syms name.literal
          = some ⟨(p.insts.length + 1 : Nat), params.length, nl.length⟩ →
        exec r m (.call_inst name.literal argc)
          = .ok (r, ⟨(p.insts.length + 1 : Nat), (m.stack.length : Int) + 3,
              m.stack ++ [m.fp, m.pc + 1, (params.length : Int)] ++ List.replicate nl.length 0,
              m.cout⟩)) := by
  constructor
  · unfold compile at hc
    rw [compile_block_append, hpre] at hc
    simp only at hc
    rw [compile_block] at hc
    cases hd : compile_statement p l (.func_decl name params body) with
    | error e => simp [hd] at hc
    | ok rd =>
      obtain ⟨q, l'⟩ := rd
      simp only [hd] at hc
      cases hpost : compile_block q l' post with
      | error e => simp [hpost] at hc
      | ok rp =>
        obtain ⟨r, l''⟩ := rp
        simp only [hpost, Except.ok.injEq] at hc
        subst hc
        apply compile_block_kept post q l' r l'' hpost
        rw [compile_statement] at hd
        cases hP : compile_params params.length params 0
            (p.push (.jump_inst ("function_done_" ++ toString p.insts.length))) [] with
        | mk pP nl0 =>
          rw [hP] at hbody
          simp only [hP, hbody, Except.ok.injEq, Prod.mk.injEq] at hd
          obtain ⟨rfl, rfl⟩ := hd
          apply map_insert_kept
          have hsy : (if back_is_return pB = true then pB
              else pB.push (.return_inst false)).syms = pB.syms := by
            cases back_is_return pB <;> rfl
          simp only [hsy]
          have := map_insert_found pB.syms name.literal
            (⟨((p.push (.jump_inst ("function_done_" ++ toString p.insts.length))).insts.length
              : Int), params.length, nl.length⟩ : symbol) hfresh
          simpa [program.push] using this
  · intro hne r m argc hs
    simp only [exec, hne, if_false, sym_present r name.literal _ hs]
    simp

/-- C40 amended, on `function f() return 1; end function f(a) return 2; end`:
`f` keeps the symbol `(1, 0, 0)` of its first declaration. -/
theorem C40_first_inserted_declaration_wins_witness :
    compile ([] ++ .func_decl again_name [] again_body :: [again_second]) = .ok again_program
    ∧ map_find again_program.syms again_name.literal
        = some ⟨((⟨[], []⟩ : program).insts.length + 1 : Nat), ([] : List token_t).length,
            ([] : locals_t).length⟩
    ∧ (again_name.literal ≠ "print" → ∀ (r : program) (m : vm) (argc : Nat),
        map_find r.syms again_name.literal
          = some ⟨((⟨[], []⟩ : program).insts.length + 1 : Nat), ([] : List token_t).length,
              ([] : locals_t).length⟩ →
        exec r m (.call_inst again_name.literal argc)
          = .ok (r, ⟨((⟨[], []⟩ : program).insts.length + 1 : Nat), (m.stack.length : Int) + 3,
              m.stack ++ [m.fp, m.pc + 1, ((([] : List token_t).length : Nat) : Int)]
                ++ List.replicate ([] : locals_t).length 0,
              m.cout⟩)) :=
  ⟨by decide!,
    C40_first_inserted_declaration_wins [] [again_second] again_name [] again_body again_program
      ⟨[], []⟩ ⟨[], [.jump_inst "function_done_0", .store_inst 1, .return_inst true]⟩ [] []
      (by decide!) (by decide!) (by decide) (by decide!)⟩

/-! ## White space and the bytes of a token -/

theorem identifier_char_not_space (c : Char) (h : identifier_char c = true) :
    isspace c = false := by
  simp only [isspace, Bool.or_eq_false_iff, beq_eq_false_iff_ne, ne_eq]
  refine ⟨⟨⟨⟨⟨?_, ?_⟩, ?_⟩, ?_⟩, ?_⟩, ?_⟩ <;> (intro hc; subst hc; revert h; decide)

theorem keywords_not_space : ∀ w ∈ keywords, ∀ c ∈ w.toList, isspace c = false := by decide

/-- An operator word has no white space, or starts with a keyword. -/
theorem operators_space_or_keyword : ∀ w ∈ operators,
    (∀ c ∈ w.toList, isspace c = false) ∨ ∃ k ∈ keywords, k.toList <+: w.toList := by
  decide

/-- No byte of a token is white space. -/
theorem token_scan_no_space (U : List Char) (kind : token_kind) (lit : String) (n : Nat)
    (eof : Bool) (h : token_scan U = some (kind, lit, n, eof)) :
    ∀ c ∈ U.take n, isspace c = false := by
  rcases token_scan_cases U kind lit n eof h with
    ⟨rfl, hk⟩ | ⟨rfl, _, hi⟩ | ⟨rfl, _, _, hn⟩ | ⟨rfl, _, _, _, hs⟩ | ⟨rfl, hk, _, _, _, ho⟩
  · obtain ⟨pre, post, h1, _, h3, h4⟩ := word_find_hit U keywords lit n eof hk
    have hmem : lit ∈ keywords := by rw [h1]; simp
    have htake : U.take n = lit.toList := by rw [h4]; exact prefix_take h3
    rw [htake]; exact keywords_not_space lit hmem
  · obtain ⟨h1, h2, c, cs, h3, _⟩ := identifier_scan_hit U lit n eof hi
    have hp : U.takeWhile identifier_char <+: U := List.takeWhile_prefix _
    have htake : U.take n = U.takeWhile identifier_char := by rw [h2]; exact prefix_take hp
    rw [htake]
    intro c hc
    exact identifier_char_not_space c (List.mem_takeWhile_imp hc)
  · obtain ⟨sign, plus, ds, hs, hp, hd, hne, hl, hn', hpre⟩ := number_scan_hit U lit n eof hn
    have hlen : n = (sign ++ plus ++ ds).length := by simp [hn', Nat.add_assoc]
    have htake : U.take n = sign ++ plus ++ ds := by rw [hlen]; exact prefix_take hpre
    rw [htake]
    intro c hc
    simp only [List.mem_append] at hc
    rcases hc with (hc | hc) | hc
    · rcases hs with rfl | rfl
      · simp at hc
      · simp at hc; subst hc; decide
    · rcases hp with rfl | rfl
      · simp at hc
      · simp at hc; subst hc; decide
    · exact isdigit_not_space c (hd c hc)
  · obtain ⟨c, rest, hc, rfl, rfl, rfl⟩ := syntax_scan_hit U _ lit n eof hs
    intro d hd
    simp at hd
    subst hd
    simp at hc
    rcases hc with rfl | rfl | rfl | rfl | rfl <;> decide
  · obtain ⟨pre, post, h1, _, h3, h4⟩ := word_find_hit U operators lit n eof ho
    have hmem : lit ∈ operators := by rw [h1]; simp
    have htake : U.take n = lit.toList := by rw [h4]; exact prefix_take h3
    rw [htake]
    rcases operators_space_or_keyword lit hmem with h | ⟨k, hk1, hk2⟩
    · exact h
    · exact absurd (hk2.trans h3) (word_find_miss U keywords hk k hk1)

/-! ## White space before the last byte of the text -/

theorem dropWhile_space_tail (c : Char) (hc : isspace c = false) : ∀ (ws : List Char),
    (∀ w ∈ ws, isspace w = true) → (ws ++ [c]).dropWhile isspace = [c]
  | [], _ => by simp [List.dropWhile, hc]
  | w :: ws, h => by
    have hw : isspace w = true := h w (by simp)
    simp only [List.cons_append, List.dropWhile_cons, hw, if_true]
    exact dropWhile_space_tail c hc ws (fun x hx => h x (by simp [hx]))

theorem takeWhile_space_tail (c : Char) (hc : isspace c = false) : ∀ (ws : List Char),
    (∀ w ∈ ws, isspace w = true) → (ws ++ [c]).takeWhile isspace = ws
  | [], _ => by simp [List.takeWhile, hc]
  | w :: ws, h => by
    have hw : isspace w = true := h w (by simp)
    simp only [List.cons_append, List.takeWhile_cons, hw, if_true]
    rw [takeWhile_space_tail c hc ws (fun x hx => h x (by simp [hx]))]

/-- White space followed by one last byte: `next` passes the white space and
returns no token. -/
theorem next_outcome_tail (ws : List Char) (c : Char) (hne : ws ≠ [])
    (hws : ∀ w ∈ ws, isspace w = true) (hc : isspace c = false) :
    next_outcome (ws ++ [c]) = .finished ws false := by
  cases ws with
  | nil => exact absurd rfl hne
  | cons w ws' =>
    have hw : isspace w = true := hws w (by simp)
    have hd := dropWhile_space_tail c hc (w :: ws') hws
    have ht := takeWhile_space_tail c hc (w :: ws') hws
    have hs : space_scan ((w :: ws') ++ [c]) = none := by
      simp only [List.cons_append] at hd ⊢
      simp only [space_scan, hw, if_true, hd]
    simp only [List.cons_append] at hs hd ht ⊢
    simp only [next_outcome, hs, hd, ht]
    rfl

/-- White space at the start of a text whose last byte before the final white
space is no white space: the white space ends inside that part. -/
theorem tail_split (X tl ws' R : List Char) (x : Char) (hX : X.getLast? = some x)
    (hx : isspace x = false) (h : X ++ tl = ws' ++ R) (hws' : ∀ w ∈ ws', isspace w = true) :
    ∃ X', X' ≠ [] ∧ X = ws' ++ X' ∧ R = X' ++ tl ∧ X'.getLast? = some x := by
  have hxX : x ∈ X := List.mem_of_mem_getLast? (by rw [hX]; rfl)
  rcases List.append_eq_append_iff.1 h with ⟨a, h1, h2⟩ | ⟨b, h1, h2⟩
  · have : x ∈ ws' := by rw [h1]; exact List.mem_append_left _ hxX
    rw [hws' x this] at hx
    cases hx
  · cases b with
    | nil =>
      have : x ∈ ws' := by rw [h1] at hxX; simpa using hxX
      rw [hws' x this] at hx
      cases hx
    | cons b0 bs =>
      refine ⟨b0 :: bs, by simp, h1, h2, ?_⟩
      rw [h1, List.getLast?_append_of_ne_nil _ (by simp)] at hX
      exact hX

/-- The white space a call of `next` without a token has passed. -/
theorem next_outcome_finished_space (T ws : List Char) (f : Bool)
    (h : next_outcome T = .finished ws f) : ∀ w ∈ ws, isspace w = true := by
  cases T with
  | nil =>
    simp only [next_outcome, next_result.finished.injEq] at h
    rw [← h.1]; simp
  | cons x Y =>
    simp only [next_outcome] at h
    cases hs : space_scan (x :: Y) with
    | none =>
      simp only [hs, next_result.finished.injEq] at h
      rw [← h.1]
      intro w hw
      exact List.mem_takeWhile_imp hw
    | some p =>
      obtain ⟨ws', U⟩ := p
      obtain ⟨_, hsp, _⟩ := space_scan_spec _ ws' U hs
      simp only [hs] at h
      cases ht : token_scan U with
      | some q => simp [ht] at h
      | none =>
        simp only [ht] at h
        cases U with
        | nil =>
          simp only [next_result.finished.injEq] at h
          rw [← h.1]; exact hsp
        | cons c V =>
          simp only at h
          split at h
          · cases h
          · simp only [next_result.finished.injEq] at h
            rw [← h.1]; exact hsp

/-- A token found in a text that ends with white space and one last byte lies
before that white space, and the text after it ends in the same way. -/
theorem next_outcome_tail_token (X ws : List Char) (c x : Char) (w0 : Char) (ws0 : List Char)
    (hws0 : ws = w0 :: ws0) (hw0 : isspace w0 = true)
    (hX : X.getLast? = some x) (hx : isspace x = false)
    (ws' : List Char) (kind : token_kind) (lit : String) (n : Nat) (eof : Bool) (T' : List Char)
    (h : next_outcome (X ++ (ws ++ [c])) = .token ws' kind lit n eof T') :
    ws'.length < X.length ∧ ws'.length + n + T'.length = (X ++ (ws ++ [c])).length
      ∧ (T' = ws ++ [c] ∨ ∃ X', T' = X' ++ (ws ++ [c]) ∧ X'.getLast? = some x) := by
  obtain ⟨U, hs, hts, hT'⟩ := next_outcome_token _ ws' kind lit n eof T' h
  obtain ⟨hT, hsp, _⟩ := space_scan_spec _ ws' U hs
  obtain ⟨h1, h2, _, _⟩ := token_scan_text U kind lit n eof hts
  have hns := token_scan_no_space U kind lit n eof hts
  obtain ⟨X1, hne, hXe, hU, hlast⟩ := tail_split X (ws ++ [c]) ws' U x hX hx hT hsp
  have hX1 : 0 < X1.length := List.length_pos.2 hne
  have hn : n ≤ X1.length := by
    by_contra hcon
    have hmem : w0 ∈ U.take n := by
      rw [hU, List.take_append_eq_append_take, hws0]
      apply List.mem_append_right
      have : n - X1.length = (n - X1.length - 1) + 1 := by omega
      rw [this]
      simp
    rw [hns w0 hmem] at hw0
    cases hw0
  refine ⟨by rw [hXe]; simp; omega, ?_, ?_⟩
  · rw [hT', hT, List.length_append, List.length_drop]
    omega
  · have hT2 : T' = X1.drop n ++ (ws ++ [c]) := by
      rw [hT', hU, List.drop_append_of_le_length hn]
    by_cases hlen : X1.length ≤ n
    · left
      rw [hT2, List.drop_eq_nil_of_le hlen]; rfl
    · right
      refine ⟨X1.drop n, hT2, ?_⟩
      rw [List.getLast?_drop, if_neg hlen]
      exact hlast

/-- No token of a text that ends with white space and one last byte starts in
that white space or at the last byte. -/
theorem lex_from_tail (ws : List Char) (c : Char) (w0 : Char) (ws0 : List Char)
    (hws0 : ws = w0 :: ws0) (hws : ∀ w ∈ ws, isspace w = true) (hc : isspace c = false) :
    ∀ (fuel : Nat) (T : List Char) (loc : location) (failed : Bool) (toks : List token_t),
    lex_from fuel T loc failed = .ok toks →
    (T = ws ++ [c] ∨ ∃ X x, T = X ++ (ws ++ [c]) ∧ X.getLast? = some x ∧ isspace x = false) →
    ∀ t ∈ toks, t.loc.offset + ws.length + 1 < loc.offset + T.length := by
  have hw0 : isspace w0 = true := hws w0 (by rw [hws0]; simp)
  have hne : ws ≠ [] := by rw [hws0]; simp
  intro fuel
  induction fuel with
  | zero => intro T loc failed toks h; simp [lex_from] at h
  | succ fuel ih =>
    intro T loc failed toks h hT t ht
    cases failed with
    | true =>
      simp only [lex_from, if_true, Except.ok.injEq] at h
      subst h
      cases ht
    | false =>
      rcases hT with rfl | ⟨X, x, rfl, hX, hx⟩
      · simp only [lex_from, next_outcome_tail ws c hne hws hc, Bool.false_eq_true, if_false,
          Except.ok.injEq] at h
        subst h
        cases ht
      · cases ho : next_outcome (X ++ (ws ++ [c])) with
        | token ws' kind lit n eof T' =>
          obtain ⟨a1, a2, a3⟩ := next_outcome_tail_token X ws c x w0 ws0 hws0 hw0 hX hx
            ws' kind lit n eof T' ho
          cases hr : lex_from fuel T' ((loc.steps ws').advance n) eof with
          | error e => simp [lex_from, ho, hr] at h
          | ok more =>
            simp only [lex_from, ho, hr, Bool.false_eq_true, if_false, Except.ok.injEq] at h
            subst h
            rcases List.mem_cons.1 ht with rfl | hmem
            · show (loc.steps ws').offset + ws.length + 1 < _
              rw [steps_offset]
              simp only [List.length_append, List.length_singleton]
              omega
            · have hinv : T' = ws ++ [c]
                  ∨ ∃ X x, T' = X ++ (ws ++ [c]) ∧ X.getLast? = some x ∧ isspace x = false := by
                rcases a3 with h3 | ⟨X', h3, h4⟩
                · exact Or.inl h3
                · exact Or.inr ⟨X', x, h3, h4, hx⟩
              have := ih T' _ eof more hr hinv t hmem
              rw [advance_offset, steps_offset] at this
              omega
        | finished ws' f =>
          simp only [lex_from, ho, Bool.false_eq_true, if_false, Except.ok.injEq] at h
          subst h
          cases ht
        | unexpected ws' c' =>
          simp [lex_from, ho] at h

/-- White space that starts the file, followed by one last byte: the call of
`next` made by `begin()` passes the white space, and the loop then lexes the
one-byte text `c` at the end of the file. -/
theorem tokenize_leading_blank (ws : List Char) (c : Char) (hne : ws ≠ [])
    (hws : ∀ w ∈ ws, isspace w = true) (hc : isspace c = false) :
    tokenize (ws ++ [c])
      = match token_scan [c] with
        | some (kind, literal, _, _) => .ok [⟨kind, literal, location.steps ⟨1, 1, 0⟩ ws⟩]
        | none =>
          if no_match [c] then
            .error (.thrown (unexpected_message c (location.steps ⟨1, 1, 0⟩ ws)))
          else .ok [] := by
  rw [tokenize_total]
  unfold lex_all
  rw [next_outcome_tail ws c hne hws hc]
  simp only [List.drop_left]
  have hsp : space_scan [c] = some ([], [c]) := space_scan_start c [] hc
  obtain ⟨F, hF⟩ : ∃ F, (ws ++ [c]).length + 2 = F + 2 := ⟨_, rfl⟩
  rw [hF]
  cases hts : token_scan [c] with
  | none =>
    have ho : next_outcome [c]
        = if no_match [c] then .unexpected [] c else .finished [] true := by
      simp only [next_outcome, hsp, hts]
    by_cases hn : no_match [c] = true
    · simp only [lex_from, ho, hn, if_true, Bool.false_eq_true, if_false, location.steps]
    · simp only [lex_from, ho, hn, if_false, Bool.false_eq_true]
  | some r =>
    obtain ⟨kind, lit, n, eof⟩ := r
    obtain ⟨hpos, _, _, _⟩ := token_scan_text [c] kind lit n eof hts
    have hdrop : [c].drop n = [] := by
      apply List.drop_eq_nil_of_le
      simp only [List.length_singleton]; omega
    have ho : next_outcome [c] = .token [] kind lit n eof [] := by
      simp only [next_outcome, hsp, hts, hdrop]
    cases eof with
    | true => simp only [lex_from, ho, Bool.false_eq_true, if_false, if_true, location.steps]
    | false =>
      simp only [lex_from, ho, Bool.false_eq_true, if_false, location.steps]
      simp only [next_outcome]

/-! ## C38: a last byte that follows white space -/

/-- C38 as stated fails on ` ;` and ` x`, whose last byte follows white space
that starts the file: the token of the last byte is returned.  The call of
`next` made by `begin()` passes the white space and returns no token, but
`_file_off` stays 0, so the loop calls `next` again, now at the last byte. -/
theorem C38_last_byte_after_leading_blank_is_lexed :
    tokenize " ;".toList = .ok [⟨token_kind.t_syntax, ";", ⟨1, 2, 1⟩⟩]
    ∧ tokenize " x".toList = .ok [⟨token_kind.t_identifier, "x", ⟨1, 2, 1⟩⟩] := by
  refine ⟨by decide!, by decide!⟩

/-- C38 amended: a call of `next` on a stream without failbit whose unread text
is white space `ws` (at least one byte) followed by one last byte `c` that is
no white space returns no token and throws nothing; it leaves `_loc` after the
white space.  Hence for every file `P ++ ws ++ [c]` where `P` ends with a byte
that is no white space, every token of the token vector starts inside `P`:
there is no token for the last byte.  The file `x ;` gives the one token `x`.
For a file `ws ++ [c]`, where the white space starts the file, the token vector
is what the sub-lexers make of the one byte `c` at the end of the file, at the
location after the white space: the one token of `c` when a sub-lexer accepts
it, the exception `unexpected character` when every sub-lexer declines it
without reading EOF (as for ` @`), and no token at all when a sub-lexer reads
EOF before any accepts (as for ` 5`, ` e` and ` <`). -/
theorem C38_last_byte_after_blank_is_dropped :
    (∀ (lx : lexer) (ws : List Char) (c : Char), lx._file.failbit = false → ws ≠ [] →
      (∀ w ∈ ws, isspace w = true) → isspace c = false →
      lx._file.data.drop lx._loc.offset = ws ++ [c] →
      ∃ lx', next lx = .ok (none, lx') ∧ lx'._loc = lx._loc.steps ws
        ∧ lx'._file.failbit = false)
    ∧ (∀ (P ws : List Char) (p c : Char) (toks : List token_t), P.getLast? = some p →
      isspace p = false → ws ≠ [] → (∀ w ∈ ws, isspace w = true) → isspace c = false →
      tokenize (P ++ ws ++ [c]) = .ok toks → ∀ t ∈ toks, t.loc.offset < P.length)
    ∧ tokenize "x ;".toList = .ok [⟨token_kind.t_identifier, "x", ⟨1, 1, 0⟩⟩]
    ∧ (∀ (ws : List Char) (c : Char), ws ≠ [] → (∀ w ∈ ws, isspace w = true) →
      isspace c = false →
      tokenize (ws ++ [c])
        = match token_scan [c] with
          | some (kind, literal, _, _) => .ok [⟨kind, literal, location.steps ⟨1, 1, 0⟩ ws⟩]
          | none =>
            if no_match [c] then
              .error (.thrown (unexpected_message c (location.steps ⟨1, 1, 0⟩ ws)))
            else .ok [])
    ∧ tokenize " 5".toList = .ok []
    ∧ tokenize " e".toList = .ok []
    ∧ tokenize " <".toList = .ok []
    ∧ tokenize " *".toList = .ok [⟨token_kind.t_operator, "*", ⟨1, 2, 1⟩⟩]
    ∧ tokenize " @".toList = .error (.thrown "unexpected character: @ at 1:2") := by
  refine ⟨?_, ?_, by decide!, tokenize_leading_blank, by decide!, by decide!, by decide!,
    by decide!, by decide!⟩
  · intro lx ws c hf hne hws hc hT
    have ho : next_outcome (lx._file.data.drop lx._loc.offset) = .finished ws false := by
      rw [hT]; exact next_outcome_tail ws c hne hws hc
    obtain ⟨lx', h1, _, h3, h4⟩ := next_total_finished lx hf ws false ho
    exact ⟨lx', h1, h3, h4⟩
  · intro P ws p c toks hP hp hne hws hc h t ht
    rw [tokenize_total, List.append_assoc] at h
    obtain ⟨w0, ws0, hws0⟩ : ∃ w0 ws0, ws = w0 :: ws0 := by
      cases ws with
      | nil => exact absurd rfl hne
      | cons a b => exact ⟨a, b, rfl⟩
    have hw0 : isspace w0 = true := hws w0 (by rw [hws0]; simp)
    have hlen : (P ++ (ws ++ [c])).length = P.length + ws.length + 1 := by
      simp only [List.length_append, List.length_singleton]; omega
    unfold lex_all at h
    generalize (P ++ (ws ++ [c])).length + 2 = F at h
    cases ho : next_outcome (P ++ (ws ++ [c])) with
    | token ws' kind lit n eof T' =>
      obtain ⟨a1, a2, a3⟩ := next_outcome_tail_token P ws c p w0 ws0 hws0 hw0 hP hp
        ws' kind lit n eof T' ho
      simp only [ho] at h
      cases hr : lex_from F T' ((location.steps ⟨1, 1, 0⟩ ws').advance n) eof with
      | error e => simp [hr] at h
      | ok more =>
        simp only [hr, Except.ok.injEq] at h
        subst h
        rcases List.mem_cons.1 ht with rfl | hmem
        · show (location.steps ⟨1, 1, 0⟩ ws').offset < P.length
          rw [steps_offset]
          simpa using a1
        · have hinv : T' = ws ++ [c]
              ∨ ∃ X x, T' = X ++ (ws ++ [c]) ∧ X.getLast? = some x ∧ isspace x = false := by
            rcases a3 with h3 | ⟨X', h3, h4⟩
            · exact Or.inl h3
            · exact Or.inr ⟨X', p, h3, h4, hp⟩
          have := lex_from_tail ws c w0 ws0 hws0 hws hc _ T' _ eof more hr hinv t hmem
          rw [advance_offset, steps_offset] at this
          simp only at this
          omega
    | finished ws' f =>
      simp only [ho] at h
      have hpre := next_outcome_finished _ ws' f ho
      have hsp := next_outcome_finished_space _ ws' f ho
      have hsplit : P ++ (ws ++ [c]) = ws' ++ (P ++ (ws ++ [c])).drop ws'.length := by
        conv_lhs => rw [← List.take_append_drop ws'.length (P ++ (ws ++ [c]))]
        rw [prefix_take hpre]
      obtain ⟨X1, _, hXe, hR, hlast⟩ := tail_split P (ws ++ [c]) ws' _ p hP hp hsplit hsp
      have := lex_from_tail ws c w0 ws0 hws0 hws hc _ _ _ f toks h
        (Or.inr ⟨X1, p, hR, hlast, hp⟩) t ht
      rw [steps_offset, List.length_drop] at this
      have hle : ws'.length ≤ (P ++ (ws ++ [c])).length := hpre.length_le
      simp only at this
      omega
    | unexpected ws' c' =>
      simp [ho] at h

/-! ## A keyword followed by more bytes -/

/-- A word followed by at least one byte is matched without reading EOF. -/
theorem word_scan_full : ∀ (w : List Char) (c : Char) (rest : List Char),
    word_scan w (w ++ c :: rest) = (false, w.length, false)
  | [], c, rest => rfl
  | x :: w, c, rest => by
    have ih := word_scan_full w c rest
    show word_scan (x :: w) (x :: (w ++ c :: rest)) = _
    simp only [word_scan, bne_self_eq_false, Bool.false_eq_true, if_false, ih, List.length_cons]

/-- The first word of the list that the text starts with is found, when the
text goes on after it and no earlier word runs into the end of the text. -/
theorem word_find_first (k : String) (c : Char) (rest : List Char) (post : List String) :
    ∀ (pre : List String),
    (∀ v ∈ pre, ¬ v.toList <+: k.toList ++ c :: rest ∧ ¬ (k.toList ++ c :: rest) <+: v.toList) →
    word_find (k.toList ++ c :: rest) (pre ++ k :: post) = some (some (k, k.length, false))
  | [], _ => by
    have hl : k.toList.length = k.length := rfl
    simp only [List.nil_append, word_find, word_scan_full, hl, beq_self_eq_true, Bool.not_false,
      Bool.and_self, if_true]
  | v :: pre, h => by
    obtain ⟨h1, h2⟩ := h v (by simp)
    obtain ⟨n, hn⟩ := word_scan_miss v.toList _ h1 h2
    simp only [List.cons_append, word_find, hn]
    simp only [Bool.not_true, Bool.false_and, Bool.false_eq_true, if_false]
    exact word_find_first k c rest post pre (fun u hu => h u (by simp [hu]))

/-- The only keyword that continues another keyword is `elseif`. -/
theorem keywords_extend : ∀ v ∈ keywords, ∀ k ∈ keywords, k.toList <+: v.toList →
    k = v ∨ (k = "else" ∧ v = "elseif") := by
  decide

/-- A text that goes on after the keyword `k` is no prefix of a keyword, `elsei`
apart. -/
theorem keyword_not_cut (k : String) (hk : k ∈ keywords) (c : Char) (rest : List Char)
    (hT : k.toList ++ c :: rest ≠ "elsei".toList) :
    ∀ v ∈ keywords, ¬ v.toList <+: k.toList ++ c :: rest →
      ¬ (k.toList ++ c :: rest) <+: v.toList := by
  intro v hv hnp hp
  have hkv : k.toList <+: v.toList := (List.prefix_append _ _).trans hp
  rcases keywords_extend v hv k hk hkv with rfl | ⟨rfl, rfl⟩
  · have := hp.length_le
    simp at this
  · obtain ⟨z, hz⟩ := hp
    have h1 : "else".toList ++ (c :: rest ++ z) = "else".toList ++ ['i', 'f'] := by
      rw [← List.append_assoc]; exact hz
    have h2 := List.append_cancel_left h1
    cases rest with
    | nil =>
      simp only [List.cons_append, List.nil_append, List.cons.injEq] at h2
      exact hT (by rw [h2.1]; rfl)
    | cons r rest =>
      simp only [List.cons_append, List.cons.injEq] at h2
      obtain ⟨rfl, rfl, h3⟩ := h2
      have : rest = [] := by
        cases rest with
        | nil => rfl
        | cons a b => simp at h3
      subst this
      exact hnp (List.prefix_refl _)

/-- One call of `next` on a text that starts with the keyword `k`, goes on after
it, and starts with no earlier keyword of the list. -/
theorem next_outcome_keyword (k : String) (c : Char) (rest : List Char)
    (pre post : List String) (hl : keywords = pre ++ k :: post)
    (hpre : ∀ v ∈ pre, ¬ v.toList <+: k.toList ++ c :: rest)
    (hT : k.toList ++ c :: rest ≠ "elsei".toList) :
    next_outcome (k.toList ++ c :: rest)
      = .token [] token_kind.t_keyword k k.length false (c :: rest) := by
  have hk : k ∈ keywords := by rw [hl]; simp
  have hfind : word_find (k.toList ++ c :: rest) keywords
      = some (some (k, k.length, false)) := by
    rw [hl]
    apply word_find_first
    intro v hv
    have hvk : v ∈ keywords := by rw [hl]; simp [hv]
    exact ⟨hpre v hv, keyword_not_cut k hk c rest hT v hvk (hpre v hv)⟩
  have hscan : token_scan (k.toList ++ c :: rest)
      = some (token_kind.t_keyword, k, k.length, false) := by
    simp only [token_scan, hfind]
  have hne : k.toList ≠ [] := keywords_nonempty k hk
  cases hkl : k.toList with
  | nil => exact absurd hkl hne
  | cons x xs =>
    have hx : isspace x = false := keywords_not_space k hk x (by rw [hkl]; simp)
    have hsp := space_scan_start x (xs ++ c :: rest) hx
    have hdrop : (x :: (xs ++ c :: rest)).drop k.length = c :: rest := by
      have : k.length = (x :: xs).length := by rw [← hkl]; rfl
      rw [this, ← List.cons_append, List.drop_left]
    rw [hkl] at hscan
    simp only [List.cons_append] at hscan ⊢
    simp only [next_outcome, hsp, hscan, hdrop]

/-! ## C36: a keyword followed by identifier bytes -/

/-- C36 as stated fails on `x = elsei`: at offset 4 the unread text `elsei`
starts with the keyword `else` followed by the identifier byte `i`, and the
lexer yields no keyword token there (and no token at all).  The keyword
`elseif` stands before `else` in the list; its attempt matches `elsei` and then
reads EOF, which sets failbit, so the `seekg` of every later attempt has no
effect and every later read fails. -/
theorem C36_keyword_lost_behind_a_longer_keyword :
    tokenize "x = elsei".toList
      = .ok [⟨token_kind.t_identifier, "x", ⟨1, 1, 0⟩⟩, ⟨token_kind.t_syntax, "=", ⟨1, 3, 2⟩⟩]
    ∧ tokenize "elsei".toList = .ok []
    ∧ "else" ∈ keywords ∧ "else".toList ++ ['i'] = "elsei".toList
    ∧ identifier_char 'i' = true := by
  refine ⟨by decide!, by decide!, by decide, by decide, by decide⟩

/-- C36 amended: let the unread text of a stream without failbit be `k ++ c :: rest`,
where `k` is a keyword, no keyword before `k` in the list is a prefix of the
text, and the text is not `elsei` (at the end of the file).  Then `next` returns
the keyword token `k` at `_loc`, with the location `|k|` bytes further on, and
the unread text is then `c :: rest`, whatever `c` is (in particular an
identifier byte: there is no test for a word boundary).  In every token vector
no identifier token starts with a keyword.  `inc;` lexes to `in`, `c`, `;`,
`order;` to `or`, `der`, `;`, and `elsei;` to `else`, `i`, `;`. -/
theorem C36_keyword_without_word_boundary :
    (∀ (lx : lexer) (k : String) (c : Char) (rest : List Char) (pre post : List String),
      lx._file.failbit = false → keywords = pre ++ k :: post →
      lx._file.data.drop lx._loc.offset = k.toList ++ c :: rest →
      (∀ v ∈ pre, ¬ v.toList <+: k.toList ++ c :: rest) →
      k.toList ++ c :: rest ≠ "elsei".toList →
      ∃ f', next lx = .ok (some (⟨token_kind.t_keyword, k, lx._loc⟩, lx._loc.advance k.length),
          ⟨f', lx._loc.advance k.length⟩)
        ∧ f'.data = lx._file.data ∧ f'.failbit = false
        ∧ lx._file.data.drop (lx._loc.advance k.length).offset = c :: rest)
    ∧ (∀ (D : List Char) (toks : List token_t), tokenize D = .ok toks →
      ∀ t ∈ toks, t.kind = token_kind.t_identifier →
      ∀ k ∈ keywords, ¬ k.toList <+: t.literal.toList)
    ∧ tokenize "inc;".toList
      = .ok [⟨token_kind.t_keyword, "in", ⟨1, 1, 0⟩⟩, ⟨token_kind.t_identifier, "c", ⟨1, 3, 2⟩⟩,
             ⟨token_kind.t_syntax, ";", ⟨1, 4, 3⟩⟩]
    ∧ tokenize "order;".toList
      = .ok [⟨token_kind.t_keyword, "or", ⟨1, 1, 0⟩⟩, ⟨token_kind.t_identifier, "der", ⟨1, 3, 2⟩⟩,
             ⟨token_kind.t_syntax, ";", ⟨1, 6, 5⟩⟩]
    ∧ tokenize "elsei;".toList
      = .ok [⟨token_kind.t_keyword, "else", ⟨1, 1, 0⟩⟩, ⟨token_kind.t_identifier, "i", ⟨1, 5, 4⟩⟩,
             ⟨token_kind.t_syntax, ";", ⟨1, 6, 5⟩⟩] := by
  refine ⟨?_, ?_, by decide!, by decide!, by decide!⟩
  · intro lx k c rest pre post hf hl hT hpre hne
    have ho : next_outcome (lx._file.data.drop lx._loc.offset)
        = .token [] token_kind.t_keyword k k.length false (c :: rest) := by
      rw [hT]; exact next_outcome_keyword k c rest pre post hl hpre hne
    obtain ⟨f', h1, h2, h3, h4⟩ := next_total_token lx hf [] token_kind.t_keyword k k.length
      false (c :: rest) ho
    exact ⟨f', h1, h2, h3, h4⟩
  · intro D toks h t ht hkind k hk hp
    rw [tokenize_total] at h
    obtain ⟨_, n, eof, hts⟩ := lex_all_locs D toks h t ht
    rw [hkind] at hts
    rcases token_scan_cases _ _ _ n eof hts with
      ⟨h0, _⟩ | ⟨_, hw, hi⟩ | ⟨h0, _⟩ | ⟨h0, _⟩ | ⟨h0, _⟩
    · cases h0
    · obtain ⟨h1, _, _⟩ := identifier_scan_hit _ _ n eof hi
      have hlit : t.literal.toList <+: D.drop t.loc.offset := by
        rw [h1]; exact List.takeWhile_prefix _
      exact word_find_miss _ keywords hw k hk (hp.trans hlit)
    · cases h0
    · cases h0
    · cases h0

/-! ## The operator tokens of a parsed tree -/

theorem token_at_mem (toks : List token_t) (it : Nat) (t : token_t)
    (h : token_at toks it = .ok t) : t ∈ toks := by
  unfold token_at at h
  cases hg : toks[it]? with
  | none => simp [hg] at h
  | some u =>
    simp only [hg, Except.ok.injEq] at h
    subst h
    exact List.getElem?_mem hg

theorem operand_of_operators (t : token_t) : expr_operators (operand_of t) = [] := by
  unfold operand_of
  split <;> simp [expr_operators]

theorem arguments_operators_append : ∀ (a b : List expr_t),
    arguments_operators (a ++ b) = arguments_operators a ++ arguments_operators b
  | [], b => by simp [arguments_operators]
  | e :: a, b => by
    have ih := arguments_operators_append a b
    show arguments_operators (e :: (a ++ b)) = _
    simp only [arguments_operators, ih, List.append_assoc]

theorem block_operators_append : ∀ (a b : List stmt_t),
    block_operators (a ++ b) = block_operators a ++ block_operators b
  | [], b => by simp [block_operators]
  | s :: a, b => by
    have ih := block_operators_append a b
    show block_operators (s :: (a ++ b)) = _
    simp only [block_operators, ih, List.append_assoc]

/-- Every operator of a parsed expression is a token of kind operator. -/
theorem parse_expression_operators (toks : List token_t) : ∀ (fuel : Nat),
    (∀ (it : Nat) (e : expr_t) (n : Nat), parse_expression toks fuel it = .ok (some (e, n)) →
      ∀ op ∈ expr_operators e, op ∈ toks ∧ op.kind = token_kind.t_operator)
    ∧ (∀ (it : Nat) (args as : List expr_t) (n : Nat),
      parse_call_arguments toks fuel it args = .ok (some (as, n)) →
      (∀ op ∈ arguments_operators args, op ∈ toks ∧ op.kind = token_kind.t_operator) →
      ∀ op ∈ arguments_operators as, op ∈ toks ∧ op.kind = token_kind.t_operator) := by
  intro fuel
  induction fuel with
  | zero =>
    constructor
    · intro it e n h; simp [parse_expression] at h
    · intro it args as n h; simp [parse_call_arguments] at h
  | succ fuel ih =>
    obtain ⟨ihE, ihA⟩ := ih
    constructor
    · intro it e n h
      rw [parse_expression] at h
      by_cases h0 : it ≥ toks.length
      · simp [h0] at h
      · simp only [h0, if_false, bind, Except.bind, pure, Except.pure] at h
        cases ht : token_at toks it with
        | error x => simp [ht] at h
        | ok lt =>
          simp only [ht] at h
          cases hs : expect_syntax toks (it + 1) "(" with
          | error x => simp [hs] at h
          | ok b =>
            simp only [hs] at h
            cases b with
            | true =>
              simp only [if_true] at h
              cases ha : parse_call_arguments toks fuel (it + 1 + 1) [] with
              | error x => simp [ha] at h
              | ok a =>
                cases a with
                | none => simp [ha] at h
                | some p =>
                  obtain ⟨args, j⟩ := p
                  simp only [ha, Except.ok.injEq, Option.some.injEq, Prod.mk.injEq] at h
                  obtain ⟨rfl, _⟩ := h
                  simp only [expr_operators]
                  exact ihA _ [] args j ha (by intro op hop; simp [arguments_operators] at hop)
            | false =>
              simp only [Bool.false_eq_true, if_false] at h
              by_cases h1 : it + 1 ≥ toks.length
              · simp only [h1, if_true, Except.ok.injEq, Option.some.injEq, Prod.mk.injEq] at h
                obtain ⟨rfl, _⟩ := h
                intro op hop
                rw [operand_of_operators] at hop
                cases hop
              · simp only [h1, if_false] at h
                cases hop : token_at toks (it + 1) with
                | error x => simp [hop] at h
                | ok o =>
                  simp only [hop] at h
                  by_cases hk : o.kind = token_kind.t_operator
                  · simp only [hk, bne_self_eq_false, Bool.false_eq_true, if_false] at h
                    by_cases h2 : it + 1 + 1 ≥ toks.length
                    · simp [h2] at h
                    · simp only [h2, if_false] at h
                      cases hr : token_at toks (it + 1 + 1) with
                      | error x => simp [hr] at h
                      | ok rt =>
                        simp only [hr] at h
                        have hfin : ∀ r : expr_t, expr_operators r = [] →
                            ∀ op ∈ expr_operators (.binary_op o (operand_of lt) r),
                              op ∈ toks ∧ op.kind = token_kind.t_operator := by
                          intro r hr0 op hmem
                          simp only [expr_operators, operand_of_operators, hr0, List.append_nil,
                            List.mem_singleton] at hmem
                          subst hmem
                          exact ⟨token_at_mem toks _ _ hop, hk⟩
                        split at h
                        · simp only [Except.ok.injEq, Option.some.injEq, Prod.mk.injEq] at h
                          obtain ⟨rfl, _⟩ := h
                          exact hfin _ (by simp [expr_operators])
                        · simp only [Except.ok.injEq, Option.some.injEq, Prod.mk.injEq] at h
                          obtain ⟨rfl, _⟩ := h
                          exact hfin _ (by simp [expr_operators])
                        · simp at h
                  · have hne : (o.kind != token_kind.t_operator) = true := by simp [hk]
                    simp only [hne, if_true, Except.ok.injEq, Option.some.injEq,
                      Prod.mk.injEq] at h
                    obtain ⟨rfl, _⟩ := h
                    intro op hop
                    rw [operand_of_operators] at hop
                    cases hop
    · intro it args as n h hargs
      rw [parse_call_arguments] at h
      simp only [bind, Except.bind, pure, Except.pure] at h
      cases hs : expect_syntax toks it ")" with
      | error x => simp [hs] at h
      | ok b =>
        simp only [hs] at h
        cases b with
        | true =>
          simp only [if_true, Except.ok.injEq, Option.some.injEq, Prod.mk.injEq] at h
          obtain ⟨rfl, _⟩ := h
          exact hargs
        | false =>
          simp only [Bool.false_eq_true, if_false] at h
          cases he : parse_expression toks fuel it with
          | error x => simp [he] at h
          | ok r =>
            cases r with
            | none => simp [he] at h
            | some p =>
              obtain ⟨arg, j⟩ := p
              simp only [he] at h
              have hnew : ∀ op ∈ arguments_operators (args ++ [arg]),
                  op ∈ toks ∧ op.kind = token_kind.t_operator := by
                intro op hop
                rw [arguments_operators_append] at hop
                rcases List.mem_append.1 hop with h1 | h1
                · exact hargs op h1
                · simp only [arguments_operators, List.append_nil] at h1
                  exact ihE it arg j he op h1
              cases hc : expect_syntax toks j "," with
              | error x => simp [hc] at h
              | ok b2 =>
                simp only [hc] at h
                cases b2 with
                | true =>
                  simp only [if_true] at h
                  exact ihA _ _ as n h hnew
                | false =>
                  simp only [Bool.false_eq_true, if_false] at h
                  exact ihA _ _ as n h hnew

theorem parse_expression_statement_operators (toks : List token_t) (fuel it : Nat)
    (st : stmt_t) (n : Nat)
    (h : parse_expression_statement toks fuel it = .ok (some (st, n))) :
    ∀ op ∈ stmt_operators st, op ∈ toks ∧ op.kind = token_kind.t_operator := by
  unfold parse_expression_statement at h
  simp only [bind, Except.bind, pure, Except.pure] at h
  cases he : parse_expression toks fuel it with
  | error x => simp [he] at h
  | ok r =>
    cases r with
    | none => simp [he] at h
    | some p =>
      obtain ⟨e, j⟩ := p
      simp only [he] at h
      cases hs : expect_syntax toks j ";" with
      | error x => simp [hs] at h
      | ok b =>
        cases b with
        | false => simp [hs] at h
        | true =>
          simp only [hs, Bool.not_true, Bool.false_eq_true, if_false, Except.ok.injEq,
            Option.some.injEq, Prod.mk.injEq] at h
          obtain ⟨rfl, _⟩ := h
          simp only [stmt_operators]
          exact (parse_expression_operators toks fuel).1 it e j he

theorem parse_return_operators (toks : List token_t) (fuel it : Nat)
    (st : stmt_t) (n : Nat) (h : parse_return toks fuel it = .ok (some (st, n))) :
    ∀ op ∈ stmt_operators st, op ∈ toks ∧ op.kind = token_kind.t_operator := by
  unfold parse_return at h
  simp only [bind, Except.bind, pure, Except.pure] at h
  cases hk : expect_keyword toks it "return" with
  | error x => simp [hk] at h
  | ok b0 =>
    cases b0 with
    | false => simp [hk] at h
    | true =>
      simp only [hk, Bool.not_true, Bool.false_eq_true, if_false] at h
      cases he : parse_expression toks fuel (it + 1) with
      | error x => simp [he] at h
      | ok r =>
        cases r with
        | none => simp [he] at h
        | some p =>
          obtain ⟨e, j⟩ := p
          simp only [he] at h
          cases hs : expect_syntax toks j ";" with
          | error x => simp [hs] at h
          | ok b =>
            cases b with
            | false => simp [hs] at h
            | true =>
              simp only [hs, Bool.not_true, Bool.false_eq_true, if_false, Except.ok.injEq,
                Option.some.injEq, Prod.mk.injEq] at h
              obtain ⟨rfl, _⟩ := h
              simp only [stmt_operators]
              exact (parse_expression_operators toks fuel).1 _ e j he

theorem parse_local_operators (toks : List token_t) (fuel it : Nat)
    (st : stmt_t) (n : Nat) (h : parse_local toks fuel it = .ok (some (st, n))) :
    ∀ op ∈ stmt_operators st, op ∈ toks ∧ op.kind = token_kind.t_operator := by
  unfold parse_local at h
  simp only [bind, Except.bind, pure, Except.pure] at h
  cases hk : expect_keyword toks it "local" with
  | error x => simp [hk] at h
  | ok b0 =>
    cases b0 with
    | false => simp [hk] at h
    | true =>
      simp only [hk, Bool.not_true, Bool.false_eq_true, if_false] at h
      cases hi : expect_identifier toks (it + 1) with
      | error x => simp [hi] at h
      | ok b1 =>
        cases b1 with
        | false => simp [hi] at h
        | true =>
          simp only [hi, Bool.not_true, Bool.false_eq_true, if_false] at h
          cases ht : token_at toks (it + 1) with
          | error x => simp [ht] at h
          | ok id =>
            simp only [ht] at h
            cases hq : expect_syntax toks (it + 1 + 1) "=" with
            | error x => simp [hq] at h
            | ok b2 =>
              cases b2 with
              | false => simp [hq] at h
              | true =>
                simp only [hq, Bool.not_true, Bool.false_eq_true, if_false] at h
                cases he : parse_expression toks fuel (it + 1 + 1 + 1) with
                | error x => simp [he] at h
                | ok r =>
                  cases r with
                  | none => simp [he] at h
                  | some p =>
                    obtain ⟨e, j⟩ := p
                    simp only [he] at h
                    cases hs : expect_syntax toks j ";" with
                    | error x => simp [hs] at h
                    | ok b =>
                      cases b with
                      | false => simp [hs] at h
                      | true =>
                        simp only [hs, Bool.not_true, Bool.false_eq_true, if_false,
                          Except.ok.injEq, Option.some.injEq, Prod.mk.injEq] at h
                        obtain ⟨rfl, _⟩ := h
                        simp only [stmt_operators]
                        exact (parse_expression_operators toks fuel).1 _ e j he

/-- Every operator of a parsed statement is a token of kind operator. -/
theorem parse_statement_operators (toks : List token_t) : ∀ (fuel : Nat),
    (∀ (it : Nat) (st : stmt_t) (n : Nat), parse_statement toks fuel it = .ok (some (st, n)) →
      ∀ op ∈ stmt_operators st, op ∈ toks ∧ op.kind = token_kind.t_operator)
    ∧ (∀ (it : Nat) (st : stmt_t) (n : Nat), parse_function toks fuel it = .ok (some (st, n)) →
      ∀ op ∈ stmt_operators st, op ∈ toks ∧ op.kind = token_kind.t_operator)
    ∧ (∀ (it : Nat) (st : stmt_t) (n : Nat), parse_if toks fuel it = .ok (some (st, n)) →
      ∀ op ∈ stmt_operators st, op ∈ toks ∧ op.kind = token_kind.t_operator)
    ∧ (∀ (stop : Bool) (it : Nat) (stmts sts : List stmt_t) (n : Nat),
      parse_block toks fuel stop it stmts = .ok (some (sts, n)) →
      (∀ op ∈ block_operators stmts, op ∈ toks ∧ op.kind = token_kind.t_operator) →
      ∀ op ∈ block_operators sts, op ∈ toks ∧ op.kind = token_kind.t_operator) := by
  intro fuel
  induction fuel with
  | zero =>
    refine ⟨?_, ?_, ?_, ?_⟩
    · intro it st n h; simp [parse_statement] at h
    · intro it st n h; simp [parse_function] at h
    · intro it st n h; simp [parse_if] at h
    · intro stop it stmts sts n h; simp [parse_block] at h
  | succ fuel ih =>
    obtain ⟨ihS, ihF, ihI, ihB⟩ := ih
    have hnil : ∀ op ∈ block_operators [], op ∈ toks ∧ op.kind = token_kind.t_operator := by
      intro op hop; simp [block_operators] at hop
    refine ⟨?_, ?_, ?_, ?_⟩
    · intro it st n h
      rw [parse_statement] at h
      simp only [bind, Except.bind, pure, Except.pure] at h
      cases h1 : parse_if toks fuel it with
      | error x => simp [h1] at h
      | ok r1 =>
        cases r1 with
        | some p =>
          simp only [h1, Except.ok.injEq, Option.some.injEq] at h
          subst h
          exact ihI it st n h1
        | none =>
          simp only [h1] at h
          cases h2 : parse_return toks fuel it with
          | error x => simp [h2] at h
          | ok r2 =>
            cases r2 with
            | some p =>
              simp only [h2, Except.ok.injEq, Option.some.injEq] at h
              subst h
              exact parse_return_operators toks fuel it st n h2
            | none =>
              simp only [h2] at h
              cases h3 : parse_expression_statement toks fuel it with
              | error x => simp [h3] at h
              | ok r3 =>
                cases r3 with
                | some p =>
                  simp only [h3, Except.ok.injEq, Option.some.injEq] at h
                  subst h
                  exact parse_expression_statement_operators toks fuel it st n h3
                | none =>
                  simp only [h3] at h
                  cases h4 : parse_function toks fuel it with
                  | error x => simp [h4] at h
                  | ok r4 =>
                    cases r4 with
                    | some p =>
                      simp only [h4, Except.ok.injEq, Option.some.injEq] at h
                      subst h
                      exact ihF it st n h4
                    | none =>
                      simp only [h4] at h
                      exact parse_local_operators toks fuel it st n h
    · intro it st n h
      rw [parse_function] at h
      simp only [bind, Except.bind, pure, Except.pure] at h
      cases hk : expect_keyword toks it "function" with
      | error x => simp [hk] at h
      | ok b0 =>
        cases b0 with
        | false => simp [hk] at h
        | true =>
          simp only [hk, Bool.not_true, Bool.false_eq_true, if_false] at h
          cases hi : expect_identifier toks (it + 1) with
          | error x => simp [hi] at h
          | ok b1 =>
            cases b1 with
            | false => simp [hi] at h
            | true =>
              simp only [hi, Bool.not_true, Bool.false_eq_true, if_false] at h
              cases ht : token_at toks (it + 1) with
              | error x => simp [ht] at h
              | ok name =>
                simp only [ht] at h
                cases hq : expect_syntax toks (it + 1 + 1) "(" with
                | error x => simp [hq] at h
                | ok b2 =>
                  cases b2 with
                  | false => simp [hq] at h
                  | true =>
                    simp only [hq, Bool.not_true, Bool.false_eq_true, if_false] at h
                    cases hp : parse_params toks fuel (it + 1 + 1 + 1) [] with
                    | error x => simp [hp] at h
                    | ok rp =>
                      cases rp with
                      | none => simp [hp] at h
                      | some pp =>
                        obtain ⟨params, j⟩ := pp
                        simp only [hp] at h
                        cases hb : parse_block toks fuel false (j + 1) [] with
                        | error x => simp [hb] at h
                        | ok rb =>
                          cases rb with
                          | none => simp [hb] at h
                          | some pb =>
                            obtain ⟨stmts, j2⟩ := pb
                            simp only [hb, Except.ok.injEq, Option.some.injEq,
                              Prod.mk.injEq] at h
                            obtain ⟨rfl, _⟩ := h
                            simp only [stmt_operators]
                            exact ihB false _ [] stmts j2 hb hnil
    · intro it st n h
      rw [parse_if] at h
      simp only [bind, Except.bind, pure, Except.pure] at h
      cases hk : expect_keyword toks it "if" with
      | error x => simp [hk] at h
      | ok b0 =>
        cases b0 with
        | false => simp [hk] at h
        | true =>
          simp only [hk, Bool.not_true, Bool.false_eq_true, if_false] at h
          cases he : parse_expression toks fuel (it + 1) with
          | error x => simp [he] at h
          | ok r =>
            cases r with
            | none => simp [he] at h
            | some p =>
              obtain ⟨cond, j⟩ := p
              simp only [he] at h
              have hcond := (parse_expression_operators toks fuel).1 _ cond j he
              cases ht : expect_keyword toks j "then" with
              | error x => simp [ht] at h
              | ok b1 =>
                cases b1 with
                | false => simp [ht] at h
                | true =>
                  simp only [ht, Bool.not_true, Bool.false_eq_true, if_false] at h
                  cases hb : parse_block toks fuel true (j + 1) [] with
                  | error x => simp [hb] at h
                  | ok rb =>
                    cases rb with
                    | none => simp [hb] at h
                    | some pb =>
                      obtain ⟨stmts, j2⟩ := pb
                      simp only [hb] at h
                      have hthen := ihB true _ [] stmts j2 hb hnil
                      cases hel : expect_keyword toks j2 "else" with
                      | error x => simp [hel] at h
                      | ok b2 =>
                        simp only [hel] at h
                        cases b2 with
                        | true =>
                          simp only [if_true] at h
                          cases hb2 : parse_block toks fuel false (j2 + 1) [] with
                          | error x => simp [hb2] at h
                          | ok rb2 =>
                            cases rb2 with
                            | none => simp [hb2] at h
                            | some pb2 =>
                              obtain ⟨els, j3⟩ := pb2
                              simp only [hb2, Except.ok.injEq, Option.some.injEq,
                                Prod.mk.injEq] at h
                              obtain ⟨rfl, _⟩ := h
                              have helse := ihB false _ [] els j3 hb2 hnil
                              intro op hop
                              simp only [stmt_operators, List.mem_append] at hop
                              rcases hop with h1 | h1 | h1
                              · exact hcond op h1
                              · exact hthen op h1
                              · exact helse op h1
                        | false =>
                          simp only [Bool.false_eq_true, if_false, Except.ok.injEq,
                            Option.some.injEq, Prod.mk.injEq] at h
                          obtain ⟨rfl, _⟩ := h
                          intro op hop
                          simp only [stmt_operators, block_operators, List.append_nil,
                            List.mem_append] at hop
                          rcases hop with h1 | h1
                          · exact hcond op h1
                          · exact hthen op h1
    · intro stop it stmts sts n h hst
      rw [parse_block] at h
      simp only [bind, Except.bind, pure, Except.pure] at h
      cases hk : expect_keyword toks it "end" with
      | error x => simp [hk] at h
      | ok b0 =>
        simp only [hk] at h
        cases b0 with
        | true =>
          simp only [if_true, Except.ok.injEq, Option.some.injEq, Prod.mk.injEq] at h
          obtain ⟨rfl, _⟩ := h
          exact hst
        | false =>
          simp only [Bool.false_eq_true, if_false] at h
          have hloop : ∀ r, (match r with
              | .error e => (.error e : result (ast_yield (List stmt_t)))
              | .ok none => .ok none
              | .ok (some (stmt, next_it)) =>
                parse_block toks fuel stop next_it (stmts ++ [stmt])) = .ok (some (sts, n)) →
              r = parse_statement toks fuel it →
              ∀ op ∈ block_operators sts, op ∈ toks ∧ op.kind = token_kind.t_operator := by
            intro r hr hreq
            cases r with
            | error x => simp at hr
            | ok y =>
              cases y with
              | none => simp at hr
              | some p =>
                obtain ⟨stmt, j⟩ := p
                simp only at hr
                apply ihB stop j _ sts n hr
                intro op hop
                rw [block_operators_append] at hop
                rcases List.mem_append.1 hop with h1 | h1
                · exact hst op h1
                · simp only [block_operators, List.append_nil] at h1
                  exact ihS it stmt j hreq.symm op h1
          cases hel : expect_keyword toks it "else" with
          | error x => simp [hel] at h
          | ok b1 =>
            simp only [hel] at h
            by_cases hstop : (stop && b1) = true
            · simp only [hstop, if_true, Except.ok.injEq, Option.some.injEq, Prod.mk.injEq] at h
              obtain ⟨rfl, _⟩ := h
              exact hst
            · simp only [hstop, if_false] at h
              cases hs : parse_statement toks fuel it with
              | error x => simp [hs] at h
              | ok y =>
                cases y with
                | none => simp [hs] at h
                | some p =>
                  obtain ⟨stmt, j⟩ := p
                  simp only [hs] at h
                  exact hloop (.ok (some (stmt, j))) h hs.symm

/-- Every operator of the tree `parse` returns is a token of kind operator. -/
theorem parse_operators (toks : List token_t) (tree : ast) (h : parse toks = .ok tree) :
    ∀ op ∈ block_operators tree, op ∈ toks ∧ op.kind = token_kind.t_operator := by
  have hloop : ∀ (fuel it : Nat) (acc : ast),
      parse_loop toks fuel it acc = .ok tree →
      (∀ op ∈ block_operators acc, op ∈ toks ∧ op.kind = token_kind.t_operator) →
      ∀ op ∈ block_operators tree, op ∈ toks ∧ op.kind = token_kind.t_operator := by
    intro fuel
    induction fuel with
    | zero => intro it acc h; simp [parse_loop] at h
    | succ fuel ih =>
      intro it acc h hacc
      rw [parse_loop] at h
      by_cases hlt : it < toks.length
      · simp only [hlt, if_true] at h
        cases hs : parse_statement toks fuel it with
        | error x => simp [hs] at h
        | ok y =>
          cases y with
          | none => simp [hs] at h
          | some p =>
            obtain ⟨stmt, j⟩ := p
            simp only [hs] at h
            apply ih j _ h
            intro op hop
            rw [block_operators_append] at hop
            rcases List.mem_append.1 hop with h1 | h1
            · exact hacc op h1
            · simp only [block_operators, List.append_nil] at h1
              exact (parse_statement_operators toks fuel).1 it stmt j hs op h1
      · simp only [hlt, if_false, Except.ok.injEq] at h
        subst h
        exact hacc
  unfold parse at h
  exact hloop _ 0 [] h (by intro op hop; simp [block_operators] at hop)

/-! ## The instructions emitted for operators -/

/-- No operator literal of the lexer is lowered to `SUB`, `COND AND` or `COND OR`. -/
theorem binary_opcode_lexed : ∀ lit ∈ lexed_operators,
    (match binary_opcode lit with
      | .ok inst => sub_and_or inst
      | .error _ => false) = false := by
  decide

theorem plain_push (p : program) (inst : instruction)
    (hp : ∀ i ∈ p.insts, sub_and_or i = false) (hi : sub_and_or inst = false) :
    ∀ i ∈ (p.push inst).insts, sub_and_or i = false := by
  intro i h
  simp only [program.push, List.mem_append, List.mem_singleton] at h
  rcases h with h | h
  · exact hp i h
  · subst h; exact hi

mutual
/-- Lowering an expression whose operators are literals of the lexer emits no
`SUB`, `COND AND` or `COND OR`. -/
theorem compile_expr_plain : ∀ (e : expr_t) (p : program) (l : locals_t) (q : program)
    (l' : locals_t), compile_expr p l e = .ok (q, l') →
    (∀ op ∈ expr_operators e, op.literal ∈ lexed_operators) →
    (∀ i ∈ p.insts, sub_and_or i = false) → ∀ i ∈ q.insts, sub_and_or i = false
  | .null, p, l, q, l', h, _, _ => by simp [compile_expr] at h
  | .literal_id t, p, l, q, l', h, _, hp => by
    rw [compile_expr] at h
    simp only [compile_literal, Except.ok.injEq, Prod.mk.injEq] at h
    obtain ⟨rfl, rfl⟩ := h
    exact plain_push _ _ hp rfl
  | .literal_number t, p, l, q, l', h, _, hp => by
    rw [compile_expr] at h
    simp only [compile_literal] at h
    cases hs : stoi t.literal with
    | error e => simp [hs] at h
    | ok num =>
      simp only [hs, Except.ok.injEq, Prod.mk.injEq] at h
      obtain ⟨rfl, rfl⟩ := h
      exact plain_push _ _ hp rfl
  | .func_call name args, p, l, q, l', h, ho, hp => by
    rw [compile_expr] at h
    cases ha : compile_arguments p l args with
    | error e => simp [ha] at h
    | ok r =>
      obtain ⟨q1, l1⟩ := r
      simp only [ha, Except.ok.injEq, Prod.mk.injEq] at h
      obtain ⟨rfl, rfl⟩ := h
      exact plain_push _ _
        (compile_arguments_plain args p l q1 l1 ha (by simpa [expr_operators] using ho) hp) rfl
  | .binary_op op left right, p, l, q, l', h, ho, hp => by
    rw [compile_expr] at h
    have hol : ∀ o ∈ expr_operators left, o.literal ∈ lexed_operators := by
      intro o hmem; exact ho o (by simp [expr_operators, hmem])
    have hor : ∀ o ∈ expr_operators right, o.literal ∈ lexed_operators := by
      intro o hmem; exact ho o (by simp [expr_operators, hmem])
    have hop : op.literal ∈ lexed_operators := ho op (by simp [expr_operators])
    cases hc1 : clone left with
    | error e => simp [hc1] at h
    | ok c1 =>
      simp only [hc1] at h
      cases h1 : compile_expr p l left with
      | error e => simp [h1] at h
      | ok r1 =>
        obtain ⟨q1, l1⟩ := r1
        simp only [h1] at h
        cases hc2 : clone right with
        | error e => simp [hc2] at h
        | ok c2 =>
          simp only [hc2] at h
          cases h2 : compile_expr q1 l1 right with
          | error e => simp [h2] at h
          | ok r2 =>
            obtain ⟨q2, l2⟩ := r2
            simp only [h2] at h
            cases hb : binary_opcode op.literal with
            | error e => simp [hb] at h
            | ok inst =>
              simp only [hb, Except.ok.injEq, Prod.mk.injEq] at h
              obtain ⟨rfl, rfl⟩ := h
              have hi := binary_opcode_lexed op.literal hop
              rw [hb] at hi
              exact plain_push _ _
                (compile_expr_plain right q1 l1 q2 l2 h2 hor
                  (compile_expr_plain left p l q1 l1 h1 hol hp)) hi
/-- The argument loop emits no `SUB`, `COND AND` or `COND OR` either. -/
theorem compile_arguments_plain : ∀ (es : List expr_t) (p : program) (l : locals_t)
    (q : program) (l' : locals_t), compile_arguments p l es = .ok (q, l') →
    (∀ op ∈ arguments_operators es, op.literal ∈ lexed_operators) →
    (∀ i ∈ p.insts, sub_and_or i = false) → ∀ i ∈ q.insts, sub_and_or i = false
  | [], p, l, q, l', h, _, hp => by
    simp only [compile_arguments, Except.ok.injEq, Prod.mk.injEq] at h
    obtain ⟨rfl, rfl⟩ := h
    exact hp
  | e :: es, p, l, q, l', h, ho, hp => by
    rw [compile_arguments] at h
    cases hc : clone e with
    | error x => simp [hc] at h
    | ok c =>
      simp only [hc] at h
      cases h1 : compile_expr p l e with
      | error x => simp [h1] at h
      | ok r1 =>
        obtain ⟨q1, l1⟩ := r1
        simp only [h1] at h
        exact compile_arguments_plain es q1 l1 q l' h
          (by intro o hmem; exact ho o (by simp [arguments_operators, hmem]))
          (compile_expr_plain e p l q1 l1 h1
            (by intro o hmem; exact ho o (by simp [arguments_operators, hmem])) hp)
end

mutual
/-- Lowering a statement whose operators are literals of the lexer emits no
`SUB`, `COND AND` or `COND OR`. -/
theorem compile_statement_plain : ∀ (st : stmt_t) (p : program) (l : locals_t) (q : program)
    (l' : locals_t), compile_statement p l st = .ok (q, l') →
    (∀ op ∈ stmt_operators st, op.literal ∈ lexed_operators) →
    (∀ i ∈ p.insts, sub_and_or i = false) → ∀ i ∈ q.insts, sub_and_or i = false
  | .expr_stmt e, p, l, q, l', h, ho, hp => by
    rw [compile_statement] at h
    exact compile_expr_plain e p l q l' h (by simpa [stmt_operators] using ho) hp
  | .ret_stmt e, p, l, q, l', h, ho, hp => by
    rw [compile_statement] at h
    cases hc : clone e with
    | error x => simp [hc] at h
    | ok c =>
      simp only [hc] at h
      cases h1 : compile_expr p l e with
      | error x => simp [h1] at h
      | ok r1 =>
        obtain ⟨q1, l1⟩ := r1
        simp only [h1, Except.ok.injEq, Prod.mk.injEq] at h
        obtain ⟨rfl, rfl⟩ := h
        exact plain_push _ _
          (compile_expr_plain e p l q1 l1 h1 (by simpa [stmt_operators] using ho) hp) rfl
  | .local_stmt name e, p, l, q, l', h, ho, hp => by
    rw [compile_statement] at h
    cases hc : clone e with
    | error x => simp [hc] at h
    | ok c =>
      simp only [hc] at h
      cases h1 : compile_expr p (map_insert l name.literal (l.length : Int)) e with
      | error x => simp [h1] at h
      | ok r1 =>
        obtain ⟨q1, l1⟩ := r1
        simp only [h1, Except.ok.injEq, Prod.mk.injEq] at h
        obtain ⟨rfl, rfl⟩ := h
        exact plain_push _ _
          (compile_expr_plain e p _ q1 l1 h1 (by simpa [stmt_operators] using ho) hp) rfl
  | .if_stmt cond then_body else_body, p, l, q, l', h, ho, hp => by
    rw [compile_statement] at h
    have hoc : ∀ o ∈ expr_operators cond, o.literal ∈ lexed_operators := by
      intro o hmem; exact ho o (by simp [stmt_operators, hmem])
    have hot : ∀ o ∈ block_operators then_body, o.literal ∈ lexed_operators := by
      intro o hmem; exact ho o (by simp [stmt_operators, hmem])
    have hoe : ∀ o ∈ block_operators else_body, o.literal ∈ lexed_operators := by
      intro o hmem; exact ho o (by simp [stmt_operators, hmem])
    cases hc : clone cond with
    | error x => simp [hc] at h
    | ok c =>
      simp only [hc] at h
      cases h1 : compile_expr p l cond with
      | error x => simp [h1] at h
      | ok r1 =>
        obtain ⟨q1, l1⟩ := r1
        simp only [h1] at h
        cases h2 : compile_block
            (q1.push (.jump_if_zero_inst ("label_else_" ++ toString p.insts.length))) l1
            then_body with
        | error x => simp [h2] at h
        | ok r2 =>
          obtain ⟨q2, l2⟩ := r2
          simp only [h2] at h
          cases h3 : compile_block
              { (q2.push (.jump_inst ("label_out_" ++ toString p.insts.length))) with
                syms := map_insert
                  (q2.push (.jump_inst ("label_out_" ++ toString p.insts.length))).syms
                  ("label_else_" ++ toString p.insts.length)
                  ⟨(q2.push (.jump_inst ("label_out_" ++ toString p.insts.length))).insts.length,
                    0, 0⟩ }
              l2 else_body with
          | error x => simp [h3] at h
          | ok r3 =>
            obtain ⟨q3, l3⟩ := r3
            simp only [h3, Except.ok.injEq, Prod.mk.injEq] at h
            obtain ⟨rfl, rfl⟩ := h
            have a1 := compile_expr_plain cond p l q1 l1 h1 hoc hp
            have a2 := compile_block_plain then_body _ l1 q2 l2 h2 hot (plain_push _ _ a1 rfl)
            exact compile_block_plain else_body _ l2 q3 l3 h3 hoe
              (plain_push q2 (.jump_inst ("label_out_" ++ toString p.insts.length)) a2 rfl)
  | .func_decl name params body, p, l, q, l', h, ho, hp => by
    rw [compile_statement] at h
    have hP1 := compile_params_code params.length params 0
      (p.push (.jump_inst ("function_done_" ++ toString p.insts.length))) []
    cases hP : compile_params params.length params 0
        (p.push (.jump_inst ("function_done_" ++ toString p.insts.length))) [] with
    | mk pP nl =>
      rw [hP] at hP1
      simp only at hP1
      simp only [hP] at h
      cases hB : compile_block pP nl body with
      | error x => simp [hB] at h
      | ok rB =>
        obtain ⟨pB, nl'⟩ := rB
        simp only [hB, Except.ok.injEq, Prod.mk.injEq] at h
        obtain ⟨rfl, rfl⟩ := h
        have a0 := plain_push p (.jump_inst ("function_done_" ++ toString p.insts.length)) hp rfl
        have aP : ∀ i ∈ pP.insts, sub_and_or i = false := by
          rw [hP1]
          intro i hi
          simp only [List.mem_append, List.mem_map] at hi
          rcases hi with hi | ⟨k, _, rfl⟩
          · exact a0 i hi
          · rfl
        have aB := compile_block_plain body pP nl pB nl' hB
          (by simpa [stmt_operators] using ho) aP
        show ∀ i ∈ (if back_is_return pB = true then pB
          else pB.push (.return_inst false)).insts, sub_and_or i = false
        cases back_is_return pB
        · exact plain_push _ _ aB rfl
        · exact aB
/-- A statement loop emits no `SUB`, `COND AND` or `COND OR` either. -/
theorem compile_block_plain : ∀ (sts : List stmt_t) (p : program) (l : locals_t)
    (q : program) (l' : locals_t), compile_block p l sts = .ok (q, l') →
    (∀ op ∈ block_operators sts, op.literal ∈ lexed_operators) →
    (∀ i ∈ p.insts, sub_and_or i = false) → ∀ i ∈ q.insts, sub_and_or i = false
  | [], p, l, q, l', h, _, hp => by
    simp only [compile_block, Except.ok.injEq, Prod.mk.injEq] at h
    obtain ⟨rfl, rfl⟩ := h
    exact hp
  | st :: sts, p, l, q, l', h, ho, hp => by
    rw [compile_block] at h
    cases h1 : compile_statement p l st with
    | error x => simp [h1] at h
    | ok r1 =>
      obtain ⟨q1, l1⟩ := r1
      simp only [h1] at h
      exact compile_block_plain sts q1 l1 q l' h
        (by intro o hmem; exact ho o (by simp [block_operators, hmem]))
        (compile_statement_plain st p l q1 l1 h1
          (by intro o hmem; exact ho o (by simp [block_operators, hmem])) hp)
end

/-! ## The operator tokens of the lexer -/

/-- An operator of the list is a literal an operator token can have, or `-`, or
starts with a keyword. -/
theorem operators_split : ∀ w ∈ operators,
    w ∈ lexed_operators ∨ w = "-" ∨ ∃ k ∈ keywords, k.toList <+: w.toList := by
  decide

/-- The literal of an operator token is one of `lexed_operators`. -/
theorem operator_token_literal (U : List Char) (kind : token_kind) (lit : String) (n : Nat)
    (eof : Bool) (h : token_scan U = some (kind, lit, n, eof))
    (hk : kind = token_kind.t_operator) : lit ∈ lexed_operators := by
  subst hk
  rcases token_scan_cases U _ lit n eof h with
    ⟨h0, _⟩ | ⟨h0, _⟩ | ⟨h0, _⟩ | ⟨h0, _⟩ | ⟨_, hkw, _, hn, _, ho⟩
  · cases h0
  · cases h0
  · cases h0
  · cases h0
  · obtain ⟨pre, post, h1, _, h3, _⟩ := word_find_hit U operators lit n eof ho
    have hmem : lit ∈ operators := by rw [h1]; simp
    rcases operators_split lit hmem with h | rfl | ⟨k, hk1, hk2⟩
    · exact h
    · obtain ⟨X, hX⟩ := h3
      have hU : U = '-' :: X := by rw [← hX]; rfl
      rw [hU] at hn
      exact absurd hn (number_scan_minus X)
    · exact absurd (hk2.trans h3) (word_find_miss U keywords hkw k hk1)

theorem keywords_head_no_minus : ∀ w ∈ keywords, w.toList.head? ≠ some '-' := by decide

theorem keywords_no_minus : ∀ w ∈ keywords, ∀ cs, w.toList ≠ '-' :: cs := by
  intro w hw cs h
  have : w.toList.head? = some '-' := by rw [h]; rfl
  exact keywords_head_no_minus w hw this

/-- A text that starts with `-` is taken by the number sub-lexer: the literal
of its token is `-` followed by digits. -/
theorem minus_is_number (X : List Char) (kind : token_kind) (lit : String) (n : Nat)
    (eof : Bool) (h : token_scan ('-' :: X) = some (kind, lit, n, eof)) :
    kind = token_kind.t_number
      ∧ ∃ ds, (∀ d ∈ ds, isdigit d = true) ∧ lit = String.mk ('-' :: ds) := by
  rcases token_scan_cases _ kind lit n eof h with
    ⟨_, hk⟩ | ⟨_, _, hi⟩ | ⟨rfl, _, _, hn⟩ | ⟨_, _, _, hn, _⟩ | ⟨_, _, _, hn, _⟩
  · obtain ⟨pre, post, h1, _, h3, _⟩ := word_find_hit _ keywords lit n eof hk
    have hmem : lit ∈ keywords := by rw [h1]; simp
    obtain ⟨Z, hZ⟩ := h3
    cases hl : lit.toList with
    | nil => exact absurd hl (keywords_nonempty lit hmem)
    | cons c cs =>
      rw [hl] at hZ
      simp only [List.cons_append, List.cons.injEq] at hZ
      rw [hZ.1] at hl
      exact absurd hl (keywords_no_minus lit hmem cs)
  · obtain ⟨_, _, c, cs, h3, _⟩ := identifier_scan_hit _ lit n eof hi
    have : identifier_char '-' = false := by decide
    simp [List.takeWhile, this] at h3
  · obtain ⟨sign, plus, ds, hs, hp, hd, hne, hl, _, hpre⟩ := number_scan_hit _ lit n eof hn
    refine ⟨rfl, ds, hd, ?_⟩
    rcases hs with rfl | rfl
    · exfalso
      obtain ⟨Z, hZ⟩ := hpre
      rcases hp with rfl | rfl
      · cases ds with
        | nil => simp at hne
        | cons d ds =>
          simp only [List.nil_append, List.cons_append, List.cons.injEq] at hZ
          have := hd d (by simp)
          rw [hZ.1] at this
          revert this; decide
      · simp only [List.nil_append, List.cons_append, List.cons.injEq] at hZ
        have := hZ.1
        revert this; decide
    · rw [hl]; rfl
  · exact absurd hn (number_scan_minus X)
  · exact absurd hn (number_scan_minus X)

/-- A text that starts with a keyword is taken by the keyword sub-lexer. -/
theorem keyword_first (w : String) (hw : w ∈ keywords) (X : List Char) (kind : token_kind)
    (lit : String) (n : Nat) (eof : Bool)
    (h : token_scan (w.toList ++ X) = some (kind, lit, n, eof)) :
    kind = token_kind.t_keyword := by
  have hp : w.toList <+: w.toList ++ X := List.prefix_append _ _
  rcases token_scan_cases _ kind lit n eof h with
    ⟨h0, _⟩ | ⟨_, hk, _⟩ | ⟨_, hk, _⟩ | ⟨_, hk, _⟩ | ⟨_, hk, _⟩
  · exact h0
  · exact absurd hp (word_find_miss _ keywords hk w hw)
  · exact absurd hp (word_find_miss _ keywords hk w hw)
  · exact absurd hp (word_find_miss _ keywords hk w hw)
  · exact absurd hp (word_find_miss _ keywords hk w hw)

/-! ## The stages of the front end -/

/-- A program comes out of the front end through the three stages. -/
theorem front_end_ok (source : String) (prog : program) (h : front_end source = .ok prog) :
    ∃ toks tree, tokenize source.toList = .ok toks ∧ parse toks = .ok tree
      ∧ compile tree = .ok prog := by
  unfold front_end at h
  split at h
  · cases h
  · next toks ht =>
    split at h
    · cases h
    · next tree hp => exact ⟨toks, tree, ht, hp, h⟩

/-! ## C37: no operator token `-`, `and `, `or `, `not ` -/

/-- C37 as stated fails on `-+5;`: the `-` is followed by `+`, not by a digit,
and the number sub-lexer does not return a token with the literal `-`: it skips
the `+` and returns the number token `-5`. -/
theorem C37_minus_before_plus_takes_the_digits :
    tokenize "-+5;".toList
      = .ok [⟨token_kind.t_number, "-5", ⟨1, 1, 0⟩⟩, ⟨token_kind.t_syntax, ";", ⟨1, 4, 3⟩⟩]
    ∧ isdigit '+' = false := by
  refine ⟨by decide!, by decide⟩

/-- C37 amended: the literal of every operator token `next` returns is one of
`==`, `!=`, `>=`, `<=`, `+`, `*`, `/`, `^`, `%`, `>`, `<`, never `-`, `and `,
`or ` or `not `.  A text that starts with `-` is taken by the number sub-lexer,
as a number token whose literal is `-` followed by the digits read (none, when
no digit follows the `-` or the `+` after it); a text that starts with a keyword,
such as `and`, `or`, `not`, is taken by the keyword sub-lexer.  Every operator of
a parsed tree is an operator token, and no literal of an operator token is
lowered to `SUB`, `COND AND` or `COND OR`: the program of no source text holds
one of these instructions. -/
theorem C37_no_sub_and_or :
    (∀ (lx lx' : lexer) (t : token_t) (post : location),
      next lx = .ok (some (t, post), lx') → t.kind = token_kind.t_operator →
      t.literal ∈ lexed_operators)
    ∧ (∀ lit ∈ ["-", "and ", "or ", "not "], lit ∉ lexed_operators)
    ∧ (∀ (X : List Char) (kind : token_kind) (lit : String) (n : Nat) (eof : Bool),
      token_scan ('-' :: X) = some (kind, lit, n, eof) →
      kind = token_kind.t_number
        ∧ ∃ ds, (∀ d ∈ ds, isdigit d = true) ∧ lit = String.mk ('-' :: ds))
    ∧ (∀ w ∈ ["and", "or", "not"], ∀ (X : List Char) (kind : token_kind) (lit : String)
      (n : Nat) (eof : Bool), token_scan (w.toList ++ X) = some (kind, lit, n, eof) →
      kind = token_kind.t_keyword)
    ∧ (∀ (toks : List token_t) (tree : ast), parse toks = .ok tree →
      ∀ op ∈ block_operators tree, op ∈ toks ∧ op.kind = token_kind.t_operator)
    ∧ (∀ (source : String) (prog : program), front_end source = .ok prog →
      .subtract_inst ∉ prog.insts ∧ .logic_cond_inst .AND ∉ prog.insts
        ∧ .logic_cond_inst .OR ∉ prog.insts)
    ∧ tokenize "a - b;".toList
      = .ok [⟨token_kind.t_identifier, "a", ⟨1, 1, 0⟩⟩, ⟨token_kind.t_number, "-", ⟨1, 3, 2⟩⟩,
             ⟨token_kind.t_identifier, "b", ⟨1, 5, 4⟩⟩, ⟨token_kind.t_syntax, ";", ⟨1, 6, 5⟩⟩]
    ∧ tokenize "a and b;".toList
      = .ok [⟨token_kind.t_identifier, "a", ⟨1, 1, 0⟩⟩, ⟨token_kind.t_keyword, "and", ⟨1, 3, 2⟩⟩,
             ⟨token_kind.t_identifier, "b", ⟨1, 7, 6⟩⟩, ⟨token_kind.t_syntax, ";", ⟨1, 8, 7⟩⟩] := by
  refine ⟨?_, by decide, minus_is_number, ?_, parse_operators, ?_, by decide!, by decide!⟩
  · intro lx lx' t post h hk
    obtain ⟨ws, U, n, eof, _, _, hts, _⟩ := next_token_text lx t post lx' h
    exact operator_token_literal U t.kind t.literal n eof hts hk
  · intro w hw X kind lit n eof h
    have hwk : w ∈ keywords := by
      simp only [List.mem_cons, List.mem_singleton, List.not_mem_nil, or_false] at hw
      rcases hw with rfl | rfl | rfl <;> decide
    exact keyword_first w hwk X kind lit n eof h
  · intro source prog h
    obtain ⟨toks, tree, ht, hp, hc0⟩ := front_end_ok source prog h
    have hops : ∀ op ∈ block_operators tree, op.literal ∈ lexed_operators := by
      intro op hop
      obtain ⟨hmem, hkind⟩ := parse_operators toks tree hp op hop
      rw [tokenize_total] at ht
      obtain ⟨_, n, eof, hts⟩ := lex_all_locs source.toList toks ht op hmem
      exact operator_token_literal _ op.kind op.literal n eof hts hkind
    unfold compile at hc0
    cases hc : compile_block ⟨[], []⟩ [] tree with
    | error e => simp [hc] at hc0
    | ok r =>
      obtain ⟨q, l'⟩ := r
      simp only [hc, Except.ok.injEq] at hc0
      subst hc0
      have hplain := compile_block_plain tree ⟨[], []⟩ [] q l' hc hops
        (by intro i hi; cases hi)
      refine ⟨?_, ?_, ?_⟩ <;> intro hmem <;> have := hplain _ hmem <;> revert this <;> decide

/-! ## Slots stay within the frame -/

theorem slot_within_mono (n m : Nat) (h : n ≤ m) (i : instruction)
    (hi : slot_within n i = true) : slot_within m i = true := by
  cases i <;> simp only [slot_within, Bool.and_eq_true, decide_eq_true_eq] at hi ⊢
  · exact ⟨hi.1, by omega⟩
  · omega
  · omega

theorem map_bounded_insert (l : locals_t) (k : String) (v : Int) (hl : map_bounded l)
    (h0 : 0 ≤ v) (hv : v ≤ (l.length : Int)) : map_bounded (map_insert l k v) := by
  unfold map_insert
  cases hk : map_find l k with
  | some y => exact hl
  | none =>
    intro key x hx
    simp only [map_find_append] at hx
    simp only [List.length_append, List.length_singleton]
    cases hkey : map_find l key with
    | some y =>
      simp only [hkey, Option.some.injEq] at hx
      subst hx
      have := hl key y hkey
      push_cast; omega
    | none =>
      simp only [hkey] at hx
      by_cases e : k = key
      · simp only [e, if_true, Option.some.injEq] at hx
        subst hx
        push_cast; omega
      · simp [e] at hx

theorem map_bounded_index (l : locals_t) (k : String) (hl : map_bounded l) :
    map_bounded (map_index l k 0).2
      ∧ 0 ≤ (map_index l k 0).1 ∧ (map_index l k 0).1 < ((map_index l k 0).2.length : Int) := by
  unfold map_index
  cases hk : map_find l k with
  | some y => exact ⟨hl, hl k y hk⟩
  | none =>
    have hb : map_bounded (l ++ [(k, (0 : Int))]) := by
      have := map_bounded_insert l k 0 hl (le_refl _) (by omega)
      simpa [map_insert, hk] using this
    refine ⟨hb, le_refl _, ?_⟩
    simp only [List.length_append, List.length_singleton]
    push_cast; omega

theorem frame_effect_refl (p : program) (l : locals_t) (hl : map_bounded l) :
    frame_effect p l p l :=
  ⟨le_refl _, hl, [], by simp, by simp⟩

theorem frame_effect_push (p : program) (l : locals_t) (q : program) (l' : locals_t)
    (inst : instruction) (hi : slot_within l'.length inst = true) (h : frame_effect p l q l') :
    frame_effect p l (q.push inst) l' := by
  obtain ⟨h1, h2, added, h3, h4⟩ := h
  refine ⟨h1, h2, added ++ [inst], by simp [program.push, h3], ?_⟩
  intro i hmem
  rcases List.mem_append.mp hmem with h | h
  · exact h4 i h
  · simp at h; subst h; exact hi

theorem frame_effect_trans (p : program) (l : locals_t) (q : program) (l' : locals_t)
    (r : program) (l'' : locals_t)
    (h1 : frame_effect p l q l') (h2 : frame_effect q l' r l'') : frame_effect p l r l'' := by
  obtain ⟨a1, a2, added, a3, a4⟩ := h1
  obtain ⟨b1, b2, added', b3, b4⟩ := h2
  refine ⟨by omega, b2, added ++ added', by rw [b3, a3, List.append_assoc], ?_⟩
  intro i hi
  rcases List.mem_append.mp hi with h | h
  · exact slot_within_mono _ _ b1 i (a4 i h)
  · exact b4 i h

/-- The symbols of a program do not matter. -/
theorem frame_effect_syms (p : program) (l : locals_t) (q : program) (l' : locals_t)
    (s : List (String × symbol)) (h : frame_effect p l q l') :
    frame_effect p l { q with syms := s } l' := h

theorem frame_effect_from (p p' : program) (l : locals_t) (q : program) (l' : locals_t)
    (hp : p'.insts = p.insts) (h : frame_effect p' l q l') : frame_effect p l q l' := by
  obtain ⟨h1, h2, added, h3, h4⟩ := h
  exact ⟨h1, h2, added, by rw [h3, hp], h4⟩

theorem binary_opcode_slot (oplit : String) (inst : instruction)
    (h : binary_opcode oplit = .ok inst) (n : Nat) : slot_within n inst = true := by
  unfold binary_opcode at h
  repeat' split at h
  all_goals first
    | (injection h with h; subst h; rfl)
    | (injection h)

mutual
/-- Lowering an expression against a bounded map stays within the frame. -/
theorem compile_expr_frame : ∀ (e : expr_t) (p : program) (l : locals_t) (q : program)
    (l' : locals_t), compile_expr p l e = .ok (q, l') → map_bounded l → frame_effect p l q l'
  | .null, p, l, q, l', h, _ => by simp [compile_expr] at h
  | .literal_id t, p, l, q, l', h, hl => by
    rw [compile_expr] at h
    simp only [compile_literal, Except.ok.injEq, Prod.mk.injEq] at h
    obtain ⟨rfl, rfl⟩ := h
    obtain ⟨b1, b2, b3⟩ := map_bounded_index l t.literal hl
    refine ⟨map_index_length _ _ _, b1, [_], rfl, ?_⟩
    intro i hi
    simp only [List.mem_singleton] at hi
    subst hi
    simp only [slot_within, Bool.and_eq_true, decide_eq_true_eq]
    exact ⟨b2, b3⟩
  | .literal_number t, p, l, q, l', h, hl => by
    rw [compile_expr] at h
    simp only [compile_literal] at h
    cases hs : stoi t.literal with
    | error e => simp [hs] at h
    | ok num =>
      simp only [hs, Except.ok.injEq, Prod.mk.injEq] at h
      obtain ⟨rfl, rfl⟩ := h
      exact frame_effect_push _ _ _ _ _ rfl (frame_effect_refl p l hl)
  | .func_call name args, p, l, q, l', h, hl => by
    rw [compile_expr] at h
    cases ha : compile_arguments p l args with
    | error e => simp [ha] at h
    | ok r =>
      obtain ⟨q1, l1⟩ := r
      simp only [ha, Except.ok.injEq, Prod.mk.injEq] at h
      obtain ⟨rfl, rfl⟩ := h
      exact frame_effect_push _ _ _ _ _ rfl (compile_arguments_frame args p l q1 l1 ha hl)
  | .binary_op op left right, p, l, q, l', h, hl => by
    rw [compile_expr] at h
    cases hc1 : clone left with
    | error e => simp [hc1] at h
    | ok c1 =>
      simp only [hc1] at h
      cases h1 : compile_expr p l left with
      | error e => simp [h1] at h
      | ok r1 =>
        obtain ⟨q1, l1⟩ := r1
        simp only [h1] at h
        cases hc2 : clone right with
        | error e => simp [hc2] at h
        | ok c2 =>
          simp only [hc2] at h
          cases h2 : compile_expr q1 l1 right with
          | error e => simp [h2] at h
          | ok r2 =>
            obtain ⟨q2, l2⟩ := r2
            simp only [h2] at h
            cases ho : binary_opcode op.literal with
            | error e => simp [ho] at h
            | ok inst =>
              simp only [ho, Except.ok.injEq, Prod.mk.injEq] at h
              obtain ⟨rfl, rfl⟩ := h
              have e1 := compile_expr_frame left p l q1 l1 h1 hl
              have e2 := compile_expr_frame right q1 l1 q2 l2 h2 e1.2.1
              have hi : slot_within l2.length inst = true := binary_opcode_slot _ _ ho _
              exact frame_effect_push _ _ _ _ _ hi (frame_effect_trans _ _ _ _ _ _ e1 e2)
/-- The argument loop stays within the frame. -/
theorem compile_arguments_frame : ∀ (es : List expr_t) (p : program) (l : locals_t)
    (q : program) (l' : locals_t), compile_arguments p l es = .ok (q, l') → map_bounded l →
    frame_effect p l q l'
  | [], p, l, q, l', h, hl => by
    simp only [compile_arguments, Except.ok.injEq, Prod.mk.injEq] at h
    obtain ⟨rfl, rfl⟩ := h
    exact frame_effect_refl _ _ hl
  | e :: es, p, l, q, l', h, hl => by
    rw [compile_arguments] at h
    cases hc : clone e with
    | error x => simp [hc] at h
    | ok c =>
      simp only [hc] at h
      cases h1 : compile_expr p l e with
      | error x => simp [h1] at h
      | ok r1 =>
        obtain ⟨q1, l1⟩ := r1
        simp only [h1] at h
        have e1 := compile_expr_frame e p l q1 l1 h1 hl
        exact frame_effect_trans _ _ _ _ _ _ e1
          (compile_arguments_frame es q1 l1 q l' h e1.2.1)
end

mutual
/-- Lowering a statement without a nested declaration against a bounded map
stays within the frame. -/
theorem compile_statement_frame : ∀ (st : stmt_t) (p : program) (l : locals_t) (q : program)
    (l' : locals_t), compile_statement p l st = .ok (q, l') → flat_stmt st = true →
    map_bounded l → frame_effect p l q l'
  | .expr_stmt e, p, l, q, l', h, _, hl => by
    rw [compile_statement] at h
    exact compile_expr_frame e p l q l' h hl
  | .ret_stmt e, p, l, q, l', h, _, hl => by
    rw [compile_statement] at h
    cases hc : clone e with
    | error x => simp [hc] at h
    | ok c =>
      simp only [hc] at h
      cases h1 : compile_expr p l e with
      | error x => simp [h1] at h
      | ok r1 =>
        obtain ⟨q1, l1⟩ := r1
        simp only [h1, Except.ok.injEq, Prod.mk.injEq] at h
        obtain ⟨rfl, rfl⟩ := h
        exact frame_effect_push _ _ _ _ _ rfl (compile_expr_frame e p l q1 l1 h1 hl)
  | .local_stmt name e, p, l, q, l', h, _, hl => by
    rw [compile_statement] at h
    cases hc : clone e with
    | error x => simp [hc] at h
    | ok c =>
      simp only [hc] at h
      cases h1 : compile_expr p (map_insert l name.literal (l.length : Int)) e with
      | error x => simp [h1] at h
      | ok r1 =>
        obtain ⟨q1, l1⟩ := r1
        simp only [h1, Except.ok.injEq, Prod.mk.injEq] at h
        obtain ⟨rfl, rfl⟩ := h
        have hb := map_bounded_insert l name.literal (l.length : Int) hl (by omega) (le_refl _)
        obtain ⟨a1, a2, a3⟩ := compile_expr_frame e p _ q1 l1 h1 hb
        have hle : l.length ≤ l1.length := le_trans (map_insert_length _ _ _) a1
        have e1 := frame_effect_push p _ q1 l1 (.move_plus_fp_inst l.length)
          (by simp only [slot_within, decide_eq_true_eq]; exact hle) ⟨a1, a2, a3⟩
        exact ⟨hle, e1.2⟩
  | .if_stmt cond then_body else_body, p, l, q, l', h, hf, hl => by
    rw [compile_statement] at h
    simp only [flat_stmt, Bool.and_eq_true] at hf
    cases hc : clone cond with
    | error x => simp [hc] at h
    | ok c =>
      simp only [hc] at h
      cases h1 : compile_expr p l cond with
      | error x => simp [h1] at h
      | ok r1 =>
        obtain ⟨q1, l1⟩ := r1
        simp only [h1] at h
        cases h2 : compile_block
            (q1.push (.jump_if_zero_inst ("label_else_" ++ toString p.insts.length))) l1
            then_body with
        | error x => simp [h2] at h
        | ok r2 =>
          obtain ⟨q2, l2⟩ := r2
          simp only [h2] at h
          cases h3 : compile_block
              { (q2.push (.jump_inst ("label_out_" ++ toString p.insts.length))) with
                syms := map_insert
                  (q2.push (.jump_inst ("label_out_" ++ toString p.insts.length))).syms
                  ("label_else_" ++ toString p.insts.length)
                  ⟨(q2.push (.jump_inst ("label_out_" ++ toString p.insts.length))).insts.length,
                    0, 0⟩ }
              l2 else_body with
          | error x => simp [h3] at h
          | ok r3 =>
            obtain ⟨q3, l3⟩ := r3
            simp only [h3, Except.ok.injEq, Prod.mk.injEq] at h
            obtain ⟨rfl, rfl⟩ := h
            have e1 := compile_expr_frame cond p l q1 l1 h1 hl
            have e1' := frame_effect_push _ _ _ _
              (.jump_if_zero_inst ("label_else_" ++ toString p.insts.length)) rfl e1
            have e2 := compile_block_frame then_body _ l1 q2 l2 h2 hf.1 e1.2.1
            have e12 := frame_effect_trans _ _ _ _ _ _ e1' e2
            have e12' := frame_effect_push _ _ _ _
              (.jump_inst ("label_out_" ++ toString p.insts.length)) rfl e12
            have e3 := compile_block_frame else_body _ l2 q3 l3 h3 hf.2 e2.2.1
            have e3' := frame_effect_from
              (q2.push (.jump_inst ("label_out_" ++ toString p.insts.length))) _ l2 q3 l3 rfl e3
            exact frame_effect_syms _ _ _ _ _ (frame_effect_trans _ _ _ _ _ _ e12' e3')
  | .func_decl name params body, p, l, q, l', h, hf, hl => by
    simp [flat_stmt] at hf
/-- A statement loop without a nested declaration stays within the frame. -/
theorem compile_block_frame : ∀ (sts : List stmt_t) (p : program) (l : locals_t)
    (q : program) (l' : locals_t), compile_block p l sts = .ok (q, l') →
    flat_block sts = true → map_bounded l → frame_effect p l q l'
  | [], p, l, q, l', h, _, hl => by
    simp only [compile_block, Except.ok.injEq, Prod.mk.injEq] at h
    obtain ⟨rfl, rfl⟩ := h
    exact frame_effect_refl _ _ hl
  | st :: sts, p, l, q, l', h, hf, hl => by
    rw [compile_block] at h
    simp only [flat_block, Bool.and_eq_true] at hf
    cases h1 : compile_statement p l st with
    | error x => simp [h1] at h
    | ok r1 =>
      obtain ⟨q1, l1⟩ := r1
      simp only [h1] at h
      have e1 := compile_statement_frame st p l q1 l1 h1 hf.1 hl
      exact frame_effect_trans _ _ _ _ _ _ e1
        (compile_block_frame sts q1 l1 q l' h hf.2 e1.2.1)
end

/-- The slot of a parameter lies within the parameters. -/
theorem param_slot_range : ∀ (params : List token_t) (i : Nat) (key : String) (v : Int),
    param_slot params i key = some v → (i : Int) ≤ v ∧ v < (i : Int) + params.length := by
  intro params
  induction params with
  | nil => intro i key v h; simp [param_slot] at h
  | cons x xs ih =>
    intro i key v h
    simp only [param_slot] at h
    by_cases hx : x.literal = key
    · simp only [hx, if_true, Option.some.injEq] at h
      subst h
      simp only [List.length_cons]
      push_cast; omega
    · simp only [hx, if_false] at h
      have := ih (i + 1) key v h
      simp only [List.length_cons]
      push_cast at this ⊢; omega

/-- The map of pairwise distinct parameters is bounded. -/
theorem compile_params_bounded (params : List token_t) (p : program)
    (hnd : (params.map fun t => t.literal).Nodup) :
    map_bounded (compile_params params.length params 0 p []).2
      ∧ (compile_params params.length params 0 p []).2.length = params.length := by
  have hlen := compile_params_locals params.length params 0 p [] hnd (by intro x _; rfl)
  have hlen' : (compile_params params.length params 0 p []).2.length = params.length := by
    simpa using hlen
  refine ⟨?_, hlen'⟩
  intro key v hv
  rw [compile_params_map] at hv
  have := param_slot_range params 0 key v hv
  rw [hlen']
  push_cast at this; omega

/-! ## C35: slots and the frame -/

/-- C35 as stated fails.  In `redeclared_source` the second `local x` stores
through `POP_FP 1` while the symbol of `f` records `nlocals = 1`: the operand of
`POP_FP` is the size of the map, and the map does not grow for a name it holds.
The slot lies outside the frame, the `RET` that follows pops the wrong three
values and the run ends in `pop_back()` on an empty stack.  In
`twice_call_source` the two parameters share one name, the symbol records
`nlocals = 1`, and the second `ST_FP` has the destination 1: the call throws
`std::out_of_range`. -/
theorem C35_slot_outside_the_frame :
    front_end redeclared_source = .ok redeclared_program
    ∧ redeclared_program.insts[4]? = some (.move_plus_fp_inst 1)
    ∧ map_find redeclared_program.syms "f" = some ⟨1, 0, 1⟩
    ∧ run redeclared_source 100 = .error (.undefined "pop_stack() on an empty stack")
    ∧ front_end twice_call_source = .ok twice_call_program
    ∧ twice_call_program.insts[2]? = some (.move_minus_fp_inst 1 0)
    ∧ map_find twice_call_program.syms "f" = some ⟨1, 2, 1⟩
    ∧ run twice_call_source 100 = .error (.thrown "vector::at: out_of_range") := by
  refine ⟨by decide!, by decide, by decide, by decide!, by decide!, by decide, by decide,
    by decide!⟩

/-- C35 amended: let `function f(p_0 .. p_{N-1}) body end` be lowered (with
success) into `p`, with pairwise distinct parameter names and a body that holds
no function declaration, and let the table have no entry `f` when the body has
been lowered, `nl` being the inner locals map after the body.  Then the symbol
of `f` records `nlocals = |nl|`, and among the instructions the declaration
appends every `PUSH_FP` operand and every `ST_FP` destination lies in
`0 .. nlocals-1` and every `POP_FP` operand in `0 .. nlocals`.  The `POP_FP` of a
`local` whose name is new in the map is the old size of the map, below the new
one.  On a stack that holds the `n` slots of the frame (`fp + n <= |stack|`),
`PUSH_FP +k` and the store of `ST_FP` with `k < n` are in range, and `POP_FP +k`
with `k < n` stores into the frame without growing the stack. -/
theorem C35_slots_within_frame (p : program) (l : locals_t) (name : token_t)
    (params : List token_t) (body : List stmt_t) (q : program) (l' : locals_t)
    (pB : program) (nl : locals_t)
    (hc : compile_statement p l (.func_decl name params body) = .ok (q, l'))
    (hbody : compile_block
        (compile_params params.length params 0
          (p.push (.jump_inst ("function_done_" ++ toString p.insts.length))) []).1
        (compile_params params.length params 0
          (p.push (.jump_inst ("function_done_" ++ toString p.insts.length))) []).2 body
      = .ok (pB, nl))
    (hfresh : map_find pB.syms name.literal = none)
    (hnodup : (params.map fun t => t.literal).Nodup)
    (hflat : flat_block body = true) :
    map_find q.syms name.literal
        = some ⟨(p.insts.length + 1 : Nat), params.length, nl.length⟩
    ∧ (∃ added, q.insts = p.insts ++ added ∧ ∀ inst ∈ added,
        (∀ k, inst = .dup_plus_fp_inst k → 0 ≤ k ∧ k < (nl.length : Int))
        ∧ (∀ k o, inst = .move_minus_fp_inst k o → k < nl.length)
        ∧ (∀ k, inst = .move_plus_fp_inst k → k ≤ nl.length))
    ∧ (∀ (p0 : program) (l0 : locals_t) (x : token_t) (e : expr_t) (q0 : program)
        (l1 : locals_t), map_find l0 x.literal = none →
        compile_statement p0 l0 (.local_stmt x e) = .ok (q0, l1) →
        q0.insts.getLast? = some (.move_plus_fp_inst l0.length) ∧ l0.length < l1.length)
    ∧ (∀ (prog : program) (m : vm) (k : Int) (n : Nat), 0 ≤ m.fp →
        m.fp + n ≤ m.stack.length → 0 ≤ k → k < n →
        ∃ v, exec prog m (.dup_plus_fp_inst k)
          = .ok (prog, { m with stack := m.stack ++ [v], pc := m.pc + 1 }))
    ∧ (∀ (m : vm) (k n : Nat) (v : Int), 0 ≤ m.fp → m.fp + n ≤ m.stack.length → k < n →
        stack_set m.stack (m.fp + k) v = .ok (m.stack.set (m.fp + k).toNat v))
    ∧ (∀ (prog : program) (m : vm) (rest : List Int) (val : Int) (k n : Nat),
        m.stack = rest ++ [val] → 0 ≤ m.fp → m.fp + n ≤ rest.length → k < n →
        exec prog m (.move_plus_fp_inst k)
          = .ok (prog, { m with stack := rest.set (m.fp + k).toNat val, pc := m.pc + 1 })) := by
  have hP1 := compile_params_prologue params
    (p.push (.jump_inst ("function_done_" ++ toString p.insts.length))) []
  obtain ⟨hMb, hMl⟩ := compile_params_bounded params
    (p.push (.jump_inst ("function_done_" ++ toString p.insts.length))) hnodup
  rw [compile_statement] at hc
  cases hP : compile_params params.length params 0
      (p.push (.jump_inst ("function_done_" ++ toString p.insts.length))) [] with
  | mk pP nl0 =>
    rw [hP] at hbody hP1 hMb hMl
    simp only at hP1 hMb hMl
    simp only [hP, hbody, Except.ok.injEq, Prod.mk.injEq] at hc
    obtain ⟨rfl, rfl⟩ := hc
    obtain ⟨hle, _, addedB, hB, hBs⟩ := compile_block_frame body pP nl0 pB nl hbody hflat hMb
    have hsy : (if back_is_return pB = true then pB
        else pB.push (.return_inst false)).syms = pB.syms := by
      cases back_is_return pB <;> rfl
    have hins : ∃ ret, (if back_is_return pB = true then pB
        else pB.push (.return_inst false)).insts = pB.insts ++ ret
        ∧ ∀ i ∈ ret, i = .return_inst false := by
      cases back_is_return pB
      · exact ⟨[.return_inst false], rfl, by simp⟩
      · exact ⟨[], by simp, by simp⟩
    obtain ⟨ret, hret, hretm⟩ := hins
    refine ⟨?_, ?_, ?_, ?_, ?_, ?_⟩
    · apply map_insert_kept
      simp only [hsy]
      have := map_insert_found pB.syms name.literal
        (⟨((p.push (.jump_inst ("function_done_" ++ toString p.insts.length))).insts.length
          : Int), params.length, nl.length⟩ : symbol) hfresh
      simpa [program.push] using this
    · refine ⟨[.jump_inst ("function_done_" ++ toString p.insts.length)]
        ++ prologue params.length ++ addedB ++ ret, ?_, ?_⟩
      · show (if back_is_return pB = true then pB
          else pB.push (.return_inst false)).insts = _
        rw [hret, hB, hP1]
        simp [program.push]
      · intro inst hi
        simp only [List.mem_append, List.mem_singleton] at hi
        rcases hi with ((hi | hi) | hi) | hi
        · subst hi
          exact ⟨(by intro k h; cases h), (by intro k o h; cases h), (by intro k h; cases h)⟩
        · simp only [prologue, List.mem_map, List.mem_range] at hi
          obtain ⟨j, hj, rfl⟩ := hi
          refine ⟨(by intro k h; cases h), ?_, (by intro k h; cases h)⟩
          intro k o h
          simp only [instruction.move_minus_fp_inst.injEq] at h
          omega
        · have := hBs inst hi
          refine ⟨?_, ?_, ?_⟩
          · intro k h; subst h
            simpa [slot_within] using this
          · intro k o h; subst h
            simpa [slot_within] using this
          · intro k h; subst h
            simpa [slot_within] using this
        · rw [hretm inst hi]
          exact ⟨(by intro k h; cases h), (by intro k o h; cases h), (by intro k h; cases h)⟩
    · intro p0 l0 x e q0 l1 hx h
      rw [compile_statement] at h
      cases hcl : clone e with
      | error y => simp [hcl] at h
      | ok c =>
        simp only [hcl] at h
        cases he : compile_expr p0 (map_insert l0 x.literal (l0.length : Int)) e with
        | error y => simp [he] at h
        | ok r =>
          obtain ⟨p1, l2⟩ := r
          simp only [he, Except.ok.injEq, Prod.mk.injEq] at h
          obtain ⟨rfl, rfl⟩ := h
          obtain ⟨_, h2, _⟩ := compile_expr_effect e p0 _ p1 l2 he
          have : (map_insert l0 x.literal (l0.length : Int)).length = l0.length + 1 := by
            simp [map_insert, hx]
          refine ⟨by simp [program.push], by omega⟩
    · intro prog m k n hfp hn hk0 hkn
      have hlt : (m.fp + k).toNat < m.stack.length := by omega
      refine ⟨m.stack[(m.fp + k).toNat], ?_⟩
      have h0 : 0 ≤ m.fp + k := by omega
      simp only [exec, stack_at, h0, if_true, List.getElem?_eq_getElem hlt]
    · intro m k n v hfp hn hkn
      have h0 : 0 ≤ m.fp + (k : Int) := by omega
      have hlt : (m.fp + (k : Int)).toNat < m.stack.length := by omega
      simp only [stack_set, h0, hlt, and_self, if_true]
    · intro prog m rest val k n hst hfp hn hkn
      have h0 : ¬ (m.fp + (k : Int) < 0) := by omega
      have hlt : (m.fp + (k : Int)).toNat + 1 - rest.length = 0 := by omega
      simp only [exec, hst, pop_stack_concat, h0, if_false, hlt, List.replicate_zero,
        List.append_nil]

/-- C35 amended, on the declaration of `succ` lowered into the empty program. -/
theorem C35_slots_within_frame_witness :
    compile_statement ⟨[], []⟩ [] (.func_decl succ_name succ_params succ_body)
      = .ok (succ_decl_program, [])
    ∧
    map_find succ_decl_program.syms succ_name.literal
        = some ⟨((⟨[], []⟩ : program).insts.length + 1 : Nat), succ_params.length, ([("x", 0)] : locals_t).length⟩
    ∧ (∃ added, succ_decl_program.insts = (⟨[], []⟩ : program).insts ++ added ∧ ∀ inst ∈ added,
        (∀ k, inst = .dup_plus_fp_inst k → 0 ≤ k ∧ k < (([("x", 0)] : locals_t).length : Int))
        ∧ (∀ k o, inst = .move_minus_fp_inst k o → k < ([("x", 0)] : locals_t).length)
        ∧ (∀ k, inst = .move_plus_fp_inst k → k ≤ ([("x", 0)] : locals_t).length))
    ∧ (∀ (p0 : program) (l0 : locals_t) (x : token_t) (e : expr_t) (q0 : program)
        (l1 : locals_t), map_find l0 x.literal = none →
        compile_statement p0 l0 (.local_stmt x e) = .ok (q0, l1) →
        q0.insts.getLast? = some (.move_plus_fp_inst l0.length) ∧ l0.length < l1.length)
    ∧ (∀ (prog : program) (m : vm) (k : Int) (n : Nat), 0 ≤ m.fp →
        m.fp + n ≤ m.stack.length → 0 ≤ k → k < n →
        ∃ v, exec prog m (.dup_plus_fp_inst k)
          = .ok (prog, { m with stack := m.stack ++ [v], pc := m.pc + 1 }))
    ∧ (∀ (m : vm) (k n : Nat) (v : Int), 0 ≤ m.fp → m.fp + n ≤ m.stack.length → k < n →
        stack_set m.stack (m.fp + k) v = .ok (m.stack.set (m.fp + k).toNat v))
    ∧ (∀ (prog : program) (m : vm) (rest : List Int) (val : Int) (k n : Nat),
        m.stack = rest ++ [val] → 0 ≤ m.fp → m.fp + n ≤ rest.length → k < n →
        exec prog m (.move_plus_fp_inst k)
          = .ok (prog, { m with stack := rest.set (m.fp + k).toNat val, pc := m.pc + 1 })) :=
  ⟨by decide!, C35_slots_within_frame ⟨[], []⟩ [] succ_name succ_params succ_body
    succ_decl_program [] succ_body_program [("x", 0)] (by decide!) (by decide!) (by decide)
    (by decide) (by decide)⟩

/-! ## The names of generated labels -/

theorem digitChar_value : ∀ d < 10, (Nat.digitChar d).toNat - 48 = d := by decide

theorem toDigitsCore_append (b : Nat) : ∀ (fuel n : Nat) (ds : List Char),
    Nat.toDigitsCore b fuel n ds = Nat.toDigitsCore b fuel n [] ++ ds := by
  intro fuel
  induction fuel with
  | zero => intro n ds; simp [Nat.toDigitsCore]
  | succ fuel ih =>
    intro n ds
    simp only [Nat.toDigitsCore]
    split
    · simp
    · rw [ih (n / b) (Nat.digitChar (n % b) :: ds), ih (n / b) [Nat.digitChar (n % b)]]
      simp

/-- The decimal digits of `n` denote `n`. -/
theorem toDigitsCore_value : ∀ (fuel n : Nat), n < fuel →
    (Nat.toDigitsCore 10 fuel n []).foldl (fun acc c => 10 * acc + (c.toNat - 48)) 0 = n := by
  intro fuel
  induction fuel with
  | zero => intro n h; omega
  | succ fuel ih =>
    intro n h
    simp only [Nat.toDigitsCore]
    split
    · next h0 =>
      simp only [List.foldl_cons, List.foldl_nil, Nat.mul_zero, Nat.zero_add]
      rw [digitChar_value _ (Nat.mod_lt _ (by omega))]
      omega
    · next h0 =>
      rw [toDigitsCore_append, List.foldl_append, ih (n / 10) (by omega)]
      simp only [List.foldl_cons, List.foldl_nil]
      rw [digitChar_value _ (Nat.mod_lt _ (by omega))]
      omega

/-- The text of a count determines the count. -/
theorem toString_nat_injective (i j : Nat) (h : toString i = toString j) : i = j := by
  have hi := toDigitsCore_value (i + 1) i (by omega)
  have hj := toDigitsCore_value (j + 1) j (by omega)
  have hd : Nat.toDigits 10 i = Nat.toDigits 10 j := by
    have : (Nat.toDigits 10 i).asString = (Nat.toDigits 10 j).asString := h
    exact congrArg String.data this
  unfold Nat.toDigits at hd
  rw [hd] at hi
  rw [hi] at hj
  exact hj

theorem string_append_data (a b : String) : (a ++ b).data = a.data ++ b.data := rfl

/-- Two generated names are equal only with the same prefix and the same count. -/
theorem generated_name_eq (i j : Nat) :
    ("label_else_" ++ toString i = "label_else_" ++ toString j → i = j)
    ∧ ("label_out_" ++ toString i = "label_out_" ++ toString j → i = j)
    ∧ ("function_done_" ++ toString i = "function_done_" ++ toString j → i = j)
    ∧ "label_else_" ++ toString i ≠ "label_out_" ++ toString j
    ∧ "label_else_" ++ toString i ≠ "function_done_" ++ toString j
    ∧ "label_out_" ++ toString i ≠ "function_done_" ++ toString j := by
  have same : ∀ k : String, k ++ toString i = k ++ toString j → i = j := by
    intro k h
    have h1 := congrArg String.data h
    rw [string_append_data, string_append_data] at h1
    have h2 := List.append_cancel_left h1
    exact toString_nat_injective i j (String.ext h2)
  refine ⟨same _, same _, same _, ?_, ?_, ?_⟩
  · intro h
    have h1 := congrArg String.data h
    rw [string_append_data, string_append_data] at h1
    have e1 : ("label_else_" : String).data
        = ['l', 'a', 'b', 'e', 'l', '_', 'e', 'l', 's', 'e', '_'] := rfl
    have e2 : ("label_out_" : String).data
        = ['l', 'a', 'b', 'e', 'l', '_', 'o', 'u', 't', '_'] := rfl
    rw [e1, e2] at h1
    simp at h1
  · intro h
    have h1 := congrArg String.data h
    rw [string_append_data, string_append_data] at h1
    have e1 : ("label_else_" : String).data
        = ['l', 'a', 'b', 'e', 'l', '_', 'e', 'l', 's', 'e', '_'] := rfl
    have e2 : ("function_done_" : String).data
        = ['f', 'u', 'n', 'c', 't', 'i', 'o', 'n', '_', 'd', 'o', 'n', 'e', '_'] := rfl
    rw [e1, e2] at h1
    simp at h1
  · intro h
    have h1 := congrArg String.data h
    rw [string_append_data, string_append_data] at h1
    have e1 : ("label_out_" : String).data
        = ['l', 'a', 'b', 'e', 'l', '_', 'o', 'u', 't', '_'] := rfl
    have e2 : ("function_done_" : String).data
        = ['f', 'u', 'n', 'c', 't', 'i', 'o', 'n', '_', 'd', 'o', 'n', 'e', '_'] := rfl
    rw [e1, e2] at h1
    simp at h1

/-- A generated label has one count. -/
theorem generated_count (L : String) (a b c d : Nat) (h1 : generated L a b)
    (h2 : generated L c d) : c < b ∧ a < d := by
  obtain ⟨i, hi1, hi2, hi⟩ := h1
  obtain ⟨j, hj1, hj2, hj⟩ := h2
  have hij : i = j := by
    obtain ⟨n1, n2, n3, n4, n5, n6⟩ := generated_name_eq i j
    obtain ⟨m1, m2, m3, m4, m5, m6⟩ := generated_name_eq j i
    rcases hi with hi | hi | hi <;> rcases hj with hj | hj | hj
    · exact n1 (hi.symm.trans hj)
    · exact absurd (hi.symm.trans hj) n4
    · exact absurd (hi.symm.trans hj) n5
    · exact absurd (hj.symm.trans hi) m4
    · exact n2 (hi.symm.trans hj)
    · exact absurd (hi.symm.trans hj) n6
    · exact absurd (hj.symm.trans hi) m5
    · exact absurd (hj.symm.trans hi) m6
    · exact n3 (hi.symm.trans hj)
  omega

/-- Labels generated in disjoint ranges of counts differ. -/
theorem generated_disjoint (L : String) (a b c d : Nat) (h1 : generated L a b)
    (h2 : generated L c d) (h : b ≤ c) : False := by
  have := generated_count L a b c d h1 h2
  omega

theorem generated_mono (L : String) (a b c d : Nat) (h : generated L a b) (h1 : c ≤ a)
    (h2 : b ≤ d) : generated L c d := by
  obtain ⟨i, hi1, hi2, hi⟩ := h
  exact ⟨i, by omega, by omega, hi⟩

/-! ## Labels of emitted programs -/

theorem new_labels_append (p q : program) (a : List instruction)
    (h : q.insts = p.insts ++ a) : new_labels p q = a.filterMap jump_label := by
  unfold new_labels
  rw [h, List.drop_left]

theorem filterMap_no_jump (a : List instruction) (h : ∀ x ∈ a, jump_label x = none) :
    a.filterMap jump_label = [] := by
  induction a with
  | nil => rfl
  | cons x xs ih =>
    rw [List.filterMap_cons, h x (by simp)]
    exact ih (fun y hy => h y (by simp [hy]))

/-- Instructions without a jump and an unchanged table. -/
theorem label_effect_plain (p q : program) (a : List instruction) (names : List String)
    (h : q.insts = p.insts ++ a) (hj : ∀ x ∈ a, jump_label x = none) (hs : q.syms = p.syms) :
    label_effect p q names := by
  have hn : new_labels p q = [] := by rw [new_labels_append p q a h, filterMap_no_jump a hj]
  refine ⟨by rw [hn]; exact List.nodup_nil, ?_, ?_, ?_⟩
  · intro L hL; rw [hn] at hL; cases hL
  · intro key s h0 h1; rw [hs, h0] at h1; cases h1
  · intro L hL; rw [hn] at hL; cases hL

/-- The names may be listed with others. -/
theorem label_effect_names (p q : program) (n1 n2 : List String) (h : label_effect p q n1)
    (hsub : ∀ x ∈ n1, x ∈ n2) : label_effect p q n2 := by
  obtain ⟨a1, a2, a3, a4⟩ := h
  refine ⟨a1, a2, ?_, ?_⟩
  · intro key s h0 h1
    rcases a3 key s h0 h1 with h | h
    · exact Or.inl (hsub key h)
    · exact Or.inr h
  · intro L hL h0 hn
    exact a4 L hL h0 (fun hmem => hn (hsub L hmem))

/-- Label effects compose. -/
theorem label_effect_trans (p q r : program) (a b : List instruction) (n1 n2 : List String)
    (hq : q.insts = p.insts ++ a) (hr : r.insts = q.insts ++ b)
    (hk : ∀ key s, map_find q.syms key = some s → map_find r.syms key = some s)
    (h1 : label_effect p q n1) (h2 : label_effect q r n2) : label_effect p r (n1 ++ n2) := by
  obtain ⟨a1, a2, a3, a4⟩ := h1
  obtain ⟨b1, b2, b3, b4⟩ := h2
  have hpr : r.insts = p.insts ++ (a ++ b) := by rw [hr, hq, List.append_assoc]
  have hl1 := new_labels_append p q a hq
  have hl2 := new_labels_append q r b hr
  have hl : new_labels p r = new_labels p q ++ new_labels q r := by
    rw [new_labels_append p r (a ++ b) hpr, List.filterMap_append, hl1, hl2]
  have hlen1 : p.insts.length ≤ q.insts.length := by rw [hq]; simp
  have hlen2 : q.insts.length ≤ r.insts.length := by rw [hr]; simp
  have hdis : ∀ L, L ∈ new_labels p q → L ∈ new_labels q r → False := by
    intro L m1 m2
    exact generated_disjoint L _ _ _ _ (a2 L m1) (b2 L m2) (le_refl _)
  refine ⟨?_, ?_, ?_, ?_⟩
  · rw [hl, List.nodup_append]
    exact ⟨a1, b1, fun x m1 m2 => hdis x m1 m2⟩
  · intro L hL
    rw [hl] at hL
    rcases List.mem_append.1 hL with h | h
    · exact generated_mono L _ _ _ _ (a2 L h) (le_refl _) hlen2
    · exact generated_mono L _ _ _ _ (b2 L h) hlen1 (le_refl _)
  · intro key s h0 hs
    rw [hl]
    cases hqk : map_find q.syms key with
    | some s' =>
      rcases a3 key s' h0 hqk with h | h
      · exact Or.inl (List.mem_append_left _ h)
      · exact Or.inr (List.mem_append_left _ h)
    | none =>
      rcases b3 key s hqk hs with h | h
      · exact Or.inl (List.mem_append_right _ h)
      · exact Or.inr (List.mem_append_right _ h)
  · intro L hL h0 hn
    rw [hl] at hL
    have hn1 : L ∉ n1 := fun h => hn (List.mem_append_left _ h)
    have hn2 : L ∉ n2 := fun h => hn (List.mem_append_right _ h)
    rcases List.mem_append.1 hL with h | h
    · obtain ⟨loc, hloc⟩ := a4 L h h0 hn1
      exact ⟨loc, hk L _ hloc⟩
    · have hqL : map_find q.syms L = none := by
        cases hqk : map_find q.syms L with
        | none => rfl
        | some s' =>
          rcases a3 L s' h0 hqk with h' | h'
          · exact absurd h' hn1
          · exact absurd h (fun h2 => hdis L h' h2)
      exact b4 L h hqL hn2

/-- The labels of an `if` statement lowered at count `|p.insts|`: `q1` is the
program after the condition, `p1` after the `JZ`, `q2` after the then-body, `p2`
after the `JMP` and the insertion of `label_else`, `q3` after the else-body and
`q` after the insertion of `label_out`. -/
theorem label_effect_if (p q1 p1 q2 p2 q3 q : program) (a1 aT aE : List instruction)
    (nT nE : List String) (E O : String) (locE locO : Int)
    (hEn : "label_else_" ++ toString p.insts.length = E)
    (hOn : "label_out_" ++ toString p.insts.length = O)
    (h1 : q1.insts = p.insts ++ a1) (h1j : ∀ x ∈ a1, jump_label x = none)
    (h1s : q1.syms = p.syms)
    (hp1i : p1.insts = q1.insts ++ [.jump_if_zero_inst E]) (hp1s : p1.syms = q1.syms)
    (hT : q2.insts = p1.insts ++ aT) (LT : label_effect p1 q2 nT)
    (hp2i : p2.insts = q2.insts ++ [.jump_inst O])
    (hp2s : p2.syms = map_insert q2.syms E ⟨locE, 0, 0⟩)
    (hE : q3.insts = p2.insts ++ aE)
    (kE : ∀ key s, map_find p2.syms key = some s → map_find q3.syms key = some s)
    (LE : label_effect p2 q3 nE)
    (hqi : q.insts = q3.insts) (hqs : q.syms = map_insert q3.syms O ⟨locO, 0, 0⟩) :
    label_effect p q (nT ++ nE) := by
  obtain ⟨t1, t2, t3, t4⟩ := LT
  obtain ⟨e1, e2, e3, e4⟩ := LE
  have hNT := new_labels_append p1 q2 aT hT
  have hNE := new_labels_append p2 q3 aE hE
  generalize hNTn : new_labels p1 q2 = NT at *
  generalize hNEn : new_labels p2 q3 = NE at *
  have hins : q.insts = p.insts ++ (a1 ++ [.jump_if_zero_inst E] ++ aT ++ [.jump_inst O] ++ aE) := by
    rw [hqi, hE, hp2i, hT, hp1i, h1]
    simp only [List.append_assoc]
  have hnew : new_labels p q = E :: (NT ++ O :: NE) := by
    rw [new_labels_append p q _ hins]
    simp only [List.filterMap_append, filterMap_no_jump a1 h1j, List.filterMap_cons,
      List.filterMap_nil, jump_label, ← hNT, ← hNE, List.nil_append, List.singleton_append,
      List.append_assoc, List.cons_append]
  have hlen1 : p1.insts.length = p.insts.length + a1.length + 1 := by
    rw [hp1i, h1]; simp only [List.length_append, List.length_singleton]
  have hlen2 : q2.insts.length = p.insts.length + a1.length + 1 + aT.length := by
    rw [hT, List.length_append, hlen1]
  have hlen2' : p2.insts.length = q2.insts.length + 1 := by
    rw [hp2i]; simp only [List.length_append, List.length_singleton]
  have hlen3 : q3.insts.length = q2.insts.length + 1 + aE.length := by
    rw [hE, List.length_append, hlen2']
  have hlenq : q.insts.length = q3.insts.length := by rw [hqi]
  have gE : generated E p.insts.length (p.insts.length + 1) :=
    ⟨p.insts.length, le_refl _, by omega, Or.inl hEn.symm⟩
  have gO : generated O p.insts.length (p.insts.length + 1) :=
    ⟨p.insts.length, le_refl _, by omega, Or.inr (Or.inl hOn.symm)⟩
  have hEO : E ≠ O := by
    rw [← hEn, ← hOn]
    exact (generated_name_eq p.insts.length p.insts.length).2.2.2.1
  have hENT : E ∉ NT := fun h =>
    generated_disjoint E _ _ _ _ gE (t2 E h) (by rw [hlen1]; omega)
  have hONT : O ∉ NT := fun h =>
    generated_disjoint O _ _ _ _ gO (t2 O h) (by rw [hlen1]; omega)
  have hENE : E ∉ NE := fun h =>
    generated_disjoint E _ _ _ _ gE (e2 E h) (by rw [hlen2', hlen2]; omega)
  have hONE : O ∉ NE := fun h =>
    generated_disjoint O _ _ _ _ gO (e2 O h) (by rw [hlen2', hlen2]; omega)
  have hTE : ∀ L, L ∈ NT → L ∈ NE → False := fun L m1 m2 =>
    generated_disjoint L _ _ _ _ (t2 L m1) (e2 L m2) (by rw [hlen2']; omega)
  have hP1s : p1.syms = p.syms := by rw [hp1s, h1s]
  -- a key that q2 holds and p does not
  have newT : ∀ key s, map_find p.syms key = none → map_find q2.syms key = some s →
      key ∈ nT ∨ key ∈ NT := fun key s h0 hs => t3 key s (by rw [hP1s]; exact h0) hs
  refine ⟨?_, ?_, ?_, ?_⟩
  · rw [hnew, List.nodup_cons]
    refine ⟨?_, ?_⟩
    · simp only [List.mem_append, List.mem_cons, not_or]
      exact ⟨hENT, hEO, hENE⟩
    · rw [List.nodup_append]
      refine ⟨t1, List.nodup_cons.2 ⟨hONE, e1⟩, ?_⟩
      intro x m1 m2
      rcases List.mem_cons.1 m2 with rfl | m2
      · exact hONT m1
      · exact hTE x m1 m2
  · intro L hL
    rw [hnew] at hL
    rw [hlenq]
    simp only [List.mem_cons, List.mem_append] at hL
    rcases hL with rfl | hL | rfl | hL
    · exact generated_mono _ _ _ _ _ gE (le_refl _) (by omega)
    · exact generated_mono _ _ _ _ _ (t2 L hL) (by rw [hlen1]; omega) (by omega)
    · exact generated_mono _ _ _ _ _ gO (le_refl _) (by omega)
    · exact generated_mono _ _ _ _ _ (e2 L hL) (by rw [hlen2', hlen2]; omega) (le_refl _)
  · intro key s h0 hs
    rw [hnew]
    simp only [List.mem_cons, List.mem_append]
    by_cases hkO : key = O
    · exact Or.inr (Or.inr (Or.inr (Or.inl hkO)))
    · rw [hqs] at hs
      cases h3 : map_find q3.syms key with
      | none => exact absurd (map_insert_fresh _ _ _ _ _ h3 hs).1.symm hkO
      | some s3 =>
        cases h2' : map_find p2.syms key with
        | none =>
          rcases e3 key s3 h2' h3 with h | h
          · exact Or.inl (Or.inr h)
          · exact Or.inr (Or.inr (Or.inr (Or.inr h)))
        | some s2 =>
          cases h2 : map_find q2.syms key with
          | none =>
            rw [hp2s] at h2'
            exact Or.inr (Or.inl (map_insert_fresh _ _ _ _ _ h2 h2').1.symm)
          | some s2' =>
            rcases newT key s2' h0 h2 with h | h
            · exact Or.inl (Or.inl h)
            · exact Or.inr (Or.inr (Or.inl h))
  · intro L hL h0 hn
    rw [hnew] at hL
    have hn1 : L ∉ nT := fun h => hn (List.mem_append_left _ h)
    have hn2 : L ∉ nE := fun h => hn (List.mem_append_right _ h)
    rw [hqs]
    -- what q2 holds for a label that is no declared name
    have q2none : ∀ X, map_find p.syms X = none → X ∉ nT → X ∉ NT →
        map_find q2.syms X = none := by
      intro X hX0 hXn hXT
      cases h2 : map_find q2.syms X with
      | none => rfl
      | some s2 =>
        rcases newT X s2 hX0 h2 with h | h
        · exact absurd h hXn
        · exact absurd h hXT
    simp only [List.mem_cons, List.mem_append] at hL
    rcases hL with rfl | hL | rfl | hL
    · have h2 := q2none L h0 hn1 hENT
      have hf := map_insert_found q2.syms L (⟨locE, 0, 0⟩ : symbol) h2
      rw [← hp2s] at hf
      exact ⟨_, map_insert_kept _ _ _ _ _ (kE L _ hf)⟩
    · obtain ⟨loc, hloc⟩ := t4 L hL (by rw [hP1s]; exact h0) hn1
      have hk := map_insert_kept q2.syms E (⟨locE, 0, 0⟩ : symbol) _ L hloc
      rw [← hp2s] at hk
      exact ⟨loc, map_insert_kept _ _ _ _ _ (kE L _ hk)⟩
    · have h2 := q2none L h0 hn1 hONT
      have h2' : map_find p2.syms L = none := by
        cases hx : map_find p2.syms L with
        | none => rfl
        | some sx =>
          rw [hp2s] at hx
          exact absurd (map_insert_fresh _ _ _ _ _ h2 hx).1 hEO
      have h3 : map_find q3.syms L = none := by
        cases hx : map_find q3.syms L with
        | none => rfl
        | some sx =>
          rcases e3 L sx h2' hx with h | h
          · exact absurd h hn2
          · exact absurd h hONE
      exact ⟨_, map_insert_found _ _ _ h3⟩
    · have hLT : L ∉ NT := fun h => hTE L h hL
      have h2 := q2none L h0 hn1 hLT
      have h2' : map_find p2.syms L = none := by
        cases hx : map_find p2.syms L with
        | none => rfl
        | some sx =>
          rw [hp2s] at hx
          have := (map_insert_fresh _ _ _ _ _ h2 hx).1
          rw [← this] at hL
          exact absurd hL hENE
      obtain ⟨loc, hloc⟩ := e4 L hL h2' hn2
      exact ⟨loc, map_insert_kept _ _ _ _ _ hloc⟩

/-- The labels of a function declaration lowered at count `|p.insts|`: `p0` is
the program after the `JMP`, `pP` after the prologue, `pB` after the body, `pR`
after the `RET` (if one is appended), `q` after the two insertions. -/
theorem label_effect_func (p p0 pP pB pR q : program) (aP aB aR : List instruction)
    (nB : List String) (D name : String) (sF : symbol) (locD : Int)
    (hDn : "function_done_" ++ toString p.insts.length = D)
    (hp0i : p0.insts = p.insts ++ [.jump_inst D]) (hp0s : p0.syms = p.syms)
    (hPi : pP.insts = p0.insts ++ aP) (hPj : ∀ x ∈ aP, jump_label x = none)
    (hPs : pP.syms = p0.syms)
    (hBi : pB.insts = pP.insts ++ aB) (LB : label_effect pP pB nB)
    (hRi : pR.insts = pB.insts ++ aR) (hRj : ∀ x ∈ aR, jump_label x = none)
    (hRs : pR.syms = pB.syms)
    (hqi : q.insts = pR.insts)
    (hqs : q.syms = map_insert (map_insert pR.syms name sF) D ⟨locD, 0, 0⟩) :
    label_effect p q (name :: nB) := by
  obtain ⟨b1, b2, b3, b4⟩ := LB
  have hNB := new_labels_append pP pB aB hBi
  generalize hNBn : new_labels pP pB = NB at *
  have hins : q.insts = p.insts ++ ([.jump_inst D] ++ aP ++ aB ++ aR) := by
    rw [hqi, hRi, hBi, hPi, hp0i]
    simp only [List.append_assoc]
  have hnew : new_labels p q = D :: NB := by
    rw [new_labels_append p q _ hins]
    simp only [List.filterMap_append, filterMap_no_jump aP hPj, filterMap_no_jump aR hRj,
      List.filterMap_cons, List.filterMap_nil, jump_label, ← hNB, List.append_nil,
      List.singleton_append]
  have hlenP : pP.insts.length = p.insts.length + 1 + aP.length := by
    rw [hPi, hp0i]; simp only [List.length_append, List.length_singleton]
  have hlenB : pB.insts.length = pP.insts.length + aB.length := by
    rw [hBi, List.length_append]
  have hlenq : q.insts.length = pB.insts.length + aR.length := by
    rw [hqi, hRi, List.length_append]
  have gD : generated D p.insts.length (p.insts.length + 1) :=
    ⟨p.insts.length, le_refl _, by omega, Or.inr (Or.inr hDn.symm)⟩
  have hDNB : D ∉ NB := fun h =>
    generated_disjoint D _ _ _ _ gD (b2 D h) (by rw [hlenP]; omega)
  have hPsp : pP.syms = p.syms := by rw [hPs, hp0s]
  have newB : ∀ key s, map_find p.syms key = none → map_find pB.syms key = some s →
      key ∈ nB ∨ key ∈ NB := fun key s h0 hs => b3 key s (by rw [hPsp]; exact h0) hs
  refine ⟨?_, ?_, ?_, ?_⟩
  · rw [hnew, List.nodup_cons]
    exact ⟨hDNB, b1⟩
  · intro L hL
    rw [hnew] at hL
    rcases List.mem_cons.1 hL with rfl | hL
    · exact generated_mono _ _ _ _ _ gD (le_refl _) (by omega)
    · exact generated_mono _ _ _ _ _ (b2 L hL) (by omega) (by omega)
  · intro key s h0 hs
    rw [hnew]
    by_cases hkD : key = D
    · exact Or.inr (by rw [hkD]; exact List.mem_cons_self _ _)
    · rw [hqs] at hs
      cases hf : map_find (map_insert pR.syms name sF) key with
      | none => exact absurd (map_insert_fresh _ _ _ _ _ hf hs).1.symm hkD
      | some s1 =>
        cases hB : map_find pB.syms key with
        | none =>
          rw [hRs] at hf
          exact Or.inl (by rw [(map_insert_fresh _ _ _ _ _ hB hf).1]; exact List.mem_cons_self _ _)
        | some s2 =>
          rcases newB key s2 h0 hB with h | h
          · exact Or.inl (List.mem_cons_of_mem _ h)
          · exact Or.inr (List.mem_cons_of_mem _ h)
  · intro L hL h0 hn
    rw [hnew] at hL
    have hn0 : L ≠ name := fun h => hn (by rw [h]; exact List.mem_cons_self _ _)
    have hn1 : L ∉ nB := fun h => hn (List.mem_cons_of_mem _ h)
    rw [hqs]
    rcases List.mem_cons.1 hL with rfl | hL
    · have hB : map_find pB.syms L = none := by
        cases hx : map_find pB.syms L with
        | none => rfl
        | some sx =>
          rcases newB L sx h0 hx with h | h
          · exact absurd h hn1
          · exact absurd h hDNB
      have hf : map_find (map_insert pR.syms name sF) L = none := by
        cases hx : map_find (map_insert pR.syms name sF) L with
        | none => rfl
        | some sx =>
          rw [hRs] at hx
          exact absurd (map_insert_fresh _ _ _ _ _ hB hx).1.symm hn0
      exact ⟨_, map_insert_found _ _ _ hf⟩
    · obtain ⟨loc, hloc⟩ := b4 L hL (by rw [hPsp]; exact h0) hn1
      rw [← hRs] at hloc
      exact ⟨loc, map_insert_kept _ _ _ _ _ (map_insert_kept _ _ _ _ _ hloc)⟩

mutual
/-- The labels a statement emits and registers. -/
theorem compile_statement_labels : ∀ (st : stmt_t) (p : program) (l : locals_t) (q : program)
    (l' : locals_t), compile_statement p l st = .ok (q, l') →
    label_effect p q (declared_stmt st)
  | .expr_stmt e, p, l, q, l', h => by
    rw [compile_statement] at h
    obtain ⟨hs, _, added, hi, hj⟩ := compile_expr_effect e p l q l' h
    exact label_effect_plain p q added _ hi hj hs
  | .ret_stmt e, p, l, q, l', h => by
    rw [compile_statement] at h
    cases hc : clone e with
    | error x => simp [hc] at h
    | ok c =>
      simp only [hc] at h
      cases h1 : compile_expr p l e with
      | error x => simp [h1] at h
      | ok r1 =>
        obtain ⟨q1, l1⟩ := r1
        simp only [h1, Except.ok.injEq, Prod.mk.injEq] at h
        obtain ⟨rfl, rfl⟩ := h
        obtain ⟨hs, _, added, hi, hj⟩ := expr_effect_push _ _ _ _ (.return_inst true) rfl
          (compile_expr_effect e p l q1 l1 h1)
        exact label_effect_plain p _ added _ hi hj hs
  | .local_stmt name e, p, l, q, l', h => by
    rw [compile_statement] at h
    cases hc : clone e with
    | error x => simp [hc] at h
    | ok c =>
      simp only [hc] at h
      cases h1 : compile_expr p (map_insert l name.literal (l.length : Int)) e with
      | error x => simp [h1] at h
      | ok r1 =>
        obtain ⟨q1, l1⟩ := r1
        simp only [h1, Except.ok.injEq, Prod.mk.injEq] at h
        obtain ⟨rfl, rfl⟩ := h
        obtain ⟨hs, _, added, hi, hj⟩ := expr_effect_push _ _ _ _ (.move_plus_fp_inst l.length)
          rfl (compile_expr_effect e p _ q1 l1 h1)
        exact label_effect_plain p _ added _ hi hj hs
  | .if_stmt cond then_body else_body, p, l, q, l', h => by
    rw [compile_statement] at h
    cases hc : clone cond with
    | error x => simp [hc] at h
    | ok c =>
      simp only [hc] at h
      cases h1 : compile_expr p l cond with
      | error x => simp [h1] at h
      | ok r1 =>
        obtain ⟨q1, l1⟩ := r1
        simp only [h1] at h
        cases h2 : compile_block
            (q1.push (.jump_if_zero_inst ("label_else_" ++ toString p.insts.length))) l1
            then_body with
        | error x => simp [h2] at h
        | ok r2 =>
          obtain ⟨q2, l2⟩ := r2
          simp only [h2] at h
          cases h3 : compile_block
              { (q2.push (.jump_inst ("label_out_" ++ toString p.insts.length))) with
                syms := map_insert
                  (q2.push (.jump_inst ("label_out_" ++ toString p.insts.length))).syms
                  ("label_else_" ++ toString p.insts.length)
                  ⟨(q2.push (.jump_inst ("label_out_" ++ toString p.insts.length))).insts.length,
                    0, 0⟩ }
              l2 else_body with
          | error x => simp [h3] at h
          | ok r3 =>
            obtain ⟨q3, l3⟩ := r3
            simp only [h3, Except.ok.injEq, Prod.mk.injEq] at h
            obtain ⟨rfl, rfl⟩ := h
            obtain ⟨hs1, _, a1, hi1, hj1⟩ := compile_expr_effect cond p l q1 l1 h1
            obtain ⟨_, aT, ET, _⟩ := compile_block_effect then_body _ l1 q2 l2 h2
            obtain ⟨_, aE, EE, _⟩ := compile_block_effect else_body _ l2 q3 l3 h3
            have LT := compile_block_labels then_body _ l1 q2 l2 h2
            have LE := compile_block_labels else_body _ l2 q3 l3 h3
            exact label_effect_if p q1
              (q1.push (.jump_if_zero_inst ("label_else_" ++ toString p.insts.length))) q2
              { (q2.push (.jump_inst ("label_out_" ++ toString p.insts.length))) with
                syms := map_insert
                  (q2.push (.jump_inst ("label_out_" ++ toString p.insts.length))).syms
                  ("label_else_" ++ toString p.insts.length)
                  ⟨(q2.push (.jump_inst ("label_out_" ++ toString p.insts.length))).insts.length,
                    0, 0⟩ }
              q3 _ a1 aT aE _ _ _ _ _ _ rfl rfl hi1 hj1 hs1
              rfl rfl ET.insts LT rfl rfl EE.insts EE.kept LE rfl rfl
  | .func_decl name params body, p, l, q, l', h => by
    rw [compile_statement] at h
    obtain ⟨aP, P1, P2, P3, P4, P5⟩ := compile_params_effect params.length params 0
      (p.push (.jump_inst ("function_done_" ++ toString p.insts.length))) []
    cases hP : compile_params params.length params 0
        (p.push (.jump_inst ("function_done_" ++ toString p.insts.length))) [] with
    | mk pP nl =>
      rw [hP] at P1 P4 P5
      simp only [hP] at h
      cases hB : compile_block pP nl body with
      | error x => simp [hB] at h
      | ok rB =>
        obtain ⟨pB, nl'⟩ := rB
        simp only [hB, Except.ok.injEq, Prod.mk.injEq] at h
        obtain ⟨rfl, rfl⟩ := h
        obtain ⟨_, aB, EB, _⟩ := compile_block_effect body pP nl pB nl' hB
        have LB := compile_block_labels body pP nl pB nl' hB
        have hR : ∃ aR, (if back_is_return pB = true then pB
            else pB.push (.return_inst false)).insts = pB.insts ++ aR
            ∧ (∀ x ∈ aR, jump_label x = none)
            ∧ (if back_is_return pB = true then pB
              else pB.push (.return_inst false)).syms = pB.syms := by
          cases back_is_return pB
          · exact ⟨[.return_inst false], rfl, by simp [jump_label], rfl⟩
          · exact ⟨[], by simp, by simp, rfl⟩
        obtain ⟨aR, hRi, hRj, hRs⟩ := hR
        exact label_effect_func p
          (p.push (.jump_inst ("function_done_" ++ toString p.insts.length))) pP pB
          (if back_is_return pB = true then pB else pB.push (.return_inst false)) _
          aP aB aR _ _ name.literal _ _ rfl rfl rfl
          P1 P3 P4 EB.insts LB hRi hRj hRs rfl rfl
/-- The labels a statement loop emits and registers. -/
theorem compile_block_labels : ∀ (sts : List stmt_t) (p : program) (l : locals_t)
    (q : program) (l' : locals_t), compile_block p l sts = .ok (q, l') →
    label_effect p q (declared_block sts)
  | [], p, l, q, l', h => by
    simp only [compile_block, Except.ok.injEq, Prod.mk.injEq] at h
    obtain ⟨rfl, rfl⟩ := h
    exact label_effect_plain p p [] _ (by simp) (by simp) rfl
  | st :: sts, p, l, q, l', h => by
    rw [compile_block] at h
    cases h1 : compile_statement p l st with
    | error x => simp [h1] at h
    | ok r1 =>
      obtain ⟨q1, l1⟩ := r1
      simp only [h1] at h
      obtain ⟨_, a, E1, _⟩ := compile_statement_effect st p l q1 l1 h1
      obtain ⟨_, b, E2, _⟩ := compile_block_effect sts q1 l1 q l' h
      exact label_effect_trans p q1 q a b _ _ E1.insts E2.insts E2.kept
        (compile_statement_labels st p l q1 l1 h1) (compile_block_labels sts q1 l1 q l' h)
end

/-! ## C34: generated labels are unique -/

/-- C34: for every tree that is lowered with success, the labels of the jump
instructions of the program (one `JZ label_else_<i>` and one `JMP label_out_<i>`
for every `if` statement, one `JMP function_done_<i>` for every function
declaration, `i` being the instruction count at which the statement is lowered)
are pairwise distinct, each of them is `label_else_<i>`, `label_out_<i>` or
`function_done_<i>` for a count `i` below the size of the program, and names
with different prefixes or different counts differ.  No insertion of a
generated label is dropped because of another generated label: every label of a
jump that is not the name of a declared function has a symbol `(loc, 0, 0)`
with `0 < loc <= |insts|`.
In the program of `labels_source` the `if` statements are lowered at the counts
0, 2 and 7 and the function at 6. -/
theorem C34_generated_labels_are_unique :
    (∀ (tree : ast) (prog : program), compile tree = .ok prog →
      (prog.insts.filterMap jump_label).Nodup
      ∧ (∀ L ∈ prog.insts.filterMap jump_label, generated L 0 prog.insts.length)
      ∧ (∀ L ∈ prog.insts.filterMap jump_label, L ∉ declared_block tree →
          ∃ loc, map_find prog.syms L = some ⟨loc, 0, 0⟩
            ∧ 0 < loc ∧ loc ≤ (prog.insts.length : Int)))
    ∧ (∀ i j : Nat,
      ("label_else_" ++ toString i = "label_else_" ++ toString j → i = j)
      ∧ ("label_out_" ++ toString i = "label_out_" ++ toString j → i = j)
      ∧ ("function_done_" ++ toString i = "function_done_" ++ toString j → i = j)
      ∧ "label_else_" ++ toString i ≠ "label_out_" ++ toString j
      ∧ "label_else_" ++ toString i ≠ "function_done_" ++ toString j
      ∧ "label_out_" ++ toString i ≠ "function_done_" ++ toString j)
    ∧ front_end labels_source = .ok labels_program
    ∧ labels_program.insts.filterMap jump_label
      = ["label_else_0", "label_else_2", "label_out_2", "label_out_0", "function_done_6",
         "label_else_7", "label_out_7"] := by
  refine ⟨?_, generated_name_eq, by decide!, by decide⟩
  intro tree prog h
  unfold compile at h
  cases hc : compile_block ⟨[], []⟩ [] tree with
  | error e => simp [hc] at h
  | ok r =>
    obtain ⟨q, l'⟩ := r
    simp only [hc, Except.ok.injEq] at h
    subst h
    obtain ⟨a1, a2, a3, a4⟩ := compile_block_labels tree ⟨[], []⟩ [] q l' hc
    have hn : new_labels ⟨[], []⟩ q = q.insts.filterMap jump_label := by
      simp [new_labels]
    rw [hn] at a1 a2 a4
    obtain ⟨_, added, E, _⟩ := compile_block_effect tree ⟨[], []⟩ [] q l' hc
    refine ⟨a1, a2, ?_⟩
    intro L hL hd
    obtain ⟨loc, hloc⟩ := a4 L hL rfl hd
    have := E.fresh L _ rfl hloc
    exact ⟨loc, hloc, by simpa using this.1, this.2⟩

end vmlua
